import Mathlib

/-!
# A red-black tree in C (`src/tree.c`): model and verification

The first part of the file is the model: the memory of the program, each
function of `src/tree.c` as a function on states, and the tree shapes and
invariants the theorems speak about.  The second part has the theorems.
-/

namespace Rbtree

section

/-!
# Red-black tree (`tree.c`): heap-level embedding

The C program keeps its nodes in malloc-ed memory and links them through
`parent`, `left` and `right` pointers.  The embedding keeps that shape: a
pointer is an `Option Nat` (`none` is `NULL`), the memory is a map from
addresses to nodes, and every C function is a function on the explicit state
`Tree`.  A function returns `none` when the C code would dereference `NULL` or
an address that holds no node, or when the supplied fuel (a bound on loop
iterations and on recursion depth) runs out.
-/

/-- The colour tag of a node (`enum { RED, BLACK }`). -/
inductive Color where
  | RED
  | BLACK
deriving DecidableEq, Repr

/-- A node pointer: `none` is `NULL`, `some a` is the address `a`. -/
abbrev Ptr := Option Nat

/-- The fields of `struct TreeNode`.  The `tree` back pointer is not stored:
a state holds one tree, so `node->tree` is always that tree. -/
structure TreeNode (K V : Type) where
  parent : Ptr
  left : Ptr
  right : Ptr
  color : Color
  key : K
  value : V
deriving DecidableEq

/-- The fields of `struct Tree` together with the memory the nodes live in.
`next` is the address the next `malloc` returns. -/
structure Tree (K V : Type) where
  root : Ptr
  cmp : K → K → Int
  size : Int
  mem : Nat → Option (TreeNode K V)
  next : Nat

/-- The record `tree_info_t`. -/
structure TreeInfo where
  size : Int
  height : Int
  min_height : Int
  black_height : Int
  red_number : Int
  black_number : Int
deriving DecidableEq, Repr

variable {K V : Type}

/-- The memory `m` with the cell at address `a` replaced by `n` (`none`: no
node is stored there). -/
def mem_set (m : Nat → Option (TreeNode K V)) (a : Nat) (n : Option (TreeNode K V)) :
    Nat → Option (TreeNode K V) :=
  fun x => if x = a then n else m x

/-- Read of the node a pointer refers to (`*p`); fails on `NULL` and on an
address that holds no node. -/
@[noinline]
def deref (tr : Tree K V) (p : Ptr) : Option (TreeNode K V) :=
  match p with
  | none => none
  | some a => tr.mem a

/-- Write of a whole node through a pointer; fails like `deref`. -/
@[noinline]
def store (tr : Tree K V) (p : Ptr) (n : TreeNode K V) : Option (Tree K V) :=
  match p with
  | none => none
  | some a =>
    match tr.mem a with
    | none => none
    | some _ => some { tr with mem := mem_set tr.mem a (some n) }

/-- The assignment `p->parent = q`. -/
@[noinline]
def set_parent (tr : Tree K V) (p q : Ptr) : Option (Tree K V) :=
  match deref tr p with
  | none => none
  | some n => store tr p { n with parent := q }

/-- The assignment `p->left = q`. -/
@[noinline]
def set_left (tr : Tree K V) (p q : Ptr) : Option (Tree K V) :=
  match deref tr p with
  | none => none
  | some n => store tr p { n with left := q }

/-- The assignment `p->right = q`. -/
@[noinline]
def set_right (tr : Tree K V) (p q : Ptr) : Option (Tree K V) :=
  match deref tr p with
  | none => none
  | some n => store tr p { n with right := q }

/-- The assignment `p->color = c`. -/
@[noinline]
def set_color (tr : Tree K V) (p : Ptr) (c : Color) : Option (Tree K V) :=
  match deref tr p with
  | none => none
  | some n => store tr p { n with color := c }

/-- The two assignments `p->key = k; p->value = v`. -/
@[noinline]
def set_key_value (tr : Tree K V) (p : Ptr) (k : K) (v : V) : Option (Tree K V) :=
  match deref tr p with
  | none => none
  | some n => store tr p { n with key := k, value := v }

/-- The macro `IS_RED(node)`: `node != NULL && node->color == RED`. -/
@[noinline]
def IS_RED (tr : Tree K V) (p : Ptr) : Option Bool :=
  match p with
  | none => some false
  | some a =>
    match tr.mem a with
    | none => none
    | some n => some (decide (n.color = Color.RED))

/-- The macro `IS_BLACK(node)`: `node == NULL || node->color == BLACK`. -/
@[noinline]
def IS_BLACK (tr : Tree K V) (p : Ptr) : Option Bool :=
  match p with
  | none => some true
  | some a =>
    match tr.mem a with
    | none => none
    | some n => some (decide (n.color = Color.BLACK))

/-- `tree_create`: an empty tree with the given comparator. -/
def tree_create (cmp : K → K → Int) : Tree K V :=
  { root := none, cmp := cmp, size := 0, mem := fun _ => none, next := 0 }

/-- `tree_size`. -/
def tree_size (tr : Tree K V) : Int := tr.size

/-- `tree_node_create`: a fresh zeroed node with the key, the value and the
colour RED, at the next free address. -/
def tree_node_create (tr : Tree K V) (key : K) (value : V) : Tree K V × Ptr :=
  ({ tr with
      mem := mem_set tr.mem tr.next
        (some { parent := none, left := none, right := none, color := Color.RED,
                key := key, value := value }),
      next := tr.next + 1 },
   some tr.next)

/-- `tree_node_destroy`: `free(node)`. -/
@[noinline]
def tree_node_destroy (tr : Tree K V) (p : Ptr) : Option (Tree K V) :=
  match p with
  | none => some tr
  | some a =>
    match tr.mem a with
    | none => none
    | some _ => some { tr with mem := mem_set tr.mem a none }

/-- The loop of `tree_find_node`, started at `node`. -/
def tree_find_node_loop (tr : Tree K V) (key : K) : Nat → Ptr → Option Ptr
  | _, none => some none
  | 0, some _ => none
  | fuel + 1, some a =>
    match tr.mem a with
    | none => none
    | some n =>
      if tr.cmp key n.key = 0 then some (some a)
      else if tr.cmp key n.key < 0 then tree_find_node_loop tr key fuel n.left
      else tree_find_node_loop tr key fuel n.right

/-- `tree_find_node`. -/
def tree_find_node (fuel : Nat) (tr : Tree K V) (key : K) : Option Ptr :=
  tree_find_node_loop tr key fuel tr.root

/-- `tree_find`: the inner `none` is the C result `NULL`. -/
def tree_find (fuel : Nat) (tr : Tree K V) (key : K) : Option (Option V) :=
  match tree_find_node fuel tr key with
  | none => none
  | some none => some none
  | some (some a) =>
    match tr.mem a with
    | none => none
    | some n => some (some n.value)

/-- `tree_node_grandparent`. -/
@[noinline]
def tree_node_grandparent (tr : Tree K V) (node : Ptr) : Option Ptr :=
  match node with
  | none => some none
  | some a =>
    match tr.mem a with
    | none => none
    | some n =>
      match n.parent with
      | none => some none
      | some pa =>
        match tr.mem pa with
        | none => none
        | some p => some p.parent

/-- `tree_node_uncle`. -/
@[noinline]
def tree_node_uncle (tr : Tree K V) (node : Ptr) : Option Ptr :=
  match tree_node_grandparent tr node with
  | none => none
  | some none => some none
  | some (some ga) =>
    match tr.mem ga, deref tr node with
    | some g, some n => if n.parent = g.left then some g.right else some g.left
    | _, _ => none

/-- `tree_node_sibling`. -/
@[noinline]
def tree_node_sibling (tr : Tree K V) (node : Ptr) : Option Ptr :=
  match node with
  | none => some none
  | some a =>
    match tr.mem a with
    | none => none
    | some n =>
      match n.parent with
      | none => some none
      | some pa =>
        match tr.mem pa with
        | none => none
        | some p => if node = p.left then some p.right else some p.left

/-- The loop of `tree_node_max`, at a node that is not `NULL`. -/
def tree_node_max_loop (tr : Tree K V) : Nat → Nat → Option Ptr
  | 0, _ => none
  | fuel + 1, a =>
    match tr.mem a with
    | none => none
    | some n =>
      match n.right with
      | none => some (some a)
      | some b => tree_node_max_loop tr fuel b

/-- `tree_node_max`. -/
def tree_node_max (fuel : Nat) (tr : Tree K V) (node : Ptr) : Option Ptr :=
  match node with
  | none => some none
  | some a => tree_node_max_loop tr fuel a

/-- The loop of `tree_node_min`, at a node that is not `NULL`. -/
def tree_node_min_loop (tr : Tree K V) : Nat → Nat → Option Ptr
  | 0, _ => none
  | fuel + 1, a =>
    match tr.mem a with
    | none => none
    | some n =>
      match n.left with
      | none => some (some a)
      | some b => tree_node_min_loop tr fuel b

/-- `tree_node_min`. -/
def tree_node_min (fuel : Nat) (tr : Tree K V) (node : Ptr) : Option Ptr :=
  match node with
  | none => some none
  | some a => tree_node_min_loop tr fuel a

/-- `tree_rotate_left`, statement by statement. -/
@[noinline]
def tree_rotate_left (tr : Tree K V) (node : Ptr) : Option (Tree K V) := do
  let n ← deref tr node
  let tr ←
    if n.parent ≠ none then do
      let p ← deref tr n.parent
      if node = p.left then set_left tr n.parent n.right
      else set_right tr n.parent n.right
    else some { tr with root := n.right }
  -- node->right->parent = node->parent;
  let n ← deref tr node
  let tr ← set_parent tr n.right n.parent
  -- node->parent = node->right;
  let n ← deref tr node
  let tr ← set_parent tr node n.right
  -- node->right = node->right->left;
  let n ← deref tr node
  let r ← deref tr n.right
  let tr ← set_right tr node r.left
  -- node->parent->left = node;
  let n ← deref tr node
  let tr ← set_left tr n.parent node
  -- if( node->right ) node->right->parent = node;
  let n ← deref tr node
  if n.right ≠ none then set_parent tr n.right node else some tr

/-- `tree_rotate_right`, statement by statement. -/
@[noinline]
def tree_rotate_right (tr : Tree K V) (node : Ptr) : Option (Tree K V) := do
  let n ← deref tr node
  let tr ←
    if n.parent ≠ none then do
      let p ← deref tr n.parent
      if node = p.right then set_right tr n.parent n.left
      else set_left tr n.parent n.left
    else some { tr with root := n.left }
  -- node->left->parent = node->parent;
  let n ← deref tr node
  let tr ← set_parent tr n.left n.parent
  -- node->parent = node->left;
  let n ← deref tr node
  let tr ← set_parent tr node n.left
  -- node->left = node->left->right;
  let n ← deref tr node
  let l ← deref tr n.left
  let tr ← set_left tr node l.right
  -- node->parent->right = node;
  let n ← deref tr node
  let tr ← set_right tr n.parent node
  -- if( node->left ) node->left->parent = node;
  let n ← deref tr node
  if n.left ≠ none then set_parent tr n.left node else some tr

/-- `tree_insert5`. -/
def tree_insert5 (tr : Tree K V) (node : Ptr) : Option (Tree K V) := do
  let g ← tree_node_grandparent tr node
  let n ← deref tr node
  let tr ← set_color tr n.parent Color.BLACK
  let tr ← set_color tr g Color.RED
  let n ← deref tr node
  let p ← deref tr n.parent
  let first ←
    if node = p.left then do
      let gn ← deref tr g
      some (decide (n.parent = gn.left))
    else some false
  if first then tree_rotate_right tr g
  else
    let second ←
      if node = p.right then do
        let gn ← deref tr g
        some (decide (n.parent = gn.right))
      else some false
    if second then tree_rotate_left tr g else some tr

/-- `tree_insert4`. -/
def tree_insert4 (tr : Tree K V) (node : Ptr) : Option (Tree K V) := do
  let g ← tree_node_grandparent tr node
  let n ← deref tr node
  let p ← deref tr n.parent
  let first ←
    if node = p.right then do
      let gn ← deref tr g
      some (decide (n.parent = gn.left))
    else some false
  if first then
    let tr ← tree_rotate_left tr n.parent
    let n ← deref tr node
    tree_insert5 tr n.left
  else
    let second ←
      if node = p.left then do
        let gn ← deref tr g
        some (decide (n.parent = gn.right))
      else some false
    if second then
      let tr ← tree_rotate_right tr n.parent
      let n ← deref tr node
      tree_insert5 tr n.right
    else tree_insert5 tr node

mutual
/-- `tree_insert1`. -/
def tree_insert1 : Nat → Tree K V → Ptr → Option (Tree K V)
  | 0, _, _ => none
  | fuel + 1, tr, node =>
    match deref tr node with
    | none => none
    | some n =>
      if n.parent = none then set_color tr node Color.BLACK
      else tree_insert2 fuel tr node
/-- `tree_insert2`. -/
def tree_insert2 : Nat → Tree K V → Ptr → Option (Tree K V)
  | 0, _, _ => none
  | fuel + 1, tr, node =>
    match deref tr node with
    | none => none
    | some n =>
      match IS_BLACK tr n.parent with
      | none => none
      | some true => some tr
      | some false => tree_insert3 fuel tr node
/-- `tree_insert3`. -/
def tree_insert3 : Nat → Tree K V → Ptr → Option (Tree K V)
  | 0, _, _ => none
  | fuel + 1, tr, node =>
    match tree_node_uncle tr node with
    | none => none
    | some u =>
      match IS_RED tr u with
      | none => none
      | some true => do
        let tr ← set_color tr u Color.BLACK
        let n ← deref tr node
        let tr ← set_color tr n.parent Color.BLACK
        let g ← tree_node_grandparent tr node
        let tr ← set_color tr g Color.RED
        tree_insert1 fuel tr g
      | some false => tree_insert4 tr node
end

/-- A slot that holds a node pointer (`struct TreeNode **`): the root field of
the tree, or the `left` or `right` field of the node at an address. -/
inductive Slot where
  | root
  | left (a : Nat)
  | right (a : Nat)
deriving DecidableEq

/-- Read of a slot (`*node`). -/
def slot_get (tr : Tree K V) : Slot → Option Ptr
  | Slot.root => some tr.root
  | Slot.left a => (tr.mem a).map (fun n => n.left)
  | Slot.right a => (tr.mem a).map (fun n => n.right)

/-- Write of a slot (`*node = p`). -/
def slot_set (tr : Tree K V) (s : Slot) (p : Ptr) : Option (Tree K V) :=
  match s with
  | Slot.root => some { tr with root := p }
  | Slot.left a => set_left tr (some a) p
  | Slot.right a => set_right tr (some a) p

/-- The descent loop of `tree_insert`: either the value of a node whose key
compares equal, or the empty slot reached and the last node passed. -/
def tree_insert_loop (tr : Tree K V) (key : K) :
    Nat → Slot → Ptr → Option (V ⊕ (Slot × Ptr))
  | fuel, s, parent =>
    match slot_get tr s with
    | none => none
    | some none => some (Sum.inr (s, parent))
    | some (some a) =>
      match fuel with
      | 0 => none
      | fuel + 1 =>
        match tr.mem a with
        | none => none
        | some n =>
          if tr.cmp key n.key < 0 then tree_insert_loop tr key fuel (Slot.left a) (some a)
          else if tr.cmp key n.key > 0 then tree_insert_loop tr key fuel (Slot.right a) (some a)
          else some (Sum.inl n.value)

/-- `tree_insert`: the returned value and the state after the call. -/
def tree_insert (fuel : Nat) (tr : Tree K V) (key : K) (value : V) :
    Option (V × Tree K V) :=
  match tree_insert_loop tr key fuel Slot.root none with
  | none => none
  | some (Sum.inl v) => some (v, tr)
  | some (Sum.inr (s, parent)) => do
    let (tr, p) := tree_node_create tr key value
    let tr ← slot_set tr s p
    let tr ← set_parent tr p parent
    let tr ← set_color tr p Color.RED
    let tr ← tree_insert1 fuel tr p
    some (value, { tr with size := tr.size + 1 })

/-- `tree_delete6`. -/
def tree_delete6 (tr : Tree K V) (node : Ptr) : Option (Tree K V) := do
  let s ← tree_node_sibling tr node
  let n ← deref tr node
  let p ← deref tr n.parent
  let tr ← set_color tr s p.color
  let n ← deref tr node
  let tr ← set_color tr n.parent Color.BLACK
  let n ← deref tr node
  let p ← deref tr n.parent
  if node = p.left then
    let sn ← deref tr s
    let tr ← set_color tr sn.right Color.BLACK
    let n ← deref tr node
    tree_rotate_left tr n.parent
  else
    let sn ← deref tr s
    let tr ← set_color tr sn.left Color.BLACK
    let n ← deref tr node
    tree_rotate_right tr n.parent

/-- `tree_delete5`. -/
def tree_delete5 (tr : Tree K V) (node : Ptr) : Option (Tree K V) := do
  let s ← tree_node_sibling tr node
  let tr ←
    if (← IS_BLACK tr s) then do
      let n ← deref tr node
      let p ← deref tr n.parent
      let first ←
        if node = p.left then
          if s ≠ none then do
            let sn ← deref tr s
            if (← IS_BLACK tr sn.right) then IS_RED tr sn.left else some false
          else some false
        else some false
      if first then
        let tr ← set_color tr s Color.RED
        let sn ← deref tr s
        let tr ← set_color tr sn.left Color.BLACK
        tree_rotate_right tr s
      else
        let second ←
          if node = p.right then do
            let sn ← deref tr s
            if (← IS_BLACK tr sn.left) then IS_RED tr sn.right else some false
          else some false
        if second then
          let tr ← set_color tr s Color.RED
          let sn ← deref tr s
          let tr ← set_color tr sn.right Color.BLACK
          tree_rotate_left tr s
        else some tr
    else some tr
  tree_delete6 tr node

/-- The test `s && IS_BLACK(s) && IS_BLACK(s->left) && IS_BLACK(s->right)` of
`tree_delete3` and `tree_delete4`. -/
def sibling_all_black (tr : Tree K V) (s : Ptr) : Option Bool := do
  if s ≠ none then
    if (← IS_BLACK tr s) then
      let sn ← deref tr s
      if (← IS_BLACK tr sn.left) then IS_BLACK tr sn.right else some false
    else some false
  else some false

/-- `tree_delete4`. -/
def tree_delete4 (tr : Tree K V) (node : Ptr) : Option (Tree K V) := do
  let s ← tree_node_sibling tr node
  let n ← deref tr node
  let c ← if (← IS_RED tr n.parent) then sibling_all_black tr s else some false
  if c then
    let tr ← set_color tr s Color.RED
    let n ← deref tr node
    set_color tr n.parent Color.BLACK
  else tree_delete5 tr node

mutual
/-- `tree_delete1`. -/
def tree_delete1 : Nat → Tree K V → Ptr → Option (Tree K V)
  | 0, _, _ => none
  | fuel + 1, tr, node =>
    match deref tr node with
    | none => none
    | some n => if n.parent ≠ none then tree_delete2 fuel tr node else some tr
/-- `tree_delete2`. -/
def tree_delete2 : Nat → Tree K V → Ptr → Option (Tree K V)
  | 0, _, _ => none
  | fuel + 1, tr, node => do
    let s ← tree_node_sibling tr node
    let tr ←
      if (← IS_RED tr s) then do
        let n ← deref tr node
        let tr ← set_color tr n.parent Color.RED
        let tr ← set_color tr s Color.BLACK
        let n ← deref tr node
        let p ← deref tr n.parent
        if node = p.left then tree_rotate_left tr n.parent
        else tree_rotate_right tr n.parent
      else some tr
    tree_delete3 fuel tr node
/-- `tree_delete3`. -/
def tree_delete3 : Nat → Tree K V → Ptr → Option (Tree K V)
  | 0, _, _ => none
  | fuel + 1, tr, node => do
    let s ← tree_node_sibling tr node
    let n ← deref tr node
    let c ← if (← IS_BLACK tr n.parent) then sibling_all_black tr s else some false
    if c then
      let tr ← set_color tr s Color.RED
      let n ← deref tr node
      tree_delete1 fuel tr n.parent
    else tree_delete4 tr node
end

/-- The second block of `tree_delete` (the choice of the heir): the heir of
`node` is the largest node of its left subtree, else the smallest node of its
right subtree; when there is one, its key and value are copied into `node` and
it takes the place of `node`.  The result is the state and the new `node`. -/
def tree_delete_heir (fuel : Nat) (tr : Tree K V) (node : Ptr) : Option (Tree K V × Ptr) := do
  let n ← deref tr node
  let heir ←
    if n.left ≠ none then tree_node_max fuel tr n.left
    else if n.right ≠ none then tree_node_min fuel tr n.right
    else some none
  if heir ≠ none then
    let h ← deref tr heir
    let tr ← set_key_value tr node h.key h.value
    some (tr, heir)
  else some (tr, node)

/-- The third block of `tree_delete` (`node` has at most one child): the key
and value of the only child are copied into `node` and the child takes its
place, and `tree_delete1` is run where a BLACK node is about to go.  The
result is the state and the node to unlink. -/
def tree_delete_child (fuel : Nat) (tr : Tree K V) (node : Ptr) : Option (Tree K V × Ptr) := do
  let n ← deref tr node
  let heir : Ptr := if n.left ≠ none then n.left else n.right
  if heir ≠ none then
    let h ← deref tr heir
    let tr ← set_key_value tr node h.key h.value
    let tr ←
      if (← IS_BLACK tr heir) then
        if (← IS_RED tr node) then set_color tr node Color.BLACK
        else tree_delete1 fuel tr node
      else some tr
    some (tr, heir)
  else
    let tr ← if (← IS_BLACK tr node) then tree_delete1 fuel tr node else some tr
    some (tr, node)

/-- The last block of `tree_delete`: `node` is taken out of its parent (or
out of the root field) and freed. -/
def tree_delete_unlink (tr : Tree K V) (node : Ptr) : Option (Tree K V) := do
  let n ← deref tr node
  let tr ←
    if n.parent = none then some { tr with root := none }
    else do
      let p ← deref tr n.parent
      if node = p.left then set_left tr n.parent none
      else set_right tr n.parent none
  tree_node_destroy tr node

/-- `tree_delete`: the returned value (`none` is `NULL`) and the state after
the call.  The body of the C function is the sequence of the three blocks
above. -/
def tree_delete (fuel : Nat) (tr : Tree K V) (key : K) :
    Option (Option V × Tree K V) :=
  match tree_find_node fuel tr key with
  | none => none
  | some none => some (none, tr)
  | some (some a) => do
    let node : Ptr := some a
    let n ← deref tr node
    let value := n.value
    let (tr, node) ← tree_delete_heir fuel tr node
    let (tr, node) ← tree_delete_child fuel tr node
    let tr ← tree_delete_unlink tr node
    some (some value, { tr with size := tr.size - 1 })

/-- `tree_node_foldl`: the callback is a function of key, value and
accumulator. -/
def tree_node_foldl {A : Type} (tr : Tree K V) (f : K → V → A → A) :
    Nat → Ptr → A → Option A
  | _, none, acc => some acc
  | 0, some _, _ => none
  | fuel + 1, some a, acc =>
    match tr.mem a with
    | none => none
    | some n =>
      match tree_node_foldl tr f fuel n.left acc with
      | none => none
      | some acc1 => tree_node_foldl tr f fuel n.right (f n.key n.value acc1)

/-- `tree_foldl`. -/
def tree_foldl {A : Type} (fuel : Nat) (tr : Tree K V) (f : K → V → A → A) (acc : A) :
    Option A :=
  tree_node_foldl tr f fuel tr.root acc

/-- `tree_fold`. -/
def tree_fold {A : Type} (fuel : Nat) (tr : Tree K V) (f : K → V → A → A) (acc : A) :
    Option A :=
  tree_foldl fuel tr f acc

/-- `tree_node_foldr`. -/
def tree_node_foldr {A : Type} (tr : Tree K V) (f : K → V → A → A) :
    Nat → Ptr → A → Option A
  | _, none, acc => some acc
  | 0, some _, _ => none
  | fuel + 1, some a, acc =>
    match tr.mem a with
    | none => none
    | some n =>
      match tree_node_foldr tr f fuel n.right acc with
      | none => none
      | some acc1 => tree_node_foldr tr f fuel n.left (f n.key n.value acc1)

/-- `tree_foldr`. -/
def tree_foldr {A : Type} (fuel : Nat) (tr : Tree K V) (f : K → V → A → A) (acc : A) :
    Option A :=
  tree_node_foldr tr f fuel tr.root acc

/-- `tree_node_info`. -/
def tree_node_info (tr : Tree K V) : Nat → Ptr → Option TreeInfo
  | _, none => some ⟨0, 0, 0, 0, 0, 0⟩
  | 0, some _ => none
  | fuel + 1, some a =>
    match tr.mem a with
    | none => none
    | some n =>
      match tree_node_info tr fuel n.left, tree_node_info tr fuel n.right with
      | some li, some ri =>
        some {
          size := li.size + ri.size + 1,
          height := if li.height > ri.height then li.height + 1 else ri.height + 1,
          min_height :=
            if li.min_height ≤ ri.min_height then li.min_height + 1 else ri.min_height + 1,
          black_height :=
            (if li.black_height > ri.black_height then li.black_height else ri.black_height)
              + (if n.color = Color.BLACK then 1 else 0),
          red_number :=
            (if n.color = Color.RED then 1 else 0) + li.red_number + ri.red_number,
          black_number :=
            (if n.color = Color.BLACK then 1 else 0) + li.black_number + ri.black_number }
      | _, _ => none

/-- `tree_info`. -/
def tree_info (fuel : Nat) (tr : Tree K V) : Option TreeInfo :=
  tree_node_info tr fuel tr.root

/-- The test `IS_BLACK(p) && IS_BLACK(l) && IS_BLACK(r)`, left to right. -/
def all_black (tr : Tree K V) (p l r : Ptr) : Option Bool :=
  match IS_BLACK tr p with
  | none => none
  | some false => some false
  | some true =>
    match IS_BLACK tr l with
    | none => none
    | some false => some false
    | some true => IS_BLACK tr r

/-- The test `child && child->parent != node` of `tree_node_check_integrity`. -/
def bad_parent (tr : Tree K V) (child node : Ptr) : Option Bool :=
  match child with
  | none => some false
  | some c =>
    match tr.mem c with
    | none => none
    | some n => some (decide (n.parent ≠ node))

/-- `tree_node_check_integrity`: the tests in the order of the C code, each
one returning 0 (`false`) at once when it fails. -/
def tree_node_check_integrity (tr : Tree K V) : Nat → Ptr → Option Bool
  | _, none => some true
  | 0, some _ => none
  | fuel + 1, some a =>
    match tr.mem a with
    | none => none
    | some n =>
      match bad_parent tr n.left (some a) with
      | none => none
      | some true => some false
      | some false =>
        match bad_parent tr n.right (some a) with
        | none => none
        | some true => some false
        | some false =>
          match (if n.color = Color.RED then all_black tr n.parent n.left n.right
                 else some true) with
          | none => none
          | some false => some false
          | some true =>
            match tree_node_info tr fuel n.left, tree_node_info tr fuel n.right with
            | some li, some ri =>
              if li.black_height ≠ ri.black_height then some false
              else if ¬ ((if li.height > ri.height then li.height + 1 else ri.height + 1)
                  ≤ (if li.min_height ≤ ri.min_height then li.min_height + 1
                     else ri.min_height + 1) * 2) then some false
              else
                match tree_node_check_integrity tr fuel n.left with
                | none => none
                | some false => some false
                | some true => tree_node_check_integrity tr fuel n.right
            | _, _ => none

/-- `tree_check_integrity`. -/
def tree_check_integrity (fuel : Nat) (tr : Tree K V) : Option Bool :=
  match IS_BLACK tr tr.root with
  | none => none
  | some false => some false
  | some true => tree_node_check_integrity tr fuel tr.root

end

section

/-!
# The tree a state holds

The functions above work on raw memory.  To speak about "the tree stored in
the state" the development reads the memory as an algebraic tree that records,
for every node, its address, colour, key and value.  `Rep` relates a memory to
such a tree, `WF` a whole state.
-/

variable {K V : Type}

/-- The shape of a tree in memory: every node with its address, colour, key,
value and the shapes of its two subtrees. -/
inductive RBNode (K V : Type) where
  | nil : RBNode K V
  | node (a : Nat) (c : Color) (k : K) (v : V) (l r : RBNode K V) : RBNode K V

namespace RBNode

/-- The pointer to the root node of a shape (`NULL` for the empty shape). -/
def ptr : RBNode K V → Ptr
  | nil => none
  | node a _ _ _ _ _ => some a

/-- The addresses of the nodes, in order. -/
def addrs : RBNode K V → List Nat
  | nil => []
  | node a _ _ _ l r => addrs l ++ a :: addrs r

/-- The (key, value) pairs, in order (left subtree, node, right subtree). -/
def toList : RBNode K V → List (K × V)
  | nil => []
  | node _ _ k v l r => toList l ++ (k, v) :: toList r

/-- The keys, in order. -/
def keys (t : RBNode K V) : List K := t.toList.map Prod.fst

/-- The number of nodes on the longest downward path. -/
def depth : RBNode K V → Nat
  | nil => 0
  | node _ _ _ _ l r => max (depth l) (depth r) + 1

/-- The number of nodes. -/
def count : RBNode K V → Nat
  | nil => 0
  | node _ _ _ _ l r => count l + count r + 1

/-- The colour of the root, an empty shape counting as BLACK (as `IS_BLACK`
does for `NULL`). -/
def isBlack : RBNode K V → Bool
  | nil => true
  | node _ c _ _ _ _ => decide (c = Color.BLACK)

/-- The root is a RED node (as `IS_RED`). -/
def isRed : RBNode K V → Bool
  | nil => false
  | node _ c _ _ _ _ => decide (c = Color.RED)

end RBNode

/-- The memory holds the shape `t` below a node whose `parent` field is `par`:
every node of `t` is stored at its address with exactly the fields the shape
dictates, the parent links included. -/
def Rep (mem : Nat → Option (TreeNode K V)) : Ptr → RBNode K V → Prop
  | _, RBNode.nil => True
  | par, RBNode.node a c k v l r =>
    mem a = some { parent := par, left := l.ptr, right := r.ptr, color := c,
                   key := k, value := v }
    ∧ Rep mem (some a) l ∧ Rep mem (some a) r

/-- The state holds the tree `t`: the root pointer points to its root, the
memory holds its nodes with consistent links, the root has no parent, the
addresses of the nodes are pairwise distinct and were all handed out by the
allocator. -/
structure WF (tr : Tree K V) (t : RBNode K V) : Prop where
  root : tr.root = t.ptr
  rep : Rep tr.mem none t
  nodup : t.addrs.Nodup
  alloc : ∀ a ∈ t.addrs, a < tr.next

/-- One step of a path from a node up to the root: the parent node and the
subtree on the other side.  `L` says the path comes up from the left child,
`R` from the right child. -/
inductive Frame (K V : Type) where
  | L (a : Nat) (c : Color) (k : K) (v : V) (r : RBNode K V) : Frame K V
  | R (a : Nat) (c : Color) (k : K) (v : V) (l : RBNode K V) : Frame K V

namespace Frame

/-- The address of the parent node of a step. -/
def addr : Frame K V → Nat
  | L a _ _ _ _ => a
  | R a _ _ _ _ => a

/-- The colour of the parent node of a step. -/
def color : Frame K V → Color
  | L _ c _ _ _ => c
  | R _ c _ _ _ => c

/-- The subtree on the other side (the sibling of the node below). -/
def sib : Frame K V → RBNode K V
  | L _ _ _ _ r => r
  | R _ _ _ _ l => l

/-- The parent node with `t` put back below it. -/
def fill : Frame K V → RBNode K V → RBNode K V
  | L a c k v r, t => RBNode.node a c k v t r
  | R a c k v l, t => RBNode.node a c k v l t

/-- The addresses of the parent node and of the sibling subtree. -/
def addrs : Frame K V → List Nat
  | L a _ _ _ r => a :: r.addrs
  | R a _ _ _ l => a :: l.addrs

end Frame

/-- The path from a node up to the root, nearest ancestor first. -/
abbrev Ctx (K V : Type) := List (Frame K V)

/-- The pointer to the nearest ancestor (`NULL` at the root). -/
def ctxPtr : Ctx K V → Ptr
  | [] => none
  | f :: _ => some f.addr

/-- The whole tree: `t` put back at the end of the path. -/
def plug : Ctx K V → RBNode K V → RBNode K V
  | [], t => t
  | f :: rest, t => plug rest (f.fill t)

/-- The addresses on a path (ancestors and their other subtrees). -/
def ctxAddrs : Ctx K V → List Nat
  | [] => []
  | f :: rest => f.addrs ++ ctxAddrs rest

/-- The memory holds the path `ctx` above a node pointer `p`: each ancestor
is stored with the child below on the path on the recorded side, and the
topmost one is the root. -/
def RepC (mem : Nat → Option (TreeNode K V)) (root : Ptr) : Ctx K V → Ptr → Prop
  | [], p => root = p
  | Frame.L a c k v r :: rest, p =>
    mem a = some { parent := ctxPtr rest, left := p, right := r.ptr, color := c,
                   key := k, value := v }
    ∧ Rep mem (some a) r ∧ RepC mem root rest (some a)
  | Frame.R a c k v l :: rest, p =>
    mem a = some { parent := ctxPtr rest, left := l.ptr, right := p, color := c,
                   key := k, value := v }
    ∧ Rep mem (some a) l ∧ RepC mem root rest (some a)

end

section

/-!
# The operations, read on shapes

For a state that holds a tree, the effect of `tree_insert` and `tree_delete`
on the stored shape is described by the functions below: they follow the C
code case by case, with the path to the root in place of the parent pointers.
The lemmas further down prove that the C functions, run on a state that holds
a shape, produce a state that holds the shape computed here.
-/

variable {K V : Type}

open Color

/-- The path `tree_insert` (and `tree_find_node`) follows from a node: down
to the node whose key compares equal, or to the empty place where the key
belongs. -/
def descend (cmp : K → K → Int) (key : K) : RBNode K V → Ctx K V → Ctx K V × RBNode K V
  | RBNode.nil, ctx => (ctx, RBNode.nil)
  | RBNode.node a c k v l r, ctx =>
    if cmp key k < 0 then descend cmp key l (Frame.L a c k v r :: ctx)
    else if cmp key k > 0 then descend cmp key r (Frame.R a c k v l :: ctx)
    else (ctx, RBNode.node a c k v l r)

/-- The slot that holds the pointer to the node below a path: the root field
of the tree, or a child field of the nearest ancestor. -/
def slotOf : Ctx K V → Slot
  | [] => Slot.root
  | Frame.L a _ _ _ _ :: _ => Slot.left a
  | Frame.R a _ _ _ _ :: _ => Slot.right a

/-- The shape with the colour of the root node replaced. -/
def RBNode.setColor : RBNode K V → Color → RBNode K V
  | RBNode.nil, _ => RBNode.nil
  | RBNode.node a _ k v l r, c => RBNode.node a c k v l r

/-- The step with the colour of its node and its sibling subtree replaced. -/
def Frame.recolor : Frame K V → Color → RBNode K V → Frame K V
  | Frame.L a _ k v _, c, s => Frame.L a c k v s
  | Frame.R a _ k v _, c, s => Frame.R a c k v s

/-- The step seen from the sibling: the same parent node, with `t` as the
subtree on the other side. -/
def Frame.flip : Frame K V → RBNode K V → Frame K V
  | Frame.L a c k v _, t => Frame.R a c k v t
  | Frame.R a c k v _, t => Frame.L a c k v t

/-- The fields of the parent node of a step, `rest` being the path above it
and `p` the pointer to the child below. -/
def Frame.record : Frame K V → Ctx K V → Ptr → TreeNode K V
  | Frame.L _ c k v r, rest, p =>
    { parent := ctxPtr rest, left := p, right := r.ptr, color := c, key := k, value := v }
  | Frame.R _ c k v l, rest, p =>
    { parent := ctxPtr rest, left := l.ptr, right := p, color := c, key := k, value := v }

/-- The subtree `tree_insert4` and `tree_insert5` build in place of the
grandparent: `f1` is the step to the parent, `f2` the step to the
grandparent, `t` the subtree at the current node. -/
def ins_rot : Frame K V → Frame K V → RBNode K V → Option (RBNode K V)
  | Frame.L pa _ pk pv ps, Frame.L ga _ gk gv u, t =>
    some (RBNode.node pa BLACK pk pv t (RBNode.node ga RED gk gv ps u))
  | Frame.R pa _ pk pv ps, Frame.R ga _ gk gv u, t =>
    some (RBNode.node pa BLACK pk pv (RBNode.node ga RED gk gv u ps) t)
  | Frame.R pa pc pk pv ps, Frame.L ga _ gk gv u, RBNode.node a _ k v l r =>
    some (RBNode.node a BLACK k v (RBNode.node pa pc pk pv ps l) (RBNode.node ga RED gk gv r u))
  | Frame.L pa pc pk pv ps, Frame.R ga _ gk gv u, RBNode.node a _ k v l r =>
    some (RBNode.node a BLACK k v (RBNode.node ga RED gk gv u l) (RBNode.node pa pc pk pv r ps))
  | _, _, RBNode.nil => none

/-- The whole tree after `tree_insert1` is run at the root node of `t`,
reached through the path `ctx`. -/
def ins_fix : Ctx K V → RBNode K V → Option (RBNode K V)
  | _, RBNode.nil => none
  | [], RBNode.node a _ k v l r => some (RBNode.node a BLACK k v l r)
  | [f1], RBNode.node a c k v l r =>
    match f1.color with
    | BLACK => some (plug [f1] (RBNode.node a c k v l r))
    | RED => none
  | f1 :: f2 :: rest, RBNode.node a c k v l r =>
    match f1.color with
    | BLACK => some (plug (f1 :: f2 :: rest) (RBNode.node a c k v l r))
    | RED =>
      if f2.sib.isRed then
        ins_fix rest
          ((f2.recolor RED (f2.sib.setColor BLACK)).fill
            ((f1.recolor BLACK f1.sib).fill (RBNode.node a c k v l r)))
      else
        match ins_rot f1 f2 (RBNode.node a c k v l r) with
        | none => none
        | some s => some (plug rest s)

/-- The shape after `tree_insert`: unchanged when a key compares equal, else
with a new node at address `next` that is then rebalanced. -/
def ins (cmp : K → K → Int) (next : Nat) (key : K) (value : V) (t : RBNode K V) :
    Option (RBNode K V) :=
  match descend cmp key t [] with
  | (_, RBNode.node _ _ _ _ _ _) => some t
  | (ctx, RBNode.nil) => ins_fix ctx (RBNode.node next RED key value RBNode.nil RBNode.nil)

end

section

variable {K V : Type}

open Color

/-- The left subtree of a shape (empty for the empty shape). -/
def RBNode.left : RBNode K V → RBNode K V
  | RBNode.nil => RBNode.nil
  | RBNode.node _ _ _ _ l _ => l

/-- The right subtree of a shape (empty for the empty shape). -/
def RBNode.right : RBNode K V → RBNode K V
  | RBNode.nil => RBNode.nil
  | RBNode.node _ _ _ _ _ r => r

/-- The path `tree_node_max` follows from the root of `t`: down the right
children to the node without a right child.  The steps are pushed on `acc`. -/
def maxPath : RBNode K V → Ctx K V → Ctx K V × RBNode K V
  | RBNode.nil, acc => (acc, RBNode.nil)
  | RBNode.node a c k v l RBNode.nil, acc => (acc, RBNode.node a c k v l RBNode.nil)
  | RBNode.node a c k v l (RBNode.node a' c' k' v' l' r'), acc =>
    maxPath (RBNode.node a' c' k' v' l' r') (Frame.R a c k v l :: acc)

/-- The path `tree_node_min` follows: down the left children. -/
def minPath : RBNode K V → Ctx K V → Ctx K V × RBNode K V
  | RBNode.nil, acc => (acc, RBNode.nil)
  | RBNode.node a c k v RBNode.nil r, acc => (acc, RBNode.node a c k v RBNode.nil r)
  | RBNode.node a c k v (RBNode.node a' c' k' v' l' r') r, acc =>
    minPath (RBNode.node a' c' k' v' l' r') (Frame.L a c k v r :: acc)

/-- The test `s && IS_BLACK(s) && IS_BLACK(s->left) && IS_BLACK(s->right)`. -/
def sibAllBlack : RBNode K V → Bool
  | RBNode.nil => false
  | RBNode.node _ c _ _ l r => decide (c = BLACK) && l.isBlack && r.isBlack

/-- The path of the node after `tree_delete6`. -/
def del6 : Ctx K V → Option (Ctx K V)
  | Frame.L pa pc pk pv (RBNode.node sa _ sk sv sl (RBNode.node ra _ rk rv rl rr)) :: rest =>
    some (Frame.L pa BLACK pk pv sl ::
          Frame.L sa pc sk sv (RBNode.node ra BLACK rk rv rl rr) :: rest)
  | Frame.R pa pc pk pv (RBNode.node sa _ sk sv (RBNode.node la _ lk lv ll lr) sr) :: rest =>
    some (Frame.R pa BLACK pk pv sr ::
          Frame.R sa pc sk sv (RBNode.node la BLACK lk lv ll lr) :: rest)
  | _ => none

/-- The sibling after the recolouring and right rotation of `tree_delete5`
(the node is a left child). -/
def sibRotR : RBNode K V → RBNode K V
  | RBNode.node sa _ sk sv (RBNode.node la _ lk lv ll lr) sr =>
    RBNode.node la BLACK lk lv ll (RBNode.node sa RED sk sv lr sr)
  | t => t

/-- The sibling after the recolouring and left rotation of `tree_delete5`
(the node is a right child). -/
def sibRotL : RBNode K V → RBNode K V
  | RBNode.node sa _ sk sv sl (RBNode.node ra _ rk rv rl rr) =>
    RBNode.node ra BLACK rk rv (RBNode.node sa RED sk sv sl rl) rr
  | t => t

/-- The path of the node after `tree_delete5`. -/
def del5 : Ctx K V → Option (Ctx K V)
  | [] => none
  | Frame.L pa pc pk pv s :: rest =>
    if s.isBlack && s.right.isBlack && s.left.isRed then
      del6 (Frame.L pa pc pk pv (sibRotR s) :: rest)
    else del6 (Frame.L pa pc pk pv s :: rest)
  | Frame.R pa pc pk pv s :: rest =>
    if s.isBlack && s.left.isBlack && s.right.isRed then
      del6 (Frame.R pa pc pk pv (sibRotL s) :: rest)
    else del6 (Frame.R pa pc pk pv s :: rest)

/-- The path of the node after `tree_delete4`. -/
def del4 : Ctx K V → Option (Ctx K V)
  | [] => none
  | f :: rest =>
    if decide (f.color = RED) && sibAllBlack f.sib then
      some (f.recolor BLACK (f.sib.setColor RED) :: rest)
    else del5 (f :: rest)

/-- The path of the node after the recolouring and rotation of
`tree_delete2` (the sibling is RED). -/
def del2rot : Frame K V → Ctx K V → Ctx K V
  | Frame.L pa _ pk pv (RBNode.node sa _ sk sv sl sr), rest =>
    Frame.L pa RED pk pv sl :: Frame.L sa BLACK sk sv sr :: rest
  | Frame.R pa _ pk pv (RBNode.node sa _ sk sv sl sr), rest =>
    Frame.R pa RED pk pv sr :: Frame.R sa BLACK sk sv sl :: rest
  | f, rest => f :: rest

/-- The path of the node after `tree_delete1` (the double-black fix-up): the
subtree at the node itself is not touched.  After the rotation of
`tree_delete2` the parent is RED, so that `tree_delete3` passes on to
`tree_delete4`. -/
def del1 : Ctx K V → Option (Ctx K V)
  | [] => some []
  | f :: rest =>
    if f.sib.isRed then del4 (del2rot f rest)
    else if decide (f.color = BLACK) && sibAllBlack f.sib then
      match del1 rest with
      | none => none
      | some rest' => some (f.recolor f.color (f.sib.setColor RED) :: rest')
    else del4 (f :: rest)

/-- The path and the subtree of the node `tree_delete` unlinks, for a matched
node with the shape `node a c k v l r` below the path `ctx`: the heir (the
largest node of the left subtree, else the smallest of the right subtree) has
its key and value copied into the matched node and takes its place as the
node to unlink. -/
def del_target (ctx : Ctx K V) (a : Nat) (c : Color) (k : K) (v : V) (l r : RBNode K V) :
    Ctx K V × RBNode K V :=
  match l, r with
  | RBNode.node _ _ _ _ _ _, _ =>
    match maxPath l [] with
    | (sp, RBNode.node ha hc hk hv hl hr) =>
      (sp ++ Frame.L a c hk hv r :: ctx, RBNode.node ha hc hk hv hl hr)
    | (_, RBNode.nil) => (ctx, RBNode.node a c k v l r)
  | RBNode.nil, RBNode.node _ _ _ _ _ _ =>
    match minPath r [] with
    | (sp, RBNode.node ha hc hk hv hl hr) =>
      (sp ++ Frame.R a c hk hv RBNode.nil :: ctx, RBNode.node ha hc hk hv hl hr)
    | (_, RBNode.nil) => (ctx, RBNode.node a c k v l r)
  | RBNode.nil, RBNode.nil => (ctx, RBNode.node a c k v l r)

/-- The whole tree after the node in focus is unlinked: a node without
children is taken out (after the double-black fix-up when it is BLACK); a
node with one RED child without children takes the key and value of the child
and the child is taken out. -/
def del_unlink (ctx : Ctx K V) : RBNode K V → Option (RBNode K V)
  | RBNode.node _ c _ _ RBNode.nil RBNode.nil =>
    match c with
    | RED => some (plug ctx RBNode.nil)
    | BLACK =>
      match del1 ctx with
      | none => none
      | some ctx' => some (plug ctx' RBNode.nil)
  | RBNode.node a c _ _ (RBNode.node _ RED ck cv RBNode.nil RBNode.nil) RBNode.nil =>
    some (plug ctx (RBNode.node a c ck cv RBNode.nil RBNode.nil))
  | RBNode.node a c _ _ RBNode.nil (RBNode.node _ RED ck cv RBNode.nil RBNode.nil) =>
    some (plug ctx (RBNode.node a c ck cv RBNode.nil RBNode.nil))
  | _ => none

/-- The value `tree_delete` returns and the shape it leaves. -/
def del (cmp : K → K → Int) (key : K) (t : RBNode K V) : Option (Option V × RBNode K V) :=
  match descend cmp key t [] with
  | (_, RBNode.nil) => some (none, t)
  | (ctx, RBNode.node a c k v l r) =>
    match del_unlink (del_target ctx a c k v l r).1 (del_target ctx a c k v l r).2 with
    | none => none
    | some t' => some (some v, t')

end

section

variable {K V : Type}

open Color

/-- The record `tree_node_info` computes for a shape. -/
def RBNode.info : RBNode K V → TreeInfo
  | RBNode.nil => ⟨0, 0, 0, 0, 0, 0⟩
  | RBNode.node _ c _ _ l r =>
    { size := l.info.size + r.info.size + 1,
      height := if l.info.height > r.info.height then l.info.height + 1 else r.info.height + 1,
      min_height :=
        if l.info.min_height ≤ r.info.min_height then l.info.min_height + 1
        else r.info.min_height + 1,
      black_height :=
        (if l.info.black_height > r.info.black_height then l.info.black_height
         else r.info.black_height) + (if c = BLACK then 1 else 0),
      red_number := (if c = RED then 1 else 0) + l.info.red_number + r.info.red_number,
      black_number := (if c = BLACK then 1 else 0) + l.info.black_number + r.info.black_number }

/-- The tests `tree_node_check_integrity` makes on a shape whose parent links
are consistent; `pb` tells whether the parent of the root node of the shape
is BLACK or absent. -/
def chkNode : Bool → RBNode K V → Bool
  | _, RBNode.nil => true
  | pb, RBNode.node _ c _ _ l r =>
    (!(decide (c = RED) && !(pb && l.isBlack && r.isBlack)))
    && decide (l.info.black_height = r.info.black_height)
    && decide ((if l.info.height > r.info.height then l.info.height + 1 else r.info.height + 1)
        ≤ (if l.info.min_height ≤ r.info.min_height then l.info.min_height + 1
           else r.info.min_height + 1) * 2)
    && chkNode (decide (c = BLACK)) l && chkNode (decide (c = BLACK)) r

/-- The result of `tree_check_integrity` on a state that holds the shape. -/
def chk (t : RBNode K V) : Bool := t.isBlack && chkNode true t

/-- The parent of the node below the path is BLACK or absent. -/
def ctxBlack : Ctx K V → Bool
  | [] => true
  | f :: _ => decide (f.color = BLACK)

/-- The number of BLACK nodes on the leftmost path to an absent child. -/
def RBNode.bhL : RBNode K V → Nat
  | RBNode.nil => 0
  | RBNode.node _ c _ _ l _ => l.bhL + (if c = BLACK then 1 else 0)

/-- Invariant 4: at every node the two subtrees have the same number of BLACK
nodes on their paths to absent children. -/
def Bal : RBNode K V → Prop
  | RBNode.nil => True
  | RBNode.node _ _ _ _ l r => l.bhL = r.bhL ∧ Bal l ∧ Bal r

/-- Invariant 3: no RED node has a RED child. -/
def NoRR : RBNode K V → Prop
  | RBNode.nil => True
  | RBNode.node _ c _ _ l r =>
    (c = RED → l.isBlack = true ∧ r.isBlack = true) ∧ NoRR l ∧ NoRR r

/-- The red-black invariants 2, 3 and 4 of the data model. -/
def RB (t : RBNode K V) : Prop := t.isBlack = true ∧ NoRR t ∧ Bal t

/-- Invariant 1, the binary-search order: at every node the keys of the left
subtree compare less than the key of the node, those of the right subtree
greater. -/
def BST (cmp : K → K → Int) : RBNode K V → Prop
  | RBNode.nil => True
  | RBNode.node _ _ k _ l r =>
    (∀ x ∈ l.keys, cmp x k < 0) ∧ (∀ x ∈ r.keys, cmp x k > 0) ∧ BST cmp l ∧ BST cmp r

/-- A comparator that is a consistent total order: swapping the arguments
swaps the sign, and "not greater" is transitive. -/
structure TotalCmp (cmp : K → K → Int) : Prop where
  swap : ∀ a b, cmp a b < 0 ↔ 0 < cmp b a
  le_trans : ∀ a b c, cmp a b ≤ 0 → cmp b c ≤ 0 → cmp a c ≤ 0

/-- The state holds the shape `t` and the element count is its number of
nodes (invariants 6 and 7 of the data model). -/
structure Holds (tr : Tree K V) (t : RBNode K V) : Prop where
  wf : WF tr t
  size : tr.size = t.count

end

section

variable {K V : Type}

open Color

/-- The pairs that come before the subtree below a path, in order. -/
def ctxBefore : Ctx K V → List (K × V)
  | [] => []
  | Frame.L _ _ _ _ _ :: rest => ctxBefore rest
  | Frame.R _ _ k v l :: rest => ctxBefore rest ++ (l.toList ++ [(k, v)])

/-- The pairs that come after the subtree below a path, in order. -/
def ctxAfter : Ctx K V → List (K × V)
  | [] => []
  | Frame.L _ _ k v r :: rest => ((k, v) :: r.toList) ++ ctxAfter rest
  | Frame.R _ _ _ _ _ :: rest => ctxAfter rest

/-- The number of nodes on a path and in the subtrees beside it. -/
def ctxCount : Ctx K V → Nat
  | [] => 0
  | f :: rest => f.sib.count + 1 + ctxCount rest

/-- Invariant 4 for a path: a subtree with `n` BLACK nodes on its paths fits
below it. -/
def CBal : Ctx K V → Nat → Prop
  | [], _ => True
  | f :: rest, n =>
    f.sib.bhL = n ∧ Bal f.sib ∧ CBal rest (n + (if f.color = BLACK then 1 else 0))

/-- Invariant 3 for a path: no RED node on the path or beside it has a RED
child or a RED parent, the child below the path apart. -/
def CNoRR : Ctx K V → Prop
  | [] => True
  | f :: rest =>
    NoRR f.sib ∧ (f.color = RED → f.sib.isBlack = true ∧ ctxBlack rest = true) ∧ CNoRR rest

/-- The colour of the root of the whole tree is BLACK, `b` telling it for the
subtree below the path. -/
def rootBlack : Ctx K V → Bool → Bool
  | [], b => b
  | f :: rest, _ => rootBlack rest (decide (f.color = BLACK))

/-- The path is the one the comparisons with `key` lead along. -/
def OnPath (cmp : K → K → Int) (key : K) : Ctx K V → Prop
  | [] => True
  | Frame.L _ _ k _ _ :: rest => cmp key k < 0 ∧ OnPath cmp key rest
  | Frame.R _ _ k _ _ :: rest => cmp key k > 0 ∧ OnPath cmp key rest

/-- The keys of a list of pairs are strictly ascending. -/
def Ascending (cmp : K → K → Int) (L : List (K × V)) : Prop :=
  L.Pairwise (fun x y => cmp x.1 y.1 < 0)

/-- The call `f` returns `x`: with enough fuel, and with any larger amount,
the model of the call gives `x`. -/
def Returns {α : Type} (f : Nat → Option α) (x : α) : Prop :=
  ∃ N, ∀ fuel, N ≤ fuel → f fuel = some x

/-- The state after the pairs of a list are inserted one after the other. -/
def insert_all (fuel : Nat) : Tree K V → List (K × V) → Option (Tree K V)
  | tr, [] => some tr
  | tr, (k, v) :: rest =>
    match tree_insert fuel tr k v with
    | none => none
    | some (_, tr1) => insert_all fuel tr1 rest

/-- A call of the interface that changes the tree. -/
inductive Op (K V : Type) where
  | insert (key : K) (value : V) : Op K V
  | delete (key : K) : Op K V

/-- The state after one call. -/
def Op.run (fuel : Nat) (tr : Tree K V) : Op K V → Option (Tree K V)
  | Op.insert key value => (tree_insert fuel tr key value).map Prod.snd
  | Op.delete key => (tree_delete fuel tr key).map Prod.snd

/-- The states that a sequence of `tree_insert` and `tree_delete` calls
reaches from the tree `tree_create cmp` makes. -/
inductive Reachable (cmp : K → K → Int) : Tree K V → Prop where
  | create : Reachable cmp (tree_create cmp)
  | step (tr tr1 : Tree K V) (op : Op K V) :
      Reachable cmp tr → Returns (fun fuel => op.run fuel tr) tr1 → Reachable cmp tr1

/-- A result that one amount of fuel gives is given by every larger amount. -/
def FuelMono {α : Type} (f : Nat → Option α) : Prop :=
  ∀ n x, f n = some x → f (n + 1) = some x

/-- Every result of the first computation is a result of the second. -/
def OLe {α : Type} (a b : Option α) : Prop := ∀ x, a = some x → b = some x

end

section

variable {K V : Type}

open Color

/-- The state holds the shape `t` and satisfies the invariants of the data
model: the binary-search order (1), the red-black invariants (2, 3, 4; 5 is
their consequence), the element count (6) and the parent links (7, part of
`WF`). -/
structure Inv (tr : Tree K V) (t : RBNode K V) : Prop where
  wf : WF tr t
  size : tr.size = t.count
  bst : BST tr.cmp t
  rb : RB t

/-- The value of the first pair of a list whose key compares equal to
`key`. -/
def lookup (cmp : K → K → Int) (key : K) : List (K × V) → Option V
  | [] => none
  | (k, v) :: rest => if cmp key k = 0 then some v else lookup cmp key rest

/-- The value at the node the search for `key` ends at. -/
def findVal (cmp : K → K → Int) (key : K) (t : RBNode K V) : Option V :=
  match (descend cmp key t []).2 with
  | RBNode.nil => none
  | RBNode.node _ _ _ v _ _ => some v

/-- The three-way comparison of integers, as the comparator of the tests. -/
def icmp (a b : Int) : Int := if a < b then -1 else if a > b then 1 else 0

/-- A state with two nodes: the root 5 (BLACK) at address 0 and its right
child 8 (RED) at address 1. -/
def ex_tree : Tree Int Int :=
  { root := some 0, cmp := icmp, size := 2,
    mem := fun a =>
      if a = 0 then some ⟨none, none, some 1, BLACK, 5, 50⟩
      else if a = 1 then some ⟨some 0, none, none, RED, 8, 80⟩
      else none,
    next := 2 }

/-- The shape the state `ex_tree` holds. -/
def ex_shape : RBNode Int Int :=
  RBNode.node 0 BLACK 5 50 RBNode.nil (RBNode.node 1 RED 8 80 RBNode.nil RBNode.nil)

/-- The three pairs of the basic test. -/
def ex_pairs : List (Int × Int) := [(7, 7), (1, 1), (3, 3)]

/-- The state after `tree_insert` of the pair (5, 50) into the tree of
`tree_create`. -/
def ex_reached : Tree Int Int :=
  match tree_insert 3 (tree_create icmp) 5 50 with
  | some (_, tr) => tr
  | none => tree_create icmp

/-- The state after `tree_insert` of the pair (8, 80) into `ex_reached`. -/
def ex_reached2 : Tree Int Int :=
  match tree_insert 4 ex_reached 8 80 with
  | some (_, tr) => tr
  | none => ex_reached

/-- The state after `tree_insert` of the pair (3, 30) into `ex_reached2`. -/
def ex_reached3 : Tree Int Int :=
  match tree_insert 4 ex_reached2 3 30 with
  | some (_, tr) => tr
  | none => ex_reached2

/-- The shape the state `ex_reached3` holds: the root 5 with the children 3
and 8. -/
def ex_reached3_shape : RBNode Int Int :=
  RBNode.node 0 BLACK 5 50 (RBNode.node 2 RED 3 30 RBNode.nil RBNode.nil)
    (RBNode.node 1 RED 8 80 RBNode.nil RBNode.nil)

end

section

variable {K V : Type}

open Color

/-- The statement `if( p ) f(p, destructor);` of `tree_destroy_subtree` and
`tree_destroy`, for a call `f` that gives the state and the world. -/
def destroy_if {W : Type} (f : Tree K V → Nat → W → Option (Tree K V × W)) (p : Ptr)
    (tr : Tree K V) (w : W) : Option (Tree K V × W) :=
  match p with
  | some b => f tr b w
  | none => some (tr, w)

/-- `tree_destroy_subtree` at a node that is not `NULL` (both callers test
it).  The destructor is an optional callback on the value (`none` is `NULL`);
it gets no key.  `w` is the state of the world the callback acts on.  Each
`node->...` is a read of the memory at that point. -/
def tree_destroy_subtree {W : Type} (destructor : Option (V → W → W)) :
    Nat → Tree K V → Nat → W → Option (Tree K V × W)
  | 0, _, _, _ => none
  | fuel + 1, tr, a, w =>
    match tr.mem a with
    | none => none
    | some n =>
      match destroy_if (tree_destroy_subtree destructor fuel) n.left tr w with
      | none => none
      | some (tr1, w1) =>
        match tr1.mem a with
        | none => none
        | some n1 =>
          match destroy_if (tree_destroy_subtree destructor fuel) n1.right tr1 w1 with
          | none => none
          | some (tr2, w2) =>
            match tr2.mem a with
            | none => none
            | some n2 =>
              match tree_node_destroy tr2 (some a) with
              | none => none
              | some tr3 =>
                some (tr3, match destructor with
                           | some d => d n2.value w2
                           | none => w2)

/-- `tree_destroy`: the memory and the world after the call (the tree handle
is freed). -/
def tree_destroy {W : Type} (fuel : Nat) (tr : Tree K V) (destructor : Option (V → W → W))
    (w : W) : Option ((Nat → Option (TreeNode K V)) × W) :=
  match destroy_if (tree_destroy_subtree destructor fuel) tr.root tr w with
  | none => none
  | some (tr1, w1) => some (tr1.mem, w1)

/-- The world after the destructor, when there is one, is called on the
values of a list, one after the other. -/
def run_destructor {W : Type} (destructor : Option (V → W → W)) (vs : List V) (w : W) : W :=
  match destructor with
  | some d => vs.foldl (fun w v => d v w) w
  | none => w

/-- The values `tree_delete` returns for the keys of a list, one call after
the other, and the state after the calls. -/
def delete_all (fuel : Nat) : Tree K V → List K → Option (List (Option V) × Tree K V)
  | tr, [] => some ([], tr)
  | tr, k :: rest =>
    match tree_delete fuel tr k with
    | none => none
    | some (v, tr1) =>
      match delete_all fuel tr1 rest with
      | none => none
      | some (vs, tr2) => some (v :: vs, tr2)

/-- The values of the nodes in post-order (left subtree, right subtree,
node). -/
def RBNode.postorder : RBNode K V → List V
  | RBNode.nil => []
  | RBNode.node _ _ _ v l r => l.postorder ++ r.postorder ++ [v]

/-- The numbers of nodes on the downward paths from the root to each absent
child. -/
def RBNode.nilPaths : RBNode K V → List Nat
  | RBNode.nil => [0]
  | RBNode.node _ _ _ _ l r => (l.nilPaths ++ r.nilPaths).map (· + 1)

/-- The numbers of BLACK nodes on the downward paths from the root to each
absent child. -/
def RBNode.blackPaths : RBNode K V → List Nat
  | RBNode.nil => [0]
  | RBNode.node _ c _ _ l r =>
    (l.blackPaths ++ r.blackPaths).map (· + (if c = BLACK then 1 else 0))

/-- The numbers of edges on the downward paths from the root to each leaf (a
node without children). -/
def RBNode.leafPaths : RBNode K V → List Nat
  | RBNode.nil => []
  | RBNode.node _ _ _ _ RBNode.nil RBNode.nil => [0]
  | RBNode.node _ _ _ _ l r => (l.leafPaths ++ r.leafPaths).map (· + 1)

/-- The largest number of a list (0 for the empty list). -/
def longest (L : List Nat) : Nat := L.foldr max 0

/-- The smallest number of a list (0 for the empty list). -/
def shortest : List Nat → Nat
  | [] => 0
  | x :: xs => xs.foldr min x

/-- A property holds at every node of a shape (for the subtree at the
node). -/
def AllNodes (P : RBNode K V → Prop) : RBNode K V → Prop
  | RBNode.nil => True
  | RBNode.node a c k v l r =>
    P (RBNode.node a c k v l r) ∧ AllNodes P l ∧ AllNodes P r

/-- Invariant 4 in the words of the data model: from every node, every
downward path to an absent child passes through the same number of BLACK
nodes. -/
def PathBal (t : RBNode K V) : Prop :=
  AllNodes (fun s => ∀ x ∈ s.blackPaths, ∀ y ∈ s.blackPaths, x = y) t

/-- At every node the two subtrees have the same `black_height`. -/
def EqBH (t : RBNode K V) : Prop :=
  AllNodes (fun s => s.left.info.black_height = s.right.info.black_height) t

/-- At every node `height <= 2 * min_height`. -/
def HeightOK (t : RBNode K V) : Prop :=
  AllNodes (fun s => s.info.height ≤ 2 * s.info.min_height) t

/-- The memory holds the shape `t` through its `left` and `right` links; the
`parent` field of the node at an address `a` is `pf a`, whatever that is. -/
def RepW (mem : Nat → Option (TreeNode K V)) (pf : Nat → Ptr) : RBNode K V → Prop
  | RBNode.nil => True
  | RBNode.node a c k v l r =>
    mem a = some ⟨pf a, l.ptr, r.ptr, c, k, v⟩ ∧ RepW mem pf l ∧ RepW mem pf r

/-- The state holds the tree `t` (distinct nodes, linked from the root
through `left` and `right`), with the parent fields `pf`, right or wrong. -/
structure WFW (tr : Tree K V) (pf : Nat → Ptr) (t : RBNode K V) : Prop where
  root : tr.root = t.ptr
  rep : RepW tr.mem pf t
  nodup : t.addrs.Nodup

/-- The test that the parent field of a child, when there is a child, is the
address `a`. -/
def childLinked (pf : Nat → Ptr) (a : Nat) (p : Ptr) : Bool :=
  match p with
  | none => true
  | some b => decide (pf b = some a)

/-- Invariant 7: the parent link of every present child points back to its
parent. -/
def Linked (pf : Nat → Ptr) : RBNode K V → Prop
  | RBNode.nil => True
  | RBNode.node a _ _ _ l r =>
    childLinked pf a l.ptr = true ∧ childLinked pf a r.ptr = true ∧ Linked pf l ∧ Linked pf r

/-- The test of `Linked`. -/
def linkedB (pf : Nat → Ptr) : RBNode K V → Bool
  | RBNode.nil => true
  | RBNode.node a _ _ _ l r =>
    childLinked pf a l.ptr && childLinked pf a r.ptr && linkedB pf l && linkedB pf r

/-- A state with one node: the root 5 (BLACK) at address 0. -/
def ex_single : Tree Int Int :=
  { root := some 0, cmp := icmp, size := 1,
    mem := fun a => if a = 0 then some ⟨none, none, none, BLACK, 5, 50⟩ else none,
    next := 1 }

/-- The shape the state `ex_single` holds. -/
def ex_single_shape : RBNode Int Int := RBNode.node 0 BLACK 5 50 RBNode.nil RBNode.nil

/-- A state with two nodes: the root 8 (BLACK) at address 1 and its left
child 5 (RED) at address 0. -/
def ex_tree_left : Tree Int Int :=
  { root := some 1, cmp := icmp, size := 2,
    mem := fun a =>
      if a = 0 then some ⟨some 1, none, none, RED, 5, 50⟩
      else if a = 1 then some ⟨none, some 0, none, BLACK, 8, 80⟩
      else none,
    next := 2 }

/-- The shape the state `ex_tree_left` holds. -/
def ex_shape_left : RBNode Int Int :=
  RBNode.node 1 BLACK 8 80 (RBNode.node 0 RED 5 50 RBNode.nil RBNode.nil) RBNode.nil

/-- A state in the middle of a deletion: the root P (5, at 0), its left child
N (3, at 1), its right child S (8, at 2, BLACK) and the two RED children of S
(7 at 3 on the side of N, 9 at 4 on the other side). -/
def ex_del6 : Tree Int Int :=
  { root := some 0, cmp := icmp, size := 5,
    mem := fun a =>
      if a = 0 then some ⟨none, some 1, some 2, BLACK, 5, 50⟩
      else if a = 1 then some ⟨some 0, none, none, BLACK, 3, 30⟩
      else if a = 2 then some ⟨some 0, some 3, some 4, BLACK, 8, 80⟩
      else if a = 3 then some ⟨some 2, none, none, RED, 7, 70⟩
      else if a = 4 then some ⟨some 2, none, none, RED, 9, 90⟩
      else none,
    next := 5 }

/-- The shape the state `ex_del6` holds. -/
def ex_del6_shape : RBNode Int Int :=
  RBNode.node 0 BLACK 5 50 (RBNode.node 1 BLACK 3 30 RBNode.nil RBNode.nil)
    (RBNode.node 2 BLACK 8 80 (RBNode.node 3 RED 7 70 RBNode.nil RBNode.nil)
      (RBNode.node 4 RED 9 90 RBNode.nil RBNode.nil))

/-- The mirror image of `ex_del6`: N (8, at 1) is the right child of P (5, at
0), S (3, at 2, BLACK) the left child, with the RED children 1 (at 3, away
from N) and 4 (at 4, on the side of N). -/
def ex_del6_mirror : Tree Int Int :=
  { root := some 0, cmp := icmp, size := 5,
    mem := fun a =>
      if a = 0 then some ⟨none, some 2, some 1, BLACK, 5, 50⟩
      else if a = 1 then some ⟨some 0, none, none, BLACK, 8, 80⟩
      else if a = 2 then some ⟨some 0, some 3, some 4, BLACK, 3, 30⟩
      else if a = 3 then some ⟨some 2, none, none, RED, 1, 10⟩
      else if a = 4 then some ⟨some 2, none, none, RED, 4, 40⟩
      else none,
    next := 5 }

/-- The parent fields of the two nodes of `ex_tree`. -/
def ex_parents : Nat → Ptr := fun a => if a = 1 then some 0 else none

/-- The state `ex_tree` with the parent field of the child broken (it is
`NULL`). -/
def ex_tree_unlinked : Tree Int Int :=
  { root := some 0, cmp := icmp, size := 2,
    mem := fun a =>
      if a = 0 then some ⟨none, none, some 1, BLACK, 5, 50⟩
      else if a = 1 then some ⟨none, none, none, RED, 8, 80⟩
      else none,
    next := 2 }

end

section

variable {K V : Type}

open Color

/-- How a run of the insertion fix-up ends: with a result, at a dereference
of `NULL` or of an address that holds no node (`fault`), or with the fuel used
up before the run ends (`timeout`). -/
inductive Run (α : Type) where
  | done (x : α) : Run α
  | fault : Run α
  | timeout : Run α

/-- A step without recursion, which ends with its result or at a fault. -/
def Run.ofOption {α : Type} : Option α → Run α
  | some x => Run.done x
  | none => Run.fault

/-- The result of a run, when it ends with one. -/
def Run.toOption {α : Type} : Run α → Option α
  | Run.done x => some x
  | Run.fault => none
  | Run.timeout => none

/-- One more re-entry of `tree_insert1` before the run ended. -/
def Run.bump : Run (Tree K V × Nat) → Run (Tree K V × Nat)
  | Run.done (tr, n) => Run.done (tr, n + 1)
  | Run.fault => Run.fault
  | Run.timeout => Run.timeout

/-- The statements of the red-uncle case of `tree_insert3` before the call
`tree_insert1(g)`: the state they leave and the grandparent `g`. -/
def insert3_recolor (tr : Tree K V) (node u : Ptr) : Option (Tree K V × Ptr) := do
  let tr ← set_color tr u Color.BLACK
  let n ← deref tr node
  let tr ← set_color tr n.parent Color.BLACK
  let g ← tree_node_grandparent tr node
  let tr ← set_color tr g Color.RED
  some (tr, g)

mutual
/-- `tree_insert1` with the way the run ends told apart and the re-entries of
`tree_insert1` counted. -/
def insert1_run : Nat → Tree K V → Ptr → Run (Tree K V × Nat)
  | 0, _, _ => Run.timeout
  | fuel + 1, tr, node =>
    match deref tr node with
    | none => Run.fault
    | some n =>
      if n.parent = none then
        Run.ofOption ((set_color tr node Color.BLACK).map (fun t => (t, 0)))
      else insert2_run fuel tr node
/-- `tree_insert2`, in the same way. -/
def insert2_run : Nat → Tree K V → Ptr → Run (Tree K V × Nat)
  | 0, _, _ => Run.timeout
  | fuel + 1, tr, node =>
    match deref tr node with
    | none => Run.fault
    | some n =>
      match IS_BLACK tr n.parent with
      | none => Run.fault
      | some true => Run.done (tr, 0)
      | some false => insert3_run fuel tr node
/-- `tree_insert3`, in the same way: the call `tree_insert1(g)` of the
red-uncle case is the only re-entry. -/
def insert3_run : Nat → Tree K V → Ptr → Run (Tree K V × Nat)
  | 0, _, _ => Run.timeout
  | fuel + 1, tr, node =>
    match tree_node_uncle tr node with
    | none => Run.fault
    | some u =>
      match IS_RED tr u with
      | none => Run.fault
      | some true =>
        match insert3_recolor tr node u with
        | none => Run.fault
        | some (tr1, g) => (insert1_run fuel tr1 g).bump
      | some false => Run.ofOption ((tree_insert4 tr node).map (fun t => (t, 0)))
end

/-- The shape without its keys and values: the addresses and the colours. -/
def RBNode.erase : RBNode K V → RBNode Unit Unit
  | RBNode.nil => RBNode.nil
  | RBNode.node a c _ _ l r => RBNode.node a c () () l.erase r.erase

/-- A state like `ex_tree` with the key 3 in the right child of the root 5:
the keys are not in binary-search order. -/
def ex_unordered : Tree Int Int :=
  { root := some 0, cmp := icmp, size := 2,
    mem := fun a =>
      if a = 0 then some ⟨none, none, some 1, BLACK, 5, 50⟩
      else if a = 1 then some ⟨some 0, none, none, RED, 3, 30⟩
      else none,
    next := 2 }

/-- The shape the state `ex_unordered` holds. -/
def ex_unordered_shape : RBNode Int Int :=
  RBNode.node 0 BLACK 5 50 RBNode.nil (RBNode.node 1 RED 3 30 RBNode.nil RBNode.nil)

/-- A state in the middle of an insertion: the root 5 (BLACK) at address 0
with the RED children 3 (address 1) and 8 (address 2), and the new RED node 1
(address 3) linked as the left child of 3, before the fix-up runs on it. -/
def ex_cascade : Tree Int Int :=
  { root := some 0, cmp := icmp, size := 3,
    mem := fun a =>
      if a = 0 then some ⟨none, some 1, some 2, BLACK, 5, 50⟩
      else if a = 1 then some ⟨some 0, some 3, none, RED, 3, 30⟩
      else if a = 2 then some ⟨some 0, none, none, RED, 8, 80⟩
      else if a = 3 then some ⟨some 1, none, none, RED, 1, 10⟩
      else none,
    next := 4 }

/-- The path from the new node of `ex_cascade` up to the root. -/
def ex_cascade_ctx : Ctx Int Int :=
  [Frame.L 1 RED 3 30 RBNode.nil,
   Frame.L 0 BLACK 5 50 (RBNode.node 2 RED 8 80 RBNode.nil RBNode.nil)]

end

section

variable {K V : Type}

@[simp] theorem mem_set_same (m : Nat → Option (TreeNode K V)) (a : Nat)
    (n : Option (TreeNode K V)) : mem_set m a n a = n := by
  simp [mem_set]

theorem mem_set_ne (m : Nat → Option (TreeNode K V)) {a x : Nat}
    (n : Option (TreeNode K V)) (h : x ≠ a) : mem_set m a n x = m x := by
  simp [mem_set, h]

theorem Rep_frame {m m' : Nat → Option (TreeNode K V)} {t : RBNode K V} :
    ∀ {par : Ptr}, (∀ x ∈ t.addrs, m' x = m x) → Rep m par t → Rep m' par t := by
  induction t with
  | nil => intro _ _ _; trivial
  | node a c k v l r ihl ihr =>
    intro par h hr
    simp only [RBNode.addrs, List.mem_append, List.mem_cons] at h
    obtain ⟨h1, h2, h3⟩ := hr
    refine ⟨?_, ihl (fun x hx => h x (Or.inl hx)) h2, ihr (fun x hx => h x (Or.inr (Or.inr hx))) h3⟩
    rw [h a (Or.inr (Or.inl rfl))]; exact h1

theorem RepC_frame {m m' : Nat → Option (TreeNode K V)} {root : Ptr} {ctx : Ctx K V} :
    ∀ {p : Ptr}, (∀ x ∈ ctxAddrs ctx, m' x = m x) → RepC m root ctx p → RepC m' root ctx p := by
  induction ctx with
  | nil => intro _ _ h; exact h
  | cons f rest ih =>
    intro p h hr
    cases f with
    | L a c k v r =>
      simp only [ctxAddrs, Frame.addrs, List.mem_append, List.mem_cons] at h
      obtain ⟨h1, h2, h3⟩ := hr
      refine ⟨?_, Rep_frame (fun x hx => h x (Or.inl (Or.inr hx))) h2,
        ih (fun x hx => h x (Or.inr hx)) h3⟩
      rw [h a (Or.inl (Or.inl rfl))]; exact h1
    | R a c k v l =>
      simp only [ctxAddrs, Frame.addrs, List.mem_append, List.mem_cons] at h
      obtain ⟨h1, h2, h3⟩ := hr
      refine ⟨?_, Rep_frame (fun x hx => h x (Or.inl (Or.inr hx))) h2,
        ih (fun x hx => h x (Or.inr hx)) h3⟩
      rw [h a (Or.inl (Or.inl rfl))]; exact h1

theorem ptr_fill (f : Frame K V) (t : RBNode K V) : (f.fill t).ptr = some f.addr := by
  cases f <;> rfl

theorem Rep_plug {m : Nat → Option (TreeNode K V)} {root : Ptr} {ctx : Ctx K V} :
    ∀ {t : RBNode K V}, (root = (plug ctx t).ptr ∧ Rep m none (plug ctx t)) ↔
      (RepC m root ctx t.ptr ∧ Rep m (ctxPtr ctx) t) := by
  induction ctx with
  | nil => intro t; simp [plug, RepC, ctxPtr]
  | cons f rest ih =>
    intro t
    rw [plug, ih]
    cases f with
    | L a c k v r =>
      simp only [Frame.fill, RBNode.ptr, Rep, RepC, ctxPtr, Frame.addr]
      tauto
    | R a c k v l =>
      simp only [Frame.fill, RBNode.ptr, Rep, RepC, ctxPtr, Frame.addr]
      tauto

theorem addrs_fill (f : Frame K V) (t : RBNode K V) :
    (f.fill t).addrs.Perm (f.addrs ++ t.addrs) := by
  cases f with
  | L a c k v r =>
    simp only [Frame.fill, RBNode.addrs, Frame.addrs]
    have : (t.addrs ++ a :: r.addrs).Perm ((a :: r.addrs) ++ t.addrs) := List.perm_append_comm
    exact this
  | R a c k v l =>
    simp only [Frame.fill, RBNode.addrs, Frame.addrs]
    have h1 : (l.addrs ++ a :: t.addrs).Perm (a :: (l.addrs ++ t.addrs)) := List.perm_middle
    simp only [List.cons_append]
    exact h1

theorem addrs_plug (ctx : Ctx K V) :
    ∀ t : RBNode K V, (plug ctx t).addrs.Perm (ctxAddrs ctx ++ t.addrs) := by
  induction ctx with
  | nil => intro t; simp [plug, ctxAddrs]
  | cons f rest ih =>
    intro t
    rw [plug, ctxAddrs]
    refine (ih (f.fill t)).trans ?_
    have h1 := addrs_fill f t
    have h2 : (ctxAddrs rest ++ (f.fill t).addrs).Perm (ctxAddrs rest ++ (f.addrs ++ t.addrs)) :=
      List.Perm.append_left _ h1
    refine h2.trans ?_
    rw [← List.append_assoc]
    exact List.Perm.append_right _ List.perm_append_comm

/-- A state that holds `plug ctx t`, split into the path and the subtree. -/
theorem WF.split {tr : Tree K V} {ctx : Ctx K V} {t : RBNode K V} (h : WF tr (plug ctx t)) :
    RepC tr.mem tr.root ctx t.ptr ∧ Rep tr.mem (ctxPtr ctx) t ∧
      (ctxAddrs ctx ++ t.addrs).Nodup ∧ (∀ a ∈ ctxAddrs ctx ++ t.addrs, a < tr.next) := by
  have h1 := (@Rep_plug K V tr.mem tr.root ctx t).1 ⟨h.root, h.rep⟩
  have hp := addrs_plug ctx t
  exact ⟨h1.1, h1.2, hp.nodup_iff.1 h.nodup, fun a ha => h.alloc a (hp.mem_iff.2 ha)⟩

theorem WF.join {tr : Tree K V} {ctx : Ctx K V} {t : RBNode K V}
    (h1 : RepC tr.mem tr.root ctx t.ptr) (h2 : Rep tr.mem (ctxPtr ctx) t)
    (h3 : (ctxAddrs ctx ++ t.addrs).Nodup) (h4 : ∀ a ∈ ctxAddrs ctx ++ t.addrs, a < tr.next) :
    WF tr (plug ctx t) := by
  have h := (@Rep_plug K V tr.mem tr.root ctx t).2 ⟨h1, h2⟩
  have hp := addrs_plug ctx t
  exact ⟨h.1, h.2, hp.nodup_iff.2 h3, fun a ha => h4 a (hp.mem_iff.1 ha)⟩

/-- The fields of the node in focus. -/
theorem WF.read {tr : Tree K V} (ctx : Ctx K V) {a : Nat} {c : Color} {k : K} {v : V}
    {l r : RBNode K V} (h : WF tr (plug ctx (RBNode.node a c k v l r))) :
    tr.mem a = some { parent := ctxPtr ctx, left := l.ptr, right := r.ptr, color := c,
                      key := k, value := v } :=
  h.split.2.1.1

/-- Overwriting colour, key and value of the node in focus. -/
theorem WF.write {tr : Tree K V} (ctx : Ctx K V) {a : Nat} {c : Color} {k : K} {v : V}
    {l r : RBNode K V} (h : WF tr (plug ctx (RBNode.node a c k v l r)))
    (c' : Color) (k' : K) (v' : V) :
    WF { tr with mem := mem_set tr.mem a (some ⟨ctxPtr ctx, l.ptr, r.ptr, c', k', v'⟩) }
      (plug ctx (RBNode.node a c' k' v' l r)) := by
  obtain ⟨h1, h2, h3, h4⟩ := h.split
  simp only [RBNode.addrs] at h3 h4
  have hnd := h3
  rw [List.nodup_append] at h3
  obtain ⟨_, h3b, h3c⟩ := h3
  have hnl : a ∉ l.addrs := by
    intro hx
    have := (List.nodup_append.1 h3b).2.2
    exact this hx (List.mem_cons_self _ _)
  have hnr : a ∉ r.addrs := by
    have := (List.nodup_append.1 h3b).2.1
    exact (List.nodup_cons.1 this).1
  have hnc : a ∉ ctxAddrs ctx := by
    intro hx
    exact h3c hx (List.mem_append_right _ (List.mem_cons_self _ _))
  apply WF.join
  · apply RepC_frame _ h1
    intro x hx
    have : x ≠ a := fun e => hnc (e ▸ hx)
    simp [mem_set_ne _ _ this]
  · refine ⟨by simp, ?_, ?_⟩
    · apply Rep_frame _ h2.2.1
      intro x hx
      have : x ≠ a := fun e => hnl (e ▸ hx)
      simp [mem_set_ne _ _ this]
    · apply Rep_frame _ h2.2.2
      intro x hx
      have : x ≠ a := fun e => hnr (e ▸ hx)
      simp [mem_set_ne _ _ this]
  · simpa [RBNode.addrs] using hnd
  · simpa [RBNode.addrs] using h4

theorem WF.set_color_focus {tr : Tree K V} (ctx : Ctx K V) {a : Nat} {c : Color} {k : K} {v : V}
    {l r : RBNode K V} (h : WF tr (plug ctx (RBNode.node a c k v l r))) (c' : Color) :
    ∃ m, set_color tr (some a) c' = some { tr with mem := m } ∧
      WF { tr with mem := m } (plug ctx (RBNode.node a c' k v l r)) := by
  refine ⟨_, ?_, WF.write ctx h c' k v⟩
  simp [Rbtree.set_color, deref, store, WF.read ctx h]

theorem WF.set_key_value_focus {tr : Tree K V} (ctx : Ctx K V) {a : Nat} {c : Color} {k : K} {v : V}
    {l r : RBNode K V} (h : WF tr (plug ctx (RBNode.node a c k v l r))) (k' : K) (v' : V) :
    ∃ m, set_key_value tr (some a) k' v' = some { tr with mem := m } ∧
      WF { tr with mem := m } (plug ctx (RBNode.node a c k' v' l r)) := by
  refine ⟨_, ?_, WF.write ctx h c k' v'⟩
  simp [Rbtree.set_key_value, deref, store, WF.read ctx h]

end

section

variable {K V : Type}
open RBNode

@[simp] theorem ptr_node (a : Nat) (c : Color) (k : K) (v : V) (l r : RBNode K V) :
    (node a c k v l r).ptr = some a := rfl

@[simp] theorem ptr_nil : (nil : RBNode K V).ptr = none := rfl

theorem deref_some (tr : Tree K V) (a : Nat) : deref tr (some a) = tr.mem a := rfl

theorem deref_none (tr : Tree K V) : deref tr none = none := rfl

theorem set_parent_some (tr : Tree K V) (a : Nat) (q : Ptr) : set_parent tr (some a) q =
    (tr.mem a).bind fun n =>
      some { tr with mem := mem_set tr.mem a (some { n with parent := q }) } := by
  simp only [set_parent, deref, store]
  cases h : tr.mem a <;> simp [h]

theorem set_left_some (tr : Tree K V) (a : Nat) (q : Ptr) : set_left tr (some a) q =
    (tr.mem a).bind fun n =>
      some { tr with mem := mem_set tr.mem a (some { n with left := q }) } := by
  simp only [set_left, deref, store]
  cases h : tr.mem a <;> simp [h]

theorem set_right_some (tr : Tree K V) (a : Nat) (q : Ptr) : set_right tr (some a) q =
    (tr.mem a).bind fun n =>
      some { tr with mem := mem_set tr.mem a (some { n with right := q }) } := by
  simp only [set_right, deref, store]
  cases h : tr.mem a <;> simp [h]

theorem set_color_some (tr : Tree K V) (a : Nat) (c : Color) : set_color tr (some a) c =
    (tr.mem a).bind fun n =>
      some { tr with mem := mem_set tr.mem a (some { n with color := c }) } := by
  simp only [set_color, deref, store]
  cases h : tr.mem a <;> simp [h]

theorem ptr_mem_addrs {t : RBNode K V} {x : Nat} (h : t.ptr = some x) : x ∈ t.addrs := by
  cases t with
  | nil => simp at h
  | node a c k v l r =>
    simp only [ptr_node, Option.some.injEq] at h
    subst h
    simp [RBNode.addrs]

theorem ctxPtr_mem_addrs {ctx : Ctx K V} {x : Nat} (h : ctxPtr ctx = some x) :
    x ∈ ctxAddrs ctx := by
  cases ctx with
  | nil => simp [ctxPtr] at h
  | cons f rest =>
    simp only [ctxPtr, Option.some.injEq] at h
    subst h
    cases f <;> simp [ctxAddrs, Frame.addrs, Frame.addr]

theorem Rep_root {m : Nat → Option (TreeNode K V)} {par : Ptr} {t : RBNode K V} {x : Nat}
    (h : Rep m par t) (hx : t.ptr = some x) :
    ∃ n, m x = some n ∧ n.parent = par := by
  cases t with
  | nil => simp at hx
  | node a c k v l r =>
    simp only [ptr_node, Option.some.injEq] at hx
    subst hx
    exact ⟨_, h.1, rfl⟩

/-- Changing the `parent` field of the root node of a stored shape. -/
theorem Rep_reparent {m : Nat → Option (TreeNode K V)} {par q : Ptr} {t : RBNode K V}
    {x : Nat} {n : TreeNode K V} (h : Rep m par t) (hx : t.ptr = some x) (hn : m x = some n)
    (hnd : t.addrs.Nodup) {m' : Nat → Option (TreeNode K V)}
    (hm1 : m' x = some { n with parent := q })
    (hm2 : ∀ y ∈ t.addrs, y ≠ x → m' y = m y) : Rep m' q t := by
  cases t with
  | nil => trivial
  | node a c k v l r =>
    simp only [ptr_node, Option.some.injEq] at hx
    subst hx
    obtain ⟨h1, h2, h3⟩ := h
    rw [h1] at hn
    simp only [Option.some.injEq] at hn
    subst hn
    have hc := fun y => List.nodup_iff_count_le_one.1 hnd y
    simp only [RBNode.addrs, List.count_append, List.count_cons, beq_iff_eq] at hc
    refine ⟨hm1, ?_, ?_⟩
    · apply Rep_frame _ h2
      intro y hy
      apply hm2 y (by simp [RBNode.addrs, hy])
      rintro rfl
      have := hc y
      have := List.count_pos_iff.2 hy
      simp only [if_true] at *
      omega
    · apply Rep_frame _ h3
      intro y hy
      apply hm2 y (by simp [RBNode.addrs, hy])
      rintro rfl
      have := hc y
      have := List.count_pos_iff.2 hy
      simp only [if_true] at *
      omega

end

section

variable {K V : Type}
open RBNode

/-- Changing the child pointer that leads down the path. -/
theorem RepC_rehole {m m' : Nat → Option (TreeNode K V)} {root : Ptr} {f : Frame K V}
    {rest : Ctx K V} {p q : Ptr} (h : RepC m root (f :: rest) p)
    (hnd : (ctxAddrs (f :: rest)).Nodup)
    (hm1 : m' f.addr = match f with
      | Frame.L _ c k v r => some ⟨ctxPtr rest, q, r.ptr, c, k, v⟩
      | Frame.R _ c k v l => some ⟨ctxPtr rest, l.ptr, q, c, k, v⟩)
    (hm2 : ∀ y ∈ ctxAddrs (f :: rest), y ≠ f.addr → m' y = m y) :
    RepC m' root (f :: rest) q := by
  have hc := fun y => List.nodup_iff_count_le_one.1 hnd y
  cases f with
  | L a c k v r =>
    simp only [ctxAddrs, Frame.addrs, List.count_append, List.count_cons, beq_iff_eq,
      List.cons_append] at hc
    simp only [Frame.addr] at hm1 hm2
    obtain ⟨h1, h2, h3⟩ := h
    refine ⟨hm1, ?_, ?_⟩
    · apply Rep_frame _ h2
      intro y hy
      apply hm2 y (by simp [ctxAddrs, Frame.addrs, hy])
      rintro rfl
      have := hc y
      have := List.count_pos_iff.2 hy
      simp only [if_true] at *
      omega
    · apply RepC_frame _ h3
      intro y hy
      apply hm2 y (by simp [ctxAddrs, Frame.addrs, hy])
      rintro rfl
      have := hc y
      have := List.count_pos_iff.2 hy
      simp only [if_true] at *
      omega
  | R a c k v l =>
    simp only [ctxAddrs, Frame.addrs, List.count_append, List.count_cons, beq_iff_eq,
      List.cons_append] at hc
    simp only [Frame.addr] at hm1 hm2
    obtain ⟨h1, h2, h3⟩ := h
    refine ⟨hm1, ?_, ?_⟩
    · apply Rep_frame _ h2
      intro y hy
      apply hm2 y (by simp [ctxAddrs, Frame.addrs, hy])
      rintro rfl
      have := hc y
      have := List.count_pos_iff.2 hy
      simp only [if_true] at *
      omega
    · apply RepC_frame _ h3
      intro y hy
      apply hm2 y (by simp [ctxAddrs, Frame.addrs, hy])
      rintro rfl
      have := hc y
      have := List.count_pos_iff.2 hy
      simp only [if_true] at *
      omega

set_option maxHeartbeats 2000000 in
theorem WF.rotate_left {tr : Tree K V} {ctx : Ctx K V} {a b : Nat} {c cb : Color} {k kb : K}
    {v vb : V} {l rl rr : RBNode K V}
    (h : WF tr (plug ctx (node a c k v l (node b cb kb vb rl rr)))) :
    ∃ r m, tree_rotate_left tr (some a) = some { tr with root := r, mem := m } ∧
      WF { tr with root := r, mem := m }
        (plug ctx (node b cb kb vb (node a c k v l rl) rr)) := by
  obtain ⟨h1, h2, h3, h4⟩ := h.split
  obtain ⟨ha, hl, hb, hrl, hrr⟩ := h2
  simp only [ptr_node] at ha hb h1
  have hc := fun y => List.nodup_iff_count_le_one.1 h3 y
  simp only [RBNode.addrs, List.count_append, List.count_cons, beq_iff_eq] at hc
  have hab : a ≠ b := by
    rintro rfl
    have := hc a
    simp only [if_true] at this
    omega
  have hba : b ≠ a := hab.symm
  have hnd' : (ctxAddrs ctx ++ (node b cb kb vb (node a c k v l rl) rr).addrs).Nodup := by
    simpa [RBNode.addrs] using h3
  have h4' : ∀ y ∈ ctxAddrs ctx ++ (node b cb kb vb (node a c k v l rl) rr).addrs,
      y < tr.next := by
    simpa [RBNode.addrs] using h4
  -- untouched parts
  have hfl : ∀ y ∈ l.addrs, y ≠ a ∧ y ≠ b ∧ rl.ptr ≠ some y ∧ ctxPtr ctx ≠ some y := by
    intro y hy
    have := hc y
    have := List.count_pos_iff.2 hy
    refine ⟨?_, ?_, ?_, ?_⟩
    · rintro rfl; simp only [if_true] at *; omega
    · rintro rfl; simp only [if_true] at *; omega
    · intro e
      have := List.count_pos_iff.2 (ptr_mem_addrs e)
      omega
    · intro e
      have := List.count_pos_iff.2 (ctxPtr_mem_addrs e)
      omega
  have hfrr : ∀ y ∈ rr.addrs, y ≠ a ∧ y ≠ b ∧ rl.ptr ≠ some y ∧ ctxPtr ctx ≠ some y := by
    intro y hy
    have := hc y
    have := List.count_pos_iff.2 hy
    refine ⟨?_, ?_, ?_, ?_⟩
    · rintro rfl; simp only [if_true] at *; omega
    · rintro rfl; simp only [if_true] at *; omega
    · intro e
      have := List.count_pos_iff.2 (ptr_mem_addrs e)
      omega
    · intro e
      have := List.count_pos_iff.2 (ctxPtr_mem_addrs e)
      omega
  have hfrl : ∀ y ∈ rl.addrs, y ≠ a ∧ y ≠ b ∧ ctxPtr ctx ≠ some y := by
    intro y hy
    have := hc y
    have := List.count_pos_iff.2 hy
    refine ⟨?_, ?_, ?_⟩
    · rintro rfl; simp only [if_true] at *; omega
    · rintro rfl; simp only [if_true] at *; omega
    · intro e
      have := List.count_pos_iff.2 (ctxPtr_mem_addrs e)
      omega
  have hfc : ∀ y ∈ ctxAddrs ctx, y ≠ a ∧ y ≠ b ∧ rl.ptr ≠ some y := by
    intro y hy
    have := hc y
    have := List.count_pos_iff.2 hy
    refine ⟨?_, ?_, ?_⟩
    · rintro rfl; simp only [if_true] at *; omega
    · rintro rfl; simp only [if_true] at *; omega
    · intro e
      have := List.count_pos_iff.2 (ptr_mem_addrs e)
      omega
  have hndc : (ctxAddrs ctx).Nodup := (List.nodup_append.1 h3).1
  have hndrl : rl.addrs.Nodup :=
    List.nodup_iff_count_le_one.2 (fun y => by have := hc y; omega)
  -- the root of the middle subtree, when there is one
  have hmid : ∀ (m' : Nat → Option (TreeNode K V)),
      (∀ x n, rl.ptr = some x → tr.mem x = some n → m' x = some { n with parent := some a }) →
      (∀ y ∈ rl.addrs, rl.ptr ≠ some y → m' y = tr.mem y) → Rep m' (some a) rl := by
    intro m' hm1 hm2
    cases hp : rl.ptr with
    | none =>
      cases rl with
      | nil => trivial
      | node x cx kx vx xl xr => simp at hp
    | some x =>
      obtain ⟨n, hn, _⟩ := Rep_root hrl hp
      refine Rep_reparent hrl hp hn hndrl (hm1 x n hp hn) ?_
      intro y hy hyx
      apply hm2 y hy
      rw [hp]
      simpa using fun e => hyx e.symm
  -- the final state
  have hfin : ∀ (root' : Ptr) (m' : Nat → Option (TreeNode K V)),
      RepC m' root' ctx (some b) →
      m' a = some ⟨some b, l.ptr, rl.ptr, c, k, v⟩ →
      m' b = some ⟨ctxPtr ctx, some a, rr.ptr, cb, kb, vb⟩ →
      (∀ x n, rl.ptr = some x → tr.mem x = some n → m' x = some { n with parent := some a }) →
      (∀ y, y ≠ a → y ≠ b → rl.ptr ≠ some y → ctxPtr ctx ≠ some y → m' y = tr.mem y) →
      WF { tr with root := root', mem := m' }
        (plug ctx (node b cb kb vb (node a c k v l rl) rr)) := by
    intro root' m' g1 g2 g3 g4 g5
    refine WF.join g1 ⟨g3, ⟨g2, ?_, ?_⟩, ?_⟩ hnd' h4'
    · exact Rep_frame (fun y hy => g5 y (hfl y hy).1 (hfl y hy).2.1 (hfl y hy).2.2.1
        (hfl y hy).2.2.2) hl
    · exact hmid m' g4 (fun y hy hyx => g5 y (hfrl y hy).1 (hfrl y hy).2.1 hyx (hfrl y hy).2.2)
    · exact Rep_frame (fun y hy => g5 y (hfrr y hy).1 (hfrr y hy).2.1 (hfrr y hy).2.2.1
        (hfrr y hy).2.2.2) hrr
  rcases ctx with _ | ⟨f, rest⟩
  · simp only [ctxPtr] at ha hfin
    cases hp : rl.ptr with
    | none =>
      rw [hp] at hb
      simp only [tree_rotate_left, deref_some, deref_none, mem_set_same,
        mem_set_ne _ _ hab, mem_set_ne _ _ hba, ha, hb, set_parent_some, set_left_some, set_right_some,
        Option.bind_eq_bind, Option.some_bind, ne_eq, not_true_eq_false,
        if_false, reduceCtorEq, not_false_eq_true, if_true]
      refine ⟨_, _, rfl, hfin _ _ rfl ?_ ?_ ?_ ?_⟩
      · simp (disch := assumption) only [mem_set_same, mem_set_ne, hp]
      · simp (disch := assumption) only [mem_set_same, mem_set_ne, hp]
      · intro x n hx
        rw [hp] at hx
        cases hx
      · intro y _ _ _ _
        simp (disch := assumption) only [mem_set_ne]
    | some x =>
      rw [hp] at hb
      obtain ⟨n, hn, hnp⟩ := Rep_root hrl hp
      have hxa : x ≠ a := (hfrl x (ptr_mem_addrs hp)).1
      have hxb : x ≠ b := (hfrl x (ptr_mem_addrs hp)).2.1
      have hax := hxa.symm
      have hbx := hxb.symm
      simp only [tree_rotate_left, deref_some, deref_none, mem_set_same,
        mem_set_ne _ _ hab, mem_set_ne _ _ hba, mem_set_ne _ _ hxa, mem_set_ne _ _ hxb,
        mem_set_ne _ _ hax, mem_set_ne _ _ hbx, ha, hb, hn, set_parent_some, set_left_some, set_right_some,
        Option.bind_eq_bind, Option.some_bind, ne_eq, not_true_eq_false,
        if_false, reduceCtorEq, not_false_eq_true, if_true]
      refine ⟨_, _, rfl, hfin _ _ rfl ?_ ?_ ?_ ?_⟩
      · simp (disch := assumption) only [mem_set_same, mem_set_ne, hp]
      · simp (disch := assumption) only [mem_set_same, mem_set_ne, hp]
      · intro x' n' hx' hn'
        rw [hp] at hx'
        cases hx'
        rw [hn] at hn'
        cases hn'
        simp (disch := assumption) only [mem_set_same, mem_set_ne]
      · intro y _ _ hyx _
        have hyx' : y ≠ x := fun e => hyx (by rw [hp, e])
        simp (disch := assumption) only [mem_set_ne]
  · have hpmem : f.addr ∈ ctxAddrs (f :: rest) := by
      cases f <;> simp [ctxAddrs, Frame.addrs, Frame.addr]
    have hpa_a : f.addr ≠ a := (hfc _ hpmem).1
    have hpa_b : f.addr ≠ b := (hfc _ hpmem).2.1
    have ha_pa := hpa_a.symm
    have hb_pa := hpa_b.symm
    have hsib : ∀ t : RBNode K V, (∀ y ∈ t.addrs, y ∈ ctxAddrs (f :: rest)) →
        ¬ (some a = t.ptr) := by
      intro t ht e
      exact (hfc a (ht a (ptr_mem_addrs e.symm))).1 rfl
    cases f with
    | L pa pc pk pv s =>
      obtain ⟨hpa, hs, hrest⟩ := h1
      simp only [ctxPtr, Frame.addr] at ha hfin hpa_a hpa_b ha_pa hb_pa
      cases hp : rl.ptr with
      | none =>
        rw [hp] at hb
        simp only [tree_rotate_left, deref_some, deref_none, mem_set_same,
          mem_set_ne _ _ hab, mem_set_ne _ _ hba, mem_set_ne _ _ hpa_a, mem_set_ne _ _ hpa_b,
          mem_set_ne _ _ ha_pa, mem_set_ne _ _ hb_pa, ha, hb, hpa,
          set_parent_some, set_left_some, set_right_some,
          Option.bind_eq_bind, Option.some_bind, ne_eq, not_true_eq_false,
          if_false, reduceCtorEq, not_false_eq_true, if_true]
        refine ⟨_, _, rfl, hfin _ _ (RepC_rehole ⟨hpa, hs, hrest⟩ hndc ?_ ?_) ?_ ?_ ?_ ?_⟩
        · simp only [Frame.addr, mem_set_same, mem_set_ne _ _ hab, mem_set_ne _ _ hba,
            mem_set_ne _ _ hpa_a, mem_set_ne _ _ hpa_b, mem_set_ne _ _ ha_pa,
            mem_set_ne _ _ hb_pa]
        · intro y hy hyp
          simp only [Frame.addr] at hyp
          simp only [mem_set_ne _ _ (hfc y hy).1, mem_set_ne _ _ (hfc y hy).2.1,
            mem_set_ne _ _ hyp]
        · simp only [mem_set_same, mem_set_ne _ _ hab, mem_set_ne _ _ hba,
            mem_set_ne _ _ hpa_a, mem_set_ne _ _ hpa_b, mem_set_ne _ _ ha_pa,
            mem_set_ne _ _ hb_pa, hp]
        · simp only [mem_set_same, mem_set_ne _ _ hab, mem_set_ne _ _ hba,
            mem_set_ne _ _ hpa_a, mem_set_ne _ _ hpa_b, mem_set_ne _ _ ha_pa,
            mem_set_ne _ _ hb_pa, hp]
        · intro x n hx
          rw [hp] at hx
          cases hx
        · intro y hya hyb _ hyp
          have hyp' : y ≠ pa := fun e => hyp (by rw [e])
          simp only [mem_set_ne _ _ hya, mem_set_ne _ _ hyb, mem_set_ne _ _ hyp']
      | some x =>
        rw [hp] at hb
        obtain ⟨n, hn, hnp⟩ := Rep_root hrl hp
        have hxa : x ≠ a := (hfrl x (ptr_mem_addrs hp)).1
        have hxb : x ≠ b := (hfrl x (ptr_mem_addrs hp)).2.1
        have hax := hxa.symm
        have hbx := hxb.symm
        have hpa_x : pa ≠ x := fun e => (hfc pa hpmem).2.2 (by rw [hp, e])
        have hx_pa := hpa_x.symm
        simp only [tree_rotate_left, deref_some, deref_none, mem_set_same,
          mem_set_ne _ _ hab, mem_set_ne _ _ hba, mem_set_ne _ _ hpa_a, mem_set_ne _ _ hpa_b,
          mem_set_ne _ _ ha_pa, mem_set_ne _ _ hb_pa, mem_set_ne _ _ hxa, mem_set_ne _ _ hxb,
          mem_set_ne _ _ hax, mem_set_ne _ _ hbx, mem_set_ne _ _ hx_pa, mem_set_ne _ _ hpa_x, ha, hb, hpa, hn,
          set_parent_some, set_left_some, set_right_some,
          Option.bind_eq_bind, Option.some_bind, ne_eq, not_true_eq_false,
          if_false, reduceCtorEq, not_false_eq_true, if_true]
        refine ⟨_, _, rfl, hfin _ _ (RepC_rehole ⟨hpa, hs, hrest⟩ hndc ?_ ?_) ?_ ?_ ?_ ?_⟩
        · simp only [Frame.addr, mem_set_same,
          mem_set_ne _ _ hab, mem_set_ne _ _ hba, mem_set_ne _ _ hpa_a, mem_set_ne _ _ hpa_b,
          mem_set_ne _ _ ha_pa, mem_set_ne _ _ hb_pa, mem_set_ne _ _ hxa, mem_set_ne _ _ hxb,
          mem_set_ne _ _ hax, mem_set_ne _ _ hbx, mem_set_ne _ _ hx_pa, mem_set_ne _ _ hpa_x]
        · intro y hy hyp
          simp only [Frame.addr] at hyp
          have hyx : y ≠ x := fun e => (hfc y hy).2.2 (by rw [hp, e])
          simp only [mem_set_ne _ _ (hfc y hy).1, mem_set_ne _ _ (hfc y hy).2.1,
            mem_set_ne _ _ hyp, mem_set_ne _ _ hyx]
        · simp only [mem_set_same,
          mem_set_ne _ _ hab, mem_set_ne _ _ hba, mem_set_ne _ _ hpa_a, mem_set_ne _ _ hpa_b,
          mem_set_ne _ _ ha_pa, mem_set_ne _ _ hb_pa, mem_set_ne _ _ hxa, mem_set_ne _ _ hxb,
          mem_set_ne _ _ hax, mem_set_ne _ _ hbx, mem_set_ne _ _ hx_pa, mem_set_ne _ _ hpa_x, hp]
        · simp only [mem_set_same,
          mem_set_ne _ _ hab, mem_set_ne _ _ hba, mem_set_ne _ _ hpa_a, mem_set_ne _ _ hpa_b,
          mem_set_ne _ _ ha_pa, mem_set_ne _ _ hb_pa, mem_set_ne _ _ hxa, mem_set_ne _ _ hxb,
          mem_set_ne _ _ hax, mem_set_ne _ _ hbx, mem_set_ne _ _ hx_pa, mem_set_ne _ _ hpa_x, hp]
        · intro x' n' hx' hn'
          rw [hp] at hx'
          cases hx'
          rw [hn] at hn'
          cases hn'
          simp only [mem_set_same,
          mem_set_ne _ _ hab, mem_set_ne _ _ hba, mem_set_ne _ _ hpa_a, mem_set_ne _ _ hpa_b,
          mem_set_ne _ _ ha_pa, mem_set_ne _ _ hb_pa, mem_set_ne _ _ hxa, mem_set_ne _ _ hxb,
          mem_set_ne _ _ hax, mem_set_ne _ _ hbx, mem_set_ne _ _ hx_pa, mem_set_ne _ _ hpa_x]
        · intro y hya hyb hyx hyp
          have hyp' : y ≠ pa := fun e => hyp (by rw [e])
          have hyx' : y ≠ x := fun e => hyx (by rw [hp, e])
          simp only [mem_set_ne _ _ hya, mem_set_ne _ _ hyb, mem_set_ne _ _ hyp',
            mem_set_ne _ _ hyx']
    | R pa pc pk pv s =>
      obtain ⟨hpa, hs, hrest⟩ := h1
      have hsa : ¬ (some a = s.ptr) :=
        hsib s (fun y hy => by simp [ctxAddrs, Frame.addrs, hy])
      simp only [ctxPtr, Frame.addr] at ha hfin hpa_a hpa_b ha_pa hb_pa hpmem
      cases hp : rl.ptr with
      | none =>
        rw [hp] at hb
        simp only [tree_rotate_left, deref_some, deref_none, mem_set_same,
          mem_set_ne _ _ hab, mem_set_ne _ _ hba, mem_set_ne _ _ hpa_a, mem_set_ne _ _ hpa_b,
          mem_set_ne _ _ ha_pa, mem_set_ne _ _ hb_pa, ha, hb, hpa, hsa,
          set_parent_some, set_left_some, set_right_some,
          Option.bind_eq_bind, Option.some_bind, ne_eq, not_true_eq_false,
          if_false, reduceCtorEq, not_false_eq_true, if_true]
        refine ⟨_, _, rfl, hfin _ _ (RepC_rehole ⟨hpa, hs, hrest⟩ hndc ?_ ?_) ?_ ?_ ?_ ?_⟩
        · simp only [Frame.addr, mem_set_same,
          mem_set_ne _ _ hab, mem_set_ne _ _ hba, mem_set_ne _ _ hpa_a, mem_set_ne _ _ hpa_b,
          mem_set_ne _ _ ha_pa, mem_set_ne _ _ hb_pa]
        · intro y hy hyp
          simp only [Frame.addr] at hyp
          simp only [mem_set_ne _ _ (hfc y hy).1, mem_set_ne _ _ (hfc y hy).2.1,
            mem_set_ne _ _ hyp]
        · simp only [mem_set_same,
          mem_set_ne _ _ hab, mem_set_ne _ _ hba, mem_set_ne _ _ hpa_a, mem_set_ne _ _ hpa_b,
          mem_set_ne _ _ ha_pa, mem_set_ne _ _ hb_pa, hp]
        · simp only [mem_set_same,
          mem_set_ne _ _ hab, mem_set_ne _ _ hba, mem_set_ne _ _ hpa_a, mem_set_ne _ _ hpa_b,
          mem_set_ne _ _ ha_pa, mem_set_ne _ _ hb_pa, hp]
        · intro x n hx
          rw [hp] at hx
          cases hx
        · intro y hya hyb _ hyp
          have hyp' : y ≠ pa := fun e => hyp (by rw [e])
          simp only [mem_set_ne _ _ hya, mem_set_ne _ _ hyb, mem_set_ne _ _ hyp']
      | some x =>
        rw [hp] at hb
        obtain ⟨n, hn, hnp⟩ := Rep_root hrl hp
        have hxa : x ≠ a := (hfrl x (ptr_mem_addrs hp)).1
        have hxb : x ≠ b := (hfrl x (ptr_mem_addrs hp)).2.1
        have hax := hxa.symm
        have hbx := hxb.symm
        have hpa_x : pa ≠ x := fun e => (hfc pa hpmem).2.2 (by rw [hp, e])
        have hx_pa := hpa_x.symm
        simp only [tree_rotate_left, deref_some, deref_none, mem_set_same,
          mem_set_ne _ _ hab, mem_set_ne _ _ hba, mem_set_ne _ _ hpa_a, mem_set_ne _ _ hpa_b,
          mem_set_ne _ _ ha_pa, mem_set_ne _ _ hb_pa, mem_set_ne _ _ hxa, mem_set_ne _ _ hxb,
          mem_set_ne _ _ hax, mem_set_ne _ _ hbx, mem_set_ne _ _ hx_pa, mem_set_ne _ _ hpa_x, ha, hb, hpa, hn, hsa,
          set_parent_some, set_left_some, set_right_some,
          Option.bind_eq_bind, Option.some_bind, ne_eq, not_true_eq_false,
          if_false, reduceCtorEq, not_false_eq_true, if_true]
        refine ⟨_, _, rfl, hfin _ _ (RepC_rehole ⟨hpa, hs, hrest⟩ hndc ?_ ?_) ?_ ?_ ?_ ?_⟩
        · simp only [Frame.addr, mem_set_same,
          mem_set_ne _ _ hab, mem_set_ne _ _ hba, mem_set_ne _ _ hpa_a, mem_set_ne _ _ hpa_b,
          mem_set_ne _ _ ha_pa, mem_set_ne _ _ hb_pa, mem_set_ne _ _ hxa, mem_set_ne _ _ hxb,
          mem_set_ne _ _ hax, mem_set_ne _ _ hbx, mem_set_ne _ _ hx_pa, mem_set_ne _ _ hpa_x]
        · intro y hy hyp
          simp only [Frame.addr] at hyp
          have hyx : y ≠ x := fun e => (hfc y hy).2.2 (by rw [hp, e])
          simp only [mem_set_ne _ _ (hfc y hy).1, mem_set_ne _ _ (hfc y hy).2.1,
            mem_set_ne _ _ hyp, mem_set_ne _ _ hyx]
        · simp only [mem_set_same,
          mem_set_ne _ _ hab, mem_set_ne _ _ hba, mem_set_ne _ _ hpa_a, mem_set_ne _ _ hpa_b,
          mem_set_ne _ _ ha_pa, mem_set_ne _ _ hb_pa, mem_set_ne _ _ hxa, mem_set_ne _ _ hxb,
          mem_set_ne _ _ hax, mem_set_ne _ _ hbx, mem_set_ne _ _ hx_pa, mem_set_ne _ _ hpa_x, hp]
        · simp only [mem_set_same,
          mem_set_ne _ _ hab, mem_set_ne _ _ hba, mem_set_ne _ _ hpa_a, mem_set_ne _ _ hpa_b,
          mem_set_ne _ _ ha_pa, mem_set_ne _ _ hb_pa, mem_set_ne _ _ hxa, mem_set_ne _ _ hxb,
          mem_set_ne _ _ hax, mem_set_ne _ _ hbx, mem_set_ne _ _ hx_pa, mem_set_ne _ _ hpa_x, hp]
        · intro x' n' hx' hn'
          rw [hp] at hx'
          cases hx'
          rw [hn] at hn'
          cases hn'
          simp only [mem_set_same,
          mem_set_ne _ _ hab, mem_set_ne _ _ hba, mem_set_ne _ _ hpa_a, mem_set_ne _ _ hpa_b,
          mem_set_ne _ _ ha_pa, mem_set_ne _ _ hb_pa, mem_set_ne _ _ hxa, mem_set_ne _ _ hxb,
          mem_set_ne _ _ hax, mem_set_ne _ _ hbx, mem_set_ne _ _ hx_pa, mem_set_ne _ _ hpa_x]
        · intro y hya hyb hyx hyp
          have hyp' : y ≠ pa := fun e => hyp (by rw [e])
          have hyx' : y ≠ x := fun e => hyx (by rw [hp, e])
          simp only [mem_set_ne _ _ hya, mem_set_ne _ _ hyb, mem_set_ne _ _ hyp',
            mem_set_ne _ _ hyx']

set_option maxHeartbeats 2000000 in
theorem WF.rotate_right {tr : Tree K V} {ctx : Ctx K V} {a b : Nat} {c cb : Color} {k kb : K}
    {v vb : V} {l rl rr : RBNode K V}
    (h : WF tr (plug ctx (node a c k v (node b cb kb vb rr rl) l))) :
    ∃ r m, tree_rotate_right tr (some a) = some { tr with root := r, mem := m } ∧
      WF { tr with root := r, mem := m }
        (plug ctx (node b cb kb vb rr (node a c k v rl l))) := by
  obtain ⟨h1, h2, h3, h4⟩ := h.split
  obtain ⟨ha, ⟨hb, hrr, hrl⟩, hl⟩ := h2
  simp only [ptr_node] at ha hb h1
  have hc := fun y => List.nodup_iff_count_le_one.1 h3 y
  simp only [RBNode.addrs, List.count_append, List.count_cons, beq_iff_eq] at hc
  have hab : a ≠ b := by
    rintro rfl
    have := hc a
    simp only [if_true] at this
    omega
  have hba : b ≠ a := hab.symm
  have hnd' : (ctxAddrs ctx ++ (node b cb kb vb rr (node a c k v rl l)).addrs).Nodup := by
    simpa [RBNode.addrs] using h3
  have h4' : ∀ y ∈ ctxAddrs ctx ++ (node b cb kb vb rr (node a c k v rl l)).addrs,
      y < tr.next := by
    simpa [RBNode.addrs] using h4
  -- untouched parts
  have hfl : ∀ y ∈ l.addrs, y ≠ a ∧ y ≠ b ∧ rl.ptr ≠ some y ∧ ctxPtr ctx ≠ some y := by
    intro y hy
    have := hc y
    have := List.count_pos_iff.2 hy
    refine ⟨?_, ?_, ?_, ?_⟩
    · rintro rfl; simp only [if_true] at *; omega
    · rintro rfl; simp only [if_true] at *; omega
    · intro e
      have := List.count_pos_iff.2 (ptr_mem_addrs e)
      omega
    · intro e
      have := List.count_pos_iff.2 (ctxPtr_mem_addrs e)
      omega
  have hfrr : ∀ y ∈ rr.addrs, y ≠ a ∧ y ≠ b ∧ rl.ptr ≠ some y ∧ ctxPtr ctx ≠ some y := by
    intro y hy
    have := hc y
    have := List.count_pos_iff.2 hy
    refine ⟨?_, ?_, ?_, ?_⟩
    · rintro rfl; simp only [if_true] at *; omega
    · rintro rfl; simp only [if_true] at *; omega
    · intro e
      have := List.count_pos_iff.2 (ptr_mem_addrs e)
      omega
    · intro e
      have := List.count_pos_iff.2 (ctxPtr_mem_addrs e)
      omega
  have hfrl : ∀ y ∈ rl.addrs, y ≠ a ∧ y ≠ b ∧ ctxPtr ctx ≠ some y := by
    intro y hy
    have := hc y
    have := List.count_pos_iff.2 hy
    refine ⟨?_, ?_, ?_⟩
    · rintro rfl; simp only [if_true] at *; omega
    · rintro rfl; simp only [if_true] at *; omega
    · intro e
      have := List.count_pos_iff.2 (ctxPtr_mem_addrs e)
      omega
  have hfc : ∀ y ∈ ctxAddrs ctx, y ≠ a ∧ y ≠ b ∧ rl.ptr ≠ some y := by
    intro y hy
    have := hc y
    have := List.count_pos_iff.2 hy
    refine ⟨?_, ?_, ?_⟩
    · rintro rfl; simp only [if_true] at *; omega
    · rintro rfl; simp only [if_true] at *; omega
    · intro e
      have := List.count_pos_iff.2 (ptr_mem_addrs e)
      omega
  have hndc : (ctxAddrs ctx).Nodup := (List.nodup_append.1 h3).1
  have hndrl : rl.addrs.Nodup :=
    List.nodup_iff_count_le_one.2 (fun y => by have := hc y; omega)
  -- the root of the middle subtree, when there is one
  have hmid : ∀ (m' : Nat → Option (TreeNode K V)),
      (∀ x n, rl.ptr = some x → tr.mem x = some n → m' x = some { n with parent := some a }) →
      (∀ y ∈ rl.addrs, rl.ptr ≠ some y → m' y = tr.mem y) → Rep m' (some a) rl := by
    intro m' hm1 hm2
    cases hp : rl.ptr with
    | none =>
      cases rl with
      | nil => trivial
      | node x cx kx vx xl xr => simp at hp
    | some x =>
      obtain ⟨n, hn, _⟩ := Rep_root hrl hp
      refine Rep_reparent hrl hp hn hndrl (hm1 x n hp hn) ?_
      intro y hy hyx
      apply hm2 y hy
      rw [hp]
      simpa using fun e => hyx e.symm
  -- the final state
  have hfin : ∀ (root' : Ptr) (m' : Nat → Option (TreeNode K V)),
      RepC m' root' ctx (some b) →
      m' a = some ⟨some b, rl.ptr, l.ptr, c, k, v⟩ →
      m' b = some ⟨ctxPtr ctx, rr.ptr, some a, cb, kb, vb⟩ →
      (∀ x n, rl.ptr = some x → tr.mem x = some n → m' x = some { n with parent := some a }) →
      (∀ y, y ≠ a → y ≠ b → rl.ptr ≠ some y → ctxPtr ctx ≠ some y → m' y = tr.mem y) →
      WF { tr with root := root', mem := m' }
        (plug ctx (node b cb kb vb rr (node a c k v rl l))) := by
    intro root' m' g1 g2 g3 g4 g5
    refine WF.join g1 ⟨g3, ?_, ⟨g2, ?_, ?_⟩⟩ hnd' h4'
    · exact Rep_frame (fun y hy => g5 y (hfrr y hy).1 (hfrr y hy).2.1 (hfrr y hy).2.2.1
        (hfrr y hy).2.2.2) hrr
    · exact hmid m' g4 (fun y hy hyx => g5 y (hfrl y hy).1 (hfrl y hy).2.1 hyx (hfrl y hy).2.2)
    · exact Rep_frame (fun y hy => g5 y (hfl y hy).1 (hfl y hy).2.1 (hfl y hy).2.2.1
        (hfl y hy).2.2.2) hl
  rcases ctx with _ | ⟨f, rest⟩
  · simp only [ctxPtr] at ha hfin
    cases hp : rl.ptr with
    | none =>
      rw [hp] at hb
      simp only [tree_rotate_right, deref_some, deref_none, mem_set_same,
        mem_set_ne _ _ hab, mem_set_ne _ _ hba, ha, hb, set_parent_some, set_left_some, set_right_some,
        Option.bind_eq_bind, Option.some_bind, ne_eq, not_true_eq_false,
        if_false, reduceCtorEq, not_false_eq_true, if_true]
      refine ⟨_, _, rfl, hfin _ _ rfl ?_ ?_ ?_ ?_⟩
      · simp (disch := assumption) only [mem_set_same, mem_set_ne, hp]
      · simp (disch := assumption) only [mem_set_same, mem_set_ne, hp]
      · intro x n hx
        rw [hp] at hx
        cases hx
      · intro y _ _ _ _
        simp (disch := assumption) only [mem_set_ne]
    | some x =>
      rw [hp] at hb
      obtain ⟨n, hn, hnp⟩ := Rep_root hrl hp
      have hxa : x ≠ a := (hfrl x (ptr_mem_addrs hp)).1
      have hxb : x ≠ b := (hfrl x (ptr_mem_addrs hp)).2.1
      have hax := hxa.symm
      have hbx := hxb.symm
      simp only [tree_rotate_right, deref_some, deref_none, mem_set_same,
        mem_set_ne _ _ hab, mem_set_ne _ _ hba, mem_set_ne _ _ hxa, mem_set_ne _ _ hxb,
        mem_set_ne _ _ hax, mem_set_ne _ _ hbx, ha, hb, hn, set_parent_some, set_left_some, set_right_some,
        Option.bind_eq_bind, Option.some_bind, ne_eq, not_true_eq_false,
        if_false, reduceCtorEq, not_false_eq_true, if_true]
      refine ⟨_, _, rfl, hfin _ _ rfl ?_ ?_ ?_ ?_⟩
      · simp (disch := assumption) only [mem_set_same, mem_set_ne, hp]
      · simp (disch := assumption) only [mem_set_same, mem_set_ne, hp]
      · intro x' n' hx' hn'
        rw [hp] at hx'
        cases hx'
        rw [hn] at hn'
        cases hn'
        simp (disch := assumption) only [mem_set_same, mem_set_ne]
      · intro y _ _ hyx _
        have hyx' : y ≠ x := fun e => hyx (by rw [hp, e])
        simp (disch := assumption) only [mem_set_ne]
  · have hpmem : f.addr ∈ ctxAddrs (f :: rest) := by
      cases f <;> simp [ctxAddrs, Frame.addrs, Frame.addr]
    have hpa_a : f.addr ≠ a := (hfc _ hpmem).1
    have hpa_b : f.addr ≠ b := (hfc _ hpmem).2.1
    have ha_pa := hpa_a.symm
    have hb_pa := hpa_b.symm
    have hsib : ∀ t : RBNode K V, (∀ y ∈ t.addrs, y ∈ ctxAddrs (f :: rest)) →
        ¬ (some a = t.ptr) := by
      intro t ht e
      exact (hfc a (ht a (ptr_mem_addrs e.symm))).1 rfl
    cases f with
    | R pa pc pk pv s =>
      obtain ⟨hpa, hs, hrest⟩ := h1
      simp only [ctxPtr, Frame.addr] at ha hfin hpa_a hpa_b ha_pa hb_pa
      cases hp : rl.ptr with
      | none =>
        rw [hp] at hb
        simp only [tree_rotate_right, deref_some, deref_none, mem_set_same,
          mem_set_ne _ _ hab, mem_set_ne _ _ hba, mem_set_ne _ _ hpa_a, mem_set_ne _ _ hpa_b,
          mem_set_ne _ _ ha_pa, mem_set_ne _ _ hb_pa, ha, hb, hpa,
          set_parent_some, set_left_some, set_right_some,
          Option.bind_eq_bind, Option.some_bind, ne_eq, not_true_eq_false,
          if_false, reduceCtorEq, not_false_eq_true, if_true]
        refine ⟨_, _, rfl, hfin _ _ (RepC_rehole ⟨hpa, hs, hrest⟩ hndc ?_ ?_) ?_ ?_ ?_ ?_⟩
        · simp only [Frame.addr, mem_set_same, mem_set_ne _ _ hab, mem_set_ne _ _ hba,
            mem_set_ne _ _ hpa_a, mem_set_ne _ _ hpa_b, mem_set_ne _ _ ha_pa,
            mem_set_ne _ _ hb_pa]
        · intro y hy hyp
          simp only [Frame.addr] at hyp
          simp only [mem_set_ne _ _ (hfc y hy).1, mem_set_ne _ _ (hfc y hy).2.1,
            mem_set_ne _ _ hyp]
        · simp only [mem_set_same, mem_set_ne _ _ hab, mem_set_ne _ _ hba,
            mem_set_ne _ _ hpa_a, mem_set_ne _ _ hpa_b, mem_set_ne _ _ ha_pa,
            mem_set_ne _ _ hb_pa, hp]
        · simp only [mem_set_same, mem_set_ne _ _ hab, mem_set_ne _ _ hba,
            mem_set_ne _ _ hpa_a, mem_set_ne _ _ hpa_b, mem_set_ne _ _ ha_pa,
            mem_set_ne _ _ hb_pa, hp]
        · intro x n hx
          rw [hp] at hx
          cases hx
        · intro y hya hyb _ hyp
          have hyp' : y ≠ pa := fun e => hyp (by rw [e])
          simp only [mem_set_ne _ _ hya, mem_set_ne _ _ hyb, mem_set_ne _ _ hyp']
      | some x =>
        rw [hp] at hb
        obtain ⟨n, hn, hnp⟩ := Rep_root hrl hp
        have hxa : x ≠ a := (hfrl x (ptr_mem_addrs hp)).1
        have hxb : x ≠ b := (hfrl x (ptr_mem_addrs hp)).2.1
        have hax := hxa.symm
        have hbx := hxb.symm
        have hpa_x : pa ≠ x := fun e => (hfc pa hpmem).2.2 (by rw [hp, e])
        have hx_pa := hpa_x.symm
        simp only [tree_rotate_right, deref_some, deref_none, mem_set_same,
          mem_set_ne _ _ hab, mem_set_ne _ _ hba, mem_set_ne _ _ hpa_a, mem_set_ne _ _ hpa_b,
          mem_set_ne _ _ ha_pa, mem_set_ne _ _ hb_pa, mem_set_ne _ _ hxa, mem_set_ne _ _ hxb,
          mem_set_ne _ _ hax, mem_set_ne _ _ hbx, mem_set_ne _ _ hx_pa, mem_set_ne _ _ hpa_x, ha, hb, hpa, hn,
          set_parent_some, set_left_some, set_right_some,
          Option.bind_eq_bind, Option.some_bind, ne_eq, not_true_eq_false,
          if_false, reduceCtorEq, not_false_eq_true, if_true]
        refine ⟨_, _, rfl, hfin _ _ (RepC_rehole ⟨hpa, hs, hrest⟩ hndc ?_ ?_) ?_ ?_ ?_ ?_⟩
        · simp only [Frame.addr, mem_set_same,
          mem_set_ne _ _ hab, mem_set_ne _ _ hba, mem_set_ne _ _ hpa_a, mem_set_ne _ _ hpa_b,
          mem_set_ne _ _ ha_pa, mem_set_ne _ _ hb_pa, mem_set_ne _ _ hxa, mem_set_ne _ _ hxb,
          mem_set_ne _ _ hax, mem_set_ne _ _ hbx, mem_set_ne _ _ hx_pa, mem_set_ne _ _ hpa_x]
        · intro y hy hyp
          simp only [Frame.addr] at hyp
          have hyx : y ≠ x := fun e => (hfc y hy).2.2 (by rw [hp, e])
          simp only [mem_set_ne _ _ (hfc y hy).1, mem_set_ne _ _ (hfc y hy).2.1,
            mem_set_ne _ _ hyp, mem_set_ne _ _ hyx]
        · simp only [mem_set_same,
          mem_set_ne _ _ hab, mem_set_ne _ _ hba, mem_set_ne _ _ hpa_a, mem_set_ne _ _ hpa_b,
          mem_set_ne _ _ ha_pa, mem_set_ne _ _ hb_pa, mem_set_ne _ _ hxa, mem_set_ne _ _ hxb,
          mem_set_ne _ _ hax, mem_set_ne _ _ hbx, mem_set_ne _ _ hx_pa, mem_set_ne _ _ hpa_x, hp]
        · simp only [mem_set_same,
          mem_set_ne _ _ hab, mem_set_ne _ _ hba, mem_set_ne _ _ hpa_a, mem_set_ne _ _ hpa_b,
          mem_set_ne _ _ ha_pa, mem_set_ne _ _ hb_pa, mem_set_ne _ _ hxa, mem_set_ne _ _ hxb,
          mem_set_ne _ _ hax, mem_set_ne _ _ hbx, mem_set_ne _ _ hx_pa, mem_set_ne _ _ hpa_x, hp]
        · intro x' n' hx' hn'
          rw [hp] at hx'
          cases hx'
          rw [hn] at hn'
          cases hn'
          simp only [mem_set_same,
          mem_set_ne _ _ hab, mem_set_ne _ _ hba, mem_set_ne _ _ hpa_a, mem_set_ne _ _ hpa_b,
          mem_set_ne _ _ ha_pa, mem_set_ne _ _ hb_pa, mem_set_ne _ _ hxa, mem_set_ne _ _ hxb,
          mem_set_ne _ _ hax, mem_set_ne _ _ hbx, mem_set_ne _ _ hx_pa, mem_set_ne _ _ hpa_x]
        · intro y hya hyb hyx hyp
          have hyp' : y ≠ pa := fun e => hyp (by rw [e])
          have hyx' : y ≠ x := fun e => hyx (by rw [hp, e])
          simp only [mem_set_ne _ _ hya, mem_set_ne _ _ hyb, mem_set_ne _ _ hyp',
            mem_set_ne _ _ hyx']
    | L pa pc pk pv s =>
      obtain ⟨hpa, hs, hrest⟩ := h1
      have hsa : ¬ (some a = s.ptr) :=
        hsib s (fun y hy => by simp [ctxAddrs, Frame.addrs, hy])
      simp only [ctxPtr, Frame.addr] at ha hfin hpa_a hpa_b ha_pa hb_pa hpmem
      cases hp : rl.ptr with
      | none =>
        rw [hp] at hb
        simp only [tree_rotate_right, deref_some, deref_none, mem_set_same,
          mem_set_ne _ _ hab, mem_set_ne _ _ hba, mem_set_ne _ _ hpa_a, mem_set_ne _ _ hpa_b,
          mem_set_ne _ _ ha_pa, mem_set_ne _ _ hb_pa, ha, hb, hpa, hsa,
          set_parent_some, set_left_some, set_right_some,
          Option.bind_eq_bind, Option.some_bind, ne_eq, not_true_eq_false,
          if_false, reduceCtorEq, not_false_eq_true, if_true]
        refine ⟨_, _, rfl, hfin _ _ (RepC_rehole ⟨hpa, hs, hrest⟩ hndc ?_ ?_) ?_ ?_ ?_ ?_⟩
        · simp only [Frame.addr, mem_set_same,
          mem_set_ne _ _ hab, mem_set_ne _ _ hba, mem_set_ne _ _ hpa_a, mem_set_ne _ _ hpa_b,
          mem_set_ne _ _ ha_pa, mem_set_ne _ _ hb_pa]
        · intro y hy hyp
          simp only [Frame.addr] at hyp
          simp only [mem_set_ne _ _ (hfc y hy).1, mem_set_ne _ _ (hfc y hy).2.1,
            mem_set_ne _ _ hyp]
        · simp only [mem_set_same,
          mem_set_ne _ _ hab, mem_set_ne _ _ hba, mem_set_ne _ _ hpa_a, mem_set_ne _ _ hpa_b,
          mem_set_ne _ _ ha_pa, mem_set_ne _ _ hb_pa, hp]
        · simp only [mem_set_same,
          mem_set_ne _ _ hab, mem_set_ne _ _ hba, mem_set_ne _ _ hpa_a, mem_set_ne _ _ hpa_b,
          mem_set_ne _ _ ha_pa, mem_set_ne _ _ hb_pa, hp]
        · intro x n hx
          rw [hp] at hx
          cases hx
        · intro y hya hyb _ hyp
          have hyp' : y ≠ pa := fun e => hyp (by rw [e])
          simp only [mem_set_ne _ _ hya, mem_set_ne _ _ hyb, mem_set_ne _ _ hyp']
      | some x =>
        rw [hp] at hb
        obtain ⟨n, hn, hnp⟩ := Rep_root hrl hp
        have hxa : x ≠ a := (hfrl x (ptr_mem_addrs hp)).1
        have hxb : x ≠ b := (hfrl x (ptr_mem_addrs hp)).2.1
        have hax := hxa.symm
        have hbx := hxb.symm
        have hpa_x : pa ≠ x := fun e => (hfc pa hpmem).2.2 (by rw [hp, e])
        have hx_pa := hpa_x.symm
        simp only [tree_rotate_right, deref_some, deref_none, mem_set_same,
          mem_set_ne _ _ hab, mem_set_ne _ _ hba, mem_set_ne _ _ hpa_a, mem_set_ne _ _ hpa_b,
          mem_set_ne _ _ ha_pa, mem_set_ne _ _ hb_pa, mem_set_ne _ _ hxa, mem_set_ne _ _ hxb,
          mem_set_ne _ _ hax, mem_set_ne _ _ hbx, mem_set_ne _ _ hx_pa, mem_set_ne _ _ hpa_x, ha, hb, hpa, hn, hsa,
          set_parent_some, set_left_some, set_right_some,
          Option.bind_eq_bind, Option.some_bind, ne_eq, not_true_eq_false,
          if_false, reduceCtorEq, not_false_eq_true, if_true]
        refine ⟨_, _, rfl, hfin _ _ (RepC_rehole ⟨hpa, hs, hrest⟩ hndc ?_ ?_) ?_ ?_ ?_ ?_⟩
        · simp only [Frame.addr, mem_set_same,
          mem_set_ne _ _ hab, mem_set_ne _ _ hba, mem_set_ne _ _ hpa_a, mem_set_ne _ _ hpa_b,
          mem_set_ne _ _ ha_pa, mem_set_ne _ _ hb_pa, mem_set_ne _ _ hxa, mem_set_ne _ _ hxb,
          mem_set_ne _ _ hax, mem_set_ne _ _ hbx, mem_set_ne _ _ hx_pa, mem_set_ne _ _ hpa_x]
        · intro y hy hyp
          simp only [Frame.addr] at hyp
          have hyx : y ≠ x := fun e => (hfc y hy).2.2 (by rw [hp, e])
          simp only [mem_set_ne _ _ (hfc y hy).1, mem_set_ne _ _ (hfc y hy).2.1,
            mem_set_ne _ _ hyp, mem_set_ne _ _ hyx]
        · simp only [mem_set_same,
          mem_set_ne _ _ hab, mem_set_ne _ _ hba, mem_set_ne _ _ hpa_a, mem_set_ne _ _ hpa_b,
          mem_set_ne _ _ ha_pa, mem_set_ne _ _ hb_pa, mem_set_ne _ _ hxa, mem_set_ne _ _ hxb,
          mem_set_ne _ _ hax, mem_set_ne _ _ hbx, mem_set_ne _ _ hx_pa, mem_set_ne _ _ hpa_x, hp]
        · simp only [mem_set_same,
          mem_set_ne _ _ hab, mem_set_ne _ _ hba, mem_set_ne _ _ hpa_a, mem_set_ne _ _ hpa_b,
          mem_set_ne _ _ ha_pa, mem_set_ne _ _ hb_pa, mem_set_ne _ _ hxa, mem_set_ne _ _ hxb,
          mem_set_ne _ _ hax, mem_set_ne _ _ hbx, mem_set_ne _ _ hx_pa, mem_set_ne _ _ hpa_x, hp]
        · intro x' n' hx' hn'
          rw [hp] at hx'
          cases hx'
          rw [hn] at hn'
          cases hn'
          simp only [mem_set_same,
          mem_set_ne _ _ hab, mem_set_ne _ _ hba, mem_set_ne _ _ hpa_a, mem_set_ne _ _ hpa_b,
          mem_set_ne _ _ ha_pa, mem_set_ne _ _ hb_pa, mem_set_ne _ _ hxa, mem_set_ne _ _ hxb,
          mem_set_ne _ _ hax, mem_set_ne _ _ hbx, mem_set_ne _ _ hx_pa, mem_set_ne _ _ hpa_x]
        · intro y hya hyb hyx hyp
          have hyp' : y ≠ pa := fun e => hyp (by rw [e])
          have hyx' : y ≠ x := fun e => hyx (by rw [hp, e])
          simp only [mem_set_ne _ _ hya, mem_set_ne _ _ hyb, mem_set_ne _ _ hyp',
            mem_set_ne _ _ hyx']

end

section

variable {K V : Type}
open RBNode Color

@[simp] theorem ctxPtr_cons (f : Frame K V) (rest : Ctx K V) :
    ctxPtr (f :: rest) = some f.addr := rfl

@[simp] theorem ctxPtr_nil : ctxPtr ([] : Ctx K V) = none := rfl

/-- In a state that holds a tree, the root pointers of two different subtree
positions differ: the node in focus is not the root of the sibling subtree of
any step of its path. -/
theorem WF.ne_sib {tr : Tree K V} (ctx : Ctx K V) {t : RBNode K V} {x : Nat}
    (h : WF tr (plug ctx t)) (hx : x ∈ t.addrs) (s : RBNode K V)
    (hs : ∀ y ∈ s.addrs, y ∈ ctxAddrs ctx) : ¬ (some x = s.ptr) := by
  intro e
  have h3 := h.split.2.2.1
  have hc := List.nodup_iff_count_le_one.1 h3 x
  simp only [List.count_append] at hc
  have h1 := List.count_pos_iff.2 hx
  have h2 := List.count_pos_iff.2 (hs x (ptr_mem_addrs e.symm))
  omega

theorem WF.ne_focus {tr : Tree K V} (ctx : Ctx K V) {t : RBNode K V} {x : Nat}
    (h : WF tr (plug ctx t)) (hx : x ∈ ctxAddrs ctx) : ¬ (some x = t.ptr) := by
  intro e
  have h3 := h.split.2.2.1
  have hc := List.nodup_iff_count_le_one.1 h3 x
  simp only [List.count_append] at hc
  have h1 := List.count_pos_iff.2 hx
  have h2 := List.count_pos_iff.2 (ptr_mem_addrs e.symm)
  omega

theorem WF.is_red {tr : Tree K V} (ctx : Ctx K V) {s : RBNode K V} (h : WF tr (plug ctx s)) :
    IS_RED tr s.ptr = some s.isRed := by
  cases s with
  | nil => rfl
  | node a c k v l r =>
    simp only [IS_RED, ptr_node, WF.read ctx h, RBNode.isRed]

theorem WF.is_black {tr : Tree K V} (ctx : Ctx K V) {s : RBNode K V} (h : WF tr (plug ctx s)) :
    IS_BLACK tr s.ptr = some s.isBlack := by
  cases s with
  | nil => rfl
  | node a c k v l r =>
    simp only [IS_BLACK, ptr_node, WF.read ctx h, RBNode.isBlack]

set_option maxHeartbeats 1000000 in
theorem WF.insert4 {tr : Tree K V} {f1 f2 : Frame K V} {rest : Ctx K V} {a : Nat} {c : Color}
    {k : K} {v : V} {l r s : RBNode K V}
    (h : WF tr (plug (f1 :: f2 :: rest) (node a c k v l r)))
    (hs : ins_rot f1 f2 (node a c k v l r) = some s) :
    ∃ r' m, tree_insert4 tr (some a) = some { tr with root := r', mem := m } ∧
      WF { tr with root := r', mem := m } (plug rest s) := by
  rcases f1 with ⟨pa, pc, pk, pv, ps⟩ | ⟨pa, pc, pk, pv, ps⟩ <;>
  rcases f2 with ⟨ga, gc, gk, gv, u⟩ | ⟨ga, gc, gk, gv, u⟩
  · simp only [ins_rot, Option.some.injEq] at hs
    subst hs
    have hn := WF.read _ h
    have hp : tr.mem pa = _ := WF.read (Frame.L ga gc gk gv u :: rest) h
    have hg : tr.mem ga = _ := WF.read rest h
    have d1 : ¬ (some a = ps.ptr) :=
      WF.ne_sib _ h (by simp [RBNode.addrs]) ps (fun y hy => by simp [ctxAddrs, Frame.addrs, hy])
    have d2 : ¬ (some pa = u.ptr) :=
      WF.ne_sib (Frame.L ga gc gk gv u :: rest) h (by simp [RBNode.addrs]) u
        (fun y hy => by simp [ctxAddrs, Frame.addrs, hy])
    obtain ⟨m1, e1, w1⟩ := WF.set_color_focus (Frame.L ga gc gk gv u :: rest) h BLACK
    obtain ⟨m2, e2, w2⟩ := WF.set_color_focus rest w1 RED
    have hn2 : m2 a = _ :=
      WF.read (Frame.L pa BLACK pk pv ps :: Frame.L ga RED gk gv u :: rest) w2
    have hp2 : m2 pa = _ := WF.read (Frame.L ga RED gk gv u :: rest) w2
    have hg2 : m2 ga = _ := WF.read rest w2
    obtain ⟨r3, m3, e3, w3⟩ := WF.rotate_right w2
    refine ⟨r3, m3, ?_, w3⟩
    simp only [ctxPtr_cons, Frame.addr, Frame.fill, ptr_node] at hn hp hg hn2 hp2 hg2
    simp only [tree_insert4, tree_insert5, tree_node_grandparent, deref_some, hn, hp, hg, d1, d2,
      e1, e2, e3, hn2, hp2, hg2,
      Option.bind_eq_bind, Option.some_bind, ne_eq, not_true_eq_false, decide_False, decide_True,
      if_false, reduceCtorEq, not_false_eq_true, if_true, Bool.false_eq_true]
  · simp only [ins_rot, Option.some.injEq] at hs
    subst hs
    have hn := WF.read _ h
    have hp : tr.mem pa = _ := WF.read (Frame.R ga gc gk gv u :: rest) h
    have hg : tr.mem ga = _ := WF.read rest h
    have d1 : ¬ (some a = ps.ptr) :=
      WF.ne_sib _ h (by simp [RBNode.addrs]) ps (fun y hy => by simp [ctxAddrs, Frame.addrs, hy])
    have d2 : ¬ (some pa = u.ptr) :=
      WF.ne_sib (Frame.R ga gc gk gv u :: rest) h (by simp [RBNode.addrs]) u
        (fun y hy => by simp [ctxAddrs, Frame.addrs, hy])
    have d3 : ¬ (some pa = l.ptr) :=
      WF.ne_focus (Frame.L a c k v r :: Frame.L pa pc pk pv ps :: Frame.R ga gc gk gv u :: rest) h
        (by simp [ctxAddrs, Frame.addrs])
    have h' : WF tr (plug (Frame.R ga gc gk gv u :: rest) (node pa pc pk pv (node a c k v l r) ps)) := h
    obtain ⟨r1, m1, e1, w1⟩ := WF.rotate_right h'
    have hn1 : m1 a = _ := WF.read (Frame.R ga gc gk gv u :: rest) w1
    have hp1 : m1 pa = _ :=
      WF.read (Frame.R a c k v l :: Frame.R ga gc gk gv u :: rest) w1
    obtain ⟨m2, e2, w2⟩ := WF.set_color_focus (Frame.R ga gc gk gv u :: rest) w1 BLACK
    dsimp only at e2 w2
    obtain ⟨m3, e3, w3⟩ := WF.set_color_focus rest w2 RED
    dsimp only at e3 w3
    have hp3 : m3 pa = _ :=
      WF.read (Frame.R a BLACK k v l :: Frame.R ga RED gk gv u :: rest) w3
    have hn3 : m3 a = _ := WF.read (Frame.R ga RED gk gv u :: rest) w3
    have hg3 : m3 ga = _ := WF.read rest w3
    obtain ⟨r4, m4, e4, w4⟩ := WF.rotate_left w3
    dsimp only at e4 w4
    refine ⟨r4, m4, ?_, w4⟩
    simp only [ctxPtr_cons, Frame.addr, Frame.fill, ptr_node] at hn hp hg hn1 hp1 hp3 hn3 hg3
    simp only [tree_insert4, tree_insert5, tree_node_grandparent, deref_some, hn, hp, hg, d1, d2,
      e1, e2, e3, e4, hn1, hp1, hp3, hn3, hg3, d3,
      Option.bind_eq_bind, Option.some_bind, ne_eq, not_true_eq_false, decide_False, decide_True,
      if_false, reduceCtorEq, not_false_eq_true, if_true, Bool.false_eq_true]
  · simp only [ins_rot, Option.some.injEq] at hs
    subst hs
    have hn := WF.read _ h
    have hp : tr.mem pa = _ := WF.read (Frame.L ga gc gk gv u :: rest) h
    have hg : tr.mem ga = _ := WF.read rest h
    have d1 : ¬ (some a = ps.ptr) :=
      WF.ne_sib _ h (by simp [RBNode.addrs]) ps (fun y hy => by simp [ctxAddrs, Frame.addrs, hy])
    have d2 : ¬ (some pa = u.ptr) :=
      WF.ne_sib (Frame.L ga gc gk gv u :: rest) h (by simp [RBNode.addrs]) u
        (fun y hy => by simp [ctxAddrs, Frame.addrs, hy])
    have d3 : ¬ (some pa = r.ptr) :=
      WF.ne_focus (Frame.R a c k v l :: Frame.R pa pc pk pv ps :: Frame.L ga gc gk gv u :: rest) h
        (by simp [ctxAddrs, Frame.addrs])
    have h' : WF tr (plug (Frame.L ga gc gk gv u :: rest) (node pa pc pk pv ps (node a c k v l r))) := h
    obtain ⟨r1, m1, e1, w1⟩ := WF.rotate_left h'
    have hn1 : m1 a = _ := WF.read (Frame.L ga gc gk gv u :: rest) w1
    have hp1 : m1 pa = _ :=
      WF.read (Frame.L a c k v r :: Frame.L ga gc gk gv u :: rest) w1
    obtain ⟨m2, e2, w2⟩ := WF.set_color_focus (Frame.L ga gc gk gv u :: rest) w1 BLACK
    dsimp only at e2 w2
    obtain ⟨m3, e3, w3⟩ := WF.set_color_focus rest w2 RED
    dsimp only at e3 w3
    have hp3 : m3 pa = _ :=
      WF.read (Frame.L a BLACK k v r :: Frame.L ga RED gk gv u :: rest) w3
    have hn3 : m3 a = _ := WF.read (Frame.L ga RED gk gv u :: rest) w3
    have hg3 : m3 ga = _ := WF.read rest w3
    obtain ⟨r4, m4, e4, w4⟩ := WF.rotate_right w3
    dsimp only at e4 w4
    refine ⟨r4, m4, ?_, w4⟩
    simp only [ctxPtr_cons, Frame.addr, Frame.fill, ptr_node] at hn hp hg hn1 hp1 hp3 hn3 hg3
    simp only [tree_insert4, tree_insert5, tree_node_grandparent, deref_some, hn, hp, hg, d1, d2,
      e1, e2, e3, e4, hn1, hp1, hp3, hn3, hg3, d3,
      Option.bind_eq_bind, Option.some_bind, ne_eq, not_true_eq_false, decide_False, decide_True,
      if_false, reduceCtorEq, not_false_eq_true, if_true, Bool.false_eq_true]
  · simp only [ins_rot, Option.some.injEq] at hs
    subst hs
    have hn := WF.read _ h
    have hp : tr.mem pa = _ := WF.read (Frame.R ga gc gk gv u :: rest) h
    have hg : tr.mem ga = _ := WF.read rest h
    have d1 : ¬ (some a = ps.ptr) :=
      WF.ne_sib _ h (by simp [RBNode.addrs]) ps (fun y hy => by simp [ctxAddrs, Frame.addrs, hy])
    have d2 : ¬ (some pa = u.ptr) :=
      WF.ne_sib (Frame.R ga gc gk gv u :: rest) h (by simp [RBNode.addrs]) u
        (fun y hy => by simp [ctxAddrs, Frame.addrs, hy])
    obtain ⟨m1, e1, w1⟩ := WF.set_color_focus (Frame.R ga gc gk gv u :: rest) h BLACK
    obtain ⟨m2, e2, w2⟩ := WF.set_color_focus rest w1 RED
    have hn2 : m2 a = _ :=
      WF.read (Frame.R pa BLACK pk pv ps :: Frame.R ga RED gk gv u :: rest) w2
    have hp2 : m2 pa = _ := WF.read (Frame.R ga RED gk gv u :: rest) w2
    have hg2 : m2 ga = _ := WF.read rest w2
    obtain ⟨r3, m3, e3, w3⟩ := WF.rotate_left w2
    refine ⟨r3, m3, ?_, w3⟩
    simp only [ctxPtr_cons, Frame.addr, Frame.fill, ptr_node] at hn hp hg hn2 hp2 hg2
    simp only [tree_insert4, tree_insert5, tree_node_grandparent, deref_some, hn, hp, hg, d1, d2,
      e1, e2, e3, hn2, hp2, hg2,
      Option.bind_eq_bind, Option.some_bind, ne_eq, not_true_eq_false, decide_False, decide_True,
      if_false, reduceCtorEq, not_false_eq_true, if_true, Bool.false_eq_true]

end

section

variable {K V : Type}
open RBNode Color

theorem plug_flip (f : Frame K V) (rest : Ctx K V) (t : RBNode K V) :
    plug (f :: rest) t = plug (f.flip t :: rest) f.sib := by
  cases f <;> rfl

theorem Frame.flip_addr (f : Frame K V) (t : RBNode K V) : (f.flip t).addr = f.addr := by
  cases f <;> rfl

theorem Frame.recolor_addr (f : Frame K V) (c : Color) (s : RBNode K V) :
    (f.recolor c s).addr = f.addr := by
  cases f <;> rfl

/-- The fields of the parent of the node in focus. -/
theorem WF.read_parent {tr : Tree K V} {f : Frame K V} {rest : Ctx K V} {t : RBNode K V}
    (h : WF tr (plug (f :: rest) t)) : tr.mem f.addr = some (f.record rest t.ptr) := by
  cases f with
  | L a c k v r => exact WF.read rest h
  | R a c k v l => exact WF.read rest h

theorem Frame.record_parent (f : Frame K V) (rest : Ctx K V) (p : Ptr) :
    (f.record rest p).parent = ctxPtr rest := by
  cases f <;> rfl

theorem Frame.record_color (f : Frame K V) (rest : Ctx K V) (p : Ptr) :
    (f.record rest p).color = f.color := by
  cases f <;> rfl

/-- Recolouring the parent of the node in focus. -/
theorem WF.set_color_parent {tr : Tree K V} {f : Frame K V} {rest : Ctx K V} {t : RBNode K V}
    (h : WF tr (plug (f :: rest) t)) (c' : Color) :
    ∃ m, Rbtree.set_color tr (some f.addr) c' = some { tr with mem := m } ∧
      WF { tr with mem := m } (plug (f.recolor c' f.sib :: rest) t) := by
  cases f with
  | L a c k v r => exact WF.set_color_focus rest h c'
  | R a c k v l => exact WF.set_color_focus rest h c'

/-- Recolouring the root node of the sibling subtree. -/
theorem WF.set_color_sib {tr : Tree K V} {f : Frame K V} {rest : Ctx K V} {t : RBNode K V}
    {ua : Nat} {uc : Color} {uk : K} {uv : V} {ul ur : RBNode K V}
    (h : WF tr (plug (f :: rest) t)) (hu : f.sib = node ua uc uk uv ul ur) (c' : Color) :
    ∃ m, Rbtree.set_color tr (some ua) c' = some { tr with mem := m } ∧
      WF { tr with mem := m } (plug (f.recolor f.color (node ua c' uk uv ul ur) :: rest) t) := by
  cases f with
  | L a c k v r =>
    simp only [Frame.sib] at hu
    subst hu
    exact WF.set_color_focus (Frame.R a c k v t :: rest) h c'
  | R a c k v l =>
    simp only [Frame.sib] at hu
    subst hu
    exact WF.set_color_focus (Frame.L a c k v t :: rest) h c'

theorem WF.grandparent {tr : Tree K V} {f1 f2 : Frame K V} {rest : Ctx K V} {a : Nat}
    {c : Color} {k : K} {v : V} {l r : RBNode K V}
    (h : WF tr (plug (f1 :: f2 :: rest) (node a c k v l r))) :
    tree_node_grandparent tr (some a) = some (some f2.addr) := by
  have hn := WF.read _ h
  have hp := WF.read_parent h
  simp only [tree_node_grandparent, hn, hp, ctxPtr_cons, Frame.record_parent]

theorem WF.grandparent_one {tr : Tree K V} {f1 : Frame K V} {a : Nat}
    {c : Color} {k : K} {v : V} {l r : RBNode K V}
    (h : WF tr (plug [f1] (node a c k v l r))) :
    tree_node_grandparent tr (some a) = some none := by
  have hn := WF.read _ h
  have hp := WF.read_parent h
  simp only [tree_node_grandparent, hn, hp, ctxPtr_cons, Frame.record_parent, ctxPtr_nil]

theorem WF.uncle {tr : Tree K V} {f1 f2 : Frame K V} {rest : Ctx K V} {a : Nat}
    {c : Color} {k : K} {v : V} {l r : RBNode K V}
    (h : WF tr (plug (f1 :: f2 :: rest) (node a c k v l r))) :
    tree_node_uncle tr (some a) = some f2.sib.ptr := by
  have hn := WF.read _ h
  have hg : tr.mem f2.addr = some (f2.record rest (f1.fill (node a c k v l r)).ptr) :=
    WF.read_parent h
  have d : ¬ (some f1.addr = f2.sib.ptr) := by
    have hw : WF tr (plug (f2 :: rest) (f1.fill (node a c k v l r))) := h
    exact WF.ne_sib (f2 :: rest) hw
      (by cases f1 <;> simp [Frame.fill, RBNode.addrs, Frame.addr]) f2.sib
      (fun y hy => by cases f2 <;> simp_all [ctxAddrs, Frame.addrs, Frame.sib])
  simp only [tree_node_uncle, WF.grandparent h, hn, hg, deref_some, ctxPtr_cons]
  cases f2 with
  | L ga gc gk gv u =>
    simp only [Frame.record, ptr_fill, if_true, Frame.sib]
  | R ga gc gk gv u =>
    simp only [Frame.record, ptr_fill, Frame.sib] at d ⊢
    simp only [d, if_false]

end

section

variable {K V : Type}
open RBNode Color

theorem isBlack_fill (f : Frame K V) (t : RBNode K V) :
    (f.fill t).isBlack = decide (f.color = BLACK) := by
  cases f <;> rfl

theorem Frame.recolor_sib (f : Frame K V) (c : Color) (s : RBNode K V) :
    (f.recolor c s).sib = s := by
  cases f <;> rfl

theorem Frame.recolor_color (f : Frame K V) (c : Color) (s : RBNode K V) :
    (f.recolor c s).color = c := by
  cases f <;> rfl

theorem Frame.recolor_recolor (f : Frame K V) (c c' : Color) (s s' : RBNode K V) :
    (f.recolor c s).recolor c' s' = f.recolor c' s' := by
  cases f <;> rfl

theorem isRed_eq_true {s : RBNode K V} (h : s.isRed = true) :
    ∃ a k v l r, s = node a RED k v l r := by
  cases s with
  | nil => simp [RBNode.isRed] at h
  | node a c k v l r =>
    simp only [RBNode.isRed, decide_eq_true_eq] at h
    subst h
    exact ⟨a, k, v, l, r, rfl⟩

set_option maxHeartbeats 1000000 in
/-- `tree_insert1`, run with enough fuel at the node in focus, produces the
state that holds the shape `ins_fix` computes. -/
theorem WF.insert1 : ∀ (n : Nat) (ctx : Ctx K V) (t T' : RBNode K V) (tr : Tree K V)
    (fuel : Nat), ctx.length ≤ n → ins_fix ctx t = some T' → WF tr (plug ctx t) →
    2 * ctx.length + 3 ≤ fuel →
    ∃ r m, tree_insert1 fuel tr t.ptr = some { tr with root := r, mem := m } ∧
      WF { tr with root := r, mem := m } T' := by
  intro n
  induction n with
  | zero =>
    intro ctx t T' tr fuel hlen hfix h hfuel
    cases t with
    | nil => simp [ins_fix] at hfix
    | node a c k v l r =>
      have hctx : ctx = [] := List.length_eq_zero.1 (Nat.le_zero.1 hlen)
      subst hctx
      simp only [ins_fix, Option.some.injEq] at hfix
      subst hfix
      obtain ⟨f', rfl⟩ : ∃ f', fuel = f' + 1 := ⟨fuel - 1, by omega⟩
      have hn := WF.read [] h
      obtain ⟨m, e, w⟩ := WF.set_color_focus [] h BLACK
      refine ⟨tr.root, m, ?_, w⟩
      simp only [tree_insert1, ptr_node, deref_some, hn, ctxPtr_nil, if_true, e]
  | succ n ih =>
    intro ctx t T' tr fuel hlen hfix h hfuel
    cases t with
    | nil => simp [ins_fix] at hfix
    | node a c k v l r =>
      obtain ⟨f', rfl⟩ : ∃ f', fuel = f' + 3 := ⟨fuel - 3, by omega⟩
      have hn := WF.read _ h
      match ctx, hlen, hfix, h, hfuel, hn with
      | [], hlen, hfix, h, hfuel, hn =>
        simp only [ins_fix, Option.some.injEq] at hfix
        subst hfix
        obtain ⟨m, e, w⟩ := WF.set_color_focus [] h BLACK
        refine ⟨tr.root, m, ?_, w⟩
        simp only [tree_insert1, ptr_node, deref_some, hn, ctxPtr_nil, if_true, e]
      | [f1], hlen, hfix, h, hfuel, hn =>
        simp only [ins_fix] at hfix
        have hb := WF.is_black [] h
        cases hc : f1.color with
        | RED => rw [hc] at hfix; simp at hfix
        | BLACK =>
          rw [hc] at hfix
          simp only [Option.some.injEq] at hfix
          subst hfix
          refine ⟨tr.root, tr.mem, ?_, h⟩
          simp only [plug, ptr_fill, isBlack_fill, hc, decide_True] at hb
          simp only [tree_insert1, tree_insert2, ptr_node, deref_some, hn, ctxPtr_cons, hb,
            reduceCtorEq, if_false]
      | f1 :: f2 :: rest, hlen, hfix, h, hfuel, hn =>
        simp only [ins_fix] at hfix
        have hb := WF.is_black (f2 :: rest) h
        cases hc : f1.color with
        | BLACK =>
          rw [hc] at hfix
          simp only [Option.some.injEq] at hfix
          subst hfix
          refine ⟨tr.root, tr.mem, ?_, h⟩
          simp only [plug, ptr_fill, isBlack_fill, hc, decide_True] at hb
          simp only [tree_insert1, tree_insert2, ptr_node, deref_some, hn, ctxPtr_cons, hb,
            reduceCtorEq, if_false]
        | RED =>
          rw [hc] at hfix
          simp only [ptr_fill, isBlack_fill, hc, reduceCtorEq, decide_False] at hb
          have hu := WF.uncle h
          have hur : IS_RED tr f2.sib.ptr = some f2.sib.isRed := by
            have h' := h
            rw [plug, plug_flip] at h'
            exact WF.is_red _ h'
          cases hred : f2.sib.isRed with
          | false =>
            rw [hred] at hfix hur
            simp only [Bool.false_eq_true, if_false] at hfix
            cases hrot : ins_rot f1 f2 (node a c k v l r) with
            | none => rw [hrot] at hfix; simp at hfix
            | some s =>
              rw [hrot] at hfix
              simp only [Option.some.injEq] at hfix
              subst hfix
              obtain ⟨r4, m4, e4, w4⟩ := WF.insert4 h hrot
              refine ⟨r4, m4, ?_, w4⟩
              simp only [tree_insert1, tree_insert2, tree_insert3, ptr_node, deref_some, hn,
                ctxPtr_cons, hb, hu, hur, e4, reduceCtorEq, if_false]
          | true =>
            rw [hred] at hfix hur
            simp only [if_true] at hfix
            obtain ⟨ua, uk, uv, ul, ur, hsib⟩ := isRed_eq_true hred
            rw [hsib] at hu hfix hur
            simp only [ptr_node, RBNode.setColor] at hu hfix hur
            obtain ⟨m1, e1, w1⟩ := WF.set_color_sib
              (show WF tr (plug (f2 :: rest) (f1.fill (node a c k v l r))) from h) hsib BLACK
            have w1' : WF { tr with mem := m1 }
                (plug (f1 :: f2.recolor f2.color (node ua BLACK uk uv ul ur) :: rest)
                  (node a c k v l r)) := w1
            have hn1 : m1 a = _ := WF.read _ w1'
            obtain ⟨m2, e2, w2⟩ := WF.set_color_parent w1' BLACK
            dsimp only at e2 w2
            have hg2 := WF.grandparent w2
            obtain ⟨m3, e3, w3⟩ := WF.set_color_parent
              (show WF { tr with mem := m2 }
                (plug (f2.recolor f2.color (node ua BLACK uk uv ul ur) :: rest)
                  ((f1.recolor BLACK f1.sib).fill (node a c k v l r))) from w2) RED
            dsimp only at e3 w3 hg2
            simp only [Frame.recolor_recolor, Frame.recolor_sib, Frame.recolor_addr] at w3 e3 hg2
            have w3' : WF { tr with mem := m3 }
                (plug rest ((f2.recolor RED (node ua BLACK uk uv ul ur)).fill
                  ((f1.recolor BLACK f1.sib).fill (node a c k v l r)))) := w3
            simp only [List.length_cons] at hlen hfuel
            obtain ⟨r4, m4, e4, w4⟩ := ih rest _ T' { tr with mem := m3 } f' (by omega) hfix w3'
              (by omega)
            dsimp only at e4 w4
            simp only [ptr_fill, Frame.recolor_addr] at e4
            refine ⟨r4, m4, ?_, w4⟩
            simp only [ctxPtr_cons] at hn hn1
            simp only [tree_insert1, tree_insert2, tree_insert3, ptr_node, deref_some, hn,
              hb, hu, hur, e1, hn1, e2, hg2, e3, e4, reduceCtorEq, if_false,
              Option.bind_eq_bind, Option.some_bind]

end

section

variable {K V : Type}
open RBNode Color

theorem descend_plug (cmp : K → K → Int) (key : K) :
    ∀ (t : RBNode K V) (ctx : Ctx K V),
      plug (descend cmp key t ctx).1 (descend cmp key t ctx).2 = plug ctx t := by
  intro t
  induction t with
  | nil => intro ctx; rfl
  | node a c k v l r ihl ihr =>
    intro ctx
    unfold descend
    split
    · rw [ihl]; rfl
    · split
      · rw [ihr]; rfl
      · rfl

theorem descend_length (cmp : K → K → Int) (key : K) :
    ∀ (t : RBNode K V) (ctx : Ctx K V),
      (descend cmp key t ctx).1.length ≤ ctx.length + t.depth := by
  intro t
  induction t with
  | nil => intro ctx; simp [descend]
  | node a c k v l r ihl ihr =>
    intro ctx
    unfold descend
    split
    · have := ihl (Frame.L a c k v r :: ctx)
      simp only [List.length_cons, RBNode.depth] at this ⊢
      omega
    · split
      · have := ihr (Frame.R a c k v l :: ctx)
        simp only [List.length_cons, RBNode.depth] at this ⊢
        omega
      · simp only [RBNode.depth]; omega

theorem WF.slot_get_ctx {tr : Tree K V} (ctx : Ctx K V) {t : RBNode K V}
    (h : WF tr (plug ctx t)) : slot_get tr (slotOf ctx) = some t.ptr := by
  cases ctx with
  | nil => simp only [slotOf, Rbtree.slot_get, h.root, plug]
  | cons f rest =>
    have hp := WF.read_parent h
    cases f with
    | L a c k v r =>
      simp only [Frame.addr] at hp
      simp only [slotOf, Rbtree.slot_get, hp, Option.map_some', Frame.record]
    | R a c k v l =>
      simp only [Frame.addr] at hp
      simp only [slotOf, Rbtree.slot_get, hp, Option.map_some', Frame.record]

/-- The descent loop of `tree_insert` follows `descend`. -/
theorem WF.insert_loop {tr : Tree K V} (key : K) :
    ∀ (t : RBNode K V) (ctx : Ctx K V) (fuel : Nat), WF tr (plug ctx t) → t.depth ≤ fuel →
      tree_insert_loop tr key fuel (slotOf ctx) (ctxPtr ctx) =
        some (match descend tr.cmp key t ctx with
          | (ctx', RBNode.nil) => Sum.inr (slotOf ctx', ctxPtr ctx')
          | (_, RBNode.node _ _ _ v _ _) => Sum.inl v) := by
  intro t
  induction t with
  | nil =>
    intro ctx fuel h _
    have hs := WF.slot_get_ctx ctx h
    rw [tree_insert_loop]
    simp only [hs, ptr_nil, descend]
  | node a c k v l r ihl ihr =>
    intro ctx fuel h hf
    have hs := WF.slot_get_ctx ctx h
    have hn := WF.read ctx h
    simp only [RBNode.depth] at hf
    obtain ⟨f', rfl⟩ : ∃ f', fuel = f' + 1 := ⟨fuel - 1, by omega⟩
    rw [tree_insert_loop]
    simp only [hs, ptr_node, hn]
    unfold descend
    split
    · exact ihl (Frame.L a c k v r :: ctx) f' h (by omega)
    · split
      · exact ihr (Frame.R a c k v l :: ctx) f' h (by omega)
      · rfl

/-- Linking a freshly created RED node into the empty place below a path. -/
theorem WF.link_leaf {tr : Tree K V} (ctx : Ctx K V) (h : WF tr (plug ctx RBNode.nil))
    (key : K) (value : V) :
    ∃ r m,
      ((slot_set (tree_node_create tr key value).1 (slotOf ctx) (some tr.next)).bind fun tr2 =>
        (set_parent tr2 (some tr.next) (ctxPtr ctx)).bind fun tr3 =>
          set_color tr3 (some tr.next) RED) =
        some { tr with root := r, mem := m, next := tr.next + 1 } ∧
      WF { tr with root := r, mem := m, next := tr.next + 1 }
        (plug ctx (node tr.next RED key value RBNode.nil RBNode.nil)) := by
  obtain ⟨h1, _, h3, h4⟩ := h.split
  simp only [RBNode.addrs, List.append_nil] at h3 h4
  have hfresh : ∀ y ∈ ctxAddrs ctx, y ≠ tr.next := fun y hy => Nat.ne_of_lt (h4 y hy)
  have hnd' : (ctxAddrs ctx ++
      (node tr.next RED key value RBNode.nil RBNode.nil : RBNode K V).addrs).Nodup := by
    simp only [RBNode.addrs, List.nil_append]
    rw [List.nodup_append]
    refine ⟨h3, List.nodup_singleton _, ?_⟩
    intro y hy hy'
    simp only [List.mem_singleton] at hy'
    exact hfresh y hy hy'
  have h4' : ∀ y ∈ ctxAddrs ctx ++
      (node tr.next RED key value RBNode.nil RBNode.nil : RBNode K V).addrs,
      y < tr.next + 1 := by
    intro y hy
    simp only [RBNode.addrs, List.nil_append, List.mem_append, List.mem_singleton] at hy
    rcases hy with hy | hy
    · exact Nat.lt_succ_of_lt (h4 y hy)
    · omega
  cases ctx with
  | nil =>
    simp only [slotOf, slot_set, tree_node_create, set_parent_some, set_color_some,
      mem_set_same, Option.some_bind, ctxPtr_nil]
    refine ⟨_, _, rfl, WF.join ?_ ?_ hnd' h4'⟩
    · rfl
    · exact ⟨by simp only [mem_set_same, ptr_nil, ctxPtr_nil], trivial, trivial⟩
  | cons f rest =>
    have hpn : f.addr ≠ tr.next :=
      hfresh _ (by cases f <;> simp [ctxAddrs, Frame.addrs, Frame.addr])
    have hnp := hpn.symm
    cases f with
    | L pa pc pk pv s =>
      have hpa := h1.1
      simp only [Frame.addr] at hpn hnp
      simp only [slotOf, slot_set, tree_node_create, set_parent_some, set_color_some,
        set_left_some, mem_set_same, mem_set_ne _ _ hpn, mem_set_ne _ _ hnp, hpa,
        Option.some_bind, ctxPtr_cons, Frame.addr]
      refine ⟨_, _, rfl, WF.join (RepC_rehole h1 h3 ?_ ?_) ?_ hnd' h4'⟩
      · simp only [Frame.addr, mem_set_same, mem_set_ne _ _ hpn, mem_set_ne _ _ hnp, ptr_nil,
          ptr_node]
      · intro y hy hyp
        simp only [Frame.addr] at hyp
        simp only [mem_set_ne _ _ (hfresh y hy), mem_set_ne _ _ hyp]
      · exact ⟨by simp only [mem_set_same, ptr_nil, ctxPtr_cons, Frame.addr], trivial, trivial⟩
    | R pa pc pk pv s =>
      have hpa := h1.1
      simp only [Frame.addr] at hpn hnp
      simp only [slotOf, slot_set, tree_node_create, set_parent_some, set_color_some,
        set_right_some, mem_set_same, mem_set_ne _ _ hpn, mem_set_ne _ _ hnp, hpa,
        Option.some_bind, ctxPtr_cons, Frame.addr]
      refine ⟨_, _, rfl, WF.join (RepC_rehole h1 h3 ?_ ?_) ?_ hnd' h4'⟩
      · simp only [Frame.addr, mem_set_same, mem_set_ne _ _ hpn, mem_set_ne _ _ hnp, ptr_nil,
          ptr_node]
      · intro y hy hyp
        simp only [Frame.addr] at hyp
        simp only [mem_set_ne _ _ (hfresh y hy), mem_set_ne _ _ hyp]
      · exact ⟨by simp only [mem_set_same, ptr_nil, ctxPtr_cons, Frame.addr], trivial, trivial⟩

end

section

variable {K V : Type}
open RBNode Color

/-- `tree_insert` of a key that compares equal to a stored key: the stored
value is returned and the state is unchanged. -/
theorem WF.insert_found {tr : Tree K V} {T : RBNode K V} {key : K} (value : V)
    {ctx : Ctx K V} {a : Nat} {c : Color} {k' : K} {v' : V} {l r : RBNode K V} {fuel : Nat}
    (h : WF tr T) (hd : descend tr.cmp key T [] = (ctx, node a c k' v' l r))
    (hf : T.depth ≤ fuel) : tree_insert fuel tr key value = some (v', tr) := by
  have hl := WF.insert_loop key T [] fuel h hf
  rw [hd] at hl
  have hl' : tree_insert_loop tr key fuel Slot.root none = some (Sum.inl v') := hl
  simp only [tree_insert, hl']

/-- `tree_insert` of a key that compares equal to no stored key. -/
theorem WF.insert_new_eq {tr : Tree K V} {T T' : RBNode K V} {key : K} {value : V}
    {ctx : Ctx K V} {fuel : Nat}
    (h : WF tr T) (hd : descend tr.cmp key T [] = (ctx, RBNode.nil))
    (hfix : ins_fix ctx (node tr.next RED key value RBNode.nil RBNode.nil) = some T')
    (hf : 2 * T.depth + 3 ≤ fuel) :
    ∃ r m, tree_insert fuel tr key value =
        some (value, { tr with root := r, mem := m, next := tr.next + 1,
                               size := tr.size + 1 }) ∧
      WF { tr with root := r, mem := m, next := tr.next + 1, size := tr.size + 1 } T' := by
  have hl := WF.insert_loop key T [] fuel h (by omega)
  rw [hd] at hl
  have hl' : tree_insert_loop tr key fuel Slot.root none =
      some (Sum.inr (slotOf ctx, ctxPtr ctx)) := hl
  have hplug : plug ctx RBNode.nil = T := by
    have := descend_plug tr.cmp key T []
    rw [hd] at this
    exact this
  have hlen : ctx.length ≤ T.depth := by
    have := descend_length tr.cmp key T []
    rw [hd] at this
    simpa using this
  have h0 : WF tr (plug ctx RBNode.nil) := hplug ▸ h
  obtain ⟨r1, m1, e1, w1⟩ := WF.link_leaf ctx h0 key value
  obtain ⟨r2, m2, e2, w2⟩ := WF.insert1 ctx.length ctx _ T' _ fuel (Nat.le_refl _) hfix w1
    (by omega)
  dsimp only at e2 w2
  simp only [ptr_node] at e2
  refine ⟨r2, m2, ?_, ⟨w2.root, w2.rep, w2.nodup, w2.alloc⟩⟩
  have hp2 : (tree_node_create tr key value).2 = some tr.next := rfl
  rcases h2 : slot_set (tree_node_create tr key value).1 (slotOf ctx) (some tr.next)
    with _ | tr2
  · rw [h2] at e1; simp at e1
  rw [h2] at e1
  simp only [Option.some_bind] at e1
  rcases h3 : set_parent tr2 (some tr.next) (ctxPtr ctx) with _ | tr3
  · rw [h3] at e1; simp at e1
  rw [h3] at e1
  simp only [Option.some_bind] at e1
  simp only [tree_insert, hl', hp2, h2, h3, e1, e2, Option.bind_eq_bind, Option.some_bind]

end

section

variable {K V : Type}
open RBNode Color

theorem WF.sibling {tr : Tree K V} {f : Frame K V} {rest : Ctx K V} {a : Nat}
    {c : Color} {k : K} {v : V} {l r : RBNode K V}
    (h : WF tr (plug (f :: rest) (node a c k v l r))) :
    tree_node_sibling tr (some a) = some f.sib.ptr := by
  have hn := WF.read _ h
  have hp := WF.read_parent h
  have d : ¬ (some a = f.sib.ptr) :=
    WF.ne_sib _ h (by simp [RBNode.addrs]) f.sib
      (fun y hy => by cases f <;> simp_all [ctxAddrs, Frame.addrs, Frame.sib])
  simp only [tree_node_sibling, hn, hp, ctxPtr_cons]
  cases f with
  | L pa pc pk pv s => simp only [Frame.record, ptr_node, if_true, Frame.sib]
  | R pa pc pk pv s =>
    simp only [Frame.record, ptr_node, Frame.sib] at d ⊢
    simp only [d, if_false]

set_option maxHeartbeats 1000000 in
theorem WF.delete6 {tr : Tree K V} {ctx ctx' : Ctx K V} {a : Nat} {c : Color} {k : K} {v : V}
    {l r : RBNode K V} (h : WF tr (plug ctx (node a c k v l r))) (hd : del6 ctx = some ctx') :
    ∃ r' m, tree_delete6 tr (some a) = some { tr with root := r', mem := m } ∧
      WF { tr with root := r', mem := m } (plug ctx' (node a c k v l r)) := by
  unfold del6 at hd
  split at hd
  · rename_i pa pc pk pv sa sc sk sv sl ra rc rk rv rl rr rest
    simp only [Option.some.injEq] at hd
    subst hd
    have hsib := WF.sibling h
    have hn := WF.read _ h
    have hp : tr.mem pa = _ := WF.read rest h
    obtain ⟨m1, e1, w1⟩ := WF.set_color_focus (Frame.R pa pc pk pv (node a c k v l r) :: rest) h pc
    have hn1 : m1 a = _ :=
      WF.read (Frame.L pa pc pk pv (node sa pc sk sv sl (node ra rc rk rv rl rr)) :: rest) w1
    obtain ⟨m2, e2, w2⟩ := WF.set_color_focus rest w1 BLACK
    dsimp only at e2 w2
    have hn2 : m2 a = _ :=
      WF.read (Frame.L pa BLACK pk pv (node sa pc sk sv sl (node ra rc rk rv rl rr)) :: rest) w2
    have hp2 : m2 pa = _ := WF.read rest w2
    have hs2 : m2 sa = _ :=
      WF.read (Frame.R pa BLACK pk pv (node a c k v l r) :: rest) w2
    obtain ⟨m3, e3, w3⟩ := WF.set_color_focus
      (Frame.R sa pc sk sv sl :: Frame.R pa BLACK pk pv (node a c k v l r) :: rest) w2 BLACK
    dsimp only at e3 w3
    have hn3 : m3 a = _ :=
      WF.read (Frame.L pa BLACK pk pv (node sa pc sk sv sl (node ra BLACK rk rv rl rr)) :: rest) w3
    have w3' : WF { tr with mem := m3 } (plug rest (node pa BLACK pk pv (node a c k v l r)
        (node sa pc sk sv sl (node ra BLACK rk rv rl rr)))) := w3
    obtain ⟨r4, m4, e4, w4⟩ := WF.rotate_left w3'
    dsimp only at e4 w4
    refine ⟨r4, m4, ?_, w4⟩
    simp only [ctxPtr_cons, Frame.addr, Frame.fill, Frame.sib, ptr_node] at hn hp hsib hn1 hn2 hp2 hs2 hn3
    simp only [tree_delete6, hsib, deref_some, hn, hp, e1, hn1, e2, hn2, hp2, hs2, e3, hn3, e4,
      Option.bind_eq_bind, Option.some_bind, if_true]
  · rename_i pa pc pk pv sa sc sk sv la lc lk lv ll lr sr rest
    simp only [Option.some.injEq] at hd
    subst hd
    have hsib := WF.sibling h
    have hn := WF.read _ h
    have hp : tr.mem pa = _ := WF.read rest h
    have d : ¬ (some a = some sa) :=
      WF.ne_sib _ h (by simp [RBNode.addrs])
        (node sa sc sk sv (node la lc lk lv ll lr) sr)
        (fun y hy => by simp [ctxAddrs, Frame.addrs, hy])
    obtain ⟨m1, e1, w1⟩ := WF.set_color_focus (Frame.L pa pc pk pv (node a c k v l r) :: rest) h pc
    have hn1 : m1 a = _ :=
      WF.read (Frame.R pa pc pk pv (node sa pc sk sv (node la lc lk lv ll lr) sr) :: rest) w1
    obtain ⟨m2, e2, w2⟩ := WF.set_color_focus rest w1 BLACK
    dsimp only at e2 w2
    have hn2 : m2 a = _ :=
      WF.read (Frame.R pa BLACK pk pv (node sa pc sk sv (node la lc lk lv ll lr) sr) :: rest) w2
    have hp2 : m2 pa = _ := WF.read rest w2
    have hs2 : m2 sa = _ :=
      WF.read (Frame.L pa BLACK pk pv (node a c k v l r) :: rest) w2
    obtain ⟨m3, e3, w3⟩ := WF.set_color_focus
      (Frame.L sa pc sk sv sr :: Frame.L pa BLACK pk pv (node a c k v l r) :: rest) w2 BLACK
    dsimp only at e3 w3
    have hn3 : m3 a = _ :=
      WF.read (Frame.R pa BLACK pk pv (node sa pc sk sv (node la BLACK lk lv ll lr) sr) :: rest) w3
    have w3' : WF { tr with mem := m3 } (plug rest (node pa BLACK pk pv
        (node sa pc sk sv (node la BLACK lk lv ll lr) sr) (node a c k v l r))) := w3
    obtain ⟨r4, m4, e4, w4⟩ := WF.rotate_right w3'
    dsimp only at e4 w4
    refine ⟨r4, m4, ?_, w4⟩
    simp only [ctxPtr_cons, Frame.addr, Frame.fill, Frame.sib, ptr_node] at hn hp hsib hn1 hn2 hp2 hs2 hn3
    simp only [tree_delete6, hsib, deref_some, hn, hp, e1, hn1, e2, hn2, hp2, hs2, e3, hn3, e4, d,
      Option.bind_eq_bind, Option.some_bind, if_true, if_false]
  · simp at hd

end

section

variable {K V : Type}
open RBNode Color

theorem sibRotR_cond {s : RBNode K V} (h : (s.isBlack && s.right.isBlack && s.left.isRed) = true) :
    ∃ sa sk sv la lk lv ll lr sr, s = node sa BLACK sk sv (node la RED lk lv ll lr) sr ∧
      sr.isBlack = true := by
  cases s with
  | nil => simp [RBNode.isBlack, RBNode.left, RBNode.isRed] at h
  | node sa sc sk sv sl sr =>
    simp only [RBNode.isBlack, RBNode.right, RBNode.left, Bool.and_eq_true,
      decide_eq_true_eq] at h
    obtain ⟨⟨h1, h2⟩, h3⟩ := h
    obtain ⟨la, lk, lv, ll, lr, rfl⟩ := isRed_eq_true h3
    subst h1
    exact ⟨sa, sk, sv, la, lk, lv, ll, lr, sr, rfl, h2⟩

theorem sibRotL_cond {s : RBNode K V} (h : (s.isBlack && s.left.isBlack && s.right.isRed) = true) :
    ∃ sa sk sv sl ra rk rv rl rr, s = node sa BLACK sk sv sl (node ra RED rk rv rl rr) ∧
      sl.isBlack = true := by
  cases s with
  | nil => simp [RBNode.isBlack, RBNode.right, RBNode.isRed] at h
  | node sa sc sk sv sl sr =>
    simp only [RBNode.isBlack, RBNode.right, RBNode.left, Bool.and_eq_true,
      decide_eq_true_eq] at h
    obtain ⟨⟨h1, h2⟩, h3⟩ := h
    obtain ⟨ra, rk, rv, rl, rr, rfl⟩ := isRed_eq_true h3
    subst h1
    exact ⟨sa, sk, sv, sl, ra, rk, rv, rl, rr, rfl, h2⟩

set_option maxHeartbeats 1000000 in
theorem WF.delete5_L {tr : Tree K V} {rest ctx' : Ctx K V} {pa : Nat} {pc : Color} {pk : K}
    {pv : V} {s : RBNode K V} {a : Nat} {c : Color} {k : K} {v : V} {l r : RBNode K V}
    (h : WF tr (plug (Frame.L pa pc pk pv s :: rest) (node a c k v l r)))
    (hd : del5 (Frame.L pa pc pk pv s :: rest) = some ctx') :
    ∃ r' m, tree_delete5 tr (some a) = some { tr with root := r', mem := m } ∧
      WF { tr with root := r', mem := m } (plug ctx' (node a c k v l r)) := by
  simp only [del5] at hd
  have hsib := WF.sibling h
  have hn := WF.read _ h
  have hp : tr.mem pa = _ := WF.read rest h
  have hsb : IS_BLACK tr s.ptr = some s.isBlack :=
    WF.is_black (Frame.R pa pc pk pv (node a c k v l r) :: rest) h
  simp only [ctxPtr_cons, Frame.addr, Frame.fill, Frame.sib, ptr_node] at hn hp hsib
  by_cases hcond : (s.isBlack && s.right.isBlack && s.left.isRed) = true
  · rw [if_pos hcond] at hd
    obtain ⟨sa, sk, sv, la, lk, lv, ll, lr, sr, rfl, hsr⟩ := sibRotR_cond hcond
    simp only [sibRotR] at hd
    have hs : tr.mem sa = _ := WF.read (Frame.R pa pc pk pv (node a c k v l r) :: rest) h
    have hrb : IS_BLACK tr sr.ptr = some sr.isBlack :=
      WF.is_black (Frame.R sa BLACK sk sv (node la RED lk lv ll lr) ::
        Frame.R pa pc pk pv (node a c k v l r) :: rest) h
    have hlr : IS_RED tr (node la RED lk lv ll lr).ptr = _ :=
      WF.is_red (Frame.L sa BLACK sk sv sr ::
        Frame.R pa pc pk pv (node a c k v l r) :: rest) h
    obtain ⟨m1, e1, w1⟩ :=
      WF.set_color_focus (Frame.R pa pc pk pv (node a c k v l r) :: rest) h RED
    have hs1 : m1 sa = _ := WF.read (Frame.R pa pc pk pv (node a c k v l r) :: rest) w1
    obtain ⟨m2, e2, w2⟩ := WF.set_color_focus
      (Frame.L sa RED sk sv sr :: Frame.R pa pc pk pv (node a c k v l r) :: rest) w1 BLACK
    dsimp only at e2 w2
    have w2' : WF { tr with mem := m2 } (plug (Frame.R pa pc pk pv (node a c k v l r) :: rest)
        (node sa RED sk sv (node la BLACK lk lv ll lr) sr)) := w2
    obtain ⟨r3, m3, e3, w3⟩ := WF.rotate_right w2'
    dsimp only at e3 w3
    have w3' : WF { tr with root := r3, mem := m3 }
        (plug (Frame.L pa pc pk pv (node la BLACK lk lv ll (node sa RED sk sv lr sr)) :: rest)
          (node a c k v l r)) := w3
    obtain ⟨r4, m4, e4, w4⟩ := WF.delete6 w3' hd
    dsimp only at e4 w4
    refine ⟨r4, m4, ?_, w4⟩
    simp only [ptr_node, RBNode.isBlack, RBNode.isRed, decide_True] at hsb hlr hs hs1
    rw [hsr] at hrb
    simp only [tree_delete5, ptr_node, hsib, hsb, deref_some, hn, hp, hs, hrb, hlr, e1, hs1, e2, e3, e4,
      Option.bind_eq_bind, Option.some_bind, if_true, ne_eq, reduceCtorEq, not_false_eq_true]
  · rw [if_neg hcond] at hd
    obtain ⟨r4, m4, e4, w4⟩ := WF.delete6 h hd
    refine ⟨r4, m4, ?_, w4⟩
    cases s with
    | nil => simp [del6] at hd
    | node sa sc sk sv sl sr =>
      have hs : tr.mem sa = _ := WF.read (Frame.R pa pc pk pv (node a c k v l r) :: rest) h
      have hrb : IS_BLACK tr sr.ptr = some sr.isBlack :=
        WF.is_black (Frame.R sa sc sk sv sl ::
          Frame.R pa pc pk pv (node a c k v l r) :: rest) h
      have hlr : IS_RED tr sl.ptr = some sl.isRed :=
        WF.is_red (Frame.L sa sc sk sv sr ::
          Frame.R pa pc pk pv (node a c k v l r) :: rest) h
      have d : ¬ (some a = some sa) :=
        WF.ne_sib _ h (by simp [RBNode.addrs]) (node sa sc sk sv sl sr)
          (fun y hy => by simp [ctxAddrs, Frame.addrs, hy])
      simp only [ptr_node, RBNode.isBlack, RBNode.left, RBNode.right] at hsb hs hcond hsib
      cases sc with
      | RED =>
        simp only [reduceCtorEq, decide_False] at hsb
        simp only [tree_delete5, ptr_node, hsib, hsb, e4, Option.bind_eq_bind, Option.some_bind,
          Bool.false_eq_true, if_false]
      | BLACK =>
        simp only [decide_True, Bool.true_and, Bool.and_eq_true, not_and,
          Bool.not_eq_true] at hsb hcond
        cases hsrb : sr.isBlack with
        | false =>
          rw [hsrb] at hrb
          simp only [tree_delete5, ptr_node, hsib, hsb, deref_some, hn, hp, hs, hrb, d, e4,
            Option.bind_eq_bind, Option.some_bind, if_true, if_false, ne_eq, reduceCtorEq,
            not_false_eq_true, Bool.false_eq_true]
        | true =>
          rw [hsrb] at hrb
          rw [hcond hsrb] at hlr
          simp only [tree_delete5, ptr_node, hsib, hsb, deref_some, hn, hp, hs, hrb, hlr, d, e4,
            Option.bind_eq_bind, Option.some_bind, if_true, if_false, ne_eq, reduceCtorEq,
            not_false_eq_true, Bool.false_eq_true]

set_option maxHeartbeats 1000000 in
theorem WF.delete5_R {tr : Tree K V} {rest ctx' : Ctx K V} {pa : Nat} {pc : Color} {pk : K}
    {pv : V} {s : RBNode K V} {a : Nat} {c : Color} {k : K} {v : V} {l r : RBNode K V}
    (h : WF tr (plug (Frame.R pa pc pk pv s :: rest) (node a c k v l r)))
    (hd : del5 (Frame.R pa pc pk pv s :: rest) = some ctx') :
    ∃ r' m, tree_delete5 tr (some a) = some { tr with root := r', mem := m } ∧
      WF { tr with root := r', mem := m } (plug ctx' (node a c k v l r)) := by
  simp only [del5] at hd
  have hsib := WF.sibling h
  have hn := WF.read _ h
  have hp : tr.mem pa = _ := WF.read rest h
  have hsb : IS_BLACK tr s.ptr = some s.isBlack :=
    WF.is_black (Frame.L pa pc pk pv (node a c k v l r) :: rest) h
  have d : ¬ (some a = s.ptr) :=
    WF.ne_sib _ h (by simp [RBNode.addrs]) s (fun y hy => by simp [ctxAddrs, Frame.addrs, hy])
  simp only [ctxPtr_cons, Frame.addr, Frame.fill, Frame.sib, ptr_node] at hn hp hsib
  by_cases hcond : (s.isBlack && s.left.isBlack && s.right.isRed) = true
  · rw [if_pos hcond] at hd
    obtain ⟨sa, sk, sv, sl, ra, rk, rv, rl, rr, rfl, hsl⟩ := sibRotL_cond hcond
    simp only [sibRotL] at hd
    have hs : tr.mem sa = _ := WF.read (Frame.L pa pc pk pv (node a c k v l r) :: rest) h
    have hlb : IS_BLACK tr sl.ptr = some sl.isBlack :=
      WF.is_black (Frame.L sa BLACK sk sv (node ra RED rk rv rl rr) ::
        Frame.L pa pc pk pv (node a c k v l r) :: rest) h
    have hrr : IS_RED tr (node ra RED rk rv rl rr).ptr = _ :=
      WF.is_red (Frame.R sa BLACK sk sv sl ::
        Frame.L pa pc pk pv (node a c k v l r) :: rest) h
    obtain ⟨m1, e1, w1⟩ :=
      WF.set_color_focus (Frame.L pa pc pk pv (node a c k v l r) :: rest) h RED
    have hs1 : m1 sa = _ := WF.read (Frame.L pa pc pk pv (node a c k v l r) :: rest) w1
    obtain ⟨m2, e2, w2⟩ := WF.set_color_focus
      (Frame.R sa RED sk sv sl :: Frame.L pa pc pk pv (node a c k v l r) :: rest) w1 BLACK
    dsimp only at e2 w2
    have w2' : WF { tr with mem := m2 } (plug (Frame.L pa pc pk pv (node a c k v l r) :: rest)
        (node sa RED sk sv sl (node ra BLACK rk rv rl rr))) := w2
    obtain ⟨r3, m3, e3, w3⟩ := WF.rotate_left w2'
    dsimp only at e3 w3
    have w3' : WF { tr with root := r3, mem := m3 }
        (plug (Frame.R pa pc pk pv (node ra BLACK rk rv (node sa RED sk sv sl rl) rr) :: rest)
          (node a c k v l r)) := w3
    obtain ⟨r4, m4, e4, w4⟩ := WF.delete6 w3' hd
    dsimp only at e4 w4
    refine ⟨r4, m4, ?_, w4⟩
    simp only [ptr_node, RBNode.isBlack, RBNode.isRed, decide_True] at hsb hs hs1 d hrr
    rw [hsl] at hlb
    simp only [tree_delete5, ptr_node, hsib, hsb, deref_some, hn, hp, hs, hlb, hrr, e1, hs1, e2,
      e3, e4, d, Option.bind_eq_bind, Option.some_bind, if_true, if_false, ne_eq, reduceCtorEq,
      not_false_eq_true]
  · rw [if_neg hcond] at hd
    obtain ⟨r4, m4, e4, w4⟩ := WF.delete6 h hd
    refine ⟨r4, m4, ?_, w4⟩
    cases s with
    | nil => simp [del6] at hd
    | node sa sc sk sv sl sr =>
      have hs : tr.mem sa = _ := WF.read (Frame.L pa pc pk pv (node a c k v l r) :: rest) h
      have hlb : IS_BLACK tr sl.ptr = some sl.isBlack :=
        WF.is_black (Frame.L sa sc sk sv sr ::
          Frame.L pa pc pk pv (node a c k v l r) :: rest) h
      have hrr : IS_RED tr sr.ptr = some sr.isRed :=
        WF.is_red (Frame.R sa sc sk sv sl ::
          Frame.L pa pc pk pv (node a c k v l r) :: rest) h
      simp only [ptr_node, RBNode.isBlack, RBNode.left, RBNode.right] at hsb hs hcond hsib d
      cases sc with
      | RED =>
        simp only [reduceCtorEq, decide_False] at hsb
        simp only [tree_delete5, ptr_node, hsib, hsb, e4, Option.bind_eq_bind, Option.some_bind,
          Bool.false_eq_true, if_false]
      | BLACK =>
        simp only [decide_True, Bool.true_and, Bool.and_eq_true, not_and,
          Bool.not_eq_true] at hsb hcond
        cases hslb : sl.isBlack with
        | false =>
          rw [hslb] at hlb
          simp only [tree_delete5, ptr_node, hsib, hsb, deref_some, hn, hp, hs, hlb, d, e4,
            Option.bind_eq_bind, Option.some_bind, if_true, if_false, ne_eq, reduceCtorEq,
            not_false_eq_true, Bool.false_eq_true]
        | true =>
          rw [hslb] at hlb
          rw [hcond hslb] at hrr
          simp only [tree_delete5, ptr_node, hsib, hsb, deref_some, hn, hp, hs, hlb, hrr, d, e4,
            Option.bind_eq_bind, Option.some_bind, if_true, if_false, ne_eq, reduceCtorEq,
            not_false_eq_true, Bool.false_eq_true]

theorem WF.delete5 {tr : Tree K V} {ctx ctx' : Ctx K V} {a : Nat} {c : Color} {k : K} {v : V}
    {l r : RBNode K V} (h : WF tr (plug ctx (node a c k v l r))) (hd : del5 ctx = some ctx') :
    ∃ r' m, tree_delete5 tr (some a) = some { tr with root := r', mem := m } ∧
      WF { tr with root := r', mem := m } (plug ctx' (node a c k v l r)) := by
  cases ctx with
  | nil => simp [del5] at hd
  | cons f rest =>
    cases f with
    | L pa pc pk pv s => exact WF.delete5_L h hd
    | R pa pc pk pv s => exact WF.delete5_R h hd

end

section

variable {K V : Type}
open RBNode Color

theorem isRed_fill (f : Frame K V) (t : RBNode K V) :
    (f.fill t).isRed = decide (f.color = RED) := by
  cases f <;> rfl

theorem WF.sib_all_black {tr : Tree K V} (ctx : Ctx K V) {s : RBNode K V}
    (h : WF tr (plug ctx s)) : sibling_all_black tr s.ptr = some (sibAllBlack s) := by
  cases s with
  | nil => simp [sibling_all_black, sibAllBlack]
  | node sa sc sk sv sl sr =>
    have hs := WF.read ctx h
    have hb := WF.is_black ctx h
    have hlb : IS_BLACK tr sl.ptr = some sl.isBlack := WF.is_black (Frame.L sa sc sk sv sr :: ctx) h
    have hrb : IS_BLACK tr sr.ptr = some sr.isBlack := WF.is_black (Frame.R sa sc sk sv sl :: ctx) h
    simp only [ptr_node, RBNode.isBlack] at hb
    cases sc with
    | RED =>
      simp only [reduceCtorEq, decide_False] at hb
      simp only [sibling_all_black, ptr_node, hb, sibAllBlack, Option.bind_eq_bind,
        Option.some_bind, ne_eq, reduceCtorEq, not_false_eq_true, if_true, Bool.false_eq_true,
        if_false, decide_False, Bool.false_and]
    | BLACK =>
      simp only [decide_True] at hb
      cases hl : sl.isBlack with
      | false =>
        rw [hl] at hlb
        simp only [sibling_all_black, ptr_node, hb, hs, hlb, deref_some, sibAllBlack,
          Option.bind_eq_bind, Option.some_bind, ne_eq, reduceCtorEq, not_false_eq_true, if_true,
          Bool.false_eq_true, if_false, decide_True, Bool.true_and, Bool.false_and, hl]
      | true =>
        rw [hl] at hlb
        simp only [sibling_all_black, ptr_node, hb, hs, hlb, hrb, deref_some, sibAllBlack,
          Option.bind_eq_bind, Option.some_bind, ne_eq, reduceCtorEq, not_false_eq_true, if_true,
          decide_True, Bool.true_and, hl]

theorem sibAllBlack_node {s : RBNode K V} (h : sibAllBlack s = true) :
    ∃ sa sk sv sl sr, s = node sa BLACK sk sv sl sr := by
  cases s with
  | nil => simp [sibAllBlack] at h
  | node sa sc sk sv sl sr =>
    simp only [sibAllBlack, Bool.and_eq_true, decide_eq_true_eq] at h
    obtain ⟨⟨rfl, _⟩, _⟩ := h
    exact ⟨sa, sk, sv, sl, sr, rfl⟩

theorem WF.delete4 {tr : Tree K V} {ctx ctx' : Ctx K V} {a : Nat} {c : Color} {k : K} {v : V}
    {l r : RBNode K V} (h : WF tr (plug ctx (node a c k v l r))) (hd : del4 ctx = some ctx') :
    ∃ r' m, tree_delete4 tr (some a) = some { tr with root := r', mem := m } ∧
      WF { tr with root := r', mem := m } (plug ctx' (node a c k v l r)) := by
  cases ctx with
  | nil => simp [del4, del5] at hd
  | cons f rest =>
    simp only [del4] at hd
    have hsib := WF.sibling h
    have hn := WF.read _ h
    have hpr : IS_RED tr (some f.addr) = some (decide (f.color = RED)) := by
      have := WF.is_red rest (show WF tr (plug rest (f.fill (node a c k v l r))) from h)
      rwa [ptr_fill, isRed_fill] at this
    have hsab : sibling_all_black tr f.sib.ptr = some (sibAllBlack f.sib) := by
      have h' := h
      rw [plug_flip] at h'
      exact WF.sib_all_black _ h'
    simp only [ctxPtr_cons] at hn
    by_cases hcond : (decide (f.color = RED) && sibAllBlack f.sib) = true
    · rw [if_pos hcond] at hd
      simp only [Option.some.injEq] at hd
      subst hd
      simp only [Bool.and_eq_true, decide_eq_true_eq] at hcond
      obtain ⟨hc, hs⟩ := hcond
      obtain ⟨sa, sk, sv, sl, sr, hsn⟩ := sibAllBlack_node hs
      obtain ⟨m1, e1, w1⟩ := WF.set_color_sib h hsn RED
      have hn1 : m1 a = _ := WF.read _ w1
      obtain ⟨m2, e2, w2⟩ := WF.set_color_parent w1 BLACK
      dsimp only at e2 w2
      simp only [Frame.recolor_recolor, Frame.recolor_sib, Frame.recolor_addr, ctxPtr_cons]
        at e2 w2 hn1
      rw [hsn]
      simp only [RBNode.setColor]
      refine ⟨tr.root, m2, ?_, w2⟩
      rw [hs] at hsab
      rw [hsn] at hsib hsab
      simp only [ptr_node] at hsib hsab
      rw [hc] at hpr
      simp only [tree_delete4, hsib, deref_some, hn, hpr, decide_True, hsab, e1, hn1, e2,
        Option.bind_eq_bind, Option.some_bind, if_true]
    · rw [if_neg hcond] at hd
      obtain ⟨r4, m4, e4, w4⟩ := WF.delete5 h hd
      refine ⟨r4, m4, ?_, w4⟩
      cases hc : decide (f.color = RED) with
      | false =>
        rw [hc] at hpr
        simp only [tree_delete4, hsib, deref_some, hn, hpr, e4, Option.bind_eq_bind,
          Option.some_bind, Bool.false_eq_true, if_false]
      | true =>
        rw [hc] at hpr hcond
        simp only [Bool.true_and, Bool.not_eq_true] at hcond
        simp only [tree_delete4, hsib, deref_some, hn, hpr, hsab, hcond, e4, Option.bind_eq_bind,
          Option.some_bind, Bool.false_eq_true, if_false, if_true]

end

section

variable {K V : Type}
open RBNode Color

/-- The recolouring and rotation of `tree_delete2` when the sibling is RED. -/
theorem WF.delete2_rot {tr : Tree K V} {f : Frame K V} {rest : Ctx K V} {a : Nat} {c : Color}
    {k : K} {v : V} {l r : RBNode K V}
    (h : WF tr (plug (f :: rest) (node a c k v l r))) (hred : f.sib.isRed = true) :
    ∃ tr1 tr2 r' m, Rbtree.set_color tr (some f.addr) RED = some tr1 ∧
      Rbtree.set_color tr1 f.sib.ptr BLACK = some tr2 ∧
      (∃ n p, tr2.mem a = some n ∧ n.parent = some f.addr ∧ tr2.mem f.addr = some p ∧
        ((p.left = some a ∧
            tree_rotate_left tr2 (some f.addr) = some { tr with root := r', mem := m }) ∨
         (¬ (some a = p.left) ∧
            tree_rotate_right tr2 (some f.addr) = some { tr with root := r', mem := m }))) ∧
      WF { tr with root := r', mem := m } (plug (del2rot f rest) (node a c k v l r)) := by
  obtain ⟨sa, sk, sv, sl, sr, hs⟩ := isRed_eq_true hred
  cases f with
  | L pa pc pk pv s =>
    simp only [Frame.sib] at hs
    subst hs
    obtain ⟨m1, e1, w1⟩ :=
      WF.set_color_focus rest (show WF tr (plug rest (node pa pc pk pv (node a c k v l r)
        (node sa RED sk sv sl sr))) from h) RED
    obtain ⟨m2, e2, w2⟩ := WF.set_color_focus
      (Frame.R pa RED pk pv (node a c k v l r) :: rest) w1 BLACK
    dsimp only at e2 w2
    have hn2 : m2 a = _ :=
      WF.read (Frame.L pa RED pk pv (node sa BLACK sk sv sl sr) :: rest) w2
    have hp2 : m2 pa = _ := WF.read rest w2
    have w2' : WF { tr with mem := m2 } (plug rest (node pa RED pk pv (node a c k v l r)
        (node sa BLACK sk sv sl sr))) := w2
    obtain ⟨r3, m3, e3, w3⟩ := WF.rotate_left w2'
    dsimp only at e3 w3
    exact ⟨_, _, r3, m3, e1, e2, ⟨_, _, hn2, rfl, hp2, Or.inl ⟨rfl, e3⟩⟩, w3⟩
  | R pa pc pk pv s =>
    simp only [Frame.sib] at hs
    subst hs
    have d : ¬ (some a = some sa) :=
      WF.ne_sib _ h (by simp [RBNode.addrs]) (node sa RED sk sv sl sr)
        (fun y hy => by simp [ctxAddrs, Frame.addrs, hy])
    obtain ⟨m1, e1, w1⟩ :=
      WF.set_color_focus rest (show WF tr (plug rest (node pa pc pk pv
        (node sa RED sk sv sl sr) (node a c k v l r))) from h) RED
    obtain ⟨m2, e2, w2⟩ := WF.set_color_focus
      (Frame.L pa RED pk pv (node a c k v l r) :: rest) w1 BLACK
    dsimp only at e2 w2
    have hn2 : m2 a = _ :=
      WF.read (Frame.R pa RED pk pv (node sa BLACK sk sv sl sr) :: rest) w2
    have hp2 : m2 pa = _ := WF.read rest w2
    have w2' : WF { tr with mem := m2 } (plug rest (node pa RED pk pv
        (node sa BLACK sk sv sl sr) (node a c k v l r))) := w2
    obtain ⟨r3, m3, e3, w3⟩ := WF.rotate_right w2'
    dsimp only at e3 w3
    exact ⟨_, _, r3, m3, e1, e2, ⟨_, _, hn2, rfl, hp2, Or.inr ⟨d, e3⟩⟩, w3⟩

theorem del2rot_cons {f : Frame K V} (rest : Ctx K V) (hred : f.sib.isRed = true) :
    ∃ f3 rest3, del2rot f rest = f3 :: rest3 ∧ f3.color = RED ∧ f3.addr = f.addr := by
  obtain ⟨sa, sk, sv, sl, sr, hs⟩ := isRed_eq_true hred
  cases f with
  | L pa pc pk pv s =>
    simp only [Frame.sib] at hs
    subst hs
    exact ⟨_, _, rfl, rfl, rfl⟩
  | R pa pc pk pv s =>
    simp only [Frame.sib] at hs
    subst hs
    exact ⟨_, _, rfl, rfl, rfl⟩

theorem Frame.fill_node (f : Frame K V) (t : RBNode K V) :
    ∃ a c k v l r, f.fill t = node a c k v l r ∧ a = f.addr := by
  cases f with
  | L a c k v r => exact ⟨a, c, k, v, t, r, rfl, rfl⟩
  | R a c k v l => exact ⟨a, c, k, v, l, t, rfl, rfl⟩

set_option maxHeartbeats 1000000 in
/-- `tree_delete1`, run with enough fuel at the node in focus, produces the
state that holds the same subtree below the path `del1` computes. -/
theorem WF.delete1 : ∀ (n : Nat) (ctx ctx' : Ctx K V) (a : Nat) (c : Color) (k : K) (v : V)
    (l r : RBNode K V) (tr : Tree K V) (fuel : Nat), ctx.length ≤ n → del1 ctx = some ctx' →
    WF tr (plug ctx (node a c k v l r)) → 3 * ctx.length + 3 ≤ fuel →
    ∃ r' m, tree_delete1 fuel tr (some a) = some { tr with root := r', mem := m } ∧
      WF { tr with root := r', mem := m } (plug ctx' (node a c k v l r)) := by
  intro n
  induction n with
  | zero =>
    intro ctx ctx' a c k v l r tr fuel hlen hd h hfuel
    have hctx : ctx = [] := List.length_eq_zero.1 (Nat.le_zero.1 hlen)
    subst hctx
    simp only [del1, Option.some.injEq] at hd
    subst hd
    obtain ⟨f', rfl⟩ : ∃ f', fuel = f' + 1 := ⟨fuel - 1, by omega⟩
    have hn := WF.read [] h
    refine ⟨tr.root, tr.mem, ?_, h⟩
    simp only [tree_delete1, deref_some, hn, ctxPtr_nil, ne_eq, not_true_eq_false, if_false]
  | succ n ih =>
    intro ctx ctx' a c k v l r tr fuel hlen hd h hfuel
    have hn := WF.read _ h
    cases ctx with
    | nil =>
      simp only [del1, Option.some.injEq] at hd
      subst hd
      obtain ⟨f', rfl⟩ : ∃ f', fuel = f' + 1 := ⟨fuel - 1, by omega⟩
      refine ⟨tr.root, tr.mem, ?_, h⟩
      simp only [tree_delete1, deref_some, hn, ctxPtr_nil, ne_eq, not_true_eq_false, if_false]
    | cons f rest =>
      simp only [List.length_cons] at hlen hfuel
      obtain ⟨f', rfl⟩ : ∃ f', fuel = f' + 3 := ⟨fuel - 3, by omega⟩
      have hsib := WF.sibling h
      have hsr : IS_RED tr f.sib.ptr = some f.sib.isRed := by
        have h' := h
        rw [plug_flip] at h'
        exact WF.is_red _ h'
      simp only [ctxPtr_cons] at hn
      simp only [del1] at hd
      cases hred : f.sib.isRed with
      | true =>
        rw [hred] at hd hsr
        simp only [if_true] at hd
        obtain ⟨tr1, tr2, r3, m3, e1, e2, ⟨n2, p2, hn2, hnp2, hp2, e3⟩, w3⟩ :=
          WF.delete2_rot h hred
        obtain ⟨f3, rest3, hrot, hc3, ha3⟩ := del2rot_cons rest hred
        rw [hrot] at w3 hd
        have hsib3 := WF.sibling w3
        have hn3 : m3 a = _ := WF.read _ w3
        have hpb3 : IS_BLACK { tr with root := r3, mem := m3 } (some f3.addr) =
            some (decide (f3.color = BLACK)) := by
          have := WF.is_black rest3
            (show WF { tr with root := r3, mem := m3 }
              (plug rest3 (f3.fill (node a c k v l r))) from w3)
          rwa [ptr_fill, isBlack_fill] at this
        rw [hc3] at hpb3
        simp only [reduceCtorEq, decide_False, ctxPtr_cons] at hpb3 hn3
        obtain ⟨r4, m4, e4, w4⟩ := WF.delete4 w3 hd
        dsimp only at e4 w4
        refine ⟨r4, m4, ?_, w4⟩
        rcases e3 with ⟨hcmp, e3⟩ | ⟨hcmp, e3⟩
        · simp only [tree_delete1, tree_delete2, tree_delete3, deref_some, hn, hsib, hsr, e1, e2,
            hn2, hnp2, hp2, hcmp, e3, hsib3, hn3, hpb3, e4, Option.bind_eq_bind, Option.some_bind,
            ne_eq, reduceCtorEq, not_false_eq_true, if_true, if_false, Bool.false_eq_true]
        · simp only [tree_delete1, tree_delete2, tree_delete3, deref_some, hn, hsib, hsr, e1, e2,
            hn2, hnp2, hp2, hcmp, e3, hsib3, hn3, hpb3, e4, Option.bind_eq_bind, Option.some_bind,
            ne_eq, reduceCtorEq, not_false_eq_true, if_true, if_false, Bool.false_eq_true]
      | false =>
        rw [hred] at hd hsr
        simp only [Bool.false_eq_true, if_false] at hd
        have hpb : IS_BLACK tr (some f.addr) = some (decide (f.color = BLACK)) := by
          have := WF.is_black rest (show WF tr (plug rest (f.fill (node a c k v l r))) from h)
          rwa [ptr_fill, isBlack_fill] at this
        have hsab : sibling_all_black tr f.sib.ptr = some (sibAllBlack f.sib) := by
          have h' := h
          rw [plug_flip] at h'
          exact WF.sib_all_black _ h'
        by_cases hcond : (decide (f.color = BLACK) && sibAllBlack f.sib) = true
        · rw [if_pos hcond] at hd
          simp only [Bool.and_eq_true, decide_eq_true_eq] at hcond
          obtain ⟨hc, hs⟩ := hcond
          obtain ⟨sa, sk, sv, sl, sr, hsn⟩ := sibAllBlack_node hs
          cases hrec : del1 rest with
          | none => rw [hrec] at hd; simp at hd
          | some rest' =>
            rw [hrec] at hd
            simp only [Option.some.injEq] at hd
            subst hd
            obtain ⟨m1, e1, w1⟩ := WF.set_color_sib h hsn RED
            have hn1 : m1 a = _ := WF.read _ w1
            obtain ⟨pa, pc', pk, pv, pl, pr, hfill, hpa⟩ :=
              Frame.fill_node (f.recolor f.color (node sa RED sk sv sl sr)) (node a c k v l r)
            have w1' : WF { tr with mem := m1 } (plug rest (node pa pc' pk pv pl pr)) := by
              rw [← hfill]; exact w1
            obtain ⟨r2, m2, e2, w2⟩ := ih rest rest' pa pc' pk pv pl pr _ f' (by omega) hrec w1'
              (by omega)
            dsimp only at e2 w2
            rw [← hfill] at w2
            rw [Frame.recolor_addr] at hpa
            subst hpa
            rw [hsn]
            simp only [RBNode.setColor]
            refine ⟨r2, m2, ?_, w2⟩
            rw [hs] at hsab
            rw [hsn] at hsib hsab hsr
            rw [hc] at hpb
            simp only [ptr_node, ctxPtr_cons, Frame.recolor_addr, decide_True] at hsib hsab hn1 hpb hsr
            simp only [tree_delete1, tree_delete2, tree_delete3, deref_some, hn, hsib, hsr, hpb,
              hsab, e1, hn1, e2, Option.bind_eq_bind, Option.some_bind,
              ne_eq, reduceCtorEq, not_false_eq_true, if_true, if_false, Bool.false_eq_true]
        · rw [if_neg hcond] at hd
          obtain ⟨r4, m4, e4, w4⟩ := WF.delete4 h hd
          refine ⟨r4, m4, ?_, w4⟩
          cases hc : decide (f.color = BLACK) with
          | false =>
            rw [hc] at hpb
            simp only [tree_delete1, tree_delete2, tree_delete3, deref_some, hn, hsib, hsr, hpb,
              e4, Option.bind_eq_bind, Option.some_bind,
              ne_eq, reduceCtorEq, not_false_eq_true, if_true, if_false, Bool.false_eq_true]
          | true =>
            rw [hc] at hpb hcond
            simp only [Bool.true_and, Bool.not_eq_true] at hcond
            simp only [tree_delete1, tree_delete2, tree_delete3, deref_some, hn, hsib, hsr, hpb,
              hsab, hcond, e4, Option.bind_eq_bind, Option.some_bind,
              ne_eq, reduceCtorEq, not_false_eq_true, if_true, if_false, Bool.false_eq_true]

end

section

variable {K V : Type}
open RBNode Color

/-- The loop of `tree_find_node` follows `descend`. -/
theorem WF.find_loop {tr : Tree K V} (key : K) :
    ∀ (t : RBNode K V) (ctx : Ctx K V) (fuel : Nat), WF tr (plug ctx t) → t.depth ≤ fuel →
      tree_find_node_loop tr key fuel t.ptr = some (descend tr.cmp key t ctx).2.ptr := by
  intro t
  induction t with
  | nil =>
    intro ctx fuel _ _
    cases fuel <;> simp [tree_find_node_loop, descend]
  | node a c k v l r ihl ihr =>
    intro ctx fuel h hf
    have hn := WF.read ctx h
    simp only [RBNode.depth] at hf
    obtain ⟨f', rfl⟩ : ∃ f', fuel = f' + 1 := ⟨fuel - 1, by omega⟩
    simp only [ptr_node, tree_find_node_loop, hn]
    unfold descend
    by_cases h1 : tr.cmp key k < 0
    · have h0 : ¬ (tr.cmp key k = 0) := by omega
      simp only [h0, h1, if_true, if_false]
      exact ihl (Frame.L a c k v r :: ctx) f' h (by omega)
    · by_cases h2 : tr.cmp key k > 0
      · have h0 : ¬ (tr.cmp key k = 0) := by omega
        simp only [h0, h1, h2, if_true, if_false]
        exact ihr (Frame.R a c k v l :: ctx) f' h (by omega)
      · have h0 : tr.cmp key k = 0 := by omega
        simp only [h1, h2, if_false]
        simp only [h0, if_true, ptr_node]

theorem maxPath_plug (ctx0 : Ctx K V) :
    ∀ (t : RBNode K V) (acc : Ctx K V),
      plug ((maxPath t acc).1 ++ ctx0) (maxPath t acc).2 = plug (acc ++ ctx0) t := by
  intro t
  induction t with
  | nil => intro acc; rfl
  | node a c k v l r _ ihr =>
    intro acc
    cases r with
    | nil => rfl
    | node a' c' k' v' l' r' =>
      simp only [maxPath]
      rw [ihr]
      rfl

theorem minPath_plug (ctx0 : Ctx K V) :
    ∀ (t : RBNode K V) (acc : Ctx K V),
      plug ((minPath t acc).1 ++ ctx0) (minPath t acc).2 = plug (acc ++ ctx0) t := by
  intro t
  induction t with
  | nil => intro acc; rfl
  | node a c k v l r ihl _ =>
    intro acc
    cases l with
    | nil => rfl
    | node a' c' k' v' l' r' =>
      simp only [minPath]
      rw [ihl]
      rfl

theorem maxPath_shape :
    ∀ (t : RBNode K V) (acc : Ctx K V), t ≠ RBNode.nil →
      ∃ a c k v l, (maxPath t acc).2 = node a c k v l RBNode.nil := by
  intro t
  induction t with
  | nil => intro acc h; exact absurd rfl h
  | node a c k v l r _ ihr =>
    intro acc _
    cases r with
    | nil => exact ⟨a, c, k, v, l, rfl⟩
    | node a' c' k' v' l' r' =>
      simp only [maxPath]
      exact ihr _ (by simp)

theorem minPath_shape :
    ∀ (t : RBNode K V) (acc : Ctx K V), t ≠ RBNode.nil →
      ∃ a c k v r, (minPath t acc).2 = node a c k v RBNode.nil r := by
  intro t
  induction t with
  | nil => intro acc h; exact absurd rfl h
  | node a c k v l r ihl _ =>
    intro acc _
    cases l with
    | nil => exact ⟨a, c, k, v, r, rfl⟩
    | node a' c' k' v' l' r' =>
      simp only [minPath]
      exact ihl _ (by simp)

theorem maxPath_length :
    ∀ (t : RBNode K V) (acc : Ctx K V),
      (maxPath t acc).1.length + (maxPath t acc).2.depth ≤ acc.length + t.depth := by
  intro t
  induction t with
  | nil => intro acc; simp [maxPath]
  | node a c k v l r _ ihr =>
    intro acc
    cases r with
    | nil => simp [maxPath]
    | node a' c' k' v' l' r' =>
      simp only [maxPath]
      have := ihr (Frame.R a c k v l :: acc)
      simp only [List.length_cons, RBNode.depth] at this ⊢
      omega

theorem minPath_length :
    ∀ (t : RBNode K V) (acc : Ctx K V),
      (minPath t acc).1.length + (minPath t acc).2.depth ≤ acc.length + t.depth := by
  intro t
  induction t with
  | nil => intro acc; simp [minPath]
  | node a c k v l r ihl _ =>
    intro acc
    cases l with
    | nil => simp [minPath]
    | node a' c' k' v' l' r' =>
      simp only [minPath]
      have := ihl (Frame.L a c k v r :: acc)
      simp only [List.length_cons, RBNode.depth] at this ⊢
      omega

/-- The loop of `tree_node_max` follows `maxPath`. -/
theorem WF.node_max_loop {tr : Tree K V} (ctx0 : Ctx K V) :
    ∀ (t : RBNode K V) (acc : Ctx K V) (fuel : Nat) (a : Nat), t.ptr = some a →
      WF tr (plug (acc ++ ctx0) t) → t.depth ≤ fuel →
      tree_node_max_loop tr fuel a = some (maxPath t acc).2.ptr := by
  intro t
  induction t with
  | nil => intro acc fuel a ha; simp at ha
  | node a c k v l r _ ihr =>
    intro acc fuel a0 ha h hf
    simp only [ptr_node, Option.some.injEq] at ha
    subst ha
    have hn := WF.read _ h
    simp only [RBNode.depth] at hf
    obtain ⟨f', rfl⟩ : ∃ f', fuel = f' + 1 := ⟨fuel - 1, by omega⟩
    cases r with
    | nil => simp only [tree_node_max_loop, hn, ptr_nil, maxPath, ptr_node]
    | node a' c' k' v' l' r' =>
      simp only [tree_node_max_loop, hn, ptr_node, maxPath]
      exact ihr (Frame.R a c k v l :: acc) f' a' rfl h (by omega)

/-- The loop of `tree_node_min` follows `minPath`. -/
theorem WF.node_min_loop {tr : Tree K V} (ctx0 : Ctx K V) :
    ∀ (t : RBNode K V) (acc : Ctx K V) (fuel : Nat) (a : Nat), t.ptr = some a →
      WF tr (plug (acc ++ ctx0) t) → t.depth ≤ fuel →
      tree_node_min_loop tr fuel a = some (minPath t acc).2.ptr := by
  intro t
  induction t with
  | nil => intro acc fuel a ha; simp at ha
  | node a c k v l r ihl _ =>
    intro acc fuel a0 ha h hf
    simp only [ptr_node, Option.some.injEq] at ha
    subst ha
    have hn := WF.read _ h
    simp only [RBNode.depth] at hf
    obtain ⟨f', rfl⟩ : ∃ f', fuel = f' + 1 := ⟨fuel - 1, by omega⟩
    cases l with
    | nil => simp only [tree_node_min_loop, hn, ptr_nil, minPath, ptr_node]
    | node a' c' k' v' l' r' =>
      simp only [tree_node_min_loop, hn, ptr_node, minPath]
      exact ihl (Frame.L a c k v r :: acc) f' a' rfl h (by omega)

end

section

variable {K V : Type}
open RBNode Color

theorem set_key_value_some (tr : Tree K V) (a : Nat) (k : K) (v : V) :
    set_key_value tr (some a) k v =
      (tr.mem a).bind fun n =>
        some { tr with mem := mem_set tr.mem a (some { n with key := k, value := v }) } := by
  simp only [set_key_value, deref, store]
  cases h : tr.mem a <;> simp [h]

theorem tree_node_destroy_some (tr : Tree K V) (a : Nat) :
    tree_node_destroy tr (some a) =
      (tr.mem a).bind fun _ => some { tr with mem := mem_set tr.mem a none } := by
  simp only [tree_node_destroy]
  cases h : tr.mem a <;> simp [h]

/-- The last block of `tree_delete`, run at a node without children. -/
theorem WF.unlink {tr : Tree K V} (ctx : Ctx K V) {a : Nat} {c : Color} {k : K} {v : V}
    (h : WF tr (plug ctx (node a c k v RBNode.nil RBNode.nil))) :
    ∃ r m, tree_delete_unlink tr (some a) = some { tr with root := r, mem := m } ∧
      WF { tr with root := r, mem := m } (plug ctx RBNode.nil) := by
  obtain ⟨h1, h2, h3, h4⟩ := h.split
  have ha := h2.1
  simp only [ptr_nil] at ha
  have hc := fun y => List.nodup_iff_count_le_one.1 h3 y
  simp only [RBNode.addrs, List.count_append, List.count_cons, beq_iff_eq, List.nil_append,
    List.count_nil] at hc
  have hfresh : ∀ y ∈ ctxAddrs ctx, y ≠ a := by
    intro y hy
    have := hc y
    have := List.count_pos_iff.2 hy
    rintro rfl
    simp only [if_true] at *
    omega
  have hnd' : (ctxAddrs ctx ++ (RBNode.nil : RBNode K V).addrs).Nodup := by
    simp only [RBNode.addrs, List.append_nil]
    exact (List.nodup_append.1 h3).1
  have h4' : ∀ y ∈ ctxAddrs ctx ++ (RBNode.nil : RBNode K V).addrs, y < tr.next := by
    intro y hy
    simp only [RBNode.addrs, List.append_nil] at hy
    exact h4 y (List.mem_append_left _ hy)
  cases ctx with
  | nil =>
    simp only [ctxPtr_nil] at ha
    simp only [tree_delete_unlink, deref_some, ha, tree_node_destroy_some,
      Option.bind_eq_bind, Option.some_bind, if_true]
    refine ⟨_, _, rfl, WF.join ?_ trivial hnd' h4'⟩
    rfl
  | cons f rest =>
    have hpa_a : f.addr ≠ a :=
      hfresh _ (by cases f <;> simp [ctxAddrs, Frame.addrs, Frame.addr])
    have ha_pa := hpa_a.symm
    simp only [ctxPtr_cons] at ha
    cases f with
    | L pa pc pk pv s =>
      have hpa := h1.1
      simp only [Frame.addr, ptr_node] at hpa_a ha_pa ha hpa
      simp only [tree_delete_unlink, deref_some, ha, hpa, tree_node_destroy_some, set_left_some,
        mem_set_same, mem_set_ne _ _ hpa_a, mem_set_ne _ _ ha_pa,
        Option.bind_eq_bind, Option.some_bind, if_true, if_false, reduceCtorEq]
      refine ⟨_, _, rfl, WF.join (RepC_rehole h1 (List.nodup_append.1 h3).1 ?_ ?_) trivial
        hnd' h4'⟩
      · simp only [Frame.addr, mem_set_same, mem_set_ne _ _ hpa_a, mem_set_ne _ _ ha_pa, ptr_nil]
      · intro y hy hyp
        simp only [Frame.addr] at hyp
        simp only [mem_set_ne _ _ (hfresh y hy), mem_set_ne _ _ hyp]
    | R pa pc pk pv s =>
      have hpa := h1.1
      have d : ¬ (some a = s.ptr) :=
        WF.ne_sib _ h (by simp [RBNode.addrs]) s
          (fun y hy => by simp [ctxAddrs, Frame.addrs, hy])
      simp only [Frame.addr, ptr_node] at hpa_a ha_pa ha hpa
      simp only [tree_delete_unlink, deref_some, ha, hpa, tree_node_destroy_some, set_right_some,
        mem_set_same, mem_set_ne _ _ hpa_a, mem_set_ne _ _ ha_pa, d,
        Option.bind_eq_bind, Option.some_bind, if_true, if_false, reduceCtorEq]
      refine ⟨_, _, rfl, WF.join (RepC_rehole h1 (List.nodup_append.1 h3).1 ?_ ?_) trivial
        hnd' h4'⟩
      · simp only [Frame.addr, mem_set_same, mem_set_ne _ _ hpa_a, mem_set_ne _ _ ha_pa, ptr_nil]
      · intro y hy hyp
        simp only [Frame.addr] at hyp
        simp only [mem_set_ne _ _ (hfresh y hy), mem_set_ne _ _ hyp]

/-- The second block of `tree_delete` moves to the node `del_target` names. -/
theorem WF.delete_heir {tr : Tree K V} (ctx : Ctx K V) {a : Nat} {c : Color} {k : K} {v : V}
    {l r : RBNode K V} {fuel : Nat} (h : WF tr (plug ctx (node a c k v l r)))
    (hf : (node a c k v l r).depth ≤ fuel) :
    ∃ m, tree_delete_heir fuel tr (some a) =
        some ({ tr with mem := m }, (del_target ctx a c k v l r).2.ptr) ∧
      WF { tr with mem := m }
        (plug (del_target ctx a c k v l r).1 (del_target ctx a c k v l r).2) := by
  have hn := WF.read ctx h
  simp only [RBNode.depth] at hf
  cases l with
  | node la lc lk lv ll lr =>
    obtain ⟨ha, hc, hk, hv, hl, hshape⟩ :=
      maxPath_shape (node la lc lk lv ll lr) [] (by simp)
    have hmp : maxPath (node la lc lk lv ll lr) [] =
        ((maxPath (node la lc lk lv ll lr) []).1, node ha hc hk hv hl RBNode.nil) := by
      rw [← hshape]
    have hmax := WF.node_max_loop (Frame.L a c k v r :: ctx) (node la lc lk lv ll lr) []
      fuel la rfl h (by omega)
    have hplug := maxPath_plug (Frame.L a c k v r :: ctx) (node la lc lk lv ll lr) []
    have hview : WF tr (plug ((maxPath (node la lc lk lv ll lr) []).1 ++
        Frame.L a c k v r :: ctx) (node ha hc hk hv hl RBNode.nil)) := by
      rw [← hshape, hplug]; exact h
    have hh := WF.read _ hview
    obtain ⟨m1, e1, w1⟩ := WF.set_key_value_focus ctx h hk hv
    have hplug' := maxPath_plug (Frame.L a c hk hv r :: ctx) (node la lc lk lv ll lr) []
    refine ⟨m1, ?_, ?_⟩
    · rw [hshape] at hmax
      simp only [ptr_node] at hmax hn
      rw [del_target, hmp]
      simp only [tree_delete_heir, deref_some, hn, tree_node_max, hmax, hh, e1,
        ptr_node, Option.bind_eq_bind, Option.some_bind, ne_eq, reduceCtorEq,
        not_false_eq_true, if_true]
    · rw [del_target, hmp]
      simp only
      rw [← hshape, hplug']
      exact w1
  | nil =>
    cases r with
    | node ra rc rk rv rl rr =>
      obtain ⟨ha, hc, hk, hv, hr, hshape⟩ :=
        minPath_shape (node ra rc rk rv rl rr) [] (by simp)
      have hmp : minPath (node ra rc rk rv rl rr) [] =
          ((minPath (node ra rc rk rv rl rr) []).1, node ha hc hk hv RBNode.nil hr) := by
        rw [← hshape]
      have hmin := WF.node_min_loop (Frame.R a c k v RBNode.nil :: ctx)
        (node ra rc rk rv rl rr) [] fuel ra rfl h (by omega)
      have hplug := minPath_plug (Frame.R a c k v RBNode.nil :: ctx) (node ra rc rk rv rl rr) []
      have hview : WF tr (plug ((minPath (node ra rc rk rv rl rr) []).1 ++
          Frame.R a c k v RBNode.nil :: ctx) (node ha hc hk hv RBNode.nil hr)) := by
        rw [← hshape, hplug]; exact h
      have hh := WF.read _ hview
      obtain ⟨m1, e1, w1⟩ := WF.set_key_value_focus ctx h hk hv
      have hplug' :=
        minPath_plug (Frame.R a c hk hv RBNode.nil :: ctx) (node ra rc rk rv rl rr) []
      refine ⟨m1, ?_, ?_⟩
      · rw [hshape] at hmin
        simp only [ptr_node, ptr_nil] at hmin hn
        rw [del_target, hmp]
        simp only [tree_delete_heir, deref_some, hn, tree_node_min, hmin, hh, e1,
          ptr_node, Option.bind_eq_bind, Option.some_bind, ne_eq, reduceCtorEq,
          not_false_eq_true, if_true, not_true_eq_false, if_false]
      · rw [del_target, hmp]
        simp only
        rw [← hshape, hplug']
        exact w1
    | nil =>
      refine ⟨tr.mem, ?_, h⟩
      simp only [ptr_nil] at hn
      simp only [tree_delete_heir, deref_some, hn, del_target, ptr_node, Option.bind_eq_bind,
        Option.some_bind, ne_eq, not_true_eq_false, if_false]

/-- The third block of `tree_delete` leaves the node to unlink without
children, below a path that gives the shape `del_unlink` computes. -/
theorem WF.delete_child {tr : Tree K V} (ctx : Ctx K V) {t T' : RBNode K V} {fuel : Nat}
    (h : WF tr (plug ctx t)) (hu : del_unlink ctx t = some T')
    (hf : 3 * ctx.length + 3 ≤ fuel) :
    ∃ r m ctx2 a2 c2 k2 v2, tree_delete_child fuel tr t.ptr =
        some ({ tr with root := r, mem := m }, some a2) ∧
      WF { tr with root := r, mem := m } (plug ctx2 (node a2 c2 k2 v2 RBNode.nil RBNode.nil)) ∧
      plug ctx2 RBNode.nil = T' := by
  unfold del_unlink at hu
  split at hu
  · rename_i a c k v
    have hn := WF.read ctx h
    have hb := WF.is_black ctx h
    simp only [ptr_nil, ptr_node, RBNode.isBlack] at hn hb
    cases c with
    | RED =>
      simp only [Option.some.injEq] at hu
      refine ⟨tr.root, tr.mem, ctx, a, RED, k, v, ?_, h, hu⟩
      simp only [reduceCtorEq, decide_False] at hb
      simp only [tree_delete_child, ptr_node, deref_some, hn, hb, Option.bind_eq_bind,
        Option.some_bind, ne_eq, not_true_eq_false, if_false, Bool.false_eq_true]
    | BLACK =>
      simp only at hu
      cases hd : del1 ctx with
      | none => rw [hd] at hu; simp at hu
      | some ctx' =>
        rw [hd] at hu
        simp only [Option.some.injEq] at hu
        obtain ⟨r1, m1, e1, w1⟩ := WF.delete1 ctx.length ctx ctx' a BLACK k v RBNode.nil
          RBNode.nil tr fuel (Nat.le_refl _) hd h hf
        refine ⟨r1, m1, ctx', a, BLACK, k, v, ?_, w1, hu⟩
        simp only [decide_True] at hb
        simp only [tree_delete_child, ptr_node, deref_some, hn, hb, e1, Option.bind_eq_bind,
          Option.some_bind, ne_eq, not_true_eq_false, if_false, if_true]
  · rename_i a c k v ca ck cv
    simp only [Option.some.injEq] at hu
    have hn := WF.read ctx h
    have hch : tr.mem ca = _ := WF.read (Frame.L a c k v RBNode.nil :: ctx) h
    obtain ⟨m1, e1, w1⟩ := WF.set_key_value_focus ctx h ck cv
    have hb : IS_BLACK { tr with mem := m1 } (node ca RED ck cv RBNode.nil RBNode.nil).ptr = _ :=
      WF.is_black (Frame.L a c ck cv RBNode.nil :: ctx) w1
    simp only [ptr_node, ptr_nil, RBNode.isBlack, reduceCtorEq, decide_False] at hn hch hb
    refine ⟨tr.root, m1, Frame.L a c ck cv RBNode.nil :: ctx, ca, RED, ck, cv, ?_, w1, hu⟩
    simp only [tree_delete_child, ptr_node, deref_some, hn, hch, e1, hb, Option.bind_eq_bind,
      Option.some_bind, ne_eq, reduceCtorEq, not_false_eq_true, if_true, Bool.false_eq_true,
      if_false]
  · rename_i a c k v ca ck cv
    simp only [Option.some.injEq] at hu
    have hn := WF.read ctx h
    have hch : tr.mem ca = _ := WF.read (Frame.R a c k v RBNode.nil :: ctx) h
    obtain ⟨m1, e1, w1⟩ := WF.set_key_value_focus ctx h ck cv
    have hb : IS_BLACK { tr with mem := m1 } (node ca RED ck cv RBNode.nil RBNode.nil).ptr = _ :=
      WF.is_black (Frame.R a c ck cv RBNode.nil :: ctx) w1
    simp only [ptr_node, ptr_nil, RBNode.isBlack, reduceCtorEq, decide_False] at hn hch hb
    refine ⟨tr.root, m1, Frame.R a c ck cv RBNode.nil :: ctx, ca, RED, ck, cv, ?_, w1, hu⟩
    simp only [tree_delete_child, ptr_node, deref_some, hn, hch, e1, hb, Option.bind_eq_bind,
      Option.some_bind, ne_eq, reduceCtorEq, not_false_eq_true, if_true, Bool.false_eq_true,
      if_false, not_true_eq_false]
  · simp at hu

end

section

variable {K V : Type}
open RBNode Color

theorem depth_fill_ge (f : Frame K V) (t : RBNode K V) : t.depth + 1 ≤ (f.fill t).depth := by
  cases f <;> simp only [Frame.fill, RBNode.depth] <;> omega

theorem depth_plug_ge (ctx : Ctx K V) :
    ∀ t : RBNode K V, ctx.length + t.depth ≤ (plug ctx t).depth := by
  induction ctx with
  | nil => intro t; simp [plug]
  | cons f rest ih =>
    intro t
    have h1 := ih (f.fill t)
    have h2 := depth_fill_ge f t
    simp only [plug, List.length_cons]
    omega

theorem del_target_length (ctx : Ctx K V) (a : Nat) (c : Color) (k : K) (v : V)
    (l r : RBNode K V) :
    (del_target ctx a c k v l r).1.length + 1 ≤ ctx.length + (node a c k v l r).depth := by
  cases l with
  | node la lc lk lv ll lr =>
    obtain ⟨ha, hc, hk, hv, hl, hshape⟩ :=
      maxPath_shape (node la lc lk lv ll lr) [] (by simp)
    have hmp : maxPath (node la lc lk lv ll lr) [] =
        ((maxPath (node la lc lk lv ll lr) []).1, node ha hc hk hv hl RBNode.nil) := by
      rw [← hshape]
    have hlen := maxPath_length (node la lc lk lv ll lr) []
    rw [hshape] at hlen
    rw [del_target, hmp]
    simp only [List.length_append, List.length_cons, RBNode.depth, List.length_nil] at hlen ⊢
    omega
  | nil =>
    cases r with
    | node ra rc rk rv rl rr =>
      obtain ⟨ha, hc, hk, hv, hr, hshape⟩ :=
        minPath_shape (node ra rc rk rv rl rr) [] (by simp)
      have hmp : minPath (node ra rc rk rv rl rr) [] =
          ((minPath (node ra rc rk rv rl rr) []).1, node ha hc hk hv RBNode.nil hr) := by
        rw [← hshape]
      have hlen := minPath_length (node ra rc rk rv rl rr) []
      rw [hshape] at hlen
      rw [del_target, hmp]
      simp only [List.length_append, List.length_cons, RBNode.depth, List.length_nil] at hlen ⊢
      omega
    | nil => simp [del_target, RBNode.depth]

/-- `tree_delete` of a key that compares equal to no stored key. -/
theorem WF.delete_absent_eq {tr : Tree K V} {T : RBNode K V} {key : K} {ctx : Ctx K V}
    {fuel : Nat} (h : WF tr T) (hd : descend tr.cmp key T [] = (ctx, RBNode.nil))
    (hf : T.depth ≤ fuel) : tree_delete fuel tr key = some (none, tr) := by
  have hl := WF.find_loop key T [] fuel h hf
  rw [hd] at hl
  simp only [ptr_nil] at hl
  simp only [tree_delete, tree_find_node, h.root, hl]

/-- `tree_delete` of a key that compares equal to a stored key. -/
theorem WF.delete_found_eq {tr : Tree K V} {T T' : RBNode K V} {key : K} {ctx : Ctx K V}
    {a : Nat} {c : Color} {k : K} {v : V} {l r : RBNode K V} {fuel : Nat}
    (h : WF tr T) (hd : descend tr.cmp key T [] = (ctx, node a c k v l r))
    (hu : del_unlink (del_target ctx a c k v l r).1 (del_target ctx a c k v l r).2 = some T')
    (hf : 3 * T.depth + 3 ≤ fuel) :
    ∃ r' m, tree_delete fuel tr key =
        some (some v, { tr with root := r', mem := m, size := tr.size - 1 }) ∧
      WF { tr with root := r', mem := m, size := tr.size - 1 } T' := by
  have hl := WF.find_loop key T [] fuel h (by omega)
  rw [hd] at hl
  simp only [ptr_node] at hl
  have hplug : plug ctx (node a c k v l r) = T := by
    have := descend_plug tr.cmp key T []
    rw [hd] at this
    exact this
  have h0 : WF tr (plug ctx (node a c k v l r)) := hplug ▸ h
  have hdep := depth_plug_ge ctx (node a c k v l r)
  rw [hplug] at hdep
  have hn := WF.read ctx h0
  have hX : (node a c k v l r).depth ≤ fuel := by omega
  obtain ⟨m1, e1, w1⟩ := WF.delete_heir ctx h0 hX
  have hlen := del_target_length ctx a c k v l r
  have hfuel2 : 3 * (del_target ctx a c k v l r).1.length + 3 ≤ fuel := by omega
  obtain ⟨r2, m2, ctx2, a2, c2, k2, v2, e2, w2, hT⟩ := WF.delete_child _ w1 hu hfuel2
  dsimp only at e2 w2
  obtain ⟨r3, m3, e3, w3⟩ := WF.unlink ctx2 w2
  dsimp only at e3 w3
  rw [hT] at w3
  refine ⟨r3, m3, ?_, ⟨w3.root, w3.rep, w3.nodup, w3.alloc⟩⟩
  have hfind : tree_find_node fuel tr key = some (some a) := by
    simp only [tree_find_node, h.root, hl]
  simp only [tree_delete, hfind, deref_some, hn, e1, e2, e3,
    Option.bind_eq_bind, Option.some_bind]

end

section

variable {K V : Type}
open RBNode Color

/-- `tree_node_foldl` folds the callback over the pairs in order. -/
theorem WF.node_foldl {tr : Tree K V} {A : Type} (f : K → V → A → A) :
    ∀ (t : RBNode K V) (ctx : Ctx K V) (fuel : Nat) (acc : A), WF tr (plug ctx t) →
      t.depth ≤ fuel →
      tree_node_foldl tr f fuel t.ptr acc =
        some (t.toList.foldl (fun acc kv => f kv.1 kv.2 acc) acc) := by
  intro t
  induction t with
  | nil =>
    intro ctx fuel acc _ _
    cases fuel <;> simp [tree_node_foldl, RBNode.toList]
  | node a c k v l r ihl ihr =>
    intro ctx fuel acc h hf
    have hn := WF.read ctx h
    simp only [RBNode.depth] at hf
    obtain ⟨f', rfl⟩ : ∃ f', fuel = f' + 1 := ⟨fuel - 1, by omega⟩
    have h1 := ihl (Frame.L a c k v r :: ctx) f' acc h (by omega)
    have h2 := ihr (Frame.R a c k v l :: ctx) f'
      (f k v (l.toList.foldl (fun acc kv => f kv.1 kv.2 acc) acc)) h (by omega)
    simp only [ptr_node, tree_node_foldl, hn, h1, h2, RBNode.toList, List.foldl_append,
      List.foldl_cons]

/-- `tree_node_foldr` folds the callback over the pairs in reverse order. -/
theorem WF.node_foldr {tr : Tree K V} {A : Type} (f : K → V → A → A) :
    ∀ (t : RBNode K V) (ctx : Ctx K V) (fuel : Nat) (acc : A), WF tr (plug ctx t) →
      t.depth ≤ fuel →
      tree_node_foldr tr f fuel t.ptr acc =
        some (t.toList.reverse.foldl (fun acc kv => f kv.1 kv.2 acc) acc) := by
  intro t
  induction t with
  | nil =>
    intro ctx fuel acc _ _
    cases fuel <;> simp [tree_node_foldr, RBNode.toList]
  | node a c k v l r ihl ihr =>
    intro ctx fuel acc h hf
    have hn := WF.read ctx h
    simp only [RBNode.depth] at hf
    obtain ⟨f', rfl⟩ : ∃ f', fuel = f' + 1 := ⟨fuel - 1, by omega⟩
    have h1 := ihr (Frame.R a c k v l :: ctx) f' acc h (by omega)
    have h2 := ihl (Frame.L a c k v r :: ctx) f'
      (f k v (r.toList.reverse.foldl (fun acc kv => f kv.1 kv.2 acc) acc)) h (by omega)
    simp only [ptr_node, tree_node_foldr, hn, h1, h2, RBNode.toList, List.reverse_append,
      List.reverse_cons, List.foldl_append, List.foldl_cons, List.foldl_nil, List.append_assoc,
      List.singleton_append]

/-- `tree_node_info` computes `info`. -/
theorem WF.node_info {tr : Tree K V} :
    ∀ (t : RBNode K V) (ctx : Ctx K V) (fuel : Nat), WF tr (plug ctx t) → t.depth ≤ fuel →
      tree_node_info tr fuel t.ptr = some t.info := by
  intro t
  induction t with
  | nil =>
    intro ctx fuel _ _
    cases fuel <;> simp [tree_node_info, RBNode.info]
  | node a c k v l r ihl ihr =>
    intro ctx fuel h hf
    have hn := WF.read ctx h
    simp only [RBNode.depth] at hf
    obtain ⟨f', rfl⟩ : ∃ f', fuel = f' + 1 := ⟨fuel - 1, by omega⟩
    have h1 := ihl (Frame.L a c k v r :: ctx) f' h (by omega)
    have h2 := ihr (Frame.R a c k v l :: ctx) f' h (by omega)
    simp only [ptr_node, tree_node_info, hn, h1, h2, RBNode.info]

end

section

variable {K V : Type}
open RBNode Color

theorem WF.is_black_ctx {tr : Tree K V} (ctx : Ctx K V) {t : RBNode K V}
    (h : WF tr (plug ctx t)) : IS_BLACK tr (ctxPtr ctx) = some (ctxBlack ctx) := by
  cases ctx with
  | nil => rfl
  | cons f rest =>
    have := WF.is_black rest (show WF tr (plug rest (f.fill t)) from h)
    rwa [ptr_fill, isBlack_fill] at this

theorem WF.bad_parent_ctx {tr : Tree K V} (ctx : Ctx K V) {t : RBNode K V}
    (h : WF tr (plug ctx t)) : bad_parent tr t.ptr (ctxPtr ctx) = some false := by
  cases t with
  | nil => rfl
  | node a c k v l r =>
    have hn := WF.read ctx h
    simp [bad_parent, hn]

theorem all_black_eq {tr : Tree K V} {p l r : Ptr} {bp bl br : Bool}
    (hp : IS_BLACK tr p = some bp) (hl : IS_BLACK tr l = some bl) (hr : IS_BLACK tr r = some br) :
    all_black tr p l r = some (bp && bl && br) := by
  cases bp <;> cases bl <;> simp [all_black, hp, hl, hr]

set_option maxHeartbeats 1000000 in
/-- `tree_node_check_integrity` computes `chkNode`. -/
theorem WF.node_check {tr : Tree K V} :
    ∀ (t : RBNode K V) (ctx : Ctx K V) (fuel : Nat), WF tr (plug ctx t) → t.depth ≤ fuel →
      tree_node_check_integrity tr fuel t.ptr = some (chkNode (ctxBlack ctx) t) := by
  intro t
  induction t with
  | nil =>
    intro ctx fuel _ _
    cases fuel <;> rfl
  | node a c k v l r ihl ihr =>
    intro ctx fuel h hf
    have hn := WF.read ctx h
    simp only [RBNode.depth] at hf
    obtain ⟨f', rfl⟩ : ∃ f', fuel = f' + 1 := ⟨fuel - 1, by omega⟩
    have h1 := ihl (Frame.L a c k v r :: ctx) f' h (by omega)
    have h2 := ihr (Frame.R a c k v l :: ctx) f' h (by omega)
    have i1 := WF.node_info l (Frame.L a c k v r :: ctx) f' h (by omega)
    have i2 := WF.node_info r (Frame.R a c k v l :: ctx) f' h (by omega)
    have p1 := WF.bad_parent_ctx (Frame.L a c k v r :: ctx) h
    have p2 := WF.bad_parent_ctx (Frame.R a c k v l :: ctx) h
    have b0 := WF.is_black_ctx ctx h
    have b1 : IS_BLACK tr l.ptr = some l.isBlack := WF.is_black (Frame.L a c k v r :: ctx) h
    have b2 : IS_BLACK tr r.ptr = some r.isBlack := WF.is_black (Frame.R a c k v l :: ctx) h
    have ab := all_black_eq b0 b1 b2
    simp only [ctxPtr_cons, Frame.addr, ctxBlack, Frame.color] at h1 h2 p1 p2
    rw [ptr_node, tree_node_check_integrity]
    simp only [hn, p1, p2, ab, i1, i2, h1, h2, chkNode]
    cases c with
    | RED =>
      simp only [if_true, decide_True, Bool.true_and, reduceCtorEq, decide_False]
      cases hb : (ctxBlack ctx && l.isBlack && r.isBlack) with
      | false => simp
      | true =>
        simp only [Bool.not_true, Bool.not_false, Bool.true_and]
        generalize (if l.info.height > r.info.height then l.info.height + 1
          else r.info.height + 1) = H
        generalize (if l.info.min_height ≤ r.info.min_height then l.info.min_height + 1
          else r.info.min_height + 1) = M
        by_cases e1 : l.info.black_height = r.info.black_height
        · simp only [e1, ne_eq, not_true_eq_false, if_false, decide_True, Bool.true_and]
          by_cases e2 : H ≤ M * 2
          · cases chkNode false l <;> simp [e2]
          · simp [e2]
        · simp [e1]
    | BLACK =>
      simp only [reduceCtorEq, if_false, decide_False, Bool.false_and, Bool.not_false,
        Bool.true_and, decide_True]
      generalize (if l.info.height > r.info.height then l.info.height + 1
        else r.info.height + 1) = H
      generalize (if l.info.min_height ≤ r.info.min_height then l.info.min_height + 1
        else r.info.min_height + 1) = M
      by_cases e1 : l.info.black_height = r.info.black_height
      · simp only [e1, ne_eq, not_true_eq_false, if_false, decide_True, Bool.true_and]
        by_cases e2 : H ≤ M * 2
        · cases chkNode true l <;> simp [e2]
        · simp [e2]
      · simp [e1]

/-- `tree_check_integrity` computes `chk`. -/
theorem WF.check {tr : Tree K V} {T : RBNode K V} {fuel : Nat} (h : WF tr T)
    (hf : T.depth ≤ fuel) : tree_check_integrity fuel tr = some (chk T) := by
  have hb := WF.is_black [] h
  have hc := WF.node_check T [] fuel h hf
  simp only [ctxBlack] at hc
  rw [← h.root] at hb hc
  simp only [tree_check_integrity, hb, hc, chk]
  cases T.isBlack <;> simp

end

section

variable {K V : Type}
open RBNode Color

theorem toList_fill (f : Frame K V) (t : RBNode K V) :
    (f.fill t).toList = ctxBefore [f] ++ t.toList ++ ctxAfter [f] := by
  cases f <;> simp [Frame.fill, RBNode.toList, ctxBefore, ctxAfter]

theorem toList_plug (ctx : Ctx K V) :
    ∀ t : RBNode K V, (plug ctx t).toList = ctxBefore ctx ++ t.toList ++ ctxAfter ctx := by
  induction ctx with
  | nil => intro t; simp [plug, ctxBefore, ctxAfter]
  | cons f rest ih =>
    intro t
    rw [plug, ih]
    cases f <;> simp [Frame.fill, RBNode.toList, ctxBefore, ctxAfter]

theorem ctxBefore_append (sp rest : Ctx K V) :
    ctxBefore (sp ++ rest) = ctxBefore rest ++ ctxBefore sp := by
  induction sp with
  | nil => simp [ctxBefore]
  | cons f sp ih =>
    cases f <;> simp [ctxBefore, ih]

theorem ctxAfter_append (sp rest : Ctx K V) :
    ctxAfter (sp ++ rest) = ctxAfter sp ++ ctxAfter rest := by
  induction sp with
  | nil => simp [ctxAfter]
  | cons f sp ih =>
    cases f <;> simp [ctxAfter, ih]

theorem count_plug (ctx : Ctx K V) :
    ∀ t : RBNode K V, (plug ctx t).count = ctxCount ctx + t.count := by
  induction ctx with
  | nil => intro t; simp [plug, ctxCount]
  | cons f rest ih =>
    intro t
    rw [plug, ih]
    cases f <;> simp only [Frame.fill, RBNode.count, ctxCount, Frame.sib] <;> omega

theorem count_eq_length (t : RBNode K V) : t.count = t.toList.length := by
  induction t with
  | nil => rfl
  | node a c k v l r ihl ihr =>
    simp only [RBNode.count, RBNode.toList, List.length_append, List.length_cons, ihl, ihr]
    omega

theorem depth_le_count (t : RBNode K V) : t.depth ≤ t.count := by
  induction t with
  | nil => simp [RBNode.depth]
  | node a c k v l r ihl ihr =>
    simp only [RBNode.depth, RBNode.count]
    omega

/-- The rotations and recolourings of `tree_insert4` and `tree_insert5` keep
the pairs in order. -/
theorem ins_rot_toList {f1 f2 : Frame K V} {t s : RBNode K V} (h : ins_rot f1 f2 t = some s) :
    s.toList = (f2.fill (f1.fill t)).toList := by
  cases f1 <;> cases f2 <;> cases t <;>
    simp only [ins_rot, Option.some.injEq, reduceCtorEq] at h <;> subst h <;>
    simp [Frame.fill, RBNode.toList]

theorem toList_setColor (t : RBNode K V) (c : Color) : (t.setColor c).toList = t.toList := by
  cases t <;> rfl

theorem toList_fill_recolor (f : Frame K V) (c : Color) (t : RBNode K V) :
    ((f.recolor c f.sib).fill t).toList = (f.fill t).toList := by
  cases f <;> rfl

/-- The insertion fix-up keeps the pairs in order. -/
theorem ins_fix_toList : ∀ (n : Nat) (ctx : Ctx K V) (t T' : RBNode K V), ctx.length ≤ n →
    ins_fix ctx t = some T' → T'.toList = (plug ctx t).toList := by
  intro n
  induction n with
  | zero =>
    intro ctx t T' hlen h
    have hctx : ctx = [] := List.length_eq_zero.1 (Nat.le_zero.1 hlen)
    subst hctx
    cases t with
    | nil => simp [ins_fix] at h
    | node a c k v l r =>
      simp only [ins_fix, Option.some.injEq] at h
      subst h
      rfl
  | succ n ih =>
    intro ctx t T' hlen h
    cases t with
    | nil => simp [ins_fix] at h
    | node a c k v l r =>
      match ctx, hlen, h with
      | [], _, h =>
        simp only [ins_fix, Option.some.injEq] at h
        subst h
        rfl
      | [f1], _, h =>
        simp only [ins_fix] at h
        cases hc : f1.color with
        | RED => rw [hc] at h; simp at h
        | BLACK =>
          rw [hc] at h
          simp only [Option.some.injEq] at h
          subst h
          rfl
      | f1 :: f2 :: rest, hlen, h =>
        simp only [ins_fix] at h
        cases hc : f1.color with
        | BLACK =>
          rw [hc] at h
          simp only [Option.some.injEq] at h
          subst h
          rfl
        | RED =>
          rw [hc] at h
          simp only at h
          cases hred : f2.sib.isRed with
          | true =>
            rw [hred] at h
            simp only [if_true] at h
            simp only [List.length_cons] at hlen
            have := ih rest _ T' (by omega) h
            have e : ((f2.recolor RED (f2.sib.setColor BLACK)).fill
                ((f1.recolor BLACK f1.sib).fill (node a c k v l r))).toList =
                (f2.fill (f1.fill (node a c k v l r))).toList := by
              cases f1 <;> cases f2 <;>
                simp [Frame.fill, Frame.recolor, Frame.sib, RBNode.toList, toList_setColor]
            rw [this]
            show _ = (plug rest (f2.fill (f1.fill (node a c k v l r)))).toList
            rw [toList_plug, toList_plug, e]
          | false =>
            rw [hred] at h
            simp only [Bool.false_eq_true, if_false] at h
            cases hrot : ins_rot f1 f2 (node a c k v l r) with
            | none => rw [hrot] at h; simp at h
            | some s =>
              rw [hrot] at h
              simp only [Option.some.injEq] at h
              subst h
              rw [toList_plug, ins_rot_toList hrot]
              simp only [plug]
              rw [toList_plug]

end

section

variable {K V : Type}
open RBNode Color

theorem Bal_plug (ctx : Ctx K V) :
    ∀ t : RBNode K V, Bal (plug ctx t) ↔ (Bal t ∧ CBal ctx t.bhL) := by
  induction ctx with
  | nil => intro t; simp [plug, CBal]
  | cons f rest ih =>
    intro t
    rw [plug, ih]
    cases f with
    | L a c k v r =>
      simp only [Frame.fill, Bal, RBNode.bhL, CBal, Frame.sib, Frame.color]
      constructor
      · rintro ⟨⟨h1, h2, h3⟩, h4⟩
        exact ⟨h2, h1.symm, h3, h4⟩
      · rintro ⟨h2, h1, h3, h4⟩
        exact ⟨⟨h1.symm, h2, h3⟩, h4⟩
    | R a c k v l =>
      simp only [Frame.fill, Bal, RBNode.bhL, CBal, Frame.sib, Frame.color]
      constructor
      · rintro ⟨⟨h1, h2, h3⟩, h4⟩
        exact ⟨h3, h1, h2, h1 ▸ h4⟩
      · rintro ⟨h3, h1, h2, h4⟩
        exact ⟨⟨h1, h2, h3⟩, h1 ▸ h4⟩

theorem isBlack_iff_not_isRed (t : RBNode K V) : t.isBlack = !t.isRed := by
  cases t with
  | nil => rfl
  | node a c k v l r => cases c <;> rfl

theorem NoRR_plug (ctx : Ctx K V) :
    ∀ t : RBNode K V, NoRR (plug ctx t) ↔
      (NoRR t ∧ (t.isRed = true → ctxBlack ctx = true) ∧ CNoRR ctx) := by
  induction ctx with
  | nil => intro t; simp [plug, CNoRR, ctxBlack]
  | cons f rest ih =>
    intro t
    rw [plug, ih]
    have e := isBlack_iff_not_isRed t
    cases f with
    | L a c k v r =>
      simp only [Frame.fill, NoRR, RBNode.isRed, CNoRR, Frame.sib, Frame.color, ctxBlack,
        decide_eq_true_eq, e]
      cases c <;> cases t.isRed <;> simp <;> tauto
    | R a c k v l =>
      simp only [Frame.fill, NoRR, RBNode.isRed, CNoRR, Frame.sib, Frame.color, ctxBlack,
        decide_eq_true_eq, e]
      cases c <;> cases t.isRed <;> simp <;> tauto

theorem isBlack_plug (ctx : Ctx K V) :
    ∀ t : RBNode K V, (plug ctx t).isBlack = rootBlack ctx t.isBlack := by
  induction ctx with
  | nil => intro t; rfl
  | cons f rest ih =>
    intro t
    rw [plug, ih, isBlack_fill]
    rfl

theorem rootBlack_mono (ctx : Ctx K V) {b : Bool} (h : rootBlack ctx b = true) :
    rootBlack ctx true = true := by
  cases ctx with
  | nil => rfl
  | cons f rest => exact h

/-- A state built from the three parts of the invariants of a subtree below a
path satisfies the red-black invariants. -/
theorem RB_plug {ctx : Ctx K V} {t : RBNode K V} (h1 : rootBlack ctx t.isBlack = true)
    (h2 : NoRR t) (h3 : t.isRed = true → ctxBlack ctx = true) (h4 : CNoRR ctx) (h5 : Bal t)
    (h6 : CBal ctx t.bhL) : RB (plug ctx t) :=
  ⟨by rw [isBlack_plug]; exact h1, (NoRR_plug ctx t).2 ⟨h2, h3, h4⟩, (Bal_plug ctx t).2 ⟨h5, h6⟩⟩

theorem RB_plug_inv {ctx : Ctx K V} {t : RBNode K V} (h : RB (plug ctx t)) :
    rootBlack ctx t.isBlack = true ∧ NoRR t ∧ (t.isRed = true → ctxBlack ctx = true) ∧
      CNoRR ctx ∧ Bal t ∧ CBal ctx t.bhL := by
  obtain ⟨h1, h2, h3⟩ := h
  rw [isBlack_plug] at h1
  have := (NoRR_plug ctx t).1 h2
  have := (Bal_plug ctx t).1 h3
  tauto

/-- The subtree `tree_insert4` and `tree_insert5` build satisfies invariants 3
and 4 with a BLACK root and one BLACK node more on its paths than the node the
fix-up is at. -/
theorem ins_rot_RB {f1 f2 : Frame K V} {a : Nat} {k : K} {v : V} {l r : RBNode K V}
    (hn : NoRR (node a RED k v l r)) (hb : Bal (node a RED k v l r))
    (h1s : NoRR f1.sib) (h1b : f1.sib.isBlack = true) (h2s : NoRR f2.sib)
    (h2b : f2.sib.isRed = false)
    (c1 : f1.sib.bhL = (node a RED k v l r).bhL) (c1b : Bal f1.sib)
    (c2 : f2.sib.bhL = (node a RED k v l r).bhL) (c2b : Bal f2.sib) (hc : f1.color = RED) :
    ∃ s, ins_rot f1 f2 (node a RED k v l r) = some s ∧ s.isBlack = true ∧ NoRR s ∧ Bal s ∧
      s.bhL = (node a RED k v l r).bhL + 1 := by
  have e2 := isBlack_iff_not_isRed f2.sib
  rw [h2b] at e2
  rcases f1 with ⟨pa, pc, pk, pv, ps⟩ | ⟨pa, pc, pk, pv, ps⟩ <;>
  rcases f2 with ⟨ga, gc, gk, gv, u⟩ | ⟨ga, gc, gk, gv, u⟩ <;>
  simp only [Frame.sib, Frame.color, NoRR, Bal, RBNode.bhL, reduceCtorEq, if_false,
    Nat.add_zero, true_implies, Bool.not_false] at * <;>
  subst hc <;>
  refine ⟨_, rfl, rfl, ?_, ?_, ?_⟩ <;>
  simp only [NoRR, Bal, RBNode.bhL, reduceCtorEq, if_false, if_true, Nat.add_zero,
    true_implies, false_implies, true_and, RBNode.isBlack, decide_True] <;>
  (repeat' apply And.intro) <;>
  first
    | assumption
    | omega
    | tauto

theorem NoRR_setColor_black {t : RBNode K V} (h : NoRR t) : NoRR (t.setColor BLACK) := by
  cases t with
  | nil => trivial
  | node a c k v l r => exact ⟨by simp, h.2.1, h.2.2⟩

theorem Bal_setColor {t : RBNode K V} (c : Color) (h : Bal t) : Bal (t.setColor c) := by
  cases t with
  | nil => trivial
  | node a c' k v l r => exact h

/-- The recolouring of the red-uncle case leaves a RED subtree in place of
the grandparent that satisfies invariants 3 and 4, with one BLACK node more on
its paths. -/
theorem ins_recolor_RB {f1 f2 : Frame K V} {a : Nat} {k : K} {v : V} {l r : RBNode K V}
    {ua : Nat} {uk : K} {uv : V} {ul ur : RBNode K V}
    (hn : NoRR (node a RED k v l r)) (hb : Bal (node a RED k v l r))
    (h1s : NoRR f1.sib) (h2s : NoRR f2.sib)
    (c1 : f1.sib.bhL = (node a RED k v l r).bhL) (c1b : Bal f1.sib)
    (c2 : f2.sib.bhL = (node a RED k v l r).bhL) (c2b : Bal f2.sib)
    (hu : f2.sib = node ua RED uk uv ul ur) :
    NoRR ((f2.recolor RED (f2.sib.setColor BLACK)).fill
        ((f1.recolor BLACK f1.sib).fill (node a RED k v l r))) ∧
      Bal ((f2.recolor RED (f2.sib.setColor BLACK)).fill
        ((f1.recolor BLACK f1.sib).fill (node a RED k v l r))) ∧
      ((f2.recolor RED (f2.sib.setColor BLACK)).fill
        ((f1.recolor BLACK f1.sib).fill (node a RED k v l r))).bhL =
        (node a RED k v l r).bhL + 1 := by
  rw [hu] at h2s c2 c2b
  rcases f1 with ⟨pa, pc, pk, pv, ps⟩ | ⟨pa, pc, pk, pv, ps⟩ <;>
  rcases f2 with ⟨ga, gc, gk, gv, u⟩ | ⟨ga, gc, gk, gv, u⟩ <;>
  simp only [Frame.sib] at hu <;> subst hu <;>
  simp only [Frame.sib, Frame.color, Frame.fill, Frame.recolor, RBNode.setColor, NoRR,
    Bal, RBNode.bhL, RBNode.isBlack, reduceCtorEq, if_false, if_true, Nat.add_zero,
    true_implies, false_implies, true_and, decide_True] at * <;>
  (repeat' apply And.intro) <;>
  first
    | assumption
    | omega
    | tauto

set_option maxHeartbeats 1000000 in
/-- The insertion fix-up, run at a RED node that satisfies the invariants
below a path that satisfies them, returns a tree that satisfies the red-black
invariants. -/
theorem ins_fix_RB : ∀ (n : Nat) (ctx : Ctx K V) (a : Nat) (k : K) (v : V) (l r : RBNode K V),
    ctx.length ≤ n → NoRR (node a RED k v l r) → Bal (node a RED k v l r) →
    CBal ctx (node a RED k v l r).bhL → CNoRR ctx → rootBlack ctx true = true →
    ∃ T', ins_fix ctx (node a RED k v l r) = some T' ∧ RB T' := by
  intro n
  induction n using Nat.strong_induction_on with
  | _ n ih =>
    intro ctx a k v l r hlen hn hb hcb hcn hroot
    match ctx, hlen, hcb, hcn, hroot with
    | [], _, _, _, _ =>
      refine ⟨_, rfl, rfl, ⟨by simp, hn.2.1, hn.2.2⟩, hb⟩
    | [f1], _, hcb, hcn, hroot =>
      simp only [rootBlack, decide_eq_true_eq] at hroot
      refine ⟨plug [f1] (node a RED k v l r), by simp only [ins_fix, hroot], ?_⟩
      exact RB_plug (by simp [rootBlack, hroot]) hn (by simp [ctxBlack, hroot]) hcn hb hcb
    | f1 :: f2 :: rest, hlen, hcb, hcn, hroot =>
      cases hc : f1.color with
      | BLACK =>
        refine ⟨plug (f1 :: f2 :: rest) (node a RED k v l r), by simp only [ins_fix, hc], ?_⟩
        exact RB_plug hroot hn (by simp [ctxBlack, hc]) hcn hb hcb
      | RED =>
        obtain ⟨h1s, h1c, h2s, h2c, hrest⟩ := hcn
        obtain ⟨h1b, h2k⟩ := h1c hc
        simp only [ctxBlack, decide_eq_true_eq] at h2k
        obtain ⟨c1, c1b, c2, c2b, c3⟩ := hcb
        simp only [hc, h2k, reduceCtorEq, if_false, if_true, Nat.add_zero] at c2 c3
        simp only [rootBlack] at hroot
        cases hred : f2.sib.isRed with
        | false =>
          obtain ⟨s, hs, sb, sn, sbal, sh⟩ :=
            ins_rot_RB hn hb h1s h1b h2s hred c1 c1b c2 c2b hc
          refine ⟨plug rest s, by simp only [ins_fix, hc, hred, hs, Bool.false_eq_true,
            if_false], ?_⟩
          refine RB_plug ?_ sn ?_ hrest sbal (sh ▸ c3)
          · rw [sb]; exact rootBlack_mono rest hroot
          · intro hr
            have := isBlack_iff_not_isRed s
            rw [sb, hr] at this
            simp at this
        | true =>
          obtain ⟨ua, uk, uv, ul, ur, hu⟩ := isRed_eq_true hred
          simp only [List.length_cons] at hlen
          have hrb := rootBlack_mono rest hroot
          have key := ins_recolor_RB hn hb h1s h2s c1 c1b c2 c2b hu
          obtain ⟨a', c', k', v', l', r', e, _⟩ :=
            Frame.fill_node (f2.recolor RED (f2.sib.setColor BLACK))
              ((f1.recolor BLACK f1.sib).fill (node a RED k v l r))
          have ec : c' = RED := by
            have := congrArg RBNode.isRed e
            rw [isRed_fill, Frame.recolor_color] at this
            simpa [RBNode.isRed] using this.symm
          subst ec
          rw [e] at key
          obtain ⟨k1, k2, k3⟩ := key
          obtain ⟨T', hT, hRB⟩ := ih (rest.length) (by omega) rest a' k' v' l' r' (Nat.le_refl _)
            k1 k2 (k3 ▸ c3) hrest hrb
          refine ⟨T', ?_, hRB⟩
          simp only [ins_fix, hc, hred, if_true]
          rw [e]
          exact hT

end

section

variable {K V : Type}
open RBNode Color

theorem TotalCmp.eq_swap {cmp : K → K → Int} (h : TotalCmp cmp) {a b : K}
    (e : cmp a b = 0) : cmp b a = 0 := by
  have h1 := h.swap a b
  have h2 := h.swap b a
  omega

theorem TotalCmp.lt_trans {cmp : K → K → Int} (h : TotalCmp cmp) {a b c : K}
    (h1 : cmp a b < 0) (h2 : cmp b c < 0) : cmp a c < 0 := by
  have h3 := h.le_trans a b c (by omega) (by omega)
  by_contra hne
  have e : cmp a c = 0 := by omega
  have e' := h.eq_swap e
  have h4 := h.le_trans c a b (by omega) (by omega)
  have h5 := h.swap b c
  omega

theorem TotalCmp.lt_of_lt_of_eq {cmp : K → K → Int} (h : TotalCmp cmp) {a b c : K}
    (h1 : cmp a b < 0) (h2 : cmp b c = 0) : cmp a c < 0 := by
  have h3 := h.le_trans a b c (by omega) (by omega)
  by_contra hne
  have e : cmp a c = 0 := by omega
  have e' := h.eq_swap e
  have h4 := h.le_trans b c a (by omega) (by omega)
  have h5 := h.swap a b
  omega

theorem TotalCmp.lt_of_eq_of_lt {cmp : K → K → Int} (h : TotalCmp cmp) {a b c : K}
    (h1 : cmp a b = 0) (h2 : cmp b c < 0) : cmp a c < 0 := by
  have h3 := h.le_trans a b c (by omega) (by omega)
  by_contra hne
  have e : cmp a c = 0 := by omega
  have e' := h.eq_swap e
  have h4 := h.le_trans c a b (by omega) (by omega)
  have h5 := h.swap b c
  omega

theorem mem_keys {t : RBNode K V} {x : K} : x ∈ t.keys ↔ ∃ p ∈ t.toList, p.1 = x := by
  simp [RBNode.keys]

/-- The binary-search order says that the keys are strictly ascending in
order. -/
theorem BST_iff {cmp : K → K → Int} (hc : TotalCmp cmp) (t : RBNode K V) :
    BST cmp t ↔ Ascending cmp t.toList := by
  induction t with
  | nil => simp [BST, Ascending, RBNode.toList]
  | node a c k v l r ihl ihr =>
    simp only [BST, Ascending, RBNode.toList, List.pairwise_append, List.pairwise_cons,
      List.mem_cons, mem_keys] at *
    rw [ihl, ihr]
    constructor
    · rintro ⟨h1, h2, h3, h4⟩
      refine ⟨h3, ⟨?_, h4⟩, ?_⟩
      · intro p hp
        have := h2 p.1 ⟨p, hp, rfl⟩
        exact (hc.swap k p.1).2 (by omega)
      · intro p hp q hq
        have hpk := h1 p.1 ⟨p, hp, rfl⟩
        rcases hq with rfl | hq
        · exact hpk
        · have := h2 q.1 ⟨q, hq, rfl⟩
          exact hc.lt_trans hpk ((hc.swap k q.1).2 (by omega))
    · rintro ⟨h3, ⟨h2, h4⟩, h1⟩
      refine ⟨?_, ?_, h3, h4⟩
      · rintro x ⟨p, hp, rfl⟩
        exact h1 p hp (k, v) (Or.inl rfl)
      · rintro x ⟨p, hp, rfl⟩
        have := (hc.swap k p.1).1 (h2 p hp)
        omega

theorem descend_onPath (cmp : K → K → Int) (key : K) :
    ∀ (t : RBNode K V) (ctx : Ctx K V), OnPath cmp key ctx →
      OnPath cmp key (descend cmp key t ctx).1 := by
  intro t
  induction t with
  | nil => intro ctx h; exact h
  | node a c k v l r ihl ihr =>
    intro ctx h
    unfold descend
    split
    · rename_i h1
      exact ihl _ ⟨h1, h⟩
    · split
      · rename_i h1 h2
        exact ihr _ ⟨h2, h⟩
      · exact h

theorem descend_found (cmp : K → K → Int) (key : K) :
    ∀ (t : RBNode K V) (ctx : Ctx K V) (a : Nat) (c : Color) (k : K) (v : V)
      (l r : RBNode K V), (descend cmp key t ctx).2 = node a c k v l r → cmp key k = 0 := by
  intro t
  induction t with
  | nil => intro ctx a c k v l r h; simp [descend] at h
  | node a' c' k' v' l' r' ihl ihr =>
    intro ctx a c k v l r h
    unfold descend at h
    split at h
    · exact ihl _ a c k v l r h
    · split at h
      · exact ihr _ a c k v l r h
      · rename_i h1 h2
        simp only [RBNode.node.injEq] at h
        obtain ⟨_, _, rfl, _⟩ := h
        omega

/-- On the path the comparisons lead along, the pairs before the path have
smaller keys and the pairs after it larger keys. -/
theorem path_bounds {cmp : K → K → Int} (hc : TotalCmp cmp) (key : K) :
    ∀ (ctx : Ctx K V) (t : RBNode K V), Ascending cmp (plug ctx t).toList →
      OnPath cmp key ctx →
      (∀ p ∈ ctxBefore ctx, cmp p.1 key < 0) ∧ (∀ p ∈ ctxAfter ctx, cmp key p.1 < 0) := by
  intro ctx
  induction ctx with
  | nil => intro t _ _; simp [ctxBefore, ctxAfter]
  | cons f rest ih =>
    intro t hasc hp
    rw [plug] at hasc
    have hasc' := hasc
    rw [toList_plug] at hasc'
    simp only [Ascending, List.pairwise_append] at hasc'
    have hfill := hasc'.1.2.1
    cases f with
    | L a c k v r =>
      obtain ⟨hk, hrest⟩ := hp
      obtain ⟨ih1, ih2⟩ := ih _ hasc hrest
      simp only [Frame.fill, RBNode.toList, List.pairwise_append, List.pairwise_cons] at hfill
      refine ⟨ih1, ?_⟩
      intro p hp
      simp only [ctxAfter, List.mem_append, List.mem_cons] at hp
      rcases hp with (rfl | hp) | hp
      · exact hk
      · exact hc.lt_trans hk (hfill.2.1.1 p hp)
      · exact ih2 p hp
    | R a c k v l =>
      obtain ⟨hk, hrest⟩ := hp
      obtain ⟨ih1, ih2⟩ := ih _ hasc hrest
      simp only [Frame.fill, RBNode.toList, List.pairwise_append, List.pairwise_cons] at hfill
      have hk' : cmp k key < 0 := (hc.swap k key).2 (by omega)
      refine ⟨?_, ih2⟩
      intro p hp
      simp only [ctxBefore, List.mem_append, List.mem_singleton] at hp
      rcases hp with hp | hp | rfl
      · exact ih1 p hp
      · exact hc.lt_trans (hfill.2.2 p hp (k, v) (List.mem_cons_self _ _)) hk'
      · exact hk'

end

section

variable {K V : Type}
open RBNode Color

/-- Where `descend` ends, seen on the list of pairs: the pairs before the end
of the path have smaller keys, the pairs after it larger keys. -/
theorem descend_bounds {cmp : K → K → Int} (hc : TotalCmp cmp) (key : K) {T : RBNode K V}
    (hb : BST cmp T) {ctx : Ctx K V} {t : RBNode K V} (hd : descend cmp key T [] = (ctx, t)) :
    T.toList = ctxBefore ctx ++ t.toList ++ ctxAfter ctx ∧
      (∀ p ∈ ctxBefore ctx, cmp p.1 key < 0) ∧ (∀ p ∈ ctxAfter ctx, cmp key p.1 < 0) := by
  have hplug : plug ctx t = T := by
    have := descend_plug cmp key T []
    rw [hd] at this
    exact this
  have hpath : OnPath cmp key ctx := by
    have := descend_onPath cmp key T [] trivial
    rw [hd] at this
    exact this
  have hasc := (BST_iff hc T).1 hb
  rw [← hplug] at hasc
  refine ⟨by rw [← hplug, toList_plug], path_bounds hc key ctx t hasc hpath⟩

/-- No stored key compares equal: `descend` ends at an empty place. -/
theorem descend_absent {cmp : K → K → Int} (hc : TotalCmp cmp) (key : K) {T : RBNode K V}
    (hb : BST cmp T) (habs : ∀ p ∈ T.toList, cmp key p.1 ≠ 0) :
    ∃ ctx, descend cmp key T [] = (ctx, RBNode.nil) := by
  rcases hd : descend cmp key T [] with ⟨ctx, t⟩
  cases t with
  | nil => exact ⟨ctx, rfl⟩
  | node a c k v l r =>
    exfalso
    obtain ⟨h1, _, _⟩ := descend_bounds hc key hb hd
    have h0 := descend_found cmp key T [] a c k v l r (by rw [hd])
    exact habs (k, v) (by rw [h1]; simp [RBNode.toList]) h0

/-- A stored key compares equal: `descend` ends at a node whose key compares
equal and that holds the value stored with that key. -/
theorem descend_present {cmp : K → K → Int} (hc : TotalCmp cmp) (key : K) {T : RBNode K V}
    (hb : BST cmp T) {p : K × V} (hp : p ∈ T.toList) (he : cmp key p.1 = 0) :
    ∃ ctx a c k l r, descend cmp key T [] = (ctx, node a c k p.2 l r) ∧ cmp key k = 0 := by
  rcases hd : descend cmp key T [] with ⟨ctx, t⟩
  obtain ⟨h1, h2, h3⟩ := descend_bounds hc key hb hd
  have hasc := (BST_iff hc T).1 hb
  rw [h1] at hp hasc
  simp only [List.mem_append] at hp
  have hne1 : p ∉ ctxBefore ctx := by
    intro hm
    have := h2 p hm
    have := (hc.swap p.1 key).1 this
    omega
  have hne2 : p ∉ ctxAfter ctx := by
    intro hm
    have := h3 p hm
    omega
  have hpt : p ∈ t.toList := by tauto
  cases t with
  | nil => simp [RBNode.toList] at hpt
  | node a c k v l r =>
    have h0 := descend_found cmp key T [] a c k v l r (by rw [hd])
    simp only [Ascending, RBNode.toList, List.pairwise_append, List.pairwise_cons] at hasc
    obtain ⟨⟨_, ⟨_, ⟨hkr, _⟩, hlk⟩, _⟩, _⟩ := hasc
    simp only [RBNode.toList, List.mem_append, List.mem_cons] at hpt
    rcases hpt with hpl | rfl | hpr
    · exfalso
      have h4 := hlk p hpl (k, v) (List.mem_cons_self _ _)
      have h5 := hc.lt_of_lt_of_eq h4 (hc.eq_swap h0)
      have := (hc.swap p.1 key).1 h5
      omega
    · exact ⟨ctx, a, c, k, l, r, rfl, h0⟩
    · exfalso
      have h4 := hkr p hpr
      have h5 := hc.lt_of_eq_of_lt h0 h4
      omega

/-- Putting a pair in between keeps the keys ascending when its key lies in
between. -/
theorem Ascending.insert {cmp : K → K → Int} (_hc : TotalCmp cmp) {l1 l2 : List (K × V)}
    {p : K × V} (h : Ascending cmp (l1 ++ l2)) (h1 : ∀ q ∈ l1, cmp q.1 p.1 < 0)
    (h2 : ∀ q ∈ l2, cmp p.1 q.1 < 0) : Ascending cmp (l1 ++ p :: l2) := by
  simp only [Ascending, List.pairwise_append, List.pairwise_cons, List.mem_cons] at *
  obtain ⟨ha, hb, hab⟩ := h
  refine ⟨ha, ⟨h2, hb⟩, ?_⟩
  intro a ha' b hb'
  rcases hb' with rfl | hb'
  · exact h1 a ha'
  · exact hab a ha' b hb'

theorem Ascending.remove {cmp : K → K → Int} {l1 l2 : List (K × V)}
    {p : K × V} (h : Ascending cmp (l1 ++ p :: l2)) : Ascending cmp (l1 ++ l2) := by
  simp only [Ascending, List.pairwise_append, List.pairwise_cons, List.mem_cons] at *
  obtain ⟨ha, ⟨_, hb⟩, hab⟩ := h
  exact ⟨ha, hb, fun a ha' b hb' => hab a ha' b (Or.inr hb')⟩

/-- `ins` on a tree that satisfies the red-black invariants returns a tree
that satisfies them. -/
theorem ins_RB (cmp : K → K → Int) (next : Nat) (key : K) (value : V) {T : RBNode K V}
    (h : RB T) : ∃ T', ins cmp next key value T = some T' ∧ RB T' := by
  rcases hd : descend cmp key T [] with ⟨ctx, t⟩
  have hplug : plug ctx t = T := by
    have := descend_plug cmp key T []
    rw [hd] at this
    exact this
  cases t with
  | node a c k v l r => exact ⟨T, by simp only [ins, hd], h⟩
  | nil =>
    rw [← hplug] at h
    obtain ⟨h1, _, _, h4, _, h6⟩ := RB_plug_inv h
    obtain ⟨T', hT, hRB⟩ := ins_fix_RB ctx.length ctx next key value RBNode.nil RBNode.nil
      (Nat.le_refl _) ⟨by simp [RBNode.isBlack], trivial, trivial⟩ ⟨rfl, trivial, trivial⟩
      h6 h4 h1
    exact ⟨T', by simp only [ins, hd, hT], hRB⟩

end

section

variable {K V : Type}
open RBNode Color

theorem del6_toList {ctx ctx' : Ctx K V} (h : del6 ctx = some ctx') (X : RBNode K V) :
    (plug ctx' X).toList = (plug ctx X).toList := by
  unfold del6 at h
  split at h
  · simp only [Option.some.injEq] at h
    subst h
    simp only [plug, Frame.fill]
    rw [toList_plug, toList_plug]
    simp [RBNode.toList]
  · simp only [Option.some.injEq] at h
    subst h
    simp only [plug, Frame.fill]
    rw [toList_plug, toList_plug]
    simp [RBNode.toList]
  · simp at h

theorem sibRotR_toList (s : RBNode K V) : (sibRotR s).toList = s.toList := by
  unfold sibRotR
  split <;> simp [RBNode.toList]

theorem sibRotL_toList (s : RBNode K V) : (sibRotL s).toList = s.toList := by
  unfold sibRotL
  split <;> simp [RBNode.toList]

theorem del5_toList {ctx ctx' : Ctx K V} (h : del5 ctx = some ctx') (X : RBNode K V) :
    (plug ctx' X).toList = (plug ctx X).toList := by
  cases ctx with
  | nil => simp [del5] at h
  | cons f rest =>
    cases f with
    | L pa pc pk pv s =>
      simp only [del5] at h
      split at h
      · rw [del6_toList h X]
        simp only [plug, Frame.fill]
        rw [toList_plug, toList_plug]
        simp [RBNode.toList, sibRotR_toList]
      · exact del6_toList h X
    | R pa pc pk pv s =>
      simp only [del5] at h
      split at h
      · rw [del6_toList h X]
        simp only [plug, Frame.fill]
        rw [toList_plug, toList_plug]
        simp [RBNode.toList, sibRotL_toList]
      · exact del6_toList h X

theorem toList_fill_recolor' (f : Frame K V) (c : Color) (s : RBNode K V) (t : RBNode K V)
    (hs : s.toList = f.sib.toList) : ((f.recolor c s).fill t).toList = (f.fill t).toList := by
  cases f <;> simp [Frame.recolor, Frame.fill, RBNode.toList, Frame.sib] at * <;> rw [hs]

theorem del4_toList {ctx ctx' : Ctx K V} (h : del4 ctx = some ctx') (X : RBNode K V) :
    (plug ctx' X).toList = (plug ctx X).toList := by
  cases ctx with
  | nil => simp [del4] at h
  | cons f rest =>
    simp only [del4] at h
    split at h
    · simp only [Option.some.injEq] at h
      subst h
      simp only [plug]
      rw [toList_plug, toList_plug, toList_fill_recolor' _ _ _ _ (toList_setColor _ _)]
    · exact del5_toList h X

theorem del2rot_toList (f : Frame K V) (rest : Ctx K V) (X : RBNode K V) :
    (plug (del2rot f rest) X).toList = (plug (f :: rest) X).toList := by
  unfold del2rot
  split
  · simp only [plug, Frame.fill]
    rw [toList_plug, toList_plug]
    simp [RBNode.toList]
  · simp only [plug, Frame.fill]
    rw [toList_plug, toList_plug]
    simp [RBNode.toList]
  · rfl

/-- The double-black fix-up keeps the pairs in order, whatever subtree is at
the node. -/
theorem del1_toList : ∀ (ctx ctx' : Ctx K V), del1 ctx = some ctx' → ∀ X : RBNode K V,
    (plug ctx' X).toList = (plug ctx X).toList := by
  intro ctx
  induction ctx with
  | nil =>
    intro ctx' h X
    simp only [del1, Option.some.injEq] at h
    subst h
    rfl
  | cons f rest ih =>
    intro ctx' h X
    simp only [del1] at h
    split at h
    · rw [del4_toList h X, del2rot_toList]
    · split at h
      · cases hrec : del1 rest with
        | none => rw [hrec] at h; simp at h
        | some rest' =>
          rw [hrec] at h
          simp only [Option.some.injEq] at h
          subst h
          simp only [plug]
          rw [ih rest' hrec, toList_plug, toList_plug,
            toList_fill_recolor' _ _ _ _ (toList_setColor _ _)]
      · exact del4_toList h X

end

section

variable {K V : Type}
open RBNode Color

theorem del6_RB_L {pa : Nat} {pc : Color} {pk : K} {pv : V} {sa : Nat} {sk : K} {sv : V}
    {sl : RBNode K V} {ra : Nat} {rk : K} {rv : V} {rl rr : RBNode K V} {rest : Ctx K V} {m : Nat}
    (hb : CBal (Frame.L pa pc pk pv (node sa BLACK sk sv sl (node ra RED rk rv rl rr)) :: rest)
      (m + 1))
    (hn : CNoRR (Frame.L pa pc pk pv (node sa BLACK sk sv sl (node ra RED rk rv rl rr)) :: rest))
    (hr : rootBlack
      (Frame.L pa pc pk pv (node sa BLACK sk sv sl (node ra RED rk rv rl rr)) :: rest) true = true) :
    ∃ ctx', del6 (Frame.L pa pc pk pv (node sa BLACK sk sv sl (node ra RED rk rv rl rr)) :: rest)
        = some ctx' ∧ CBal ctx' m ∧ CNoRR ctx' ∧ rootBlack ctx' true = true := by
  refine ⟨_, rfl, ?_, ?_, ?_⟩
  · simp only [CBal, Bal, RBNode.bhL, Frame.sib, Frame.color] at hb ⊢
    simp at hb ⊢
    obtain ⟨h1, ⟨h2, h3, h4, h5, h6⟩, h7⟩ := hb
    refine ⟨by omega, h3, by omega, ⟨h4, h5, h6⟩, ?_⟩
    exact h7
  · simp only [CNoRR, NoRR, Frame.sib, Frame.color, ctxBlack, RBNode.isBlack] at hn ⊢
    simp at hn ⊢
    tauto
  · exact hr

theorem del6_RB_R {pa : Nat} {pc : Color} {pk : K} {pv : V} {sa : Nat} {sk : K} {sv : V}
    {sr : RBNode K V} {la : Nat} {lk : K} {lv : V} {ll lr : RBNode K V} {rest : Ctx K V} {m : Nat}
    (hb : CBal (Frame.R pa pc pk pv (node sa BLACK sk sv (node la RED lk lv ll lr) sr) :: rest)
      (m + 1))
    (hn : CNoRR (Frame.R pa pc pk pv (node sa BLACK sk sv (node la RED lk lv ll lr) sr) :: rest))
    (hr : rootBlack
      (Frame.R pa pc pk pv (node sa BLACK sk sv (node la RED lk lv ll lr) sr) :: rest) true = true) :
    ∃ ctx', del6 (Frame.R pa pc pk pv (node sa BLACK sk sv (node la RED lk lv ll lr) sr) :: rest)
        = some ctx' ∧ CBal ctx' m ∧ CNoRR ctx' ∧ rootBlack ctx' true = true := by
  refine ⟨_, rfl, ?_, ?_, ?_⟩
  · simp only [CBal, Bal, RBNode.bhL, Frame.sib, Frame.color] at hb ⊢
    simp at hb ⊢
    obtain ⟨h1, ⟨h2, ⟨h3, h4, h5⟩, h6⟩, h7⟩ := hb
    refine ⟨by omega, h6, by omega, ⟨by omega, h4, h5⟩, ?_⟩
    exact h7
  · simp only [CNoRR, NoRR, Frame.sib, Frame.color, ctxBlack, RBNode.isBlack] at hn ⊢
    simp at hn ⊢
    tauto
  · exact hr

theorem isRed_node_iff {t : RBNode K V} (h : t.isRed = true) :
    ∃ a k v l r, t = node a RED k v l r := by
  cases t with
  | nil => simp [RBNode.isRed] at h
  | node a c k v l r =>
    cases c with
    | RED => exact ⟨a, k, v, l, r, rfl⟩
    | BLACK => simp [RBNode.isRed] at h

/-- Cases 5 and 6 of the double-black fix-up: the sibling is BLACK and has a
RED child. -/
theorem del5_RB {f : Frame K V} {rest : Ctx K V} {m : Nat} {sa : Nat} {sk : K} {sv : V}
    {sl sr : RBNode K V} (hs : f.sib = node sa BLACK sk sv sl sr)
    (hne : ¬ (sl.isBlack = true ∧ sr.isBlack = true))
    (hb : CBal (f :: rest) (m + 1)) (hn : CNoRR (f :: rest))
    (hr : rootBlack (f :: rest) true = true) :
    ∃ ctx', del5 (f :: rest) = some ctx' ∧ CBal ctx' m ∧ CNoRR ctx' ∧
      rootBlack ctx' true = true := by
  cases f with
  | L pa pc pk pv s =>
    simp only [Frame.sib] at hs
    subst hs
    simp only [del5, RBNode.isBlack, RBNode.left, RBNode.right, Bool.true_and]
    by_cases hc : (sr.isBlack && sl.isRed) = true
    · rw [if_pos (by simpa using hc)]
      simp only [Bool.and_eq_true] at hc
      obtain ⟨la, lk, lv, ll, lr, rfl⟩ := isRed_node_iff hc.2
      simp only [sibRotR]
      apply del6_RB_L
      · simp only [CBal, Bal, RBNode.bhL, Frame.sib, Frame.color] at hb ⊢
        simp at hb ⊢
        obtain ⟨h1, ⟨h2, ⟨h3, h4, h5⟩, h6⟩, h7⟩ := hb
        exact ⟨by omega, ⟨by omega, h4, by omega, h5, h6⟩, h7⟩
      · simp only [CNoRR, NoRR, Frame.sib, Frame.color, ctxBlack, RBNode.isBlack] at hn ⊢
        simp at hn ⊢
        have := hc.1
        tauto
      · exact hr
    · rw [if_neg (by simpa using hc)]
      have hrr : sr.isRed = true := by
        rw [isBlack_iff_not_isRed sl, isBlack_iff_not_isRed sr] at hne
        rw [isBlack_iff_not_isRed sr] at hc
        revert hne hc
        cases sl.isRed <;> cases sr.isRed <;> simp
      obtain ⟨ra, rk, rv, rl, rr, rfl⟩ := isRed_node_iff hrr
      exact del6_RB_L hb hn hr
  | R pa pc pk pv s =>
    simp only [Frame.sib] at hs
    subst hs
    simp only [del5, RBNode.isBlack, RBNode.left, RBNode.right, Bool.true_and]
    by_cases hc : (sl.isBlack && sr.isRed) = true
    · rw [if_pos (by simpa using hc)]
      simp only [Bool.and_eq_true] at hc
      obtain ⟨ra, rk, rv, rl, rr, rfl⟩ := isRed_node_iff hc.2
      simp only [sibRotL]
      apply del6_RB_R
      · simp only [CBal, Bal, RBNode.bhL, Frame.sib, Frame.color] at hb ⊢
        simp at hb ⊢
        obtain ⟨h1, ⟨h2, h3, h4, h5, h6⟩, h7⟩ := hb
        exact ⟨by omega, ⟨by omega, ⟨by omega, h3, h5⟩, h6⟩, h7⟩
      · simp only [CNoRR, NoRR, Frame.sib, Frame.color, ctxBlack, RBNode.isBlack] at hn ⊢
        simp at hn ⊢
        have := hc.1
        tauto
      · exact hr
    · rw [if_neg (by simpa using hc)]
      have hrr : sl.isRed = true := by
        rw [isBlack_iff_not_isRed sl, isBlack_iff_not_isRed sr] at hne
        rw [isBlack_iff_not_isRed sl] at hc
        revert hne hc
        cases sl.isRed <;> cases sr.isRed <;> simp
      obtain ⟨la, lk, lv, ll, lr, rfl⟩ := isRed_node_iff hrr
      exact del6_RB_R hb hn hr

theorem black_node_of {t : RBNode K V} {m : Nat} (h : t.bhL = m + 1) (hr : t.isRed = false) :
    ∃ a k v l r, t = node a BLACK k v l r := by
  cases t with
  | nil => simp [RBNode.bhL] at h
  | node a c k v l r =>
    cases c with
    | RED => simp [RBNode.isRed] at hr
    | BLACK => exact ⟨a, k, v, l, r, rfl⟩

/-- Case 4 of the double-black fix-up, with cases 5 and 6 behind it: the
sibling is BLACK, and the parent is RED when both children of the sibling are
BLACK. -/
theorem del4_RB {f : Frame K V} {rest : Ctx K V} {m : Nat} (hs : f.sib.isRed = false)
    (hpre : sibAllBlack f.sib = true → f.color = RED)
    (hb : CBal (f :: rest) (m + 1)) (hn : CNoRR (f :: rest))
    (hr : rootBlack (f :: rest) true = true) :
    ∃ ctx', del4 (f :: rest) = some ctx' ∧ CBal ctx' m ∧ CNoRR ctx' ∧
      rootBlack ctx' true = true := by
  obtain ⟨sa, sk, sv, sl, sr, hsib⟩ := black_node_of hb.1 hs
  simp only [del4]
  by_cases hall : sibAllBlack f.sib = true
  · have hc := hpre hall
    rw [if_pos (by simp [hc, hall])]
    refine ⟨_, rfl, ?_, ?_, ?_⟩
    · simp only [CBal, Frame.recolor_sib, Frame.recolor_color] at hb ⊢
      rw [hsib] at hb ⊢
      rw [hc] at hb
      simp only [RBNode.setColor, RBNode.bhL, Bal] at hb ⊢
      simp at hb ⊢
      exact ⟨by omega, hb.2.1, hb.2.2⟩
    · simp only [CNoRR, Frame.recolor_sib, Frame.recolor_color] at hn ⊢
      rw [hsib] at hn hall ⊢
      simp only [RBNode.setColor, NoRR, sibAllBlack] at hn hall ⊢
      simp at hn hall ⊢
      exact ⟨⟨hall, hn.1⟩, hn.2.2⟩
    · simp only [rootBlack, Frame.recolor_color] at hr ⊢
      simpa using rootBlack_mono rest hr
  · rw [if_neg (by simp [hall])]
    apply del5_RB hsib _ hb hn hr
    rw [hsib] at hall
    simpa [sibAllBlack] using hall

theorem del2rot_RB {f : Frame K V} {rest : Ctx K V} {m : Nat} (hs : f.sib.isRed = true)
    (hb : CBal (f :: rest) (m + 1)) (hn : CNoRR (f :: rest))
    (hr : rootBlack (f :: rest) true = true) :
    ∃ f2 rest2, del2rot f rest = f2 :: rest2 ∧ f2.sib.isRed = false ∧ f2.color = RED ∧
      CBal (f2 :: rest2) (m + 1) ∧ CNoRR (f2 :: rest2) ∧ rootBlack (f2 :: rest2) true = true := by
  obtain ⟨sa, sk, sv, sl, sr, hsib⟩ := isRed_node_iff hs
  have hfc : f.color = BLACK := by
    cases hc : f.color with
    | BLACK => rfl
    | RED =>
      have := (hn.2.1 hc).1
      rw [hsib] at this
      simp [RBNode.isBlack] at this
  cases f with
  | L pa pc pk pv s =>
    simp only [Frame.sib] at hsib
    simp only [Frame.color] at hfc
    subst hsib hfc
    refine ⟨_, _, rfl, ?_, rfl, ?_, ?_, ?_⟩
    · simp only [CNoRR, NoRR, Frame.sib] at hn ⊢
      have h := (hn.1.1 trivial).1
      rw [isBlack_iff_not_isRed] at h
      simpa using h
    · simp only [CBal, Bal, RBNode.bhL, Frame.sib, Frame.color] at hb ⊢
      simp at hb ⊢
      obtain ⟨h1, ⟨h2, h3, h4⟩, h7⟩ := hb
      exact ⟨by omega, h3, by omega, h4, h7⟩
    · simp only [CNoRR, NoRR, Frame.sib, Frame.color, ctxBlack, RBNode.isBlack] at hn ⊢
      simp at hn ⊢
      tauto
    · exact hr
  | R pa pc pk pv s =>
    simp only [Frame.sib] at hsib
    simp only [Frame.color] at hfc
    subst hsib hfc
    refine ⟨_, _, rfl, ?_, rfl, ?_, ?_, ?_⟩
    · simp only [CNoRR, NoRR, Frame.sib] at hn ⊢
      have h := (hn.1.1 trivial).2
      rw [isBlack_iff_not_isRed] at h
      simpa using h
    · simp only [CBal, Bal, RBNode.bhL, Frame.sib, Frame.color] at hb ⊢
      simp at hb ⊢
      obtain ⟨h1, ⟨h2, h3, h4⟩, h7⟩ := hb
      exact ⟨by omega, h4, by omega, h3, h7⟩
    · simp only [CNoRR, NoRR, Frame.sib, Frame.color, ctxBlack, RBNode.isBlack] at hn ⊢
      simp at hn ⊢
      tauto
    · exact hr

/-- The double-black fix-up returns for a path that satisfies invariants 3
and 4 with one BLACK node missing below it, and restores them. -/
theorem del1_RB : ∀ (ctx : Ctx K V) (m : Nat), CBal ctx (m + 1) → CNoRR ctx →
    rootBlack ctx true = true →
    ∃ ctx', del1 ctx = some ctx' ∧ CBal ctx' m ∧ CNoRR ctx' ∧ rootBlack ctx' true = true := by
  intro ctx
  induction ctx with
  | nil => intro m _ _ _; exact ⟨[], rfl, trivial, trivial, rfl⟩
  | cons f rest ih =>
    intro m hb hn hr
    simp only [del1]
    by_cases hs : f.sib.isRed = true
    · rw [if_pos hs]
      obtain ⟨f2, rest2, e, h1, h2, h3, h4, h5⟩ := del2rot_RB hs hb hn hr
      rw [e]
      exact del4_RB h1 (fun _ => h2) h3 h4 h5
    · rw [if_neg hs]
      have hs' : f.sib.isRed = false := by simpa using hs
      by_cases hc : (decide (f.color = BLACK) && sibAllBlack f.sib) = true
      · rw [if_pos hc]
        simp only [Bool.and_eq_true, decide_eq_true_eq] at hc
        obtain ⟨hfc, hall⟩ := hc
        obtain ⟨sa, sk, sv, sl, sr, hsib⟩ := black_node_of hb.1 hs'
        have hb2 : CBal rest (m + 1 + 1) := by
          have := hb.2.2
          rw [hfc] at this
          simpa using this
        have hr2 : rootBlack rest true = true := by
          have : rootBlack rest (decide (f.color = BLACK)) = true := hr
          exact rootBlack_mono rest this
        obtain ⟨rest', e, h1, h2, h3⟩ := ih (m + 1) hb2 hn.2.2 hr2
        rw [e]
        refine ⟨_, rfl, ?_, ?_, ?_⟩
        · simp only [CBal, Frame.recolor_sib, Frame.recolor_color]
          have hb1 := hb.1
          have hb2 := hb.2.1
          rw [hsib] at hb1 hb2 ⊢
          simp only [RBNode.setColor, RBNode.bhL, Bal] at hb1 hb2 ⊢
          simp at hb1 ⊢
          rw [hfc]
          exact ⟨by omega, hb2, by simpa using h1⟩
        · simp only [CNoRR, Frame.recolor_sib, Frame.recolor_color]
          have hn1 := hn.1
          rw [hsib] at hn1 hall ⊢
          simp only [RBNode.setColor, NoRR, sibAllBlack] at hn1 hall ⊢
          simp at hn1 hall ⊢
          refine ⟨⟨hall, hn1⟩, ?_, h2⟩
          intro h
          rw [hfc] at h
          cases h
        · simp only [rootBlack, Frame.recolor_color]
          rw [hfc]
          simpa using h3
      · rw [if_neg hc]
        apply del4_RB hs' _ hb hn hr
        intro hall
        cases hfc : f.color with
        | RED => rfl
        | BLACK => simp [hfc, hall] at hc

end

section

variable {K V : Type}
open RBNode Color

theorem plug_append (sp rest : Ctx K V) :
    ∀ t : RBNode K V, plug (sp ++ rest) t = plug rest (plug sp t) := by
  induction sp with
  | nil => intro t; rfl
  | cons f sp ih => intro t; exact ih (f.fill t)

theorem maxPath_after : ∀ (t : RBNode K V) (acc : Ctx K V),
    ctxAfter (maxPath t acc).1 = ctxAfter acc := by
  intro t
  induction t with
  | nil => intro acc; rfl
  | node a c k v l r _ ihr =>
    intro acc
    cases r with
    | nil => rfl
    | node a' c' k' v' l' r' =>
      simp only [maxPath]
      rw [ihr]
      rfl

theorem minPath_before : ∀ (t : RBNode K V) (acc : Ctx K V),
    ctxBefore (minPath t acc).1 = ctxBefore acc := by
  intro t
  induction t with
  | nil => intro acc; rfl
  | node a c k v l r ihl _ =>
    intro acc
    cases l with
    | nil => rfl
    | node a' c' k' v' l' r' =>
      simp only [minPath]
      rw [ihl]
      rfl

/-- The red-black invariants do not depend on the key and value of a node. -/
theorem RB_plug_key {ctx : Ctx K V} {a : Nat} {c : Color} {k : K} {v : V} {l r : RBNode K V}
    (h : RB (plug ctx (node a c k v l r))) (k' : K) (v' : V) :
    RB (plug ctx (node a c k' v' l r)) := by
  obtain ⟨h1, h2, h3, h4, h5, h6⟩ := RB_plug_inv h
  exact RB_plug h1 h2 h3 h4 h5 h6

/-- A subtree without BLACK nodes on its paths that satisfies invariants 3
and 4 is absent or a RED node without children. -/
theorem red_leaf_of {t : RBNode K V} (hb : t.bhL = 0) (hB : Bal t) (hn : NoRR t) :
    t = RBNode.nil ∨ ∃ a k v, t = node a RED k v RBNode.nil RBNode.nil := by
  cases t with
  | nil => exact Or.inl rfl
  | node a c k v l r =>
    right
    cases c with
    | BLACK => simp [RBNode.bhL] at hb
    | RED =>
      simp only [RBNode.bhL] at hb
      simp at hb
      obtain ⟨h1, h2, h3⟩ := hn
      obtain ⟨hl, hr⟩ := h1 rfl
      have hrb : r.bhL = 0 := by rw [← hB.1]; exact hb
      have el : l = RBNode.nil := by
        cases l with
        | nil => rfl
        | node la lc lk lv ll lr =>
          cases lc with
          | RED => simp [RBNode.isBlack] at hl
          | BLACK => simp [RBNode.bhL] at hb
      have er : r = RBNode.nil := by
        cases r with
        | nil => rfl
        | node la lc lk lv ll lr =>
          cases lc with
          | RED => simp [RBNode.isBlack] at hr
          | BLACK => simp [RBNode.bhL] at hrb
      subst el er
      exact ⟨a, k, v, rfl⟩

/-- The node `tree_delete` unlinks: it has at most one child, the tree with
the heir's pair in the matched node satisfies the red-black invariants, and
the pairs around the node are those around the matched node. -/
theorem del_target_spec (ctx : Ctx K V) (a : Nat) (c : Color) (k : K) (v : V)
    (l r : RBNode K V) :
    ∃ na nc nk nv nl nr, (del_target ctx a c k v l r).2 = node na nc nk nv nl nr ∧
      (nl = RBNode.nil ∨ nr = RBNode.nil) ∧
      (RB (plug ctx (node a c k v l r)) →
        RB (plug (del_target ctx a c k v l r).1 (del_target ctx a c k v l r).2)) ∧
      ctxBefore (del_target ctx a c k v l r).1 ++ (nl.toList ++ nr.toList) ++
          ctxAfter (del_target ctx a c k v l r).1
        = ctxBefore ctx ++ (l.toList ++ r.toList) ++ ctxAfter ctx := by
  cases l with
  | node la lc lk lv ll lr =>
    obtain ⟨ha, hc, hk, hv, hl, hshape⟩ :=
      maxPath_shape (node la lc lk lv ll lr) [] (by simp)
    have hmp : maxPath (node la lc lk lv ll lr) [] =
        ((maxPath (node la lc lk lv ll lr) []).1, node ha hc hk hv hl RBNode.nil) := by
      rw [← hshape]
    have hpl := maxPath_plug ([] : Ctx K V) (node la lc lk lv ll lr) []
    rw [hshape] at hpl
    simp only [List.append_nil, plug] at hpl
    have haf := maxPath_after (node la lc lk lv ll lr) []
    have hlist : (node la lc lk lv ll lr).toList =
        (plug (maxPath (node la lc lk lv ll lr) []).1 (node ha hc hk hv hl RBNode.nil)).toList := by
      rw [hpl]
    rw [toList_plug, haf] at hlist
    have e : del_target ctx a c k v (node la lc lk lv ll lr) r =
        ((maxPath (node la lc lk lv ll lr) []).1 ++ Frame.L a c hk hv r :: ctx,
          node ha hc hk hv hl RBNode.nil) := by
      simp only [del_target]
      rw [hmp]
    rw [e]
    refine ⟨ha, hc, hk, hv, hl, RBNode.nil, rfl, Or.inr rfl, ?_, ?_⟩
    · intro h
      have h2 := RB_plug_key h hk hv
      simp only []
      rw [plug_append, hpl]
      exact h2
    · simp only []
      rw [ctxBefore_append, ctxAfter_append, haf, hlist]
      simp [ctxBefore, ctxAfter, RBNode.toList]
  | nil =>
    cases r with
    | node ra rc rk rv rl rr =>
      obtain ⟨ha, hc, hk, hv, hr, hshape⟩ :=
        minPath_shape (node ra rc rk rv rl rr) [] (by simp)
      have hmp : minPath (node ra rc rk rv rl rr) [] =
          ((minPath (node ra rc rk rv rl rr) []).1, node ha hc hk hv RBNode.nil hr) := by
        rw [← hshape]
      have hpl := minPath_plug ([] : Ctx K V) (node ra rc rk rv rl rr) []
      rw [hshape] at hpl
      simp only [List.append_nil, plug] at hpl
      have haf := minPath_before (node ra rc rk rv rl rr) []
      have hlist : (node ra rc rk rv rl rr).toList =
          (plug (minPath (node ra rc rk rv rl rr) []).1 (node ha hc hk hv RBNode.nil hr)).toList := by
        rw [hpl]
      rw [toList_plug, haf] at hlist
      have e : del_target ctx a c k v RBNode.nil (node ra rc rk rv rl rr) =
          ((minPath (node ra rc rk rv rl rr) []).1 ++ Frame.R a c hk hv RBNode.nil :: ctx,
            node ha hc hk hv RBNode.nil hr) := by
        simp only [del_target]
        rw [hmp]
      rw [e]
      refine ⟨ha, hc, hk, hv, RBNode.nil, hr, rfl, Or.inl rfl, ?_, ?_⟩
      · intro h
        have h2 := RB_plug_key h hk hv
        simp only []
        rw [plug_append, hpl]
        exact h2
      · simp only []
        rw [ctxBefore_append, ctxAfter_append, haf, hlist]
        simp [ctxBefore, ctxAfter, RBNode.toList]
    | nil =>
      exact ⟨a, c, k, v, RBNode.nil, RBNode.nil, rfl, Or.inl rfl, fun h => h, rfl⟩

/-- Unlinking a node with at most one child from a tree that satisfies the
red-black invariants returns a tree that satisfies them, with the pairs of
the other nodes in order. -/
theorem del_unlink_spec {ctx : Ctx K V} {a : Nat} {c : Color} {k : K} {v : V}
    {l r : RBNode K V} (h : RB (plug ctx (node a c k v l r)))
    (h1 : l = RBNode.nil ∨ r = RBNode.nil) :
    ∃ T', del_unlink ctx (node a c k v l r) = some T' ∧ RB T' ∧
      T'.toList = ctxBefore ctx ++ (l.toList ++ r.toList) ++ ctxAfter ctx := by
  obtain ⟨hr, hn, hred, hcn, hb, hcb⟩ := RB_plug_inv h
  have hleaf : CBal ctx (node a c k v (RBNode.nil : RBNode K V) RBNode.nil).bhL →
      rootBlack ctx (node a c k v (RBNode.nil : RBNode K V) RBNode.nil).isBlack = true →
      ∃ T', del_unlink ctx (node a c k v RBNode.nil RBNode.nil) = some T' ∧ RB T' ∧
        T'.toList = ctxBefore ctx ++ ctxAfter ctx := by
    intro hcb hr
    cases c with
    | RED =>
      refine ⟨_, rfl, RB_plug (rootBlack_mono ctx hr) trivial (by simp [RBNode.isRed]) hcn
        trivial ?_, ?_⟩
      · simpa [RBNode.bhL] using hcb
      · rw [toList_plug]; simp [RBNode.toList]
    | BLACK =>
      have hcb1 : CBal ctx (0 + 1) := by simpa [RBNode.bhL] using hcb
      obtain ⟨ctx', e, c1, c2, c3⟩ := del1_RB ctx 0 hcb1 hcn (rootBlack_mono ctx hr)
      refine ⟨plug ctx' RBNode.nil, ?_, RB_plug c3 trivial (by simp [RBNode.isRed]) c2
        trivial c1, ?_⟩
      · simp only [del_unlink, e]
      · rw [del1_toList ctx ctx' e, toList_plug]; simp [RBNode.toList]
  have hchild : ∀ (ca : Nat) (ck : K) (cv : V),
      CBal ctx (0 + 1) → c = BLACK →
      RB (plug ctx (node a c ck cv RBNode.nil RBNode.nil)) ∧
      (plug ctx (node a c ck cv RBNode.nil RBNode.nil)).toList =
        ctxBefore ctx ++ [(ck, cv)] ++ ctxAfter ctx := by
    intro ca ck cv hcb1 hc
    subst hc
    refine ⟨RB_plug hr ⟨(fun h => by cases h), trivial, trivial⟩ (by simp [RBNode.isRed]) hcn
      ⟨rfl, trivial, trivial⟩ ?_, ?_⟩
    · simpa [RBNode.bhL] using hcb1
    · rw [toList_plug]; simp [RBNode.toList]
  rcases h1 with rfl | rfl
  · -- no left child
    have hrb : r.bhL = 0 := hb.1.symm
    rcases red_leaf_of hrb hb.2.2 hn.2.2 with rfl | ⟨ca, ck, cv, rfl⟩
    · simpa [RBNode.toList] using hleaf hcb hr
    · have hc : c = BLACK := by
        cases c with
        | BLACK => rfl
        | RED => have := (hn.1 rfl).2; simp [RBNode.isBlack] at this
      have hcb1 : CBal ctx (0 + 1) := by
        subst hc
        simpa [RBNode.bhL] using hcb
      obtain ⟨q1, q2⟩ := hchild ca ck cv hcb1 hc
      refine ⟨_, rfl, q1, ?_⟩
      rw [q2]; simp [RBNode.toList]
  · have hlb : l.bhL = 0 := hb.1
    rcases red_leaf_of hlb hb.2.1 hn.2.1 with rfl | ⟨ca, ck, cv, rfl⟩
    · simpa [RBNode.toList] using hleaf hcb hr
    · have hc : c = BLACK := by
        cases c with
        | BLACK => rfl
        | RED => have := (hn.1 rfl).1; simp [RBNode.isBlack] at this
      have hcb1 : CBal ctx (0 + 1) := by
        subst hc
        simpa [RBNode.bhL] using hcb
      obtain ⟨q1, q2⟩ := hchild ca ck cv hcb1 hc
      refine ⟨_, rfl, q1, ?_⟩
      rw [q2]; simp [RBNode.toList]

/-- `del` for a key the search finds: the result satisfies the red-black
invariants and has the pairs of the other nodes in order. -/
theorem del_found_spec {ctx : Ctx K V} {a : Nat} {c : Color} {k : K} {v : V}
    {l r : RBNode K V} (h : RB (plug ctx (node a c k v l r))) :
    ∃ T', del_unlink (del_target ctx a c k v l r).1 (del_target ctx a c k v l r).2 = some T' ∧
      RB T' ∧ T'.toList = ctxBefore ctx ++ (l.toList ++ r.toList) ++ ctxAfter ctx := by
  obtain ⟨na, nc, nk, nv, nl, nr, e, h1, h2, h3⟩ := del_target_spec ctx a c k v l r
  have h4 := h2 h
  rw [e] at h4 ⊢
  obtain ⟨T', q1, q2, q3⟩ := del_unlink_spec h4 h1
  exact ⟨T', q1, q2, q3.trans h3⟩

end

section

variable {K V : Type}
open RBNode Color

/-- Under invariants 3 and 4 the record of `tree_node_info` has the number of
BLACK nodes of the paths as `black_height`, and the longest path is at most
twice the shortest. -/
theorem info_RB : ∀ t : RBNode K V, NoRR t → Bal t →
    t.info.black_height = (t.bhL : Int) ∧
    t.info.height ≤ 2 * (t.bhL : Int) + (if t.isRed = true then 1 else 0) ∧
    (t.bhL : Int) + (if t.isRed = true then 1 else 0) ≤ t.info.min_height := by
  intro t
  induction t with
  | nil => intro _ _; simp [RBNode.info, RBNode.bhL, RBNode.isRed]
  | node a c k v l r ihl ihr =>
    intro hn hb
    obtain ⟨l1, l2, l3⟩ := ihl hn.2.1 hb.2.1
    obtain ⟨r1, r2, r3⟩ := ihr hn.2.2 hb.2.2
    have hbh : (l.bhL : Int) = r.bhL := by exact_mod_cast hb.1
    cases c with
    | RED =>
      obtain ⟨hlb, hrb⟩ := hn.1 rfl
      rw [isBlack_iff_not_isRed] at hlb hrb
      simp only [Bool.not_eq_true', ] at hlb hrb
      rw [hlb] at l2 l3
      rw [hrb] at r2 r3
      simp only [RBNode.info, RBNode.bhL, RBNode.isRed, l1, r1]
      simp at l2 l3 r2 r3 ⊢
      have hbn := hb.1
      refine ⟨?_, ?_, ?_⟩
      · omega
      · split_ifs <;> omega
      · split_ifs <;> omega
    | BLACK =>
      simp only [RBNode.info, RBNode.bhL, RBNode.isRed, l1, r1]
      simp at l2 l3 r2 r3 ⊢
      have hbn := hb.1
      refine ⟨?_, ?_, ?_⟩
      · omega
      · split_ifs at * <;> omega
      · split_ifs at * <;> omega

theorem Bal_info : ∀ t : RBNode K V, Bal t → t.info.black_height = (t.bhL : Int) := by
  intro t
  induction t with
  | nil => intro _; simp [RBNode.info, RBNode.bhL]
  | node a c k v l r ihl ihr =>
    intro hb
    have l1 := ihl hb.2.1
    have r1 := ihr hb.2.2
    have hbh : (l.bhL : Int) = r.bhL := by exact_mod_cast hb.1
    simp only [RBNode.info, RBNode.bhL, l1, r1]
    have hbn := hb.1
    cases c <;> simp <;> omega

/-- The tests of `tree_node_check_integrity` pass exactly on the shapes that
satisfy invariants 3 and 4 and whose root is not RED below a RED parent. -/
theorem chkNode_iff : ∀ (t : RBNode K V) (pb : Bool),
    chkNode pb t = true ↔ (NoRR t ∧ Bal t ∧ (t.isRed = true → pb = true)) := by
  intro t
  induction t with
  | nil => intro pb; simp [chkNode, NoRR, Bal, RBNode.isRed]
  | node a c k v l r ihl ihr =>
    intro pb
    simp only [chkNode, Bool.and_eq_true, ihl, ihr, decide_eq_true_eq]
    constructor
    · rintro ⟨⟨⟨⟨h1, h2⟩, h3⟩, ⟨hl1, hl2, hl3⟩⟩, ⟨hr1, hr2, hr3⟩⟩
      have e1 := Bal_info l hl2
      have e2 := Bal_info r hr2
      rw [e1, e2] at h2
      have h2' : l.bhL = r.bhL := by exact_mod_cast h2
      cases c with
      | RED =>
        simp at h1
        refine ⟨⟨fun _ => ⟨h1.1.2, h1.2⟩, hl1, hr1⟩, ⟨h2', hl2, hr2⟩, fun _ => h1.1.1⟩
      | BLACK =>
        refine ⟨⟨(fun h => by cases h), hl1, hr1⟩, ⟨h2', hl2, hr2⟩, fun h => ?_⟩
        simp [RBNode.isRed] at h
    · rintro ⟨hn, hb, hp⟩
      obtain ⟨i1, i2, i3⟩ := info_RB _ hn hb
      obtain ⟨l1, -, -⟩ := info_RB _ hn.2.1 hb.2.1
      obtain ⟨r1, -, -⟩ := info_RB _ hn.2.2 hb.2.2
      have hbn := hb.1
      refine ⟨⟨⟨⟨?_, ?_⟩, ?_⟩, ⟨hn.2.1, hb.2.1, ?_⟩⟩, ⟨hn.2.2, hb.2.2, ?_⟩⟩
      · cases c with
        | RED =>
          have := hn.1 rfl
          have := hp (by simp [RBNode.isRed])
          simp [*]
        | BLACK => simp
      · rw [l1, r1]; exact_mod_cast hbn
      · simp only [RBNode.info] at i2 i3
        cases c <;> simp [RBNode.isRed] at i2 i3 <;> omega
      · intro hlr
        cases c with
        | RED =>
          have := (hn.1 rfl).1
          rw [isBlack_iff_not_isRed, hlr] at this
          simp at this
        | BLACK => rfl
      · intro hlr
        cases c with
        | RED =>
          have := (hn.1 rfl).2
          rw [isBlack_iff_not_isRed, hlr] at this
          simp at this
        | BLACK => rfl

/-- The check `tree_check_integrity` makes on a shape passes exactly when the
shape satisfies the red-black invariants. -/
theorem chk_iff (t : RBNode K V) : chk t = true ↔ RB t := by
  simp only [chk, Bool.and_eq_true, chkNode_iff, RB]
  constructor
  · rintro ⟨h1, h2, h3, -⟩
    exact ⟨h1, h2, h3⟩
  · rintro ⟨h1, h2, h3⟩
    exact ⟨h1, h2, h3, fun _ => trivial⟩

end

section

variable {K V : Type}

theorem FuelMono.le {α : Type} {f : Nat → Option α} (h : FuelMono f) {n : Nat} {x : α}
    (e : f n = some x) : ∀ m, n ≤ m → f m = some x := by
  intro m hm
  induction m with
  | zero =>
    have : n = 0 := Nat.le_zero.1 hm
    subst this
    exact e
  | succ m ih =>
    rcases Nat.lt_or_ge m n with hlt | hge
    · have : n = m + 1 := by omega
      subst this
      exact e
    · exact h m x (ih hge)

theorem tree_find_node_loop_mono (tr : Tree K V) (key : K) :
    ∀ (n : Nat) (p : Ptr) (x : Ptr), tree_find_node_loop tr key n p = some x →
      tree_find_node_loop tr key (n + 1) p = some x := by
  intro n
  induction n with
  | zero =>
    intro p x h
    cases p with
    | none => simpa [tree_find_node_loop] using h
    | some a => simp [tree_find_node_loop] at h
  | succ n ih =>
    intro p x h
    cases p with
    | none => simpa [tree_find_node_loop] using h
    | some a =>
      rw [tree_find_node_loop] at h ⊢
      cases hm : tr.mem a with
      | none => rw [hm] at h; simp at h
      | some nd =>
        rw [hm] at h
        simp only at h ⊢
        split_ifs at h ⊢
        · exact h
        · exact ih _ _ h
        · exact ih _ _ h

theorem tree_node_max_loop_mono (tr : Tree K V) :
    ∀ (n : Nat) (a : Nat) (x : Ptr), tree_node_max_loop tr n a = some x →
      tree_node_max_loop tr (n + 1) a = some x := by
  intro n
  induction n with
  | zero => intro a x h; simp [tree_node_max_loop] at h
  | succ n ih =>
    intro a x h
    rw [tree_node_max_loop] at h ⊢
    cases hm : tr.mem a with
    | none => rw [hm] at h; simp at h
    | some nd =>
      rw [hm] at h
      simp only at h ⊢
      cases hr : nd.right with
      | none => rw [hr] at h; exact h
      | some b => rw [hr] at h; exact ih _ _ h

theorem tree_node_min_loop_mono (tr : Tree K V) :
    ∀ (n : Nat) (a : Nat) (x : Ptr), tree_node_min_loop tr n a = some x →
      tree_node_min_loop tr (n + 1) a = some x := by
  intro n
  induction n with
  | zero => intro a x h; simp [tree_node_min_loop] at h
  | succ n ih =>
    intro a x h
    rw [tree_node_min_loop] at h ⊢
    cases hm : tr.mem a with
    | none => rw [hm] at h; simp at h
    | some nd =>
      rw [hm] at h
      simp only at h ⊢
      cases hr : nd.left with
      | none => rw [hr] at h; exact h
      | some b => rw [hr] at h; exact ih _ _ h

theorem tree_insert_mono_aux : ∀ n : Nat,
    (∀ (tr : Tree K V) (p : Ptr) (x : Tree K V), tree_insert1 n tr p = some x →
      tree_insert1 (n + 1) tr p = some x) ∧
    (∀ (tr : Tree K V) (p : Ptr) (x : Tree K V), tree_insert2 n tr p = some x →
      tree_insert2 (n + 1) tr p = some x) ∧
    (∀ (tr : Tree K V) (p : Ptr) (x : Tree K V), tree_insert3 n tr p = some x →
      tree_insert3 (n + 1) tr p = some x) := by
  intro n
  induction n with
  | zero =>
    refine ⟨?_, ?_, ?_⟩ <;> intro tr p x h
    · simp [tree_insert1] at h
    · simp [tree_insert2] at h
    · simp [tree_insert3] at h
  | succ n ih =>
    obtain ⟨ih1, ih2, ih3⟩ := ih
    refine ⟨?_, ?_, ?_⟩ <;> intro tr p x h
    · rw [tree_insert1] at h ⊢
      cases hd : deref tr p with
      | none => rw [hd] at h; simp at h
      | some nd =>
        rw [hd] at h
        simp only at h ⊢
        split_ifs at h ⊢
        · exact h
        · exact ih2 _ _ _ h
    · rw [tree_insert2] at h ⊢
      cases hd : deref tr p with
      | none => rw [hd] at h; simp at h
      | some nd =>
        rw [hd] at h
        simp only at h ⊢
        cases hb : IS_BLACK tr nd.parent with
        | none => rw [hb] at h; simp at h
        | some b =>
          rw [hb] at h
          cases b with
          | true => exact h
          | false => exact ih3 _ _ _ h
    · rw [tree_insert3] at h ⊢
      cases hd : tree_node_uncle tr p with
      | none => rw [hd] at h; simp at h
      | some u =>
        rw [hd] at h
        simp only at h ⊢
        cases hb : IS_RED tr u with
        | none => rw [hb] at h; simp at h
        | some b =>
          rw [hb] at h
          cases b with
          | false => exact h
          | true =>
            simp only [Option.bind_eq_bind, Option.bind_eq_some] at h ⊢
            obtain ⟨t1, e1, nd, e2, t2, e3, g, e4, t3, e5, h6⟩ := h
            exact ⟨t1, e1, nd, e2, t2, e3, g, e4, t3, e5, ih1 _ _ _ h6⟩

theorem tree_insert_loop_mono (tr : Tree K V) (key : K) :
    ∀ (n : Nat) (s : Slot) (p : Ptr) (x : V ⊕ (Slot × Ptr)),
      tree_insert_loop tr key n s p = some x → tree_insert_loop tr key (n + 1) s p = some x := by
  intro n
  induction n with
  | zero =>
    intro s p x h
    rw [tree_insert_loop] at h ⊢
    cases hs : slot_get tr s with
    | none => rw [hs] at h; simp at h
    | some q =>
      rw [hs] at h
      cases q with
      | none => exact h
      | some a => simp at h
  | succ n ih =>
    intro s p x h
    rw [tree_insert_loop] at h ⊢
    cases hs : slot_get tr s with
    | none => rw [hs] at h; simp at h
    | some q =>
      rw [hs] at h
      cases q with
      | none => exact h
      | some a =>
        simp only at h ⊢
        cases hm : tr.mem a with
        | none => rw [hm] at h; simp at h
        | some nd =>
          rw [hm] at h
          simp only at h ⊢
          split_ifs at h ⊢
          · exact ih _ _ _ h
          · exact ih _ _ _ h
          · exact h

/-- A result of `tree_insert` does not depend on the fuel, once there is
enough. -/
theorem tree_insert_mono (tr : Tree K V) (key : K) (value : V) :
    FuelMono (fun fuel => tree_insert fuel tr key value) := by
  intro n x h
  simp only [tree_insert] at h ⊢
  cases hl : tree_insert_loop tr key n Slot.root none with
  | none => rw [hl] at h; simp at h
  | some y =>
    rw [hl] at h
    rw [tree_insert_loop_mono tr key n _ _ _ hl]
    cases y with
    | inl v => exact h
    | inr sp =>
      obtain ⟨s, parent⟩ := sp
      simp only [Option.bind_eq_bind, Option.bind_eq_some] at h ⊢
      obtain ⟨t1, e1, t2, e2, t3, e3, t4, e4, h5⟩ := h
      exact ⟨t1, e1, t2, e2, t3, e3, t4, (tree_insert_mono_aux n).1 _ _ _ e4, h5⟩

end

section

variable {K V : Type}

theorem OLe.rfl_le {α : Type} (a : Option α) : OLe a a := fun _ h => h

theorem OLe.bind {α β : Type} {a a' : Option α} {f f' : α → Option β} (h1 : OLe a a')
    (h2 : ∀ y, OLe (f y) (f' y)) : OLe (a.bind f) (a'.bind f') := by
  intro x h
  simp only [Option.bind_eq_some] at h ⊢
  obtain ⟨y, e1, e2⟩ := h
  exact ⟨y, h1 y e1, h2 y x e2⟩

theorem OLe.ite {α : Type} {c : Prop} [Decidable c] {a a' b b' : Option α} (h1 : OLe a a')
    (h2 : OLe b b') : OLe (if c then a else b) (if c then a' else b') := by
  split_ifs
  · exact h1
  · exact h2

theorem tree_delete_mono_aux : ∀ n : Nat,
    (∀ (tr : Tree K V) (p : Ptr), OLe (tree_delete1 n tr p) (tree_delete1 (n + 1) tr p)) ∧
    (∀ (tr : Tree K V) (p : Ptr), OLe (tree_delete2 n tr p) (tree_delete2 (n + 1) tr p)) ∧
    (∀ (tr : Tree K V) (p : Ptr), OLe (tree_delete3 n tr p) (tree_delete3 (n + 1) tr p)) := by
  intro n
  induction n with
  | zero =>
    refine ⟨?_, ?_, ?_⟩ <;> intro tr p x h
    · simp [tree_delete1] at h
    · simp [tree_delete2] at h
    · simp [tree_delete3] at h
  | succ n ih =>
    obtain ⟨ih1, ih2, ih3⟩ := ih
    refine ⟨?_, ?_, ?_⟩ <;> intro tr p
    · simp only [tree_delete1]
      cases deref tr p with
      | none => exact OLe.rfl_le _
      | some nd =>
        simp only
        exact OLe.ite (ih2 _ _) (OLe.rfl_le _)
    · simp only [tree_delete2, Option.bind_eq_bind]
      repeat (first
        | with_reducible exact OLe.rfl_le _
        | exact ih3 _ _
        | apply OLe.ite
        | apply OLe.bind
        | intro _)
    · simp only [tree_delete3, Option.bind_eq_bind]
      repeat (first
        | with_reducible exact OLe.rfl_le _
        | exact ih1 _ _
        | apply OLe.ite
        | apply OLe.bind
        | intro _)

theorem tree_node_max_mono (tr : Tree K V) (p : Ptr) (n : Nat) :
    OLe (tree_node_max n tr p) (tree_node_max (n + 1) tr p) := by
  cases p with
  | none => exact OLe.rfl_le _
  | some a => exact fun x h => tree_node_max_loop_mono tr n a x h

theorem tree_node_min_mono (tr : Tree K V) (p : Ptr) (n : Nat) :
    OLe (tree_node_min n tr p) (tree_node_min (n + 1) tr p) := by
  cases p with
  | none => exact OLe.rfl_le _
  | some a => exact fun x h => tree_node_min_loop_mono tr n a x h

theorem tree_delete_heir_mono (tr : Tree K V) (p : Ptr) (n : Nat) :
    OLe (tree_delete_heir n tr p) (tree_delete_heir (n + 1) tr p) := by
  simp only [tree_delete_heir, Option.bind_eq_bind]
  repeat (first
    | with_reducible exact OLe.rfl_le _
    | exact tree_node_max_mono _ _ _
    | exact tree_node_min_mono _ _ _
    | apply OLe.ite
    | apply OLe.bind
    | intro _)

theorem tree_delete_child_mono (tr : Tree K V) (p : Ptr) (n : Nat) :
    OLe (tree_delete_child n tr p) (tree_delete_child (n + 1) tr p) := by
  simp only [tree_delete_child, Option.bind_eq_bind]
  repeat (first
    | with_reducible exact OLe.rfl_le _
    | exact (tree_delete_mono_aux n).1 _ _
    | apply OLe.ite
    | apply OLe.bind
    | intro _)

/-- A result of `tree_delete` does not depend on the fuel, once there is
enough. -/
theorem tree_delete_mono (tr : Tree K V) (key : K) :
    FuelMono (fun fuel => tree_delete fuel tr key) := by
  intro n x h
  simp only [tree_delete, tree_find_node] at h ⊢
  cases hl : tree_find_node_loop tr key n tr.root with
  | none => rw [hl] at h; simp at h
  | some y =>
    rw [hl] at h
    rw [tree_find_node_loop_mono tr key n _ _ hl]
    cases y with
    | none => exact h
    | some a =>
      simp only [Option.bind_eq_bind] at h ⊢
      revert x
      show OLe _ _
      repeat (first
        | with_reducible exact OLe.rfl_le _
        | exact tree_delete_heir_mono _ _ _
        | exact tree_delete_child_mono _ _ _
        | apply OLe.ite
        | apply OLe.bind
        | intro _)

end

section

variable {K V : Type}
open RBNode Color

theorem Returns.unique {α : Type} {f : Nat → Option α} {x y : α} (h1 : Returns f x)
    (h2 : Returns f y) : x = y := by
  obtain ⟨N1, h1⟩ := h1
  obtain ⟨N2, h2⟩ := h2
  have a := h1 (max N1 N2) (le_max_left _ _)
  have b := h2 (max N1 N2) (le_max_right _ _)
  rw [a] at b
  exact Option.some.inj b

theorem lookup_skip (cmp : K → K → Int) (key : K) (L1 L2 : List (K × V))
    (h : ∀ p ∈ L1, cmp key p.1 ≠ 0) : lookup cmp key (L1 ++ L2) = lookup cmp key L2 := by
  induction L1 with
  | nil => rfl
  | cons p L1 ih =>
    obtain ⟨k, v⟩ := p
    simp only [List.cons_append, lookup]
    rw [if_neg (h (k, v) (List.mem_cons_self _ _))]
    exact ih (fun q hq => h q (List.mem_cons_of_mem _ hq))

theorem lookup_none (cmp : K → K → Int) (key : K) (L : List (K × V))
    (h : ∀ p ∈ L, cmp key p.1 ≠ 0) : lookup cmp key L = none := by
  have := lookup_skip cmp key L [] h
  simpa [lookup] using this

theorem TotalCmp.ne_of_lt {cmp : K → K → Int} (hc : TotalCmp cmp) {a b : K}
    (h : cmp a b < 0) : cmp b a ≠ 0 := by
  have := (hc.swap a b).1 h
  omega

theorem TotalCmp.ne_of_gt {cmp : K → K → Int} (_hc : TotalCmp cmp) {a b : K}
    (h : cmp a b < 0) : cmp a b ≠ 0 := by
  omega

/-- The search of the code ends at the first pair in order whose key compares
equal. -/
theorem findVal_eq_lookup {cmp : K → K → Int} (hc : TotalCmp cmp) (key : K) {T : RBNode K V}
    (hb : BST cmp T) : findVal cmp key T = lookup cmp key T.toList := by
  rcases hd : descend cmp key T [] with ⟨ctx, t⟩
  obtain ⟨h1, h2, h3⟩ := descend_bounds hc key hb hd
  have hbef : ∀ p ∈ ctxBefore ctx, cmp key p.1 ≠ 0 := fun p hp => hc.ne_of_lt (h2 p hp)
  have haft : ∀ p ∈ ctxAfter ctx, cmp key p.1 ≠ 0 := fun p hp => hc.ne_of_gt (h3 p hp)
  simp only [findVal, hd]
  rw [h1, List.append_assoc, lookup_skip _ _ _ _ hbef]
  cases t with
  | nil =>
    simp only [RBNode.toList, List.nil_append]
    exact (lookup_none _ _ _ haft).symm
  | node a c k v l r =>
    have hk : cmp key k = 0 := descend_found cmp key T [] a c k v l r (by rw [hd])
    have hasc := (BST_iff hc T).1 hb
    rw [h1] at hasc
    simp only [Ascending, RBNode.toList, List.pairwise_append, List.pairwise_cons,
      List.mem_append, List.mem_cons] at hasc
    have hl : ∀ p ∈ l.toList, cmp key p.1 ≠ 0 := by
      intro p hp
      have h4 : cmp p.1 k < 0 := hasc.1.2.1.2.2 p hp (k, v) (Or.inl rfl)
      have h5 : cmp p.1 key < 0 := hc.lt_of_lt_of_eq h4 (hc.eq_swap hk)
      exact hc.ne_of_lt h5
    simp only [RBNode.toList, List.append_assoc]
    rw [lookup_skip _ _ _ _ hl]
    simp [lookup, hk]

end

section

variable {K V : Type}
open RBNode Color

theorem Returns.of_mono {α : Type} {f : Nat → Option α} (hm : FuelMono f) {n : Nat} {x : α}
    (e : f n = some x) : Returns f x :=
  ⟨n, hm.le e⟩

/-- `tree_find` returns the value at the node the search ends at. -/
theorem WF.find_eq {tr : Tree K V} {T : RBNode K V} (h : WF tr T) (key : K) {fuel : Nat}
    (hf : T.depth ≤ fuel) : tree_find fuel tr key = some (findVal tr.cmp key T) := by
  have hl := WF.find_loop key T [] fuel h hf
  rcases hd : descend tr.cmp key T [] with ⟨ctx, t⟩
  have hplug : plug ctx t = T := by
    have := descend_plug tr.cmp key T []
    rw [hd] at this
    exact this
  rw [hd] at hl
  have hroot : tr.root = T.ptr := h.root
  cases t with
  | nil =>
    simp only [ptr_nil] at hl
    simp only [tree_find, tree_find_node, hroot, hl, findVal, hd]
  | node a c k v l r =>
    simp only [ptr_node] at hl
    rw [← hplug] at h
    have hn := WF.read ctx h
    simp only [tree_find, tree_find_node, hroot, hl, findVal, hd, hn]

theorem WF.find_returns {tr : Tree K V} {T : RBNode K V} (h : WF tr T) (key : K) :
    Returns (fun fuel => tree_find fuel tr key) (findVal tr.cmp key T) :=
  ⟨T.depth, fun _ hf => h.find_eq key hf⟩

theorem WF.check_returns {tr : Tree K V} {T : RBNode K V} (h : WF tr T) :
    Returns (fun fuel => tree_check_integrity fuel tr) (chk T) :=
  ⟨T.depth, fun _ hf => h.check hf⟩

theorem WF.foldl_returns {tr : Tree K V} {T : RBNode K V} (h : WF tr T) {A : Type}
    (f : K → V → A → A) (acc : A) :
    Returns (fun fuel => tree_foldl fuel tr f acc)
      (T.toList.foldl (fun acc kv => f kv.1 kv.2 acc) acc) := by
  refine ⟨T.depth, fun fuel hf => ?_⟩
  have := WF.node_foldl f T [] fuel acc h hf
  rw [← h.root] at this
  exact this

theorem WF.foldr_returns {tr : Tree K V} {T : RBNode K V} (h : WF tr T) {A : Type}
    (f : K → V → A → A) (acc : A) :
    Returns (fun fuel => tree_foldr fuel tr f acc)
      (T.toList.reverse.foldl (fun acc kv => f kv.1 kv.2 acc) acc) := by
  refine ⟨T.depth, fun fuel hf => ?_⟩
  have := WF.node_foldr f T [] fuel acc h hf
  rw [← h.root] at this
  exact this

/-- `tree_insert` of a key the search finds: the stored value is returned
and the state is the same. -/
theorem WF.insert_dup_returns {tr : Tree K V} {T : RBNode K V} (h : WF tr T) (key : K)
    (value : V) {ctx : Ctx K V} {a : Nat} {c : Color} {k : K} {v : V} {l r : RBNode K V}
    (hd : descend tr.cmp key T [] = (ctx, node a c k v l r)) :
    Returns (fun fuel => tree_insert fuel tr key value) (v, tr) :=
  ⟨T.depth, fun _ hf => WF.insert_found value h hd hf⟩

/-- `tree_delete` of a key the search does not find: no value is returned
and the state is the same. -/
theorem WF.delete_absent_returns {tr : Tree K V} {T : RBNode K V} (h : WF tr T) (key : K)
    {ctx : Ctx K V} (hd : descend tr.cmp key T [] = (ctx, RBNode.nil)) :
    Returns (fun fuel => tree_delete fuel tr key) (none, tr) :=
  ⟨T.depth, fun _ hf => WF.delete_absent_eq h hd hf⟩

theorem descend_toList (cmp : K → K → Int) (key : K) {T : RBNode K V} {ctx : Ctx K V}
    {t : RBNode K V} (hd : descend cmp key T [] = (ctx, t)) :
    T.toList = ctxBefore ctx ++ t.toList ++ ctxAfter ctx := by
  have e : plug ctx t = T := by
    have := descend_plug cmp key T []
    rw [hd] at this
    exact this
  rw [← e, toList_plug]

/-- `tree_insert` of a key the search does not find, on a state that holds a
tree with the red-black invariants. -/
theorem WF.insert_new_returns {tr : Tree K V} {T : RBNode K V} (h : WF tr T) (hrb : RB T)
    (key : K) (value : V) {ctx : Ctx K V} (hd : descend tr.cmp key T [] = (ctx, RBNode.nil)) :
    ∃ tr1 T1, Returns (fun fuel => tree_insert fuel tr key value) (value, tr1) ∧
      WF tr1 T1 ∧ RB T1 ∧ tr1.cmp = tr.cmp ∧ tr1.size = tr.size + 1 ∧
      T1.toList = ctxBefore ctx ++ (key, value) :: ctxAfter ctx := by
  have hplug : plug ctx RBNode.nil = T := by
    have := descend_plug tr.cmp key T []
    rw [hd] at this
    exact this
  rw [← hplug] at hrb
  obtain ⟨h1, _, _, h4, _, h6⟩ := RB_plug_inv hrb
  obtain ⟨T1, hT, hRB⟩ := ins_fix_RB ctx.length ctx tr.next key value RBNode.nil RBNode.nil
    (Nat.le_refl _) ⟨by simp [RBNode.isBlack], trivial, trivial⟩ ⟨rfl, trivial, trivial⟩
    h6 h4 h1
  have hlist : T1.toList = ctxBefore ctx ++ (key, value) :: ctxAfter ctx := by
    rw [ins_fix_toList ctx.length ctx _ T1 (Nat.le_refl _) hT, toList_plug]
    simp [RBNode.toList]
  obtain ⟨r, m, e0, w0⟩ := WF.insert_new_eq h hd hT (Nat.le_refl (2 * T.depth + 3))
  exact ⟨{ tr with root := r, mem := m, next := tr.next + 1, size := tr.size + 1 }, T1,
    Returns.of_mono (tree_insert_mono tr key value) e0, w0, hRB, rfl, rfl, hlist⟩

/-- `tree_delete` of a key the search finds, on a state that holds a tree
with the red-black invariants. -/
theorem WF.delete_found_returns {tr : Tree K V} {T : RBNode K V} (h : WF tr T) (hrb : RB T)
    (key : K) {ctx : Ctx K V} {a : Nat} {c : Color} {k : K} {v : V} {l r : RBNode K V}
    (hd : descend tr.cmp key T [] = (ctx, node a c k v l r)) :
    ∃ tr1 T1, Returns (fun fuel => tree_delete fuel tr key) (some v, tr1) ∧
      WF tr1 T1 ∧ RB T1 ∧ tr1.cmp = tr.cmp ∧ tr1.size = tr.size - 1 ∧
      T1.toList = ctxBefore ctx ++ (l.toList ++ r.toList) ++ ctxAfter ctx := by
  have hplug : plug ctx (node a c k v l r) = T := by
    have := descend_plug tr.cmp key T []
    rw [hd] at this
    exact this
  rw [← hplug] at hrb
  obtain ⟨T1, hu, hRB, hlist⟩ := del_found_spec hrb
  obtain ⟨r', m, e0, w0⟩ := WF.delete_found_eq h hd hu (Nat.le_refl (3 * T.depth + 3))
  exact ⟨{ tr with root := r', mem := m, size := tr.size - 1 }, T1,
    Returns.of_mono (tree_delete_mono tr key) e0, w0, hRB, rfl, rfl, hlist⟩

/-- `tree_insert` keeps the invariants of the data model. -/
theorem Inv.insert_new_inv {tr : Tree K V} {T : RBNode K V} (h : Inv tr T)
    (hc : TotalCmp tr.cmp) (key : K) (value : V) {ctx : Ctx K V}
    (hd : descend tr.cmp key T [] = (ctx, RBNode.nil)) :
    ∃ tr1 T1, Returns (fun fuel => tree_insert fuel tr key value) (value, tr1) ∧
      Inv tr1 T1 ∧ tr1.cmp = tr.cmp ∧ tr1.size = tr.size + 1 ∧
      T.toList = ctxBefore ctx ++ ctxAfter ctx ∧
      T1.toList = ctxBefore ctx ++ (key, value) :: ctxAfter ctx := by
  obtain ⟨_, b2, b3⟩ := descend_bounds hc key h.bst hd
  have hTl : T.toList = ctxBefore ctx ++ ctxAfter ctx := by
    simpa [RBNode.toList] using descend_toList tr.cmp key hd
  obtain ⟨tr1, T1, hret, hwf, hRB, hcmp, hsize, hlist⟩ := h.wf.insert_new_returns h.rb key value hd
  refine ⟨tr1, T1, hret, ⟨hwf, ?_, ?_, hRB⟩, hcmp, hsize, hTl, hlist⟩
  · rw [hsize, h.size, count_eq_length, count_eq_length, hlist, hTl]
    simp only [List.length_append, List.length_cons]
    push_cast
    omega
  · rw [hcmp, BST_iff hc, hlist]
    have hasc := (BST_iff hc T).1 h.bst
    rw [hTl] at hasc
    exact Ascending.insert hc hasc b2 b3

/-- `tree_delete` keeps the invariants of the data model. -/
theorem Inv.delete_found_inv {tr : Tree K V} {T : RBNode K V} (h : Inv tr T)
    (hc : TotalCmp tr.cmp) (key : K) {ctx : Ctx K V} {a : Nat} {c : Color} {k : K} {v : V}
    {l r : RBNode K V} (hd : descend tr.cmp key T [] = (ctx, node a c k v l r)) :
    ∃ tr1 T1, Returns (fun fuel => tree_delete fuel tr key) (some v, tr1) ∧
      Inv tr1 T1 ∧ tr1.cmp = tr.cmp ∧ tr1.size = tr.size - 1 ∧
      T.toList = (ctxBefore ctx ++ l.toList) ++ (k, v) :: (r.toList ++ ctxAfter ctx) ∧
      T1.toList = (ctxBefore ctx ++ l.toList) ++ (r.toList ++ ctxAfter ctx) := by
  have hTl : T.toList = (ctxBefore ctx ++ l.toList) ++ (k, v) :: (r.toList ++ ctxAfter ctx) := by
    simpa [RBNode.toList] using descend_toList tr.cmp key hd
  obtain ⟨tr1, T1, hret, hwf, hRB, hcmp, hsize, hlist⟩ := h.wf.delete_found_returns h.rb key hd
  have hlist' : T1.toList = (ctxBefore ctx ++ l.toList) ++ (r.toList ++ ctxAfter ctx) := by
    simpa using hlist
  refine ⟨tr1, T1, hret, ⟨hwf, ?_, ?_, hRB⟩, hcmp, hsize, hTl, hlist'⟩
  · rw [hsize, h.size, count_eq_length, count_eq_length, hlist', hTl]
    simp only [List.length_append, List.length_cons]
    push_cast
    omega
  · rw [hcmp, BST_iff hc, hlist']
    have hasc := (BST_iff hc T).1 h.bst
    rw [hTl] at hasc
    exact Ascending.remove hasc

end

section

variable {K V : Type}
open RBNode Color

theorem TotalCmp.eq_trans {cmp : K → K → Int} (h : TotalCmp cmp) {a b c : K}
    (h1 : cmp a b = 0) (h2 : cmp b c = 0) : cmp a c = 0 := by
  have h3 := h.le_trans a b c (by omega) (by omega)
  have h4 := h.le_trans c b a (by have := h.eq_swap h2; omega) (by have := h.eq_swap h1; omega)
  have h5 := h.swap a c
  have h6 := h.swap c a
  omega

theorem TotalCmp.cmp_self {cmp : K → K → Int} (h : TotalCmp cmp) (a : K) : cmp a a = 0 := by
  have h5 := h.swap a a
  omega

/-- In an ascending list the search finds the pair whose key compares equal. -/
theorem lookup_of_eq {cmp : K → K → Int} (hc : TotalCmp cmp) {L : List (K × V)}
    (hasc : Ascending cmp L) {p : K × V} (hp : p ∈ L) {key : K} (he : cmp key p.1 = 0) :
    lookup cmp key L = some p.2 := by
  obtain ⟨L1, L2, rfl⟩ := List.append_of_mem hp
  simp only [Ascending, List.pairwise_append, List.pairwise_cons, List.mem_cons] at hasc
  have h1 : ∀ q ∈ L1, cmp key q.1 ≠ 0 := by
    intro q hq
    have h2 : cmp q.1 p.1 < 0 := hasc.2.2 q hq p (Or.inl rfl)
    exact hc.ne_of_lt (hc.lt_of_lt_of_eq h2 (hc.eq_swap he))
  rw [lookup_skip _ _ _ _ h1]
  obtain ⟨k, v⟩ := p
  simp only [lookup]
  rw [if_pos he]

theorem lookup_remove (cmp : K → K → Int) (key : K) (L1 L2 : List (K × V)) (p : K × V)
    (h : cmp key p.1 ≠ 0) : lookup cmp key (L1 ++ p :: L2) = lookup cmp key (L1 ++ L2) := by
  induction L1 with
  | nil =>
    obtain ⟨k, v⟩ := p
    simp only [List.nil_append, lookup]
    rw [if_neg h]
  | cons q L1 ih =>
    obtain ⟨k, v⟩ := q
    have ih1 : lookup cmp key (L1.append (p :: L2)) = lookup cmp key (L1.append L2) := ih
    simp only [List.cons_append, lookup]
    rw [ih1]

theorem Returns.map_returns {α β : Type} {f : Nat → Option α} {x : α} (h : Returns f x) (g : α → β) :
    Returns (fun fuel => (f fuel).map g) (g x) := by
  obtain ⟨N, h⟩ := h
  exact ⟨N, fun fuel hf => by simp only [h fuel hf, Option.map_some']⟩

theorem FuelMono.map_mono {α β : Type} {f : Nat → Option α} (h : FuelMono f) (g : α → β) :
    FuelMono (fun fuel => (f fuel).map g) := by
  intro n x e
  simp only [Option.map_eq_some'] at e ⊢
  obtain ⟨y, e1, e2⟩ := e
  exact ⟨y, h n y e1, e2⟩

theorem descend_absent_of (cmp : K → K → Int) (key : K) {T : RBNode K V}
    (habs : ∀ p ∈ T.toList, cmp key p.1 ≠ 0) :
    ∃ ctx, descend cmp key T [] = (ctx, RBNode.nil) := by
  rcases hd : descend cmp key T [] with ⟨ctx, t⟩
  cases t with
  | nil => exact ⟨ctx, rfl⟩
  | node a c k v l r =>
    exfalso
    have hk : cmp key k = 0 := descend_found cmp key T [] a c k v l r (by rw [hd])
    have hl := descend_toList cmp key hd
    apply habs (k, v) _ hk
    rw [hl]
    simp [RBNode.toList]

theorem Inv.create (cmp : K → K → Int) : Inv (tree_create cmp : Tree K V) RBNode.nil :=
  ⟨⟨rfl, trivial, List.nodup_nil, fun _ h => by cases h⟩, rfl, trivial, rfl, trivial, trivial⟩

/-- One call of the interface keeps the invariants of the data model. -/
theorem Inv.step {tr : Tree K V} {T : RBNode K V} (h : Inv tr T) (hc : TotalCmp tr.cmp)
    (op : Op K V) :
    ∃ tr1 T1, Returns (fun fuel => op.run fuel tr) tr1 ∧ Inv tr1 T1 ∧ tr1.cmp = tr.cmp := by
  cases op with
  | insert key value =>
    rcases hd : descend tr.cmp key T [] with ⟨ctx, t⟩
    cases t with
    | nil =>
      obtain ⟨tr1, T1, hret, hinv, hcmp, _⟩ := h.insert_new_inv hc key value hd
      exact ⟨tr1, T1, hret.map_returns Prod.snd, hinv, hcmp⟩
    | node a c k v l r =>
      exact ⟨tr, T, (h.wf.insert_dup_returns key value hd).map_returns Prod.snd, h, rfl⟩
  | delete key =>
    rcases hd : descend tr.cmp key T [] with ⟨ctx, t⟩
    cases t with
    | nil => exact ⟨tr, T, (h.wf.delete_absent_returns key hd).map_returns Prod.snd, h, rfl⟩
    | node a c k v l r =>
      obtain ⟨tr1, T1, hret, hinv, hcmp, _⟩ := h.delete_found_inv hc key hd
      exact ⟨tr1, T1, hret.map_returns Prod.snd, hinv, hcmp⟩

/-- Every reachable state satisfies the invariants of the data model. -/
theorem Reachable.inv {cmp : K → K → Int} (hc : TotalCmp cmp) {tr : Tree K V}
    (h : Reachable cmp tr) : ∃ T, Inv tr T ∧ tr.cmp = cmp := by
  induction h with
  | create => exact ⟨RBNode.nil, Inv.create cmp, rfl⟩
  | step tr tr1 op _ hret ih =>
    obtain ⟨T, hinv, hcmp⟩ := ih
    obtain ⟨tr1', T1, hret', hinv', hcmp'⟩ := hinv.step (hcmp ▸ hc) op
    have e : tr1 = tr1' := hret.unique hret'
    subst e
    exact ⟨T1, hinv', hcmp'.trans hcmp⟩

/-- The state after the pairs of a list with distinct keys, none of them
stored, are inserted one after the other. -/
theorem Inv.insert_list {cmp : K → K → Int} (hc : TotalCmp cmp) :
    ∀ (kvs : List (K × V)) (tr : Tree K V) (T : RBNode K V), Inv tr T → tr.cmp = cmp →
      kvs.Pairwise (fun p q => cmp p.1 q.1 ≠ 0) →
      (∀ p ∈ T.toList, ∀ q ∈ kvs, cmp q.1 p.1 ≠ 0) →
      ∃ tr1 T1, Returns (fun fuel => insert_all fuel tr kvs) tr1 ∧ Inv tr1 T1 ∧ tr1.cmp = cmp ∧
        tr1.size = tr.size + kvs.length ∧ T1.toList.Perm (T.toList ++ kvs) := by
  intro kvs
  induction kvs with
  | nil =>
    intro tr T h hcmp _ _
    exact ⟨tr, T, ⟨0, fun _ _ => rfl⟩, h, hcmp, by simp, by simp⟩
  | cons kv rest ih =>
    intro tr T h hcmp hpw hnew
    obtain ⟨k, v⟩ := kv
    subst hcmp
    obtain ⟨ctx, hd⟩ := descend_absent_of tr.cmp k
      (fun p hp => hnew p hp (k, v) (List.mem_cons_self _ _))
    obtain ⟨tr1, T1, hret, hinv, hcmp1, hsize1, hT, hT1⟩ := h.insert_new_inv hc k v hd
    rw [List.pairwise_cons] at hpw
    have hnew1 : ∀ p ∈ T1.toList, ∀ q ∈ rest, tr.cmp q.1 p.1 ≠ 0 := by
      intro p hp q hq
      rw [hT1] at hp
      simp only [List.mem_append, List.mem_cons] at hp
      have hpT : p = (k, v) ∨ p ∈ T.toList := by
        rw [hT]
        simp only [List.mem_append]
        tauto
      rcases hpT with rfl | hpT
      · intro e
        exact hpw.1 q hq (hc.eq_swap e)
      · exact hnew p hpT q (List.mem_cons_of_mem _ hq)
    obtain ⟨tr2, T2, hret2, hinv2, hcmp2, hsize2, hperm⟩ :=
      ih tr1 T1 hinv hcmp1 hpw.2 hnew1
    refine ⟨tr2, T2, ?_, hinv2, hcmp2, ?_, ?_⟩
    · obtain ⟨N1, e1⟩ := hret
      obtain ⟨N2, e2⟩ := hret2
      refine ⟨max N1 N2, fun fuel hf => ?_⟩
      have a1 : tree_insert fuel tr k v = some (v, tr1) :=
        e1 fuel (le_trans (le_max_left _ _) hf)
      have a2 : insert_all fuel tr1 rest = some tr2 := e2 fuel (le_trans (le_max_right _ _) hf)
      simp only [insert_all, a1]
      exact a2
    · rw [hsize2, hsize1]
      simp only [List.length_cons]
      push_cast
      omega
    · refine hperm.trans ?_
      rw [hT1, hT]
      have p1 : (ctxBefore ctx ++ (k, v) :: ctxAfter ctx).Perm
          ((k, v) :: (ctxBefore ctx ++ ctxAfter ctx)) := List.perm_middle
      have p2 : ((ctxBefore ctx ++ ctxAfter ctx) ++ (k, v) :: rest).Perm
          ((k, v) :: ((ctxBefore ctx ++ ctxAfter ctx) ++ rest)) := List.perm_middle
      exact (List.Perm.append_right rest p1).trans p2.symm

theorem icmp_total : TotalCmp icmp := by
  constructor
  · intro a b
    unfold icmp
    split_ifs <;> omega
  · intro a b c
    unfold icmp
    split_ifs <;> omega

theorem ex_wf : WF ex_tree ex_shape :=
  ⟨rfl, ⟨rfl, trivial, rfl, trivial, trivial⟩, by decide, by decide⟩

theorem ex_bst : BST ex_tree.cmp ex_shape := by
  simp [BST, ex_shape, ex_tree, RBNode.keys, RBNode.toList, icmp]

theorem ex_rb : RB ex_shape := by
  simp [RB, NoRR, Bal, ex_shape, RBNode.isBlack, RBNode.bhL]

theorem ex_inv : Inv ex_tree ex_shape := ⟨ex_wf, rfl, ex_bst, ex_rb⟩

end

section

variable {K V : Type}
open RBNode Color

/-- C1: for every list of pairs with pairwise-distinct keys, under a
comparator that is a consistent total order, the calls of `tree_insert` on the
tree `tree_create` makes all return; `tree_size` is then the number of pairs,
and `tree_find` returns for every inserted key the value inserted with it. -/
theorem insert_distinct_size_find (cmp : K → K → Int) (hc : TotalCmp cmp) (kvs : List (K × V))
    (hd : kvs.Pairwise (fun p q => cmp p.1 q.1 ≠ 0)) :
    ∃ tr, Returns (fun fuel => insert_all fuel (tree_create cmp) kvs) tr ∧
      tree_size tr = kvs.length ∧
      ∀ p ∈ kvs, Returns (fun fuel => tree_find fuel tr p.1) (some p.2) := by
  obtain ⟨tr1, T1, hret, hinv, hcmp, hsize, hperm⟩ :=
    Inv.insert_list hc kvs (tree_create cmp) RBNode.nil (Inv.create cmp) rfl hd
      (fun p hp => by cases hp)
  refine ⟨tr1, hret, ?_, ?_⟩
  · rw [tree_size, hsize]
    simp [tree_create]
  · intro p hp
    have hf := hinv.wf.find_returns p.1
    have hbst := hinv.bst
    rw [hcmp] at hf hbst
    rw [findVal_eq_lookup hc p.1 hbst] at hf
    have hmem : p ∈ T1.toList := hperm.mem_iff.2 (by simpa [RBNode.toList] using hp)
    rw [lookup_of_eq hc ((BST_iff hc T1).1 hbst) hmem (hc.cmp_self p.1)] at hf
    exact hf

/-- The three pairs of the basic test, inserted into an empty tree of integers. -/
theorem insert_distinct_size_find_witness :
    TotalCmp icmp ∧ ex_pairs.Pairwise (fun p q => icmp p.1 q.1 ≠ 0) ∧
    ∃ tr, Returns (fun fuel => insert_all fuel (tree_create icmp) ex_pairs) tr ∧
      tree_size tr = ex_pairs.length ∧
      ∀ p ∈ ex_pairs, Returns (fun fuel => tree_find fuel tr p.1) (some p.2) :=
  ⟨icmp_total, by decide, insert_distinct_size_find icmp icmp_total ex_pairs (by decide)⟩

/-- C2: `tree_insert` preserves the red-black invariants.  For every state
that holds a tree in binary-search order on which `tree_check_integrity`
returns true, and every key and value, `tree_insert` returns and
`tree_check_integrity` returns true on the state it leaves, which holds a tree
(parent links consistent) with a BLACK root, no RED node with a RED child and
the same number of BLACK nodes on every path to an absent child. -/
theorem insert_preserves_integrity (tr : Tree K V) (T : RBNode K V) (h : WF tr T)
    (_hb : BST tr.cmp T) (hchk : Returns (fun fuel => tree_check_integrity fuel tr) true)
    (key : K) (value : V) :
    ∃ res tr1, Returns (fun fuel => tree_insert fuel tr key value) (res, tr1) ∧
      Returns (fun fuel => tree_check_integrity fuel tr1) true ∧
      ∃ T1, WF tr1 T1 ∧ RB T1 := by
  have hrb : RB T := (chk_iff T).1 (h.check_returns.unique hchk)
  rcases hd : descend tr.cmp key T [] with ⟨ctx, t⟩
  cases t with
  | node a c k v l r =>
    exact ⟨v, tr, h.insert_dup_returns key value hd, hchk, T, h, hrb⟩
  | nil =>
    obtain ⟨tr1, T1, hret, hwf, hRB, _⟩ := h.insert_new_returns hrb key value hd
    refine ⟨value, tr1, hret, ?_, T1, hwf, hRB⟩
    have := hwf.check_returns
    rw [(chk_iff T1).2 hRB] at this
    exact this

/-- The pair (9, 90) inserted into the two-node state `ex_tree`. -/
theorem insert_preserves_integrity_witness :
    WF ex_tree ex_shape ∧ BST ex_tree.cmp ex_shape ∧
    Returns (fun fuel => tree_check_integrity fuel ex_tree) true ∧
    ∃ res tr1, Returns (fun fuel => tree_insert fuel ex_tree 9 90) (res, tr1) ∧
      Returns (fun fuel => tree_check_integrity fuel tr1) true ∧
      ∃ T1, WF tr1 T1 ∧ RB T1 :=
  ⟨ex_wf, ex_bst, ex_wf.check_returns,
    insert_preserves_integrity ex_tree ex_shape ex_wf ex_bst ex_wf.check_returns 9 90⟩

/-- C3: `tree_delete` preserves the red-black invariants.  For every state
that holds a tree in binary-search order on which `tree_check_integrity`
returns true, and every key (stored or not), `tree_delete` returns and
`tree_check_integrity` returns true on the state it leaves. -/
theorem delete_preserves_integrity (tr : Tree K V) (T : RBNode K V) (h : WF tr T)
    (_hb : BST tr.cmp T) (hchk : Returns (fun fuel => tree_check_integrity fuel tr) true)
    (key : K) :
    ∃ res tr1, Returns (fun fuel => tree_delete fuel tr key) (res, tr1) ∧
      Returns (fun fuel => tree_check_integrity fuel tr1) true ∧
      ∃ T1, WF tr1 T1 ∧ RB T1 := by
  have hrb : RB T := (chk_iff T).1 (h.check_returns.unique hchk)
  rcases hd : descend tr.cmp key T [] with ⟨ctx, t⟩
  cases t with
  | nil =>
    exact ⟨none, tr, h.delete_absent_returns key hd, hchk, T, h, hrb⟩
  | node a c k v l r =>
    obtain ⟨tr1, T1, hret, hwf, hRB, _⟩ := h.delete_found_returns hrb key hd
    refine ⟨some v, tr1, hret, ?_, T1, hwf, hRB⟩
    have := hwf.check_returns
    rw [(chk_iff T1).2 hRB] at this
    exact this

/-- The root key 5 deleted from the two-node state `ex_tree`. -/
theorem delete_preserves_integrity_witness :
    WF ex_tree ex_shape ∧ BST ex_tree.cmp ex_shape ∧
    Returns (fun fuel => tree_check_integrity fuel ex_tree) true ∧
    ∃ res tr1, Returns (fun fuel => tree_delete fuel ex_tree 5) (res, tr1) ∧
      Returns (fun fuel => tree_check_integrity fuel tr1) true ∧
      ∃ T1, WF tr1 T1 ∧ RB T1 :=
  ⟨ex_wf, ex_bst, ex_wf.check_returns,
    delete_preserves_integrity ex_tree ex_shape ex_wf ex_bst ex_wf.check_returns 5⟩

/-- C4: every state reachable from the tree of `tree_create` by calls of
`tree_insert` and `tree_delete`, with a comparator that is a consistent total
order, holds a tree in binary-search order: at every node the keys of the left
subtree compare less than the key of the node and those of the right subtree
greater. -/
theorem reachable_bst (cmp : K → K → Int) (hc : TotalCmp cmp) (tr : Tree K V)
    (h : Reachable cmp tr) : ∃ T, WF tr T ∧ tr.cmp = cmp ∧ BST cmp T := by
  obtain ⟨T, hinv, hcmp⟩ := h.inv hc
  refine ⟨T, hinv.wf, hcmp, ?_⟩
  rw [← hcmp]
  exact hinv.bst

end

section

variable {K V : Type}
open RBNode Color

/-- The state three `tree_insert` calls (of the keys 5, 8 and 3) away from the
empty tree, which holds the root 5 with the left child 3 and the right child
8. -/
theorem reachable_bst_witness :
    TotalCmp icmp ∧ Reachable icmp ex_reached3 ∧ WF ex_reached3 ex_reached3_shape ∧
    ∃ T, WF ex_reached3 T ∧ ex_reached3.cmp = icmp ∧ BST icmp T :=
  have hr : Reachable icmp ex_reached :=
    Reachable.step (tree_create icmp) ex_reached (Op.insert 5 50) Reachable.create
      (@Returns.of_mono _ (fun fuel => (tree_insert fuel (tree_create icmp) 5 50).map Prod.snd)
        ((tree_insert_mono (tree_create icmp) 5 50).map_mono Prod.snd) 3 ex_reached rfl)
  have hr2 : Reachable icmp ex_reached2 :=
    Reachable.step ex_reached ex_reached2 (Op.insert 8 80) hr
      (@Returns.of_mono _ (fun fuel => (tree_insert fuel ex_reached 8 80).map Prod.snd)
        ((tree_insert_mono ex_reached 8 80).map_mono Prod.snd) 4 ex_reached2 rfl)
  have hr3 : Reachable icmp ex_reached3 :=
    Reachable.step ex_reached2 ex_reached3 (Op.insert 3 30) hr2
      (@Returns.of_mono _ (fun fuel => (tree_insert fuel ex_reached2 3 30).map Prod.snd)
        ((tree_insert_mono ex_reached2 3 30).map_mono Prod.snd) 4 ex_reached3 rfl)
  ⟨icmp_total, hr3,
    ⟨rfl, ⟨rfl, ⟨rfl, trivial, trivial⟩, rfl, trivial, trivial⟩, by decide, by decide⟩,
    reachable_bst icmp icmp_total ex_reached3 hr3⟩

/-- C5: for every state that satisfies the invariants of the data model and
every key that compares equal to a stored key, `tree_delete` returns the value
stored under that key, `tree_size` is one less afterwards, `tree_find` of the
key reports absence, and `tree_find` of every key that does not compare equal
to it returns what it returned before. -/
theorem delete_present (tr : Tree K V) (T : RBNode K V) (h : Inv tr T) (hc : TotalCmp tr.cmp)
    (key : K) (p : K × V) (hp : p ∈ T.toList) (he : tr.cmp key p.1 = 0) :
    ∃ tr1, Returns (fun fuel => tree_delete fuel tr key) (some p.2, tr1) ∧
      tree_size tr1 = tree_size tr - 1 ∧
      Returns (fun fuel => tree_find fuel tr1 key) none ∧
      ∀ key2 res, tr.cmp key2 key ≠ 0 → Returns (fun fuel => tree_find fuel tr key2) res →
        Returns (fun fuel => tree_find fuel tr1 key2) res := by
  obtain ⟨ctx, a, c, k, l, r, hd, hk⟩ := descend_present hc key h.bst hp he
  obtain ⟨tr1, T1, hret, hinv, hcmp, hsize, hT, hT1⟩ := h.delete_found_inv hc key hd
  have hc1 : TotalCmp tr1.cmp := hcmp ▸ hc
  have hasc := (BST_iff hc T).1 h.bst
  rw [hT] at hasc
  refine ⟨tr1, hret, hsize, ?_, ?_⟩
  · have hf := hinv.wf.find_returns key
    rw [findVal_eq_lookup hc1 key hinv.bst, hT1, hcmp] at hf
    have hnone : lookup tr.cmp key ((ctxBefore ctx ++ l.toList) ++ (r.toList ++ ctxAfter ctx))
        = none := by
      apply lookup_none
      simp only [Ascending, List.pairwise_append, List.pairwise_cons, List.mem_cons] at hasc
      intro q hq
      rcases List.mem_append.1 hq with hq | hq
      · have h2 : tr.cmp q.1 k < 0 := hasc.2.2 q hq (k, p.2) (Or.inl rfl)
        exact hc.ne_of_lt (hc.lt_of_lt_of_eq h2 (hc.eq_swap hk))
      · have h2 : tr.cmp k q.1 < 0 := hasc.2.1.1 q hq
        exact hc.ne_of_gt (hc.lt_of_eq_of_lt hk h2)
    rw [hnone] at hf
    exact hf
  · intro key2 res hne hres
    have e1 := (h.wf.find_returns key2).unique hres
    have hf := hinv.wf.find_returns key2
    rw [findVal_eq_lookup hc1 key2 hinv.bst, hT1, hcmp] at hf
    rw [findVal_eq_lookup hc key2 h.bst, hT] at e1
    have hne2 : tr.cmp key2 (k, p.2).1 ≠ 0 := by
      intro e
      exact hne (hc.eq_trans e (hc.eq_swap hk))
    rw [lookup_remove _ _ _ _ _ hne2] at e1
    rw [e1] at hf
    exact hf

/-- The stored key 8 deleted from the two-node state `ex_tree`. -/
theorem delete_present_witness :
    Inv ex_tree ex_shape ∧ TotalCmp ex_tree.cmp ∧ ((8, 80) : Int × Int) ∈ ex_shape.toList ∧
    ex_tree.cmp 8 8 = 0 ∧
    ∃ tr1, Returns (fun fuel => tree_delete fuel ex_tree 8) (some 80, tr1) ∧
      tree_size tr1 = tree_size ex_tree - 1 ∧
      Returns (fun fuel => tree_find fuel tr1 8) none ∧
      ∀ key2 res, ex_tree.cmp key2 8 ≠ 0 →
        Returns (fun fuel => tree_find fuel ex_tree key2) res →
        Returns (fun fuel => tree_find fuel tr1 key2) res :=
  ⟨ex_inv, icmp_total, by decide, by decide,
    delete_present ex_tree ex_shape ex_inv icmp_total 8 (8, 80) (by decide) (by decide)⟩

/-- C6: for every state that holds a tree in binary-search order and every
key that compares equal to a stored key, `tree_insert` returns the stored
value (not the offered one) and leaves the state as it was: the stored value,
`tree_size` and the tree (shape, colours, keys, values) are the same. -/
theorem insert_duplicate (tr : Tree K V) (T : RBNode K V) (h : WF tr T) (hb : BST tr.cmp T)
    (hc : TotalCmp tr.cmp) (key : K) (value : V) (p : K × V) (hp : p ∈ T.toList)
    (he : tr.cmp key p.1 = 0) :
    Returns (fun fuel => tree_insert fuel tr key value) (p.2, tr) := by
  obtain ⟨ctx, a, c, k, l, r, hd, _⟩ := descend_present hc key hb hp he
  exact h.insert_dup_returns key value hd

/-- The stored key 5 offered again, with another value, to the state `ex_tree`. -/
theorem insert_duplicate_witness :
    WF ex_tree ex_shape ∧ BST ex_tree.cmp ex_shape ∧ TotalCmp ex_tree.cmp ∧
    ((5, 50) : Int × Int) ∈ ex_shape.toList ∧ ex_tree.cmp 5 5 = 0 ∧
    Returns (fun fuel => tree_insert fuel ex_tree 5 51) (50, ex_tree) :=
  ⟨ex_wf, ex_bst, icmp_total, by decide, by decide,
    insert_duplicate ex_tree ex_shape ex_wf ex_bst icmp_total 5 51 (5, 50) (by decide)
      (by decide)⟩

/-- C7: for every state that holds a tree in binary-search order and every
key that compares equal to no stored key, `tree_delete` returns no value
(`NULL`) and leaves the state as it was, so that `tree_size`, the result of
`tree_check_integrity` and the whole tree are the same as before the call. -/
theorem delete_absent (tr : Tree K V) (T : RBNode K V) (h : WF tr T) (_hb : BST tr.cmp T)
    (key : K) (habs : ∀ p ∈ T.toList, tr.cmp key p.1 ≠ 0) :
    Returns (fun fuel => tree_delete fuel tr key) (none, tr) := by
  obtain ⟨ctx, hd⟩ := descend_absent_of tr.cmp key habs
  exact h.delete_absent_returns key hd

/-- The key 6, which the state `ex_tree` does not store, deleted from it. -/
theorem delete_absent_witness :
    WF ex_tree ex_shape ∧ BST ex_tree.cmp ex_shape ∧
    (∀ p ∈ ex_shape.toList, ex_tree.cmp 6 p.1 ≠ 0) ∧
    Returns (fun fuel => tree_delete fuel ex_tree 6) (none, ex_tree) :=
  ⟨ex_wf, ex_bst, by decide, delete_absent ex_tree ex_shape ex_wf ex_bst 6 (by decide)⟩

/-- C8: for every state that holds a tree in binary-search order, with a
comparator that is a consistent total order, and every key, `tree_find`
returns the value of the node whose key compares equal to the key when there
is such a node, and reports absence (`NULL`) when no key of the tree compares
equal.  (The function writes nothing: its model has no state to return.) -/
theorem find_spec (tr : Tree K V) (T : RBNode K V) (h : WF tr T) (hb : BST tr.cmp T)
    (hc : TotalCmp tr.cmp) (key : K) :
    (∀ p ∈ T.toList, tr.cmp key p.1 = 0 →
      Returns (fun fuel => tree_find fuel tr key) (some p.2)) ∧
    ((∀ p ∈ T.toList, tr.cmp key p.1 ≠ 0) →
      Returns (fun fuel => tree_find fuel tr key) none) := by
  have hf := h.find_returns key
  rw [findVal_eq_lookup hc key hb] at hf
  constructor
  · intro p hp he
    rw [lookup_of_eq hc ((BST_iff hc T).1 hb) hp he] at hf
    exact hf
  · intro habs
    rw [lookup_none _ _ _ habs] at hf
    exact hf

/-- The search for the key 8 in the two-node state `ex_tree`. -/
theorem find_spec_witness :
    WF ex_tree ex_shape ∧ BST ex_tree.cmp ex_shape ∧ TotalCmp ex_tree.cmp ∧
    (∀ p ∈ ex_shape.toList, ex_tree.cmp 8 p.1 = 0 →
      Returns (fun fuel => tree_find fuel ex_tree 8) (some p.2)) ∧
    ((∀ p ∈ ex_shape.toList, ex_tree.cmp 8 p.1 ≠ 0) →
      Returns (fun fuel => tree_find fuel ex_tree 8) none) :=
  ⟨ex_wf, ex_bst, icmp_total, find_spec ex_tree ex_shape ex_wf ex_bst icmp_total 8⟩

/-- C9: for every list of pairs with pairwise-distinct keys inserted into the
tree of `tree_create`, `tree_foldl` returns the accumulator threaded through
the callback along a list `L` of exactly `tree_size` pairs that is the
ascending sort of the inserted pairs (a permutation of them with strictly
ascending keys).  (The function writes nothing: its model has no state to
return.) -/
theorem foldl_ascending (cmp : K → K → Int) (hc : TotalCmp cmp) (kvs : List (K × V))
    (hd : kvs.Pairwise (fun p q => cmp p.1 q.1 ≠ 0)) :
    ∃ (tr : Tree K V) (L : List (K × V)),
      Returns (fun fuel => insert_all fuel (tree_create cmp) kvs) tr ∧
      L.Perm kvs ∧ Ascending cmp L ∧ (L.length : Int) = tree_size tr ∧
      ∀ (A : Type) (f : K → V → A → A) (acc : A),
        Returns (fun fuel => tree_foldl fuel tr f acc)
          (L.foldl (fun acc kv => f kv.1 kv.2 acc) acc) := by
  obtain ⟨tr1, T1, hret, hinv, hcmp, hsize, hperm⟩ :=
    Inv.insert_list hc kvs (tree_create cmp) RBNode.nil (Inv.create cmp) rfl hd
      (fun p hp => by cases hp)
  have hbst := hinv.bst
  rw [hcmp] at hbst
  refine ⟨tr1, T1.toList, hret, by simpa [RBNode.toList] using hperm,
    (BST_iff hc T1).1 hbst, ?_, fun A f acc => hinv.wf.foldl_returns f acc⟩
  rw [tree_size, hinv.size, count_eq_length]

/-- The left fold over the tree of the three pairs of the basic test. -/
theorem foldl_ascending_witness :
    TotalCmp icmp ∧ ex_pairs.Pairwise (fun p q => icmp p.1 q.1 ≠ 0) ∧
    ∃ (tr : Tree Int Int) (L : List (Int × Int)),
      Returns (fun fuel => insert_all fuel (tree_create icmp) ex_pairs) tr ∧
      L.Perm ex_pairs ∧ Ascending icmp L ∧ (L.length : Int) = tree_size tr ∧
      ∀ (A : Type) (f : Int → Int → A → A) (acc : A),
        Returns (fun fuel => tree_foldl fuel tr f acc)
          (L.foldl (fun acc kv => f kv.1 kv.2 acc) acc) :=
  ⟨icmp_total, by decide, foldl_ascending icmp icmp_total ex_pairs (by decide)⟩

/-- C10: for every list of pairs with pairwise-distinct keys inserted into
the tree of `tree_create`, `tree_foldr` returns the accumulator threaded
through the callback along the reverse of the list `L` that `tree_foldl`
goes along: exactly `tree_size` pairs, a permutation of the inserted pairs,
with strictly descending keys. -/
theorem foldr_descending (cmp : K → K → Int) (hc : TotalCmp cmp) (kvs : List (K × V))
    (hd : kvs.Pairwise (fun p q => cmp p.1 q.1 ≠ 0)) :
    ∃ (tr : Tree K V) (L : List (K × V)),
      Returns (fun fuel => insert_all fuel (tree_create cmp) kvs) tr ∧
      L.reverse.Perm kvs ∧ L.reverse.Pairwise (fun x y => cmp y.1 x.1 < 0) ∧
      (L.reverse.length : Int) = tree_size tr ∧
      ∀ (A : Type) (f : K → V → A → A) (acc : A),
        Returns (fun fuel => tree_foldr fuel tr f acc)
          (L.reverse.foldl (fun acc kv => f kv.1 kv.2 acc) acc) ∧
        Returns (fun fuel => tree_foldl fuel tr f acc)
          (L.foldl (fun acc kv => f kv.1 kv.2 acc) acc) := by
  obtain ⟨tr1, T1, hret, hinv, hcmp, hsize, hperm⟩ :=
    Inv.insert_list hc kvs (tree_create cmp) RBNode.nil (Inv.create cmp) rfl hd
      (fun p hp => by cases hp)
  have hbst := hinv.bst
  rw [hcmp] at hbst
  have hasc := (BST_iff hc T1).1 hbst
  refine ⟨tr1, T1.toList, hret, ?_, ?_, ?_,
    fun A f acc => ⟨hinv.wf.foldr_returns f acc, hinv.wf.foldl_returns f acc⟩⟩
  · exact (List.reverse_perm _).trans (by simpa [RBNode.toList] using hperm)
  · rw [List.pairwise_reverse]
    exact hasc
  · rw [List.length_reverse, tree_size, hinv.size, count_eq_length]

/-- The right fold over the tree of the three pairs of the basic test. -/
theorem foldr_descending_witness :
    TotalCmp icmp ∧ ex_pairs.Pairwise (fun p q => icmp p.1 q.1 ≠ 0) ∧
    ∃ (tr : Tree Int Int) (L : List (Int × Int)),
      Returns (fun fuel => insert_all fuel (tree_create icmp) ex_pairs) tr ∧
      L.reverse.Perm ex_pairs ∧ L.reverse.Pairwise (fun x y => icmp y.1 x.1 < 0) ∧
      (L.reverse.length : Int) = tree_size tr ∧
      ∀ (A : Type) (f : Int → Int → A → A) (acc : A),
        Returns (fun fuel => tree_foldr fuel tr f acc)
          (L.reverse.foldl (fun acc kv => f kv.1 kv.2 acc) acc) ∧
        Returns (fun fuel => tree_foldl fuel tr f acc)
          (L.foldl (fun acc kv => f kv.1 kv.2 acc) acc) :=
  ⟨icmp_total, by decide, foldr_descending icmp icmp_total ex_pairs (by decide)⟩

end

section

variable {K V : Type}
open RBNode Color

/-- In an ascending list two pairs whose keys compare equal are the same
pair. -/
theorem Ascending.eq_of_cmp_eq {cmp : K → K → Int} (hc : TotalCmp cmp) {L : List (K × V)}
    (h : Ascending cmp L) {p q : K × V} (hp : p ∈ L) (hq : q ∈ L) (he : cmp p.1 q.1 = 0) :
    p = q := by
  by_contra hne
  have h0 : L.Pairwise (fun x y => cmp x.1 y.1 < 0) := h
  have h1 : L.Pairwise (fun x y => cmp x.1 y.1 ≠ 0) := by
    refine List.Pairwise.imp ?_ h0
    intro a b hab
    omega
  have hs : Symmetric (fun x y : K × V => cmp x.1 y.1 ≠ 0) :=
    fun x y hxy e => hxy (hc.eq_swap e)
  exact h1.forall hs hp hq hne he

theorem toList_eq_nil {t : RBNode K V} (h : t.toList = []) : t = RBNode.nil := by
  cases t with
  | nil => rfl
  | node a c k v l r => simp [RBNode.toList] at h

theorem info_size (t : RBNode K V) : t.info.size = (t.count : Int) := by
  induction t with
  | nil => rfl
  | node a c k v l r ihl ihr =>
    simp only [RBNode.info, RBNode.count, ihl, ihr]
    push_cast
    rfl

theorem WF.info_returns {tr : Tree K V} {T : RBNode K V} (h : WF tr T) :
    Returns (fun fuel => tree_info fuel tr) T.info := by
  refine ⟨T.depth, fun fuel hf => ?_⟩
  have := WF.node_info T [] fuel h hf
  rw [← h.root] at this
  exact this

/-- One call of the interface keeps the shape, the element count and the
red-black invariants, whatever the comparator. -/
theorem Holds.step_holds {tr : Tree K V} {T : RBNode K V} (h : Holds tr T) (hrb : RB T)
    (op : Op K V) :
    ∃ tr1 T1, Returns (fun fuel => op.run fuel tr) tr1 ∧ Holds tr1 T1 ∧ RB T1 := by
  cases op with
  | insert key value =>
    rcases hd : descend tr.cmp key T [] with ⟨ctx, t⟩
    cases t with
    | nil =>
      obtain ⟨tr1, T1, hret, hwf, hRB, _, hsize, hlist⟩ :=
        h.wf.insert_new_returns hrb key value hd
      refine ⟨tr1, T1, hret.map_returns Prod.snd, ⟨hwf, ?_⟩, hRB⟩
      have hT := descend_toList tr.cmp key hd
      rw [hsize, h.size, count_eq_length, count_eq_length, hlist, hT]
      simp only [RBNode.toList, List.length_append, List.length_cons, List.length_nil]
      push_cast
      omega
    | node a c k v l r =>
      exact ⟨tr, T, (h.wf.insert_dup_returns key value hd).map_returns Prod.snd, h, hrb⟩
  | delete key =>
    rcases hd : descend tr.cmp key T [] with ⟨ctx, t⟩
    cases t with
    | nil =>
      exact ⟨tr, T, (h.wf.delete_absent_returns key hd).map_returns Prod.snd, h, hrb⟩
    | node a c k v l r =>
      obtain ⟨tr1, T1, hret, hwf, hRB, _, hsize, hlist⟩ := h.wf.delete_found_returns hrb key hd
      refine ⟨tr1, T1, hret.map_returns Prod.snd, ⟨hwf, ?_⟩, hRB⟩
      have hT := descend_toList tr.cmp key hd
      rw [hsize, h.size, count_eq_length, count_eq_length, hlist, hT]
      simp only [RBNode.toList, List.length_append, List.length_cons]
      push_cast
      omega

/-- Every reachable state holds a tree with the red-black invariants whose
number of nodes is the element count. -/
theorem Reachable.holds {cmp : K → K → Int} {tr : Tree K V} (h : Reachable cmp tr) :
    ∃ T, Holds tr T ∧ RB T := by
  induction h with
  | create => exact ⟨RBNode.nil, ⟨(Inv.create cmp).wf, rfl⟩, (Inv.create cmp).rb⟩
  | step tr tr1 op _ hret ih =>
    obtain ⟨T, hh, hrb⟩ := ih
    obtain ⟨tr1', T1, hret', hh', hrb'⟩ := hh.step_holds hrb op
    have e : tr1 = tr1' := hret.unique hret'
    subst e
    exact ⟨T1, hh', hrb'⟩

/-- The calls of `tree_delete` for a list of stored pairs with distinct
keys: each returns the stored value, and the pairs left are the others. -/
theorem Inv.delete_list {cmp : K → K → Int} (hc : TotalCmp cmp) :
    ∀ (dels : List (K × V)) (tr : Tree K V) (T : RBNode K V), Inv tr T → tr.cmp = cmp →
      dels.Pairwise (fun p q => cmp p.1 q.1 ≠ 0) → (∀ p ∈ dels, p ∈ T.toList) →
      ∃ tr2 T2, Returns (fun fuel => delete_all fuel tr (dels.map Prod.fst))
          (dels.map (fun p => some p.2), tr2) ∧
        Inv tr2 T2 ∧ tr2.cmp = cmp ∧ (dels ++ T2.toList).Perm T.toList := by
  intro dels
  induction dels with
  | nil =>
    intro tr T h hcmp _ _
    exact ⟨tr, T, ⟨0, fun _ _ => rfl⟩, h, hcmp, List.Perm.refl _⟩
  | cons p rest ih =>
    intro tr T h hcmp hpw hmem
    subst hcmp
    have hp : p ∈ T.toList := hmem p (List.mem_cons_self _ _)
    obtain ⟨ctx, a, c, k, l, r, hd, hk⟩ := descend_present hc p.1 h.bst hp (hc.cmp_self p.1)
    obtain ⟨tr1, T1, hret, hinv, hcmp1, _, hT, hT1⟩ := h.delete_found_inv hc p.1 hd
    have hasc := (BST_iff hc T).1 h.bst
    have hkp : (k, p.2) = p := by
      have hin : (k, p.2) ∈ T.toList := by rw [hT]; simp
      exact Ascending.eq_of_cmp_eq hc hasc hin hp (hc.eq_swap hk)
    rw [hkp] at hT
    rw [List.pairwise_cons] at hpw
    have hmem1 : ∀ q ∈ rest, q ∈ T1.toList := by
      intro q hq
      have hqT := hmem q (List.mem_cons_of_mem _ hq)
      rw [hT] at hqT
      rw [hT1]
      simp only [List.mem_append, List.mem_cons] at hqT ⊢
      rcases hqT with h1 | rfl | h1
      · exact Or.inl h1
      · exact absurd (hc.cmp_self q.1) (hpw.1 q hq)
      · exact Or.inr h1
    obtain ⟨tr2, T2, hret2, hinv2, hcmp2, hperm⟩ := ih tr1 T1 hinv hcmp1 hpw.2 hmem1
    refine ⟨tr2, T2, ?_, hinv2, hcmp2, ?_⟩
    · obtain ⟨N1, e1⟩ := hret
      obtain ⟨N2, e2⟩ := hret2
      refine ⟨max N1 N2, fun fuel hf => ?_⟩
      have a1 : tree_delete fuel tr p.1 = some (some p.2, tr1) :=
        e1 fuel (le_trans (le_max_left _ _) hf)
      have a2 : delete_all fuel tr1 (rest.map Prod.fst) =
          some (rest.map (fun p => some p.2), tr2) := e2 fuel (le_trans (le_max_right _ _) hf)
      simp only [List.map_cons, delete_all, a1, a2]
    · rw [hT]
      have p1 : (p :: (rest ++ T2.toList)).Perm (p :: T1.toList) := List.Perm.cons p hperm
      rw [hT1] at p1
      exact p1.trans List.perm_middle.symm

end

section

variable {K V : Type}
open RBNode Color

theorem longest_cons (x : Nat) (L : List Nat) : longest (x :: L) = max x (longest L) := rfl

theorem longest_append (A B : List Nat) : longest (A ++ B) = max (longest A) (longest B) := by
  induction A with
  | nil => simp [longest]
  | cons x A ih =>
    simp only [List.cons_append, longest_cons, ih]
    omega

theorem longest_map_add (A : List Nat) (c : Nat) (h : A ≠ []) :
    longest (A.map (· + c)) = longest A + c := by
  induction A with
  | nil => exact absurd rfl h
  | cons x A ih =>
    cases A with
    | nil => simp [longest]
    | cons y A =>
      have := ih (by simp)
      simp only [List.map_cons, longest_cons] at this ⊢
      omega

theorem foldr_min_le (A : List Nat) (x y : Nat) :
    A.foldr min (min x y) = min (A.foldr min x) (A.foldr min y) := by
  induction A with
  | nil => rfl
  | cons z A ih =>
    simp only [List.foldr_cons, ih]
    omega

theorem shortest_cons (x y : Nat) (L : List Nat) :
    shortest (x :: y :: L) = min x (shortest (y :: L)) := by
  simp only [shortest, List.foldr_cons]
  induction L with
  | nil => simp [Nat.min_comm]
  | cons z L ih =>
    simp only [List.foldr_cons]
    omega

theorem shortest_append (A B : List Nat) (hA : A ≠ []) (hB : B ≠ []) :
    shortest (A ++ B) = min (shortest A) (shortest B) := by
  induction A with
  | nil => exact absurd rfl hA
  | cons x A ih =>
    cases A with
    | nil =>
      cases B with
      | nil => exact absurd rfl hB
      | cons y B => exact shortest_cons x y B
    | cons y A =>
      have := ih (by simp)
      simp only [List.cons_append] at this ⊢
      rw [shortest_cons, shortest_cons, this]
      omega

theorem shortest_map_add (A : List Nat) (c : Nat) (h : A ≠ []) :
    shortest (A.map (· + c)) = shortest A + c := by
  induction A with
  | nil => exact absurd rfl h
  | cons x A ih =>
    cases A with
    | nil => rfl
    | cons y A =>
      have := ih (by simp)
      simp only [List.map_cons] at this ⊢
      rw [shortest_cons, shortest_cons, this]
      omega

theorem nilPaths_ne_nil (t : RBNode K V) : t.nilPaths ≠ [] := by
  induction t with
  | nil => simp [RBNode.nilPaths]
  | node a c k v l r ihl _ => simp [RBNode.nilPaths, ihl]

theorem blackPaths_ne_nil (t : RBNode K V) : t.blackPaths ≠ [] := by
  induction t with
  | nil => simp [RBNode.blackPaths]
  | node a c k v l r ihl _ => simp [RBNode.blackPaths, ihl]

/-- The `height` of the record is the number of nodes on the longest path
from the root to an absent child, `min_height` the number of nodes on the
shortest one, and `black_height` the largest number of BLACK nodes on such a
path. -/
theorem info_paths (t : RBNode K V) :
    t.info.height = (longest t.nilPaths : Int) ∧
    t.info.min_height = (shortest t.nilPaths : Int) ∧
    t.info.black_height = (longest t.blackPaths : Int) := by
  induction t with
  | nil => simp [RBNode.info, RBNode.nilPaths, RBNode.blackPaths, longest, shortest]
  | node a c k v l r ihl ihr =>
    obtain ⟨l1, l2, l3⟩ := ihl
    obtain ⟨r1, r2, r3⟩ := ihr
    have n1 : l.nilPaths ++ r.nilPaths ≠ [] := by simp [nilPaths_ne_nil]
    have n2 : l.blackPaths ++ r.blackPaths ≠ [] := by simp [blackPaths_ne_nil]
    simp only [RBNode.info, RBNode.nilPaths, RBNode.blackPaths, l1, l2, l3, r1, r2, r3]
    rw [longest_map_add _ _ n1, shortest_map_add _ _ n1, longest_map_add _ _ n2,
      longest_append, longest_append,
      shortest_append _ _ (nilPaths_ne_nil l) (nilPaths_ne_nil r)]
    refine ⟨?_, ?_, ?_⟩
    · split_ifs <;> push_cast <;> omega
    · split_ifs <;> push_cast <;> omega
    · cases c <;> simp <;> split_ifs <;> omega

end

section

variable {K V : Type}
open RBNode Color

theorem leafPaths_node {a : Nat} {c : Color} {k : K} {v : V} {l r : RBNode K V}
    (h : l ≠ RBNode.nil ∨ r ≠ RBNode.nil) :
    (node a c k v l r).leafPaths = (l.leafPaths ++ r.leafPaths).map (· + 1) := by
  cases l with
  | nil =>
    cases r with
    | nil => simp at h
    | node _ _ _ _ _ _ => rfl
  | node _ _ _ _ _ _ => rfl

theorem leafPaths_ne_nil (t : RBNode K V) (h : t ≠ RBNode.nil) : t.leafPaths ≠ [] := by
  induction t with
  | nil => exact absurd rfl h
  | node a c k v l r ihl ihr =>
    by_cases hl : l = RBNode.nil
    · by_cases hr : r = RBNode.nil
      · subst hl hr
        simp [RBNode.leafPaths]
      · rw [leafPaths_node (Or.inr hr)]
        simp [ihr hr]
    · rw [leafPaths_node (Or.inl hl)]
      simp [ihl hl]

/-- The longest path to an absent child has one node more than the longest
path to a leaf has edges. -/
theorem longest_nilPaths (t : RBNode K V) (h : t ≠ RBNode.nil) :
    longest t.nilPaths = longest t.leafPaths + 1 := by
  induction t with
  | nil => exact absurd rfl h
  | node a c k v l r ihl ihr =>
    have n1 : l.nilPaths ++ r.nilPaths ≠ [] := by simp [nilPaths_ne_nil]
    simp only [RBNode.nilPaths]
    rw [longest_map_add _ _ n1, longest_append]
    cases l with
    | nil =>
      cases r with
      | nil => simp [RBNode.leafPaths, RBNode.nilPaths, longest]
      | node ra rc rk rv rl rr =>
        have hr := ihr (by simp)
        rw [leafPaths_node (Or.inr (by simp)), longest_map_add, longest_append, hr]
        · simp [RBNode.leafPaths, RBNode.nilPaths, longest]
        · have := leafPaths_ne_nil (node ra rc rk rv rl rr) (by simp)
          simp [this]
    | node la lc lk lv ll lr =>
      have hl := ihl (by simp)
      rw [leafPaths_node (Or.inl (by simp)), longest_map_add, longest_append, hl]
      · cases r with
        | nil => simp [RBNode.leafPaths, RBNode.nilPaths, longest]
        | node ra rc rk rv rl rr =>
          rw [ihr (by simp)]
          omega
      · have := leafPaths_ne_nil (node la lc lk lv ll lr) (by simp)
        simp [this]

theorem bhL_mem (t : RBNode K V) : t.bhL ∈ t.blackPaths := by
  induction t with
  | nil => simp [RBNode.bhL, RBNode.blackPaths]
  | node a c k v l r ihl _ =>
    simp only [RBNode.bhL, RBNode.blackPaths, List.mem_map, List.mem_append]
    exact ⟨l.bhL, Or.inl ihl, rfl⟩

theorem Bal_paths : ∀ t : RBNode K V, Bal t → ∀ x ∈ t.blackPaths, x = t.bhL := by
  intro t
  induction t with
  | nil => intro _ x hx; simpa [RBNode.blackPaths, RBNode.bhL] using hx
  | node a c k v l r ihl ihr =>
    intro hb x hx
    simp only [RBNode.blackPaths, List.mem_map, List.mem_append] at hx
    obtain ⟨y, hy, rfl⟩ := hx
    simp only [RBNode.bhL]
    rcases hy with hy | hy
    · rw [ihl hb.2.1 y hy]
    · rw [ihr hb.2.2 y hy, hb.1]

/-- The recursive form of invariant 4 says what its words say. -/
theorem Bal_iff_PathBal (t : RBNode K V) : Bal t ↔ PathBal t := by
  induction t with
  | nil => simp [Bal, PathBal, AllNodes]
  | node a c k v l r ihl ihr =>
    constructor
    · intro hb
      refine ⟨?_, ihl.1 hb.2.1, ihr.1 hb.2.2⟩
      intro x hx y hy
      rw [Bal_paths _ hb x hx, Bal_paths _ hb y hy]
    · rintro ⟨h1, h2, h3⟩
      refine ⟨?_, ihl.2 h2, ihr.2 h3⟩
      have e := h1 (l.bhL + (if c = BLACK then 1 else 0))
        (by simp only [RBNode.blackPaths, List.mem_map, List.mem_append]
            exact ⟨l.bhL, Or.inl (bhL_mem l), rfl⟩)
        (r.bhL + (if c = BLACK then 1 else 0))
        (by simp only [RBNode.blackPaths, List.mem_map, List.mem_append]
            exact ⟨r.bhL, Or.inr (bhL_mem r), rfl⟩)
      omega

theorem longest_of_all_eq (L : List Nat) (n : Nat) (h : ∀ x ∈ L, x = n) (hne : L ≠ []) :
    longest L = n := by
  induction L with
  | nil => exact absurd rfl hne
  | cons x L ih =>
    have hx := h x (List.mem_cons_self _ _)
    cases L with
    | nil => simp [longest, hx]
    | cons y L =>
      have := ih (fun z hz => h z (List.mem_cons_of_mem _ hz)) (by simp)
      rw [longest_cons, this, hx]
      simp

/-- The recursive form of invariant 4 in terms of the `black_height` fields. -/
theorem Bal_iff_EqBH (t : RBNode K V) : Bal t ↔ EqBH t := by
  induction t with
  | nil => simp [Bal, EqBH, AllNodes]
  | node a c k v l r ihl ihr =>
    constructor
    · intro hb
      refine ⟨?_, ihl.1 hb.2.1, ihr.1 hb.2.2⟩
      simp only [RBNode.left, RBNode.right]
      rw [Bal_info l hb.2.1, Bal_info r hb.2.2, hb.1]
    · rintro ⟨h1, h2, h3⟩
      have bl := ihl.2 h2
      have br := ihr.2 h3
      simp only [RBNode.left, RBNode.right] at h1
      rw [Bal_info l bl, Bal_info r br] at h1
      exact ⟨by exact_mod_cast h1, bl, br⟩

theorem le_longest (L : List Nat) (x : Nat) (h : x ∈ L) : x ≤ longest L := by
  induction L with
  | nil => cases h
  | cons y L ih =>
    rw [longest_cons]
    rcases List.mem_cons.1 h with e | e
    · subst e
      exact Nat.le_max_left _ _
    · exact Nat.le_trans (ih e) (Nat.le_max_right _ _)

theorem shortest_le (L : List Nat) (x : Nat) (h : x ∈ L) : shortest L ≤ x := by
  induction L with
  | nil => cases h
  | cons y L ih =>
    cases L with
    | nil =>
      rcases List.mem_cons.1 h with e | e
      · subst e
        exact Nat.le_refl _
      · cases e
    | cons z L =>
      rw [shortest_cons]
      rcases List.mem_cons.1 h with e | e
      · subst e
        exact Nat.min_le_left _ _
      · exact Nat.le_trans (Nat.min_le_right _ _) (ih e)

/-- A path to a leaf, with one node more than it has edges, is a path to an
absent child (a child of the leaf). -/
theorem leafPaths_nilPaths : ∀ (t : RBNode K V) (x : Nat), x ∈ t.leafPaths →
    x + 1 ∈ t.nilPaths := by
  intro t
  induction t with
  | nil => intro x h; cases h
  | node a c k v l r ihl ihr =>
    intro x h
    by_cases hl : l = RBNode.nil
    · by_cases hr : r = RBNode.nil
      · subst hl hr
        simp only [RBNode.leafPaths, List.mem_singleton] at h
        subst h
        simp [RBNode.nilPaths]
      · rw [leafPaths_node (Or.inr hr)] at h
        simp only [List.mem_map, List.mem_append] at h
        obtain ⟨y, hy, rfl⟩ := h
        simp only [RBNode.nilPaths, List.mem_map, List.mem_append]
        rcases hy with hy | hy
        · exact ⟨y + 1, Or.inl (ihl y hy), rfl⟩
        · exact ⟨y + 1, Or.inr (ihr y hy), rfl⟩
    · rw [leafPaths_node (Or.inl hl)] at h
      simp only [List.mem_map, List.mem_append] at h
      obtain ⟨y, hy, rfl⟩ := h
      simp only [RBNode.nilPaths, List.mem_map, List.mem_append]
      rcases hy with hy | hy
      · exact ⟨y + 1, Or.inl (ihl y hy), rfl⟩
      · exact ⟨y + 1, Or.inr (ihr y hy), rfl⟩

end

section

variable {K V : Type}
open RBNode Color

theorem run_destructor_append {W : Type} (d : Option (V → W → W)) (xs ys : List V) (w : W) :
    run_destructor d (xs ++ ys) w = run_destructor d ys (run_destructor d xs w) := by
  cases d with
  | none => rfl
  | some f => simp [run_destructor, List.foldl_append]

/-- `tree_destroy_subtree` on the subtree at a child pointer: the destructor
is called on the values in post-order and the nodes of the subtree are
freed. -/
theorem Rep.destroy_subtree {W : Type} (d : Option (V → W → W)) :
    ∀ (t : RBNode K V) (tr : Tree K V) (par : Ptr) (fuel : Nat) (w : W),
      Rep tr.mem par t → t.addrs.Nodup → t.depth ≤ fuel →
      ∃ m, destroy_if (tree_destroy_subtree d fuel) t.ptr tr w =
          some ({ tr with mem := m }, run_destructor d t.postorder w) ∧
        (∀ x ∈ t.addrs, m x = none) ∧ (∀ x, x ∉ t.addrs → m x = tr.mem x) := by
  intro t
  induction t with
  | nil =>
    intro tr par fuel w _ _ _
    refine ⟨tr.mem, ?_, (fun x hx => absurd hx (List.not_mem_nil x)), fun _ _ => rfl⟩
    cases d <;> rfl
  | node a c k v l r ihl ihr =>
    intro tr par fuel w hrep hnd hf
    obtain ⟨ha, hl, hr⟩ := hrep
    simp only [RBNode.depth] at hf
    obtain ⟨f, rfl⟩ : ∃ f, fuel = f + 1 := ⟨fuel - 1, by omega⟩
    simp only [RBNode.addrs] at hnd
    have hnd' := hnd
    rw [List.nodup_append] at hnd
    obtain ⟨ndl, nda, hdisj⟩ := hnd
    rw [List.nodup_cons] at nda
    obtain ⟨har, ndr⟩ := nda
    have hal : a ∉ l.addrs := fun hx => hdisj hx (List.mem_cons_self _ _)
    have hlr : ∀ x ∈ r.addrs, x ∉ l.addrs := fun x hx hxl => hdisj hxl (List.mem_cons_of_mem _ hx)
    obtain ⟨m1, e1, z1, s1⟩ := ihl tr (some a) f w hl ndl (by omega)
    have ha1 : m1 a = some ⟨par, l.ptr, r.ptr, c, k, v⟩ := by rw [s1 a hal]; exact ha
    have hr1 : Rep m1 (some a) r := Rep_frame (fun x hx => s1 x (hlr x hx)) hr
    obtain ⟨m2, e2, z2, s2⟩ :=
      ihr { tr with mem := m1 } (some a) f (run_destructor d l.postorder w) hr1 ndr (by omega)
    have ha2 : m2 a = some ⟨par, l.ptr, r.ptr, c, k, v⟩ := by rw [s2 a har]; exact ha1
    refine ⟨mem_set m2 a none, ?_, ?_, ?_⟩
    · show tree_destroy_subtree d (f + 1) tr a w = _
      simp only [tree_destroy_subtree, ha]
      rw [e1]
      simp only [ha1]
      rw [e2]
      simp only [ha2, tree_node_destroy, RBNode.postorder, run_destructor_append]
      cases d <;> rfl
    · intro x hx
      simp only [RBNode.addrs, List.mem_append, List.mem_cons] at hx
      by_cases hxa : x = a
      · subst hxa; simp
      · rw [mem_set_ne _ _ hxa]
        rcases hx with hx | hx | hx
        · by_cases hxr : x ∈ r.addrs
          · exact z2 x hxr
          · rw [s2 x hxr]; exact z1 x hx
        · exact absurd hx hxa
        · exact z2 x hx
    · intro x hx
      simp only [RBNode.addrs, List.mem_append, List.mem_cons, not_or] at hx
      rw [mem_set_ne _ _ hx.2.1, s2 x hx.2.2]
      exact s1 x hx.1

theorem postorder_perm (t : RBNode K V) : t.postorder.Perm (t.toList.map Prod.snd) := by
  induction t with
  | nil => exact List.Perm.refl _
  | node a c k v l r ihl ihr =>
    simp only [RBNode.postorder, RBNode.toList, List.map_append, List.map_cons]
    have h1 : (l.postorder ++ r.postorder ++ [v]).Perm (l.postorder ++ (v :: r.postorder)) := by
      rw [List.append_assoc]
      exact List.Perm.append_left _ (List.perm_append_singleton v r.postorder)
    exact h1.trans (List.Perm.append ihl (List.Perm.cons v ihr))

/-- `tree_destroy` on a state that holds a tree. -/
theorem WF.destroy_returns {tr : Tree K V} {T : RBNode K V} (h : WF tr T) {W : Type}
    (d : Option (V → W → W)) (w : W) :
    ∃ m, Returns (fun fuel => tree_destroy fuel tr d w) (m, run_destructor d T.postorder w) ∧
      ∀ x ∈ T.addrs, m x = none := by
  classical
  refine ⟨fun x => if x ∈ T.addrs then none else tr.mem x, ⟨T.depth, fun fuel hf => ?_⟩,
    fun x hx => by simp [hx]⟩
  obtain ⟨m, e, z, s⟩ := Rep.destroy_subtree d T tr none fuel w h.rep h.nodup hf
  have hm : m = fun x => if x ∈ T.addrs then none else tr.mem x := by
    funext x
    by_cases hx : x ∈ T.addrs
    · simp [hx, z x hx]
    · simp [hx, s x hx]
  simp only [tree_destroy, h.root, e, hm]

end

section

variable {K V : Type}
open RBNode Color

theorem RepW.is_black_w {tr : Tree K V} {pf : Nat → Ptr} {t : RBNode K V}
    (h : RepW tr.mem pf t) : IS_BLACK tr t.ptr = some t.isBlack := by
  cases t with
  | nil => rfl
  | node a c k v l r => simp [IS_BLACK, h.1, RBNode.isBlack]

theorem RepW.bad_parent_w {tr : Tree K V} {pf : Nat → Ptr} {t : RBNode K V}
    (h : RepW tr.mem pf t) (a : Nat) :
    bad_parent tr t.ptr (some a) = some (!childLinked pf a t.ptr) := by
  cases t with
  | nil => rfl
  | node b c k v l r => simp [Rbtree.bad_parent, h.1, childLinked]

theorem RepW.node_info_w {tr : Tree K V} {pf : Nat → Ptr} :
    ∀ (t : RBNode K V) (fuel : Nat), RepW tr.mem pf t → t.depth ≤ fuel →
      tree_node_info tr fuel t.ptr = some t.info := by
  intro t
  induction t with
  | nil =>
    intro fuel _ _
    cases fuel <;> simp [tree_node_info, RBNode.info]
  | node a c k v l r ihl ihr =>
    intro fuel h hf
    simp only [RBNode.depth] at hf
    obtain ⟨f', rfl⟩ : ∃ f', fuel = f' + 1 := ⟨fuel - 1, by omega⟩
    have h1 := ihl f' h.2.1 (by omega)
    have h2 := ihr f' h.2.2 (by omega)
    simp only [ptr_node, tree_node_info, h.1, h1, h2, RBNode.info]

theorem Linked_iff (pf : Nat → Ptr) (t : RBNode K V) : linkedB pf t = true ↔ Linked pf t := by
  induction t with
  | nil => simp [linkedB, Linked]
  | node a c k v l r ihl ihr =>
    simp only [linkedB, Linked, Bool.and_eq_true, ihl, ihr]
    tauto

set_option maxHeartbeats 1000000 in
/-- `tree_node_check_integrity` on a tree whose parent links may be wrong: the
links are tested together with `chkNode`.  The parent link of the node is
read when the node is RED; it is then the link its parent's test passed. -/
theorem RepW.node_check_w {tr : Tree K V} {pf : Nat → Ptr} :
    ∀ (t : RBNode K V) (pb : Bool) (fuel : Nat), RepW tr.mem pf t → t.depth ≤ fuel →
      (∀ a, t.isRed = true → t.ptr = some a → IS_BLACK tr (pf a) = some pb) →
      tree_node_check_integrity tr fuel t.ptr = some (linkedB pf t && chkNode pb t) := by
  intro t
  induction t with
  | nil =>
    intro pb fuel _ _ _
    cases fuel <;> rfl
  | node a c k v l r ihl ihr =>
    intro pb fuel h hf hred
    have hn := h.1
    simp only [RBNode.depth] at hf
    obtain ⟨f', rfl⟩ : ∃ f', fuel = f' + 1 := ⟨fuel - 1, by omega⟩
    have i1 := RepW.node_info_w l f' h.2.1 (by omega)
    have i2 := RepW.node_info_w r f' h.2.2 (by omega)
    have p1 := RepW.bad_parent_w h.2.1 a
    have p2 := RepW.bad_parent_w h.2.2 a
    have b1 : IS_BLACK tr l.ptr = some l.isBlack := RepW.is_black_w h.2.1
    have b2 : IS_BLACK tr r.ptr = some r.isBlack := RepW.is_black_w h.2.2
    have ba : IS_BLACK tr (some a) = some (decide (c = BLACK)) := by simp [IS_BLACK, hn]
    rw [ptr_node, tree_node_check_integrity]
    simp only [hn, p1, p2, linkedB]
    cases hL1 : childLinked pf a l.ptr with
    | false => simp
    | true =>
      cases hL2 : childLinked pf a r.ptr with
      | false => simp
      | true =>
        have h1 := ihl (decide (c = BLACK)) f' h.2.1 (by omega) (by
          intro b _ hb
          rw [hb] at hL1
          simp only [childLinked, decide_eq_true_eq] at hL1
          rw [hL1]; exact ba)
        have h2 := ihr (decide (c = BLACK)) f' h.2.2 (by omega) (by
          intro b _ hb
          rw [hb] at hL2
          simp only [childLinked, decide_eq_true_eq] at hL2
          rw [hL2]; exact ba)
        simp only [Bool.not_true, Bool.true_and, i1, i2, h1, h2, chkNode]
        cases c with
        | RED =>
          have b0 := hred a (by simp [RBNode.isRed]) rfl
          have ab := all_black_eq b0 b1 b2
          simp only [if_true, ab, decide_True, Bool.true_and, reduceCtorEq, decide_False]
          cases hb : (pb && l.isBlack && r.isBlack) with
          | false => simp
          | true =>
            simp only [Bool.not_true, Bool.not_false, Bool.true_and]
            generalize (if l.info.height > r.info.height then l.info.height + 1
              else r.info.height + 1) = H
            generalize (if l.info.min_height ≤ r.info.min_height then l.info.min_height + 1
              else r.info.min_height + 1) = M
            by_cases e1 : l.info.black_height = r.info.black_height
            · simp only [e1, ne_eq, not_true_eq_false, if_false, decide_True, Bool.true_and]
              by_cases e2 : H ≤ M * 2
              · cases linkedB pf l <;> cases chkNode false l <;> cases linkedB pf r <;>
                  simp [e2]
              · simp [e2]
            · simp [e1]
        | BLACK =>
          simp only [reduceCtorEq, if_false, decide_False, Bool.false_and, Bool.not_false,
            Bool.true_and, decide_True]
          generalize (if l.info.height > r.info.height then l.info.height + 1
            else r.info.height + 1) = H
          generalize (if l.info.min_height ≤ r.info.min_height then l.info.min_height + 1
            else r.info.min_height + 1) = M
          by_cases e1 : l.info.black_height = r.info.black_height
          · simp only [e1, ne_eq, not_true_eq_false, if_false, decide_True, Bool.true_and]
            by_cases e2 : H ≤ M * 2
            · cases linkedB pf l <;> cases chkNode true l <;> cases linkedB pf r <;>
                simp [e2]
            · simp [e2]
          · simp [e1]

/-- `tree_check_integrity` on a tree whose parent links may be wrong. -/
theorem WFW.check_returns_w {tr : Tree K V} {pf : Nat → Ptr} {T : RBNode K V}
    (h : WFW tr pf T) :
    Returns (fun fuel => tree_check_integrity fuel tr)
      (T.isBlack && (linkedB pf T && chkNode true T)) := by
  refine ⟨T.depth, fun fuel hf => ?_⟩
  have hb := RepW.is_black_w h.rep
  rw [← h.root] at hb
  simp only [tree_check_integrity, hb]
  cases hB : T.isBlack with
  | false => rfl
  | true =>
    have hc := RepW.node_check_w T true fuel h.rep hf (by
      intro a hr _
      rw [isBlack_iff_not_isRed, hr] at hB
      cases hB)
    rw [← h.root] at hc
    simp only [hc, Bool.true_and]

theorem HeightOK_of_RB : ∀ t : RBNode K V, NoRR t → Bal t → HeightOK t := by
  intro t
  induction t with
  | nil => intro _ _; trivial
  | node a c k v l r ihl ihr =>
    intro hn hb
    refine ⟨?_, ihl hn.2.1 hb.2.1, ihr hn.2.2 hb.2.2⟩
    obtain ⟨_, i2, i3⟩ := info_RB _ hn hb
    show (node a c k v l r).info.height ≤ 2 * (node a c k v l r).info.min_height
    split_ifs at i2 i3 <;> omega

end

section

variable {K V : Type}
open RBNode Color

/-- C11: for every list of pairs with pairwise-distinct keys, under a
comparator that is a consistent total order, inserting them into the tree of
`tree_create` and then deleting every key with `tree_delete`, in any order,
returns; each `tree_delete` returns the value inserted with its key, and the
tree is empty afterwards: `tree_size` is 0, the root is absent and
`tree_check_integrity` returns true. -/
theorem insert_then_delete_all (cmp : K → K → Int) (hc : TotalCmp cmp)
    (kvs dels : List (K × V)) (hd : kvs.Pairwise (fun p q => cmp p.1 q.1 ≠ 0))
    (hp : dels.Perm kvs) :
    ∃ tr1 tr2, Returns (fun fuel => insert_all fuel (tree_create cmp) kvs) tr1 ∧
      Returns (fun fuel => delete_all fuel tr1 (dels.map Prod.fst))
        (dels.map (fun p => some p.2), tr2) ∧
      tree_size tr2 = 0 ∧ tr2.root = none ∧
      Returns (fun fuel => tree_check_integrity fuel tr2) true := by
  obtain ⟨tr1, T1, hret, hinv, hcmp, _, hperm⟩ :=
    Inv.insert_list hc kvs (tree_create cmp) RBNode.nil (Inv.create cmp) rfl hd
      (fun p hp => by cases hp)
  have hperm1 : T1.toList.Perm kvs := by simpa [RBNode.toList] using hperm
  have hdd : dels.Pairwise (fun p q => cmp p.1 q.1 ≠ 0) :=
    hd.perm hp.symm (fun hxy e => hxy (hc.eq_swap e))
  have hmem : ∀ p ∈ dels, p ∈ T1.toList :=
    fun p h => hperm1.mem_iff.2 (hp.mem_iff.1 h)
  obtain ⟨tr2, T2, hret2, hinv2, _, hperm2⟩ := Inv.delete_list hc dels tr1 T1 hinv hcmp hdd hmem
  have hlen : (dels ++ T2.toList).length = dels.length := by
    rw [hperm2.length_eq, hperm1.length_eq, hp.length_eq]
  have hnil : T2 = RBNode.nil := by
    apply toList_eq_nil
    apply List.eq_nil_of_length_eq_zero
    rw [List.length_append] at hlen
    omega
  subst hnil
  exact ⟨tr1, tr2, hret, hret2, hinv2.size, hinv2.wf.root, hinv2.wf.check_returns⟩

/-- The pairs of the basic test, inserted and then deleted in the order 7, 1,
3. -/
theorem insert_then_delete_all_witness :
    TotalCmp icmp ∧ ex_pairs.Pairwise (fun p q => icmp p.1 q.1 ≠ 0) ∧ ex_pairs.Perm ex_pairs ∧
    ∃ tr1 tr2, Returns (fun fuel => insert_all fuel (tree_create icmp) ex_pairs) tr1 ∧
      Returns (fun fuel => delete_all fuel tr1 (ex_pairs.map Prod.fst))
        (ex_pairs.map (fun p => some p.2), tr2) ∧
      tree_size tr2 = 0 ∧ tr2.root = none ∧
      Returns (fun fuel => tree_check_integrity fuel tr2) true :=
  ⟨icmp_total, by decide, List.Perm.refl _,
    insert_then_delete_all icmp icmp_total ex_pairs ex_pairs (by decide) (List.Perm.refl _)⟩

/-- C12: for every state that satisfies the invariants of the data model and
every key that compares equal to no stored key, `tree_insert` returns the
offered value, `tree_size` is one more afterwards, `tree_find` of the key
returns that value, and `tree_find` of every key that does not compare equal
to it returns what it returned before. -/
theorem insert_absent (tr : Tree K V) (T : RBNode K V) (h : Inv tr T) (hc : TotalCmp tr.cmp)
    (key : K) (value : V) (habs : ∀ p ∈ T.toList, tr.cmp key p.1 ≠ 0) :
    ∃ tr1, Returns (fun fuel => tree_insert fuel tr key value) (value, tr1) ∧
      tree_size tr1 = tree_size tr + 1 ∧
      Returns (fun fuel => tree_find fuel tr1 key) (some value) ∧
      ∀ key2 res, tr.cmp key2 key ≠ 0 → Returns (fun fuel => tree_find fuel tr key2) res →
        Returns (fun fuel => tree_find fuel tr1 key2) res := by
  obtain ⟨ctx, hd⟩ := descend_absent_of tr.cmp key habs
  obtain ⟨tr1, T1, hret, hinv, hcmp, hsize, hT, hT1⟩ := h.insert_new_inv hc key value hd
  have hc1 : TotalCmp tr1.cmp := hcmp ▸ hc
  refine ⟨tr1, hret, hsize, ?_, ?_⟩
  · have hf := hinv.wf.find_returns key
    rw [findVal_eq_lookup hc1 key hinv.bst] at hf
    have hmem : (key, value) ∈ T1.toList := by rw [hT1]; simp
    rw [lookup_of_eq hc1 ((BST_iff hc1 T1).1 hinv.bst) hmem (hc1.cmp_self key)] at hf
    exact hf
  · intro key2 res hne hres
    have e1 := (h.wf.find_returns key2).unique hres
    have hf := hinv.wf.find_returns key2
    rw [findVal_eq_lookup hc1 key2 hinv.bst, hT1, hcmp] at hf
    rw [findVal_eq_lookup hc key2 h.bst, hT] at e1
    rw [lookup_remove _ _ _ _ (key, value) hne, e1] at hf
    exact hf

/-- The pair (9, 90), whose key the state `ex_tree` does not store, inserted
into it. -/
theorem insert_absent_witness :
    Inv ex_tree ex_shape ∧ TotalCmp ex_tree.cmp ∧
    (∀ p ∈ ex_shape.toList, ex_tree.cmp 9 p.1 ≠ 0) ∧
    ∃ tr1, Returns (fun fuel => tree_insert fuel ex_tree 9 90) (90, tr1) ∧
      tree_size tr1 = tree_size ex_tree + 1 ∧
      Returns (fun fuel => tree_find fuel tr1 9) (some 90) ∧
      ∀ key2 res, ex_tree.cmp key2 9 ≠ 0 →
        Returns (fun fuel => tree_find fuel ex_tree key2) res →
        Returns (fun fuel => tree_find fuel tr1 key2) res :=
  ⟨ex_inv, icmp_total, by decide,
    insert_absent ex_tree ex_shape ex_inv icmp_total 9 90 (by decide)⟩

/-- C13: every state reachable from the tree of `tree_create` by calls of
`tree_insert` and `tree_delete` holds a tree whose number of nodes is what
`tree_size` returns, and `tree_info` returns a record whose `size` field is
that number; `tree_size` of the tree of `tree_create` is 0. -/
theorem reachable_size_count (cmp : K → K → Int) (tr : Tree K V) (h : Reachable cmp tr) :
    (∃ T info, WF tr T ∧ tree_size tr = T.count ∧
      Returns (fun fuel => tree_info fuel tr) info ∧ info.size = tree_size tr) ∧
    tree_size (tree_create cmp : Tree K V) = 0 := by
  obtain ⟨T, hh, _⟩ := h.holds
  refine ⟨⟨T, T.info, hh.wf, hh.size, hh.wf.info_returns, ?_⟩, rfl⟩
  rw [info_size, tree_size, hh.size]

/-- The state one `tree_insert` away from the empty tree has one node. -/
theorem reachable_size_count_witness :
    Reachable icmp ex_reached ∧
    (∃ T info, WF ex_reached T ∧ tree_size ex_reached = T.count ∧
      Returns (fun fuel => tree_info fuel ex_reached) info ∧
      info.size = tree_size ex_reached) ∧
    tree_size (tree_create icmp : Tree Int Int) = 0 :=
  have hr : Reachable icmp ex_reached :=
    Reachable.step (tree_create icmp) ex_reached (Op.insert 5 50) Reachable.create
      (@Returns.of_mono _ (fun fuel => (tree_insert fuel (tree_create icmp) 5 50).map Prod.snd)
        ((tree_insert_mono (tree_create icmp) 5 50).map_mono Prod.snd) 3 ex_reached rfl)
  ⟨hr, reachable_size_count icmp ex_reached hr⟩

/-- C14: for every state that holds a tree whose root is BLACK, in which no
RED node has a RED child and in which every path from a node to an absent
child passes through the same number of BLACK nodes, `tree_info` returns a
record with `height <= 2 * min_height`, where `height` is the number of nodes
on the longest downward path from the root to an absent child and
`min_height` the number of nodes on the shortest one: the longest path is at
most twice the shortest.  So every path from the root to an absent child has
at most twice the nodes of every other, and so has every path from the root
to a leaf. -/
theorem info_height_bound (tr : Tree K V) (T : RBNode K V) (h : WF tr T)
    (h1 : T.isBlack = true) (h2 : NoRR T) (h3 : PathBal T) :
    ∃ info, Returns (fun fuel => tree_info fuel tr) info ∧
      info.height ≤ 2 * info.min_height ∧
      info.height = (longest T.nilPaths : Int) ∧
      info.min_height = (shortest T.nilPaths : Int) ∧
      longest T.nilPaths ≤ 2 * shortest T.nilPaths ∧
      (∀ p ∈ T.nilPaths, ∀ q ∈ T.nilPaths, p ≤ 2 * q) ∧
      (∀ p ∈ T.leafPaths, ∀ q ∈ T.leafPaths, p + 1 ≤ 2 * (q + 1)) := by
  obtain ⟨_, i2, i3⟩ := info_RB T h2 ((Bal_iff_PathBal T).2 h3)
  have hr : T.isRed = false := by
    rw [isBlack_iff_not_isRed] at h1
    simpa using h1
  rw [hr] at i2 i3
  simp at i2 i3
  have hb : T.info.height ≤ 2 * T.info.min_height := by omega
  obtain ⟨p1, p2, _⟩ := info_paths T
  have hn : longest T.nilPaths ≤ 2 * shortest T.nilPaths := by
    rw [p1, p2] at hb
    exact_mod_cast hb
  have hall : ∀ p ∈ T.nilPaths, ∀ q ∈ T.nilPaths, p ≤ 2 * q := by
    intro p hp q hq
    have a1 := le_longest _ p hp
    have a2 := shortest_le _ q hq
    omega
  refine ⟨T.info, h.info_returns, hb, p1, p2, hn, hall, ?_⟩
  intro p hp q hq
  exact hall (p + 1) (leafPaths_nilPaths T p hp) (q + 1) (leafPaths_nilPaths T q hq)

/-- The record of the state `ex_del6`, a BLACK root with two BLACK children
of which one has two RED children: `height` 3, `min_height` 2. -/
theorem info_height_bound_witness :
    WF ex_del6 ex_del6_shape ∧ ex_del6_shape.isBlack = true ∧ NoRR ex_del6_shape ∧
    PathBal ex_del6_shape ∧
    ∃ info, Returns (fun fuel => tree_info fuel ex_del6) info ∧
      info.height ≤ 2 * info.min_height ∧
      info.height = (longest ex_del6_shape.nilPaths : Int) ∧
      info.min_height = (shortest ex_del6_shape.nilPaths : Int) ∧
      longest ex_del6_shape.nilPaths ≤ 2 * shortest ex_del6_shape.nilPaths ∧
      (∀ p ∈ ex_del6_shape.nilPaths, ∀ q ∈ ex_del6_shape.nilPaths, p ≤ 2 * q) ∧
      (∀ p ∈ ex_del6_shape.leafPaths, ∀ q ∈ ex_del6_shape.leafPaths,
        p + 1 ≤ 2 * (q + 1)) :=
  have w : WF ex_del6 ex_del6_shape :=
    ⟨rfl, ⟨rfl, ⟨rfl, trivial, trivial⟩, rfl, ⟨rfl, trivial, trivial⟩, rfl, trivial, trivial⟩,
      by decide, by decide⟩
  have n : NoRR ex_del6_shape := by
    simp [NoRR, ex_del6_shape, RBNode.isBlack]
  have b : PathBal ex_del6_shape :=
    (Bal_iff_PathBal ex_del6_shape).1 (by simp [Bal, ex_del6_shape, RBNode.bhL])
  ⟨w, rfl, n, b, info_height_bound ex_del6 ex_del6_shape w rfl n b⟩

end

section

variable {K V : Type}
open RBNode Color

theorem ex_single_wf : WF ex_single ex_single_shape :=
  ⟨rfl, ⟨rfl, trivial, trivial⟩, by decide, by decide⟩

theorem ex_left_wf : WF ex_tree_left ex_shape_left :=
  ⟨rfl, ⟨rfl, ⟨rfl, trivial, trivial⟩, trivial⟩, by decide, by decide⟩

theorem ex_del6_wf : WF ex_del6
    (plug [Frame.L 0 BLACK 5 50 (node 2 BLACK 8 80 (node 3 RED 7 70 RBNode.nil RBNode.nil)
      (node 4 RED 9 90 RBNode.nil RBNode.nil))] (node 1 BLACK 3 30 RBNode.nil RBNode.nil)) :=
  ⟨rfl, ⟨rfl, ⟨rfl, trivial, trivial⟩, rfl, ⟨rfl, trivial, trivial⟩, rfl, trivial, trivial⟩,
    by decide, by decide⟩

theorem ex_del6_mirror_wf : WF ex_del6_mirror
    (plug [Frame.R 0 BLACK 5 50 (node 2 BLACK 3 30 (node 3 RED 1 10 RBNode.nil RBNode.nil)
      (node 4 RED 4 40 RBNode.nil RBNode.nil))] (node 1 BLACK 8 80 RBNode.nil RBNode.nil)) :=
  ⟨rfl, ⟨rfl, ⟨rfl, ⟨rfl, trivial, trivial⟩, rfl, trivial, trivial⟩, rfl, trivial, trivial⟩,
    by decide, by decide⟩

/-- C16, as stated, fails on the one-node state `ex_single`: the path from
the root to the only leaf has no edge, and `tree_info` returns a record whose
`height` and `min_height` are both 1. -/
theorem info_edge_count_counterexample :
    Returns (fun fuel => tree_info fuel ex_single) ⟨1, 1, 1, 1, 0, 1⟩ ∧
    longest ex_single_shape.leafPaths = 0 ∧ shortest ex_single_shape.leafPaths = 0 ∧
    ¬ ∃ info, Returns (fun fuel => tree_info fuel ex_single) info ∧
      (info.height = longest ex_single_shape.leafPaths ∨
        info.min_height = shortest ex_single_shape.leafPaths) := by
  have hr : Returns (fun fuel => tree_info fuel ex_single) ⟨1, 1, 1, 1, 0, 1⟩ :=
    ex_single_wf.info_returns
  refine ⟨hr, rfl, rfl, ?_⟩
  rintro ⟨info, hi, h⟩
  have e := hr.unique hi
  subst e
  revert h
  decide

/-- C16, amended: for every state that holds a tree, `tree_info` returns a
record whose `height` is the number of nodes on the longest path from the
root down to an absent child (for a tree with a node, one more than the
number of edges on the longest path from the root to a leaf) and whose
`min_height` is the number of nodes on the shortest path from the root down
to an absent child; both are 0 for the empty tree. -/
theorem info_height_nodes (tr : Tree K V) (T : RBNode K V) (h : WF tr T) :
    ∃ info, Returns (fun fuel => tree_info fuel tr) info ∧
      info.height = (longest T.nilPaths : Int) ∧
      info.min_height = (shortest T.nilPaths : Int) ∧
      (T ≠ RBNode.nil → info.height = (longest T.leafPaths : Int) + 1) ∧
      (T = RBNode.nil → info.height = 0 ∧ info.min_height = 0) := by
  obtain ⟨p1, p2, _⟩ := info_paths T
  refine ⟨T.info, h.info_returns, p1, p2, ?_, ?_⟩
  · intro hne
    rw [p1, longest_nilPaths T hne]
    push_cast
    rfl
  · rintro rfl
    exact ⟨rfl, rfl⟩

/-- The record of the two-node state `ex_tree`: `height` 2, `min_height` 1. -/
theorem info_height_nodes_witness :
    WF ex_tree ex_shape ∧
    ∃ info, Returns (fun fuel => tree_info fuel ex_tree) info ∧
      info.height = (longest ex_shape.nilPaths : Int) ∧
      info.min_height = (shortest ex_shape.nilPaths : Int) ∧
      (ex_shape ≠ RBNode.nil → info.height = (longest ex_shape.leafPaths : Int) + 1) ∧
      (ex_shape = RBNode.nil → info.height = 0 ∧ info.min_height = 0) :=
  ⟨ex_wf, info_height_nodes ex_tree ex_shape ex_wf⟩

/-- C17: for every state that holds a tree in which every path from a node
to an absent child passes through the same number of BLACK nodes,
`tree_info` returns a record whose `black_height` is the number of BLACK
nodes on every path from the root to an absent child; it is 0 for the empty
tree. -/
theorem info_black_height (tr : Tree K V) (T : RBNode K V) (h : WF tr T) (hb : PathBal T) :
    ∃ info, Returns (fun fuel => tree_info fuel tr) info ∧
      (∀ n ∈ T.blackPaths, info.black_height = (n : Int)) ∧
      (T = RBNode.nil → info.black_height = 0) := by
  have hbal := (Bal_iff_PathBal T).2 hb
  refine ⟨T.info, h.info_returns, ?_, ?_⟩
  · intro n hn
    rw [Bal_info T hbal, Bal_paths T hbal n hn]
  · rintro rfl
    rfl

/-- The record of the two-node state `ex_tree`: one BLACK node on every
path. -/
theorem info_black_height_witness :
    WF ex_tree ex_shape ∧ PathBal ex_shape ∧
    ∃ info, Returns (fun fuel => tree_info fuel ex_tree) info ∧
      (∀ n ∈ ex_shape.blackPaths, info.black_height = (n : Int)) ∧
      (ex_shape = RBNode.nil → info.black_height = 0) :=
  ⟨ex_wf, (Bal_iff_PathBal ex_shape).1 ex_rb.2.2,
    info_black_height ex_tree ex_shape ex_wf ((Bal_iff_PathBal ex_shape).1 ex_rb.2.2)⟩

/-- C19: for every node `a` with a right child `b`, anywhere in a tree,
`tree_rotate_left` returns a state that holds the tree with `b` lifted above
`a` (so every present child has its parent link on its parent), the pairs in
order are the same, and `b` is the root when `a` was; symmetrically for
`tree_rotate_right` on every node with a left child. -/
theorem rotate_spec (tr : Tree K V) (ctx : Ctx K V) (a b : Nat) (c cb : Color) (k kb : K)
    (v vb : V) (x y z : RBNode K V) :
    (WF tr (plug ctx (node a c k v x (node b cb kb vb y z))) →
      ∃ tr1, tree_rotate_left tr (some a) = some tr1 ∧
        WF tr1 (plug ctx (node b cb kb vb (node a c k v x y) z)) ∧
        (plug ctx (node b cb kb vb (node a c k v x y) z)).toList =
          (plug ctx (node a c k v x (node b cb kb vb y z))).toList ∧
        (ctx = [] → tr1.root = some b)) ∧
    (WF tr (plug ctx (node a c k v (node b cb kb vb x y) z)) →
      ∃ tr1, tree_rotate_right tr (some a) = some tr1 ∧
        WF tr1 (plug ctx (node b cb kb vb x (node a c k v y z))) ∧
        (plug ctx (node b cb kb vb x (node a c k v y z))).toList =
          (plug ctx (node a c k v (node b cb kb vb x y) z)).toList ∧
        (ctx = [] → tr1.root = some b)) := by
  constructor
  · intro h
    obtain ⟨r, m, e, w⟩ := WF.rotate_left h
    refine ⟨_, e, w, ?_, ?_⟩
    · rw [toList_plug, toList_plug]
      simp [RBNode.toList]
    · rintro rfl
      exact w.root
  · intro h
    obtain ⟨r, m, e, w⟩ := WF.rotate_right h
    refine ⟨_, e, w, ?_, ?_⟩
    · rw [toList_plug, toList_plug]
      simp [RBNode.toList]
    · rintro rfl
      exact w.root

/-- The root of `ex_tree` rotated to the left, and the root of
`ex_tree_left` rotated to the right. -/
theorem rotate_spec_witness :
    WF ex_tree (plug [] (node 0 BLACK 5 50 RBNode.nil (node 1 RED 8 80 RBNode.nil RBNode.nil))) ∧
    WF ex_tree_left
      (plug [] (node 1 BLACK 8 80 (node 0 RED 5 50 RBNode.nil RBNode.nil) RBNode.nil)) ∧
    (∃ tr1, tree_rotate_left ex_tree (some 0) = some tr1 ∧
        WF tr1 (plug [] (node 1 RED 8 80 (node 0 BLACK 5 50 RBNode.nil RBNode.nil) RBNode.nil)) ∧
        (plug ([] : Ctx Int Int)
            (node 1 RED 8 80 (node 0 BLACK 5 50 RBNode.nil RBNode.nil) RBNode.nil)).toList =
          (plug [] (node 0 BLACK 5 50 RBNode.nil
            (node 1 RED 8 80 RBNode.nil RBNode.nil))).toList ∧
        (([] : Ctx Int Int) = [] → tr1.root = some 1)) ∧
    (∃ tr1, tree_rotate_right ex_tree_left (some 1) = some tr1 ∧
        WF tr1 (plug [] (node 0 RED 5 50 RBNode.nil (node 1 BLACK 8 80 RBNode.nil RBNode.nil))) ∧
        (plug ([] : Ctx Int Int)
            (node 0 RED 5 50 RBNode.nil (node 1 BLACK 8 80 RBNode.nil RBNode.nil))).toList =
          (plug [] (node 1 BLACK 8 80 (node 0 RED 5 50 RBNode.nil RBNode.nil)
            RBNode.nil)).toList ∧
        (([] : Ctx Int Int) = [] → tr1.root = some 0)) :=
  ⟨ex_wf, ex_left_wf,
    (rotate_spec ex_tree [] 0 1 BLACK RED 5 8 50 80 RBNode.nil RBNode.nil RBNode.nil).1 ex_wf,
    (rotate_spec ex_tree_left [] 1 0 BLACK RED 8 5 80 50 RBNode.nil RBNode.nil RBNode.nil).2
      ex_left_wf⟩

/-- C20, as stated, fails on the state `ex_del6`, where N (at 1) is the left
child of its parent and the BLACK sibling S has two RED children:
`tree_delete6` leaves the child of S on the side of N (at 3) RED and
recolours the child on the other side (at 4) BLACK. -/
theorem delete6_near_child_counterexample :
    (ex_del6.mem 3).map TreeNode.color = some RED ∧
    (ex_del6.mem 4).map TreeNode.color = some RED ∧
    ∃ tr1, tree_delete6 ex_del6 (some 1) = some tr1 ∧
      (tr1.mem 3).map TreeNode.color = some RED ∧
      (tr1.mem 4).map TreeNode.color = some BLACK := by
  refine ⟨rfl, rfl, ?_⟩
  have e3 : (tree_delete6 ex_del6 (some 1)).bind (fun t => (t.mem 3).map TreeNode.color)
      = some RED := by decide
  have e4 : (tree_delete6 ex_del6 (some 1)).bind (fun t => (t.mem 4).map TreeNode.color)
      = some BLACK := by decide
  cases h : tree_delete6 ex_del6 (some 1) with
  | none => rw [h] at e3; cases e3
  | some tr1 =>
    rw [h] at e3 e4
    exact ⟨tr1, rfl, e3, e4⟩

/-- C20, amended: in the last case of the double-black fix-up
(`tree_delete6`), for every node N with a parent P and a sibling S that has a
child on the far side (the side of S away from N; in the fix-up S is BLACK
and that child RED), S takes the colour of P, P becomes BLACK, the far child
of S is recoloured BLACK, and P is rotated toward the side of N: S is where P
was, P is the child of S on the side of N, with N and the near child of S
(unchanged) below it. -/
theorem delete6_spec (tr : Tree K V) (rest : Ctx K V) (a : Nat) (c : Color) (k : K) (v : V)
    (l r : RBNode K V) (pa : Nat) (pc : Color) (pk : K) (pv : V) (sa : Nat) (sc : Color)
    (sk : K) (sv : V) (near : RBNode K V) (fa : Nat) (fc : Color) (fk : K) (fv : V)
    (fl fr : RBNode K V) :
    (WF tr (plug (Frame.L pa pc pk pv (node sa sc sk sv near (node fa fc fk fv fl fr)) :: rest)
        (node a c k v l r)) →
      ∃ tr1, tree_delete6 tr (some a) = some tr1 ∧
        WF tr1 (plug rest (node sa pc sk sv (node pa BLACK pk pv (node a c k v l r) near)
          (node fa BLACK fk fv fl fr)))) ∧
    (WF tr (plug (Frame.R pa pc pk pv (node sa sc sk sv (node fa fc fk fv fl fr) near) :: rest)
        (node a c k v l r)) →
      ∃ tr1, tree_delete6 tr (some a) = some tr1 ∧
        WF tr1 (plug rest (node sa pc sk sv (node fa BLACK fk fv fl fr)
          (node pa BLACK pk pv near (node a c k v l r))))) := by
  constructor
  · intro h
    obtain ⟨r', m, e, w⟩ := WF.delete6 h rfl
    exact ⟨_, e, w⟩
  · intro h
    obtain ⟨r', m, e, w⟩ := WF.delete6 h rfl
    exact ⟨_, e, w⟩

/-- The call of `tree_delete6` on N in the state `ex_del6` and in its mirror
image. -/
theorem delete6_spec_witness :
    WF ex_del6
      (plug [Frame.L 0 BLACK 5 50 (node 2 BLACK 8 80 (node 3 RED 7 70 RBNode.nil RBNode.nil)
        (node 4 RED 9 90 RBNode.nil RBNode.nil))] (node 1 BLACK 3 30 RBNode.nil RBNode.nil)) ∧
    WF ex_del6_mirror
      (plug [Frame.R 0 BLACK 5 50 (node 2 BLACK 3 30 (node 3 RED 1 10 RBNode.nil RBNode.nil)
        (node 4 RED 4 40 RBNode.nil RBNode.nil))] (node 1 BLACK 8 80 RBNode.nil RBNode.nil)) ∧
    (∃ tr1, tree_delete6 ex_del6 (some 1) = some tr1 ∧
      WF tr1 (plug [] (node 2 BLACK 8 80
        (node 0 BLACK 5 50 (node 1 BLACK 3 30 RBNode.nil RBNode.nil)
          (node 3 RED 7 70 RBNode.nil RBNode.nil))
        (node 4 BLACK 9 90 RBNode.nil RBNode.nil)))) ∧
    (∃ tr1, tree_delete6 ex_del6_mirror (some 1) = some tr1 ∧
      WF tr1 (plug [] (node 2 BLACK 3 30
        (node 3 BLACK 1 10 RBNode.nil RBNode.nil)
        (node 0 BLACK 5 50 (node 4 RED 4 40 RBNode.nil RBNode.nil)
          (node 1 BLACK 8 80 RBNode.nil RBNode.nil))))) :=
  ⟨ex_del6_wf, ex_del6_mirror_wf,
    (delete6_spec ex_del6 [] 1 BLACK 3 30 RBNode.nil RBNode.nil 0 BLACK 5 50 2 BLACK 8 80
      (node 3 RED 7 70 RBNode.nil RBNode.nil) 4 RED 9 90 RBNode.nil RBNode.nil).1 ex_del6_wf,
    (delete6_spec ex_del6_mirror [] 1 BLACK 8 80 RBNode.nil RBNode.nil 0 BLACK 5 50 2 BLACK 3 30
      (node 4 RED 4 40 RBNode.nil RBNode.nil) 3 RED 1 10 RBNode.nil RBNode.nil).2
      ex_del6_mirror_wf⟩

end

section

variable {K V : Type}
open RBNode Color

/-- C15: for every state that holds a tree, whatever its parent fields are,
`tree_check_integrity` returns, and it returns true exactly when the root is
BLACK or absent, no RED node has a RED child (so none has a RED parent), at
every node the two subtrees have the same `black_height`, at every node
`height <= 2 * min_height`, and the parent link of every present child points
back to its parent; every path from a node to an absent child then passes
through the same number of BLACK nodes. -/
theorem check_integrity_iff (tr : Tree K V) (pf : Nat → Ptr) (T : RBNode K V)
    (h : WFW tr pf T) :
    ∃ b, Returns (fun fuel => tree_check_integrity fuel tr) b ∧
      (b = true ↔
        (T.isBlack = true ∧ NoRR T ∧ EqBH T ∧ HeightOK T ∧ Linked pf T)) ∧
      (b = true → PathBal T) := by
  refine ⟨_, h.check_returns_w, ?_, ?_⟩
  · simp only [Bool.and_eq_true, Linked_iff, chkNode_iff, ← Bal_iff_EqBH]
    constructor
    · rintro ⟨h1, h2, h3, h4, _⟩
      exact ⟨h1, h3, h4, HeightOK_of_RB T h3 h4, h2⟩
    · rintro ⟨h1, h2, h3, _, h5⟩
      exact ⟨h1, h5, h2, h3, fun _ => trivial⟩
  · simp only [Bool.and_eq_true, chkNode_iff]
    rintro ⟨_, _, _, h4, _⟩
    exact (Bal_iff_PathBal T).1 h4

/-- The check of the state `ex_tree`, which passes, and of the same state
with the parent field of the child broken, which fails. -/
theorem check_integrity_iff_witness :
    WFW ex_tree ex_parents ex_shape ∧ WFW ex_tree_unlinked (fun _ => none) ex_shape ∧
    (∃ b, Returns (fun fuel => tree_check_integrity fuel ex_tree) b ∧
      (b = true ↔
        (ex_shape.isBlack = true ∧ NoRR ex_shape ∧ EqBH ex_shape ∧ HeightOK ex_shape ∧
          Linked ex_parents ex_shape)) ∧
      (b = true → PathBal ex_shape)) ∧
    (∃ b, Returns (fun fuel => tree_check_integrity fuel ex_tree_unlinked) b ∧
      (b = true ↔
        (ex_shape.isBlack = true ∧ NoRR ex_shape ∧ EqBH ex_shape ∧ HeightOK ex_shape ∧
          Linked (fun _ => none) ex_shape)) ∧
      (b = true → PathBal ex_shape)) :=
  have w1 : WFW ex_tree ex_parents ex_shape :=
    ⟨rfl, ⟨rfl, trivial, rfl, trivial, trivial⟩, by decide⟩
  have w2 : WFW ex_tree_unlinked (fun _ => none) ex_shape :=
    ⟨rfl, ⟨rfl, trivial, rfl, trivial, trivial⟩, by decide⟩
  ⟨w1, w2, check_integrity_iff ex_tree ex_parents ex_shape w1,
    check_integrity_iff ex_tree_unlinked (fun _ => none) ex_shape w2⟩

/-- C18: for every state that holds a tree and every destructor,
`tree_destroy` returns with the destructor called on the values of the nodes
in post-order (the value of a node after those of its two subtrees), once for
each node: as many calls as there are nodes, on the stored values and on no
key; without a destructor the world is as it was.  The nodes are freed. -/
theorem destroy_spec (tr : Tree K V) (T : RBNode K V) (h : WF tr T) (W : Type) (w : W) :
    (∀ d : V → W → W, ∃ m,
      Returns (fun fuel => tree_destroy fuel tr (some d) w)
        (m, T.postorder.foldl (fun w v => d v w) w) ∧ ∀ x ∈ T.addrs, m x = none) ∧
    (∃ m, Returns (fun fuel => tree_destroy fuel tr (none : Option (V → W → W)) w) (m, w) ∧
      ∀ x ∈ T.addrs, m x = none) ∧
    T.postorder.length = T.count ∧ T.postorder.Perm (T.toList.map Prod.snd) := by
  refine ⟨fun d => h.destroy_returns (some d) w, h.destroy_returns none w, ?_, postorder_perm T⟩
  rw [(postorder_perm T).length_eq, List.length_map, count_eq_length]

/-- The state `ex_tree` destroyed with a destructor that writes the values it
gets to a list, and without a destructor. -/
theorem destroy_spec_witness :
    WF ex_tree ex_shape ∧
    (∀ d : Int → List Int → List Int, ∃ m,
      Returns (fun fuel => tree_destroy fuel ex_tree (some d) [])
        (m, ex_shape.postorder.foldl (fun w v => d v w) []) ∧
        ∀ x ∈ ex_shape.addrs, m x = none) ∧
    (∃ m, Returns (fun fuel =>
        tree_destroy fuel ex_tree (none : Option (Int → List Int → List Int)) []) (m, []) ∧
      ∀ x ∈ ex_shape.addrs, m x = none) ∧
    ex_shape.postorder.length = ex_shape.count ∧
    ex_shape.postorder.Perm (ex_shape.toList.map Prod.snd) :=
  ⟨ex_wf, destroy_spec ex_tree ex_shape ex_wf (List Int) []⟩

end

section

variable {K V : Type}
open RBNode Color

theorem Run.toOption_ofOption {α : Type} (x : Option α) : (Run.ofOption x).toOption = x := by
  cases x <;> rfl

theorem Run.toOption_bump (r : Run (Tree K V × Nat)) :
    r.bump.toOption.map Prod.fst = r.toOption.map Prod.fst := by
  cases r with
  | done x => cases x; rfl
  | fault => rfl
  | timeout => rfl

theorem Run.ofOption_ne_timeout {α : Type} (x : Option α) : Run.ofOption x ≠ Run.timeout := by
  cases x <;> simp [Run.ofOption]

theorem Run.bump_ne_timeout {r : Run (Tree K V × Nat)} (h : r ≠ Run.timeout) :
    r.bump ≠ Run.timeout := by
  cases r with
  | done x => cases x; simp [Run.bump]
  | fault => simp [Run.bump]
  | timeout => exact absurd rfl h

theorem Run.ofOption_count {x : Option (Tree K V)} {t : Tree K V} {n : Nat}
    (h : Run.ofOption (x.map (fun t => (t, 0))) = Run.done (t, n)) : n = 0 := by
  cases x with
  | none => simp [Run.ofOption] at h
  | some y =>
    simp only [Option.map_some', Run.ofOption, Run.done.injEq, Prod.mk.injEq] at h
    exact h.2.symm

theorem Run.bump_count {r : Run (Tree K V × Nat)} {t : Tree K V} {n : Nat}
    (h : r.bump = Run.done (t, n)) : ∃ m, r = Run.done (t, m) ∧ n = m + 1 := by
  cases r with
  | done x =>
    obtain ⟨t', m⟩ := x
    simp only [Run.bump, Run.done.injEq, Prod.mk.injEq] at h
    exact ⟨m, by rw [h.1], h.2.symm⟩
  | fault => simp [Run.bump] at h
  | timeout => simp [Run.bump] at h

/-- The runs of `insert1_run`, `insert2_run` and `insert3_run` are those of
`tree_insert1`, `tree_insert2` and `tree_insert3`. -/
theorem insert_run_agree : ∀ n : Nat,
    (∀ (tr : Tree K V) (p : Ptr),
      tree_insert1 n tr p = (insert1_run n tr p).toOption.map Prod.fst) ∧
    (∀ (tr : Tree K V) (p : Ptr),
      tree_insert2 n tr p = (insert2_run n tr p).toOption.map Prod.fst) ∧
    (∀ (tr : Tree K V) (p : Ptr),
      tree_insert3 n tr p = (insert3_run n tr p).toOption.map Prod.fst) := by
  intro n
  induction n with
  | zero =>
    refine ⟨?_, ?_, ?_⟩ <;> intro tr p
    · simp [tree_insert1, insert1_run, Run.toOption]
    · simp [tree_insert2, insert2_run, Run.toOption]
    · simp [tree_insert3, insert3_run, Run.toOption]
  | succ n ih =>
    obtain ⟨ih1, ih2, ih3⟩ := ih
    refine ⟨?_, ?_, ?_⟩ <;> intro tr p
    · rw [tree_insert1, insert1_run]
      cases deref tr p with
      | none => rfl
      | some nd =>
        simp only
        split_ifs
        · rw [Run.toOption_ofOption]
          cases set_color tr p BLACK <;> rfl
        · exact ih2 tr p
    · rw [tree_insert2, insert2_run]
      cases deref tr p with
      | none => rfl
      | some nd =>
        simp only
        cases IS_BLACK tr nd.parent with
        | none => rfl
        | some b =>
          cases b with
          | true => rfl
          | false => exact ih3 tr p
    · rw [tree_insert3, insert3_run]
      cases tree_node_uncle tr p with
      | none => rfl
      | some u =>
        simp only
        cases IS_RED tr u with
        | none => rfl
        | some b =>
          cases b with
          | false =>
            simp only
            rw [Run.toOption_ofOption]
            cases tree_insert4 tr p <;> rfl
          | true =>
            simp only [insert3_recolor, Option.bind_eq_bind]
            cases set_color tr u BLACK with
            | none => rfl
            | some t1 =>
              simp only [Option.some_bind]
              cases deref t1 p with
              | none => rfl
              | some n1 =>
                simp only [Option.some_bind]
                cases set_color t1 n1.parent BLACK with
                | none => rfl
                | some t2 =>
                  simp only [Option.some_bind]
                  cases tree_node_grandparent t2 p with
                  | none => rfl
                  | some g =>
                    simp only [Option.some_bind]
                    cases set_color t2 g RED with
                    | none => rfl
                    | some t3 =>
                      simp only [Option.some_bind, Run.toOption_bump]
                      exact ih1 t3 g

theorem fill_ne_nil (f : Frame K V) (t : RBNode K V) : f.fill t ≠ RBNode.nil := by
  cases f <;> simp [Frame.fill]

theorem uncle_of_no_grandparent {tr : Tree K V} {p : Ptr}
    (h : tree_node_grandparent tr p = some none) : tree_node_uncle tr p = some none := by
  simp only [tree_node_uncle, h]

set_option maxHeartbeats 1000000 in
/-- The insertion fix-up, run at a node with `ctx.length` ancestors in a
state that holds a tree (of any colours), does not use up three units of fuel
for every two ancestors and three more: it ends with a state or at a fault,
after at most one re-entry for every two ancestors. -/
theorem WF.insert1_ends : ∀ (n : Nat) (ctx : Ctx K V) (t : RBNode K V) (tr : Tree K V)
    (fuel : Nat), ctx.length ≤ n → t ≠ RBNode.nil → WF tr (plug ctx t) →
    3 * (ctx.length / 2) + 3 ≤ fuel →
    insert1_run fuel tr t.ptr ≠ Run.timeout ∧
      ∀ s m, insert1_run fuel tr t.ptr = Run.done (s, m) → m ≤ ctx.length / 2 := by
  intro n
  induction n using Nat.strong_induction_on with
  | _ n ih =>
    intro ctx t tr fuel hlen hne h hfuel
    cases t with
    | nil => exact absurd rfl hne
    | node a c k v l r =>
      obtain ⟨f', rfl⟩ : ∃ f', fuel = f' + 3 := ⟨fuel - 3, by omega⟩
      have hn := WF.read _ h
      match ctx, hlen, h, hfuel, hn with
      | [], hlen, h, hfuel, hn =>
        have e : insert1_run (f' + 3) tr (some a) =
            Run.ofOption ((Rbtree.set_color tr (some a) BLACK).map (fun t => (t, 0))) := by
          simp only [insert1_run, deref_some, hn, ctxPtr_nil, if_true]
        rw [ptr_node, e]
        exact ⟨Run.ofOption_ne_timeout _, fun s m hd => by rw [Run.ofOption_count hd]; omega⟩
      | [f1], hlen, h, hfuel, hn =>
        have hb := WF.is_black [] h
        simp only [plug, ptr_fill, isBlack_fill] at hb
        cases hc : f1.color with
        | BLACK =>
          have e : insert1_run (f' + 3) tr (some a) = Run.done (tr, 0) := by
            simp only [hc, decide_True] at hb
            simp only [insert1_run, insert2_run, deref_some, hn, ctxPtr_cons, hb,
              reduceCtorEq, if_false]
          rw [ptr_node, e]
          refine ⟨by simp, fun s m hd => ?_⟩
          simp only [Run.done.injEq, Prod.mk.injEq] at hd
          omega
        | RED =>
          have hu := uncle_of_no_grandparent (WF.grandparent_one h)
          have e : insert1_run (f' + 3) tr (some a) =
              Run.ofOption ((tree_insert4 tr (some a)).map (fun t => (t, 0))) := by
            simp only [hc, reduceCtorEq, decide_False] at hb
            simp only [insert1_run, insert2_run, insert3_run, deref_some, hn, ctxPtr_cons, hb,
              hu, IS_RED, reduceCtorEq, if_false]
          rw [ptr_node, e]
          exact ⟨Run.ofOption_ne_timeout _, fun s m hd => by rw [Run.ofOption_count hd]; omega⟩
      | f1 :: f2 :: rest, hlen, h, hfuel, hn =>
        have hb := WF.is_black (f2 :: rest) h
        simp only [ptr_fill, isBlack_fill] at hb
        cases hc : f1.color with
        | BLACK =>
          have e : insert1_run (f' + 3) tr (some a) = Run.done (tr, 0) := by
            simp only [hc, decide_True] at hb
            simp only [insert1_run, insert2_run, deref_some, hn, ctxPtr_cons, hb,
              reduceCtorEq, if_false]
          rw [ptr_node, e]
          refine ⟨by simp, fun s m hd => ?_⟩
          simp only [Run.done.injEq, Prod.mk.injEq] at hd
          omega
        | RED =>
          simp only [hc, reduceCtorEq, decide_False] at hb
          have hu := WF.uncle h
          have hur : IS_RED tr f2.sib.ptr = some f2.sib.isRed := by
            have h' := h
            rw [plug, plug_flip] at h'
            exact WF.is_red _ h'
          cases hred : f2.sib.isRed with
          | false =>
            rw [hred] at hur
            have e : insert1_run (f' + 3) tr (some a) =
                Run.ofOption ((tree_insert4 tr (some a)).map (fun t => (t, 0))) := by
              simp only [insert1_run, insert2_run, insert3_run, deref_some, hn, ctxPtr_cons,
                hb, hu, hur, reduceCtorEq, if_false]
            rw [ptr_node, e]
            exact ⟨Run.ofOption_ne_timeout _,
              fun s m hd => by rw [Run.ofOption_count hd]; omega⟩
          | true =>
            rw [hred] at hur
            obtain ⟨ua, uk, uv, ul, ur, hsib⟩ := isRed_eq_true hred
            rw [hsib] at hu hur
            simp only [ptr_node] at hu hur
            obtain ⟨m1, e1, w1⟩ := WF.set_color_sib
              (show WF tr (plug (f2 :: rest) (f1.fill (node a c k v l r))) from h) hsib BLACK
            have w1' : WF { tr with mem := m1 }
                (plug (f1 :: f2.recolor f2.color (node ua BLACK uk uv ul ur) :: rest)
                  (node a c k v l r)) := w1
            have hn1 : m1 a = _ := WF.read _ w1'
            obtain ⟨m2, e2, w2⟩ := WF.set_color_parent w1' BLACK
            dsimp only at e2 w2
            have hg2 := WF.grandparent w2
            obtain ⟨m3, e3, w3⟩ := WF.set_color_parent
              (show WF { tr with mem := m2 }
                (plug (f2.recolor f2.color (node ua BLACK uk uv ul ur) :: rest)
                  ((f1.recolor BLACK f1.sib).fill (node a c k v l r))) from w2) RED
            dsimp only at e3 w3 hg2
            simp only [Frame.recolor_recolor, Frame.recolor_sib, Frame.recolor_addr] at w3 e3 hg2
            have w3' : WF { tr with mem := m3 }
                (plug rest ((f2.recolor RED (node ua BLACK uk uv ul ur)).fill
                  ((f1.recolor BLACK f1.sib).fill (node a c k v l r)))) := w3
            simp only [List.length_cons] at hlen hfuel
            obtain ⟨q1, q2⟩ := ih rest.length (by omega) rest _ { tr with mem := m3 } f'
              (Nat.le_refl _) (fill_ne_nil _ _) w3' (by omega)
            simp only [ptr_fill, Frame.recolor_addr] at q1 q2
            simp only [ctxPtr_cons] at hn hn1
            have hrec : insert3_recolor tr (some a) (some ua) =
                some ({ tr with mem := m3 }, some f2.addr) := by
              simp only [insert3_recolor, e1, deref_some, hn1, e2, hg2, e3,
                Option.bind_eq_bind, Option.some_bind]
            have e : insert1_run (f' + 3) tr (some a) =
                (insert1_run f' { tr with mem := m3 } (some f2.addr)).bump := by
              simp only [insert1_run, insert2_run, insert3_run, deref_some, hn, hb, hu, hur,
                hrec, reduceCtorEq, if_false]
            rw [ptr_node, e]
            refine ⟨Run.bump_ne_timeout q1, fun s m hd => ?_⟩
            obtain ⟨m0, hd0, rfl⟩ := Run.bump_count hd
            have := q2 s m0 hd0
            simp only [List.length_cons]
            omega

end

section

variable {K V : Type}
open RBNode Color

theorem deref_none_eq (tr : Tree K V) : deref tr none = none := rfl

theorem set_color_ptr {tr tr1 : Tree K V} {p : Ptr} {c : Color}
    (h : Rbtree.set_color tr p c = some tr1) : ∃ a, p = some a := by
  cases p with
  | none => simp [Rbtree.set_color, deref] at h
  | some a => exact ⟨a, rfl⟩

theorem set_parent_ptr {tr tr1 : Tree K V} {p q : Ptr}
    (h : Rbtree.set_parent tr p q = some tr1) : ∃ a, p = some a := by
  cases p with
  | none => simp [Rbtree.set_parent, deref] at h
  | some a => exact ⟨a, rfl⟩

/-- A recolouring leaves the links of every node as they were. -/
theorem set_color_links {tr tr1 : Tree K V} {q p : Ptr} {c : Color} {n1 : TreeNode K V}
    (h : Rbtree.set_color tr q c = some tr1) (h1 : deref tr1 p = some n1) :
    ∃ n, deref tr p = some n ∧ n.parent = n1.parent ∧ n.left = n1.left ∧
      n.right = n1.right := by
  cases q with
  | none => simp [Rbtree.set_color, deref] at h
  | some b =>
    cases p with
    | none => simp [deref] at h1
    | some a =>
      simp only [Rbtree.set_color, deref, store] at h h1
      cases hb : tr.mem b with
      | none => rw [hb] at h; simp at h
      | some nb =>
        rw [hb] at h
        simp only [Option.some.injEq] at h
        subst h
        simp only [deref]
        dsimp only at h1
        by_cases e : a = b
        · subst e
          simp only [mem_set_same, Option.some.injEq] at h1
          subst h1
          exact ⟨nb, hb, rfl, rfl, rfl⟩
        · rw [mem_set_ne _ _ e] at h1
          exact ⟨n1, h1, rfl, rfl, rfl⟩

theorem set_color_sibling {tr tr1 : Tree K V} {q : Ptr} {c : Color}
    (h : Rbtree.set_color tr q c = some tr1) (a : Nat) (n : TreeNode K V)
    (hn : tr1.mem a = some n) : ∃ n0, tr.mem a = some n0 ∧ n0.parent = n.parent ∧
      n0.left = n.left ∧ n0.right = n.right :=
  set_color_links h (show deref tr1 (some a) = some n from hn)

/-- `tree_insert5` returns only when the grandparent exists. -/
theorem tree_insert5_grandparent {tr tr1 : Tree K V} {p : Ptr}
    (h : tree_insert5 tr p = some tr1) : ∃ g, tree_node_grandparent tr p = some (some g) := by
  simp only [tree_insert5, Option.bind_eq_bind, Option.bind_eq_some] at h
  obtain ⟨g, hg, n, hn, t1, h1, t2, h2, -⟩ := h
  obtain ⟨ga, rfl⟩ := set_color_ptr h2
  exact ⟨ga, hg⟩

/-- `tree_insert4` returns only when the grandparent exists. -/
theorem tree_insert4_grandparent {tr tr1 : Tree K V} {p : Ptr}
    (h : tree_insert4 tr p = some tr1) : ∃ g, tree_node_grandparent tr p = some (some g) := by
  simp only [tree_insert4, Option.bind_eq_bind, Option.bind_eq_some] at h
  obtain ⟨g, hg, n, hn, q, hq, h⟩ := h
  cases g with
  | some ga => exact ⟨ga, hg⟩
  | none =>
    simp only [deref_none_eq, Option.none_bind, Option.some_bind, Bool.false_eq_true,
      if_false] at h
    split_ifs at h
    exact tree_insert5_grandparent h

theorem set_left_fields {tr tr1 : Tree K V} {q p : Ptr} {x : Ptr} {n n1 : TreeNode K V}
    (h : Rbtree.set_left tr q x = some tr1) (hn : deref tr p = some n)
    (h1 : deref tr1 p = some n1) :
    n1.right = n.right ∧ (n1.left = n.left ∨ n1.left = x) := by
  cases q with
  | none => simp [Rbtree.set_left, deref] at h
  | some b =>
    cases p with
    | none => simp [deref] at h1
    | some a =>
      simp only [Rbtree.set_left, deref, store] at h h1 hn
      cases hb : tr.mem b with
      | none => rw [hb] at h; simp at h
      | some nb =>
        rw [hb] at h
        simp only [Option.some.injEq] at h
        subst h
        dsimp only at h1
        by_cases e : a = b
        · subst e
          rw [hb] at hn
          simp only [mem_set_same, Option.some.injEq] at h1 hn
          subst h1 hn
          exact ⟨rfl, Or.inr rfl⟩
        · rw [mem_set_ne _ _ e, hn] at h1
          simp only [Option.some.injEq] at h1
          subst h1
          exact ⟨rfl, Or.inl rfl⟩

theorem set_right_fields {tr tr1 : Tree K V} {q p : Ptr} {x : Ptr} {n n1 : TreeNode K V}
    (h : Rbtree.set_right tr q x = some tr1) (hn : deref tr p = some n)
    (h1 : deref tr1 p = some n1) :
    n1.left = n.left ∧ (n1.right = n.right ∨ n1.right = x) := by
  cases q with
  | none => simp [Rbtree.set_right, deref] at h
  | some b =>
    cases p with
    | none => simp [deref] at h1
    | some a =>
      simp only [Rbtree.set_right, deref, store] at h h1 hn
      cases hb : tr.mem b with
      | none => rw [hb] at h; simp at h
      | some nb =>
        rw [hb] at h
        simp only [Option.some.injEq] at h
        subst h
        dsimp only at h1
        by_cases e : a = b
        · subst e
          rw [hb] at hn
          simp only [mem_set_same, Option.some.injEq] at h1 hn
          subst h1 hn
          exact ⟨rfl, Or.inr rfl⟩
        · rw [mem_set_ne _ _ e, hn] at h1
          simp only [Option.some.injEq] at h1
          subst h1
          exact ⟨rfl, Or.inl rfl⟩

/-- `tree_rotate_left` returns only when the node has a right child (the
child it lifts). -/
theorem tree_rotate_left_child {tr tr1 : Tree K V} {p : Ptr}
    (h : tree_rotate_left tr p = some tr1) :
    ∃ n b, deref tr p = some n ∧ n.right = some b := by
  simp only [tree_rotate_left, Option.bind_eq_bind] at h
  obtain ⟨n, hn, h⟩ := Option.bind_eq_some.1 h
  refine ⟨n, ?_⟩
  suffices hs : ∃ b, n.right = some b by
    obtain ⟨b, hb⟩ := hs
    exact ⟨b, hn, hb⟩
  by_cases hp : n.parent ≠ none
  · rw [if_pos hp] at h
    obtain ⟨p1, hp1, h⟩ := Option.bind_eq_some.1 h
    by_cases hl : p = p1.left
    · rw [if_pos hl] at h
      simp only [Option.bind_eq_some] at h
      obtain ⟨y, hy, n1, hn1, t2, h2, -⟩ := h
      obtain ⟨b, hb⟩ := set_parent_ptr h2
      rw [(set_left_fields hy hn hn1).1] at hb
      exact ⟨b, hb⟩
    · rw [if_neg hl] at h
      simp only [Option.bind_eq_some] at h
      obtain ⟨y, hy, n1, hn1, t2, h2, -⟩ := h
      obtain ⟨b, hb⟩ := set_parent_ptr h2
      rcases (set_right_fields hy hn hn1).2 with e | e
      · rw [e] at hb; exact ⟨b, hb⟩
      · rw [e] at hb; exact ⟨b, hb⟩
  · rw [if_neg hp] at h
    simp only [Option.some_bind, Option.bind_eq_some] at h
    obtain ⟨n1, hn1, t2, h2, -⟩ := h
    have e : deref { tr with root := n.right } p = deref tr p := by cases p <;> rfl
    rw [e, hn] at hn1
    simp only [Option.some.injEq] at hn1
    subst hn1
    exact set_parent_ptr h2

/-- `tree_rotate_right` returns only when the node has a left child (the
child it lifts). -/
theorem tree_rotate_right_child {tr tr1 : Tree K V} {p : Ptr}
    (h : tree_rotate_right tr p = some tr1) :
    ∃ n b, deref tr p = some n ∧ n.left = some b := by
  simp only [tree_rotate_right, Option.bind_eq_bind] at h
  obtain ⟨n, hn, h⟩ := Option.bind_eq_some.1 h
  refine ⟨n, ?_⟩
  suffices hs : ∃ b, n.left = some b by
    obtain ⟨b, hb⟩ := hs
    exact ⟨b, hn, hb⟩
  by_cases hp : n.parent ≠ none
  · rw [if_pos hp] at h
    obtain ⟨p1, hp1, h⟩ := Option.bind_eq_some.1 h
    by_cases hl : p = p1.right
    · rw [if_pos hl] at h
      simp only [Option.bind_eq_some] at h
      obtain ⟨y, hy, n1, hn1, t2, h2, -⟩ := h
      obtain ⟨b, hb⟩ := set_parent_ptr h2
      rw [(set_right_fields hy hn hn1).1] at hb
      exact ⟨b, hb⟩
    · rw [if_neg hl] at h
      simp only [Option.bind_eq_some] at h
      obtain ⟨y, hy, n1, hn1, t2, h2, -⟩ := h
      obtain ⟨b, hb⟩ := set_parent_ptr h2
      rcases (set_left_fields hy hn hn1).2 with e | e
      · rw [e] at hb; exact ⟨b, hb⟩
      · rw [e] at hb; exact ⟨b, hb⟩
  · rw [if_neg hp] at h
    simp only [Option.some_bind, Option.bind_eq_some] at h
    obtain ⟨n1, hn1, t2, h2, -⟩ := h
    have e : deref { tr with root := n.left } p = deref tr p := by cases p <;> rfl
    rw [e, hn] at hn1
    simp only [Option.some.injEq] at hn1
    subst hn1
    exact set_parent_ptr h2

/-- `tree_delete6` returns only when the sibling `S` exists and has the
child that is recoloured BLACK: the right child when the node is a left child,
the left child otherwise. -/
theorem tree_delete6_sibling {tr tr1 : Tree K V} {p : Ptr}
    (h : tree_delete6 tr p = some tr1) :
    ∃ s sn n pn far, tree_node_sibling tr p = some (some s) ∧ tr.mem s = some sn ∧
      deref tr p = some n ∧ deref tr n.parent = some pn ∧
      (if p = pn.left then sn.right else sn.left) = some far := by
  simp only [tree_delete6, Option.bind_eq_bind] at h
  obtain ⟨s, hs, h⟩ := Option.bind_eq_some.1 h
  obtain ⟨n, hn, h⟩ := Option.bind_eq_some.1 h
  obtain ⟨pn, hpn, h⟩ := Option.bind_eq_some.1 h
  obtain ⟨t1, h1, h⟩ := Option.bind_eq_some.1 h
  obtain ⟨n1, hn1, h⟩ := Option.bind_eq_some.1 h
  obtain ⟨t2, h2, h⟩ := Option.bind_eq_some.1 h
  obtain ⟨n2, hn2, h⟩ := Option.bind_eq_some.1 h
  obtain ⟨p2, hp2, h⟩ := Option.bind_eq_some.1 h
  obtain ⟨sa, rfl⟩ := set_color_ptr h1
  -- the links read after the two recolourings are those of the state at entry
  obtain ⟨m1, hm1, e1, -, -⟩ := set_color_links h2 hn2
  obtain ⟨m0, hm0, e0, -, -⟩ := set_color_links h1 hm1
  rw [hn] at hm0
  simp only [Option.some.injEq] at hm0
  subst hm0
  have ep : n2.parent = n.parent := by rw [← e1, ← e0]
  rw [ep] at hp2
  obtain ⟨q1, hq1, -, f1, g1⟩ := set_color_links h2 hp2
  obtain ⟨q0, hq0, -, f0, g0⟩ := set_color_links h1 hq1
  rw [hpn] at hq0
  simp only [Option.some.injEq] at hq0
  subst hq0
  have el : p2.left = pn.left := by rw [← f1, ← f0]
  by_cases hl : p = p2.left
  · rw [if_pos hl] at h
    obtain ⟨sn, hsn, h⟩ := Option.bind_eq_some.1 h
    obtain ⟨t3, h3, h⟩ := Option.bind_eq_some.1 h
    obtain ⟨far, hfar⟩ := set_color_ptr h3
    obtain ⟨s1, hs1, -, -, r1⟩ := set_color_links h2 hsn
    obtain ⟨s0, hs0, -, -, r0⟩ := set_color_links h1 hs1
    refine ⟨sa, s0, n, pn, far, hs, hs0, hn, hpn, ?_⟩
    rw [if_pos (hl.trans el), r0, r1, hfar]
  · rw [if_neg hl] at h
    obtain ⟨sn, hsn, h⟩ := Option.bind_eq_some.1 h
    obtain ⟨t3, h3, h⟩ := Option.bind_eq_some.1 h
    obtain ⟨far, hfar⟩ := set_color_ptr h3
    obtain ⟨s1, hs1, -, l1, -⟩ := set_color_links h2 hsn
    obtain ⟨s0, hs0, -, l0, -⟩ := set_color_links h1 hs1
    refine ⟨sa, s0, n, pn, far, hs, hs0, hn, hpn, ?_⟩
    rw [if_neg (fun e => hl (e.trans el.symm)), l0, l1, hfar]

/-- `tree_delete5` returns only when the sibling `S` exists. -/
theorem tree_delete5_sibling {tr tr1 : Tree K V} {p : Ptr}
    (h : tree_delete5 tr p = some tr1) :
    ∃ s, tree_node_sibling tr p = some (some s) := by
  simp only [tree_delete5, Option.bind_eq_bind] at h
  obtain ⟨s, hs, h⟩ := Option.bind_eq_some.1 h
  cases s with
  | some sa => exact ⟨sa, hs⟩
  | none =>
    exfalso
    simp only [IS_BLACK, deref_none_eq, Option.some_bind, Option.none_bind, if_true, ne_eq,
      not_true_eq_false, if_false, Bool.false_eq_true] at h
    obtain ⟨n, -, h⟩ := Option.bind_eq_some.1 h
    obtain ⟨pn, -, h⟩ := Option.bind_eq_some.1 h
    have h6 : tree_delete6 tr p = some tr1 := by
      split_ifs at h <;> exact h
    obtain ⟨s, -, -, -, -, hs6, -⟩ := tree_delete6_sibling h6
    rw [hs] at hs6
    cases hs6

end

section

variable {K V : Type}
open RBNode Color

theorem ptr_erase (t : RBNode K V) : t.erase.ptr = t.ptr := by
  cases t <;> rfl

theorem isBlack_erase (t : RBNode K V) : t.erase.isBlack = t.isBlack := by
  cases t <;> rfl

theorem addrs_erase : ∀ t : RBNode K V, t.erase.addrs = t.addrs
  | nil => rfl
  | node a c k v l r => by
    simp only [RBNode.erase, RBNode.addrs, addrs_erase l, addrs_erase r]

theorem info_erase : ∀ t : RBNode K V, t.erase.info = t.info
  | nil => rfl
  | node a c k v l r => by
    simp only [RBNode.erase, RBNode.info, info_erase l, info_erase r]

theorem chkNode_erase : ∀ (t : RBNode K V) (pb : Bool), chkNode pb t.erase = chkNode pb t
  | nil, _ => rfl
  | node a c k v l r, pb => by
    simp only [RBNode.erase, chkNode, info_erase, isBlack_erase, chkNode_erase l,
      chkNode_erase r]

theorem linkedB_erase (pf : Nat → Ptr) : ∀ t : RBNode K V, linkedB pf t.erase = linkedB pf t
  | nil => rfl
  | node a c k v l r => by
    simp only [RBNode.erase, linkedB, ptr_erase, linkedB_erase pf l, linkedB_erase pf r]

/-- The result of `tree_check_integrity` is a function of the shape without
its keys and values. -/
theorem check_result_erase {K2 V2 : Type} (pf : Nat → Ptr) (T : RBNode K V)
    (T2 : RBNode K2 V2) (he : T.erase = T2.erase) :
    (T.isBlack && (linkedB pf T && chkNode true T)) =
      (T2.isBlack && (linkedB pf T2 && chkNode true T2)) := by
  rw [← isBlack_erase T, ← linkedB_erase pf T, ← chkNode_erase T, he, isBlack_erase,
    linkedB_erase, chkNode_erase]

theorem ex_unordered_wf : WF ex_unordered ex_unordered_shape :=
  ⟨rfl, ⟨rfl, trivial, rfl, trivial, trivial⟩, by decide, by decide⟩

theorem ex_unordered_not_bst : ¬ BST ex_unordered.cmp ex_unordered_shape := by
  intro h
  have h1 := h.2.1 3 (by simp [ex_unordered_shape, RBNode.keys, RBNode.toList])
  revert h1
  simp [ex_unordered, icmp]

theorem ex_unordered_rb : RB ex_unordered_shape := by
  simp [RB, NoRR, Bal, ex_unordered_shape, RBNode.isBlack, RBNode.bhL]

theorem ex_cascade_wf :
    WF ex_cascade (plug ex_cascade_ctx (node 3 RED 1 10 RBNode.nil RBNode.nil)) :=
  ⟨rfl, ⟨rfl, ⟨rfl, ⟨rfl, trivial, trivial⟩, trivial⟩, rfl, trivial, trivial⟩,
    by decide, by decide⟩

/-- A recolouring leaves the grandparent of every node as it was. -/
theorem set_color_grandparent {tr tr1 : Tree K V} {q p : Ptr} {c : Color} {g : Ptr}
    (h : Rbtree.set_color tr q c = some tr1) (hg : tree_node_grandparent tr1 p = some g) :
    tree_node_grandparent tr p = some g := by
  cases p with
  | none => exact hg
  | some a =>
    simp only [tree_node_grandparent] at hg ⊢
    cases ha : tr1.mem a with
    | none => rw [ha] at hg; cases hg
    | some n =>
      rw [ha] at hg
      obtain ⟨n0, hn0, e0, -, -⟩ := set_color_sibling h a n ha
      rw [hn0]
      dsimp only at hg ⊢
      rw [e0]
      cases hp : n.parent with
      | none => rw [hp] at hg; exact hg
      | some pa =>
        rw [hp] at hg
        dsimp only at hg ⊢
        cases hpa : tr1.mem pa with
        | none => rw [hpa] at hg; cases hg
        | some pn =>
          rw [hpa] at hg
          obtain ⟨p0, hp0, f0, -, -⟩ := set_color_sibling h pa pn hpa
          rw [hp0]
          dsimp only at hg ⊢
          rw [f0]
          exact hg

/-- The node on which the red-uncle case of `tree_insert3` re-enters
`tree_insert1` is the grandparent of the current node. -/
theorem insert3_recolor_grandparent {tr tr1 : Tree K V} {p u g : Ptr}
    (h : insert3_recolor tr p u = some (tr1, g)) : tree_node_grandparent tr p = some g := by
  simp only [insert3_recolor, Option.bind_eq_bind, Option.bind_eq_some, Option.some.injEq,
    Prod.mk.injEq] at h
  obtain ⟨t1, h1, n, hn, t2, h2, g1, hg, t3, h3, -, rfl⟩ := h
  exact set_color_grandparent h1 (set_color_grandparent h2 hg)

end

section

variable {K V : Type}
open RBNode Color

/-- C21: the insertion fix-up ends on every state that holds a tree (finite,
parent links consistent), whatever its colours are.  Started at a node at
depth `ctx.length`, the run of `tree_insert1` is over within
`3 * (ctx.length / 2) + 3` calls: it is never cut off by the fuel, it
re-enters `tree_insert1` at most `ctx.length / 2` times (every re-entry is
made from the red-uncle case of `tree_insert3`, on the grandparent of the
current node, two levels up), and it is the run of `tree_insert1`.  A run
that ends at a dereference of `NULL` counts as ended: under a RED root with a
RED child, for one, `tree_insert4` reads a field of the absent grandparent. -/
theorem insert_fixup_terminates (tr : Tree K V) (ctx : Ctx K V) (a : Nat) (c : Color)
    (k : K) (v : V) (l r : RBNode K V) (h : WF tr (plug ctx (node a c k v l r)))
    (fuel : Nat) (hf : 3 * (ctx.length / 2) + 3 ≤ fuel) :
    insert1_run fuel tr (some a) ≠ Run.timeout ∧
    (∀ s m, insert1_run fuel tr (some a) = Run.done (s, m) →
      m ≤ ctx.length / 2 ∧ m ≤ ctx.length) ∧
    tree_insert1 fuel tr (some a) = (insert1_run fuel tr (some a)).toOption.map Prod.fst ∧
    (∀ (s s1 : Tree K V) (p u g : Ptr), insert3_recolor s p u = some (s1, g) →
      tree_node_grandparent s p = some g) := by
  have e := WF.insert1_ends ctx.length ctx (node a c k v l r) tr fuel (Nat.le_refl _)
    (fun x => by cases x) h hf
  refine ⟨e.1, fun s m hm => ?_, (insert_run_agree fuel).1 tr (some a), ?_⟩
  · have := e.2 s m hm
    exact ⟨this, Nat.le_trans this (Nat.div_le_self _ _)⟩
  · intro s s1 p u g hr
    exact insert3_recolor_grandparent hr

/-- The fix-up run on the new node of `ex_cascade`, which has a RED parent
and a RED uncle, at depth 2. -/
theorem insert_fixup_terminates_witness :
    WF ex_cascade (plug ex_cascade_ctx (node 3 RED 1 10 RBNode.nil RBNode.nil)) ∧
    3 * (ex_cascade_ctx.length / 2) + 3 ≤ 6 ∧
    (insert1_run 6 ex_cascade (some 3) ≠ Run.timeout ∧
    (∀ s m, insert1_run 6 ex_cascade (some 3) = Run.done (s, m) →
      m ≤ ex_cascade_ctx.length / 2 ∧ m ≤ ex_cascade_ctx.length) ∧
    tree_insert1 6 ex_cascade (some 3) =
      (insert1_run 6 ex_cascade (some 3)).toOption.map Prod.fst ∧
    (∀ (s s1 : Tree Int Int) (p u g : Ptr), insert3_recolor s p u = some (s1, g) →
      tree_node_grandparent s p = some g)) ∧
    ∃ s, insert1_run 6 ex_cascade (some 3) = Run.done (s, 1) :=
  ⟨ex_cascade_wf, by decide,
    insert_fixup_terminates ex_cascade ex_cascade_ctx 3 RED 1 10 RBNode.nil RBNode.nil
      ex_cascade_wf 6 (by decide), ⟨_, rfl⟩⟩

/-- C22: on every state that holds a tree with the red-black invariants
(binary-search order, BLACK root, no RED node with a RED child, the same
number of BLACK nodes on every path, parent links consistent), for every key
and value, `tree_insert` and `tree_delete` return: no step of theirs reads or
writes a field through `NULL` or through an address that holds no node, as
such a step ends the run without a result.  The rebalancing steps end
without a result when their node is absent: `tree_insert4` and `tree_insert5`
return only when the grandparent exists, `tree_delete5` and `tree_delete6`
only when the sibling `S` exists, `tree_delete6` only when `S` has the child
it recolours, and a rotation only when the node has the child it lifts. -/
theorem rebalance_safe (tr : Tree K V) (T : RBNode K V) (h : WF tr T)
    (_hb : BST tr.cmp T) (hrb : RB T) (key : K) (value : V) :
    (∃ res tr1, Returns (fun fuel => tree_insert fuel tr key value) (res, tr1)) ∧
    (∃ res tr1, Returns (fun fuel => tree_delete fuel tr key) (res, tr1)) ∧
    (∀ (s s1 : Tree K V) (p : Ptr), tree_insert4 s p = some s1 →
      ∃ g, tree_node_grandparent s p = some (some g)) ∧
    (∀ (s s1 : Tree K V) (p : Ptr), tree_insert5 s p = some s1 →
      ∃ g, tree_node_grandparent s p = some (some g)) ∧
    (∀ (s s1 : Tree K V) (p : Ptr), tree_delete5 s p = some s1 →
      ∃ sa, tree_node_sibling s p = some (some sa)) ∧
    (∀ (s s1 : Tree K V) (p : Ptr), tree_delete6 s p = some s1 →
      ∃ sa sn n pn far, tree_node_sibling s p = some (some sa) ∧ s.mem sa = some sn ∧
        deref s p = some n ∧ deref s n.parent = some pn ∧
        (if p = pn.left then sn.right else sn.left) = some far) ∧
    (∀ (s s1 : Tree K V) (p : Ptr), tree_rotate_left s p = some s1 →
      ∃ n b, deref s p = some n ∧ n.right = some b) ∧
    (∀ (s s1 : Tree K V) (p : Ptr), tree_rotate_right s p = some s1 →
      ∃ n b, deref s p = some n ∧ n.left = some b) := by
  refine ⟨?_, ?_, fun s s1 p e => tree_insert4_grandparent e,
    fun s s1 p e => tree_insert5_grandparent e, fun s s1 p e => tree_delete5_sibling e,
    fun s s1 p e => tree_delete6_sibling e, fun s s1 p e => tree_rotate_left_child e,
    fun s s1 p e => tree_rotate_right_child e⟩
  · rcases hd : descend tr.cmp key T [] with ⟨ctx, t⟩
    cases t with
    | node a c k v l r => exact ⟨v, tr, h.insert_dup_returns key value hd⟩
    | nil =>
      obtain ⟨tr1, T1, hret, -⟩ := h.insert_new_returns hrb key value hd
      exact ⟨value, tr1, hret⟩
  · rcases hd : descend tr.cmp key T [] with ⟨ctx, t⟩
    cases t with
    | nil => exact ⟨none, tr, h.delete_absent_returns key hd⟩
    | node a c k v l r =>
      obtain ⟨tr1, T1, hret, -⟩ := h.delete_found_returns hrb key hd
      exact ⟨some v, tr1, hret⟩

/-- The pair (9, 90) inserted into the state `ex_tree` and the key 9 deleted
from it. -/
theorem rebalance_safe_witness :
    WF ex_tree ex_shape ∧ BST ex_tree.cmp ex_shape ∧ RB ex_shape ∧
    (∃ res tr1, Returns (fun fuel => tree_insert fuel ex_tree 9 90) (res, tr1)) ∧
    (∃ res tr1, Returns (fun fuel => tree_delete fuel ex_tree 9) (res, tr1)) ∧
    (∀ (s s1 : Tree Int Int) (p : Ptr), tree_insert4 s p = some s1 →
      ∃ g, tree_node_grandparent s p = some (some g)) ∧
    (∀ (s s1 : Tree Int Int) (p : Ptr), tree_insert5 s p = some s1 →
      ∃ g, tree_node_grandparent s p = some (some g)) ∧
    (∀ (s s1 : Tree Int Int) (p : Ptr), tree_delete5 s p = some s1 →
      ∃ sa, tree_node_sibling s p = some (some sa)) ∧
    (∀ (s s1 : Tree Int Int) (p : Ptr), tree_delete6 s p = some s1 →
      ∃ sa sn n pn far, tree_node_sibling s p = some (some sa) ∧ s.mem sa = some sn ∧
        deref s p = some n ∧ deref s n.parent = some pn ∧
        (if p = pn.left then sn.right else sn.left) = some far) ∧
    (∀ (s s1 : Tree Int Int) (p : Ptr), tree_rotate_left s p = some s1 →
      ∃ n b, deref s p = some n ∧ n.right = some b) ∧
    (∀ (s s1 : Tree Int Int) (p : Ptr), tree_rotate_right s p = some s1 →
      ∃ n b, deref s p = some n ∧ n.left = some b) :=
  ⟨ex_wf, ex_bst, ex_rb, rebalance_safe ex_tree ex_shape ex_wf ex_bst ex_rb 9 90⟩

/-- C23: `tree_check_integrity` reads no key (and no value).  Two states
that hold trees with the same nodes at the same addresses, the same colours
and the same parent fields, with keys and values of any kind, get the same
result; and there is a state that holds a tree whose keys are not in
binary-search order, under a total comparator, on which
`tree_check_integrity` returns true. -/
theorem check_ignores_keys {K2 V2 : Type} (tr : Tree K V) (tr2 : Tree K2 V2)
    (pf : Nat → Ptr) (T : RBNode K V) (T2 : RBNode K2 V2) (h : WFW tr pf T)
    (h2 : WFW tr2 pf T2) (he : T.erase = T2.erase) :
    (∃ b, Returns (fun fuel => tree_check_integrity fuel tr) b ∧
      Returns (fun fuel => tree_check_integrity fuel tr2) b) ∧
    ∃ (tb : Tree Int Int) (Tb : RBNode Int Int), WF tb Tb ∧ TotalCmp tb.cmp ∧
      ¬ BST tb.cmp Tb ∧ Returns (fun fuel => tree_check_integrity fuel tb) true := by
  refine ⟨⟨_, h.check_returns_w, ?_⟩, ex_unordered, ex_unordered_shape, ex_unordered_wf,
    icmp_total, ex_unordered_not_bst, ?_⟩
  · rw [check_result_erase pf T T2 he]
    exact h2.check_returns_w
  · have := ex_unordered_wf.check_returns
    rw [(chk_iff ex_unordered_shape).2 ex_unordered_rb] at this
    exact this

/-- The states `ex_tree` (keys 5 and 8) and `ex_unordered` (keys 5 and 3),
which differ in one key only. -/
theorem check_ignores_keys_witness :
    WFW ex_tree ex_parents ex_shape ∧ WFW ex_unordered ex_parents ex_unordered_shape ∧
    ex_shape.erase = ex_unordered_shape.erase ∧
    (∃ b, Returns (fun fuel => tree_check_integrity fuel ex_tree) b ∧
      Returns (fun fuel => tree_check_integrity fuel ex_unordered) b) ∧
    ∃ (tb : Tree Int Int) (Tb : RBNode Int Int), WF tb Tb ∧ TotalCmp tb.cmp ∧
      ¬ BST tb.cmp Tb ∧ Returns (fun fuel => tree_check_integrity fuel tb) true :=
  have w1 : WFW ex_tree ex_parents ex_shape :=
    ⟨rfl, ⟨rfl, trivial, rfl, trivial, trivial⟩, by decide⟩
  have w2 : WFW ex_unordered ex_parents ex_unordered_shape :=
    ⟨rfl, ⟨rfl, trivial, rfl, trivial, trivial⟩, by decide⟩
  ⟨w1, w2, rfl,
    check_ignores_keys ex_tree ex_unordered ex_parents ex_shape ex_unordered_shape w1 w2 rfl⟩

end

end Rbtree
